import Mathlib

/-!
# qlang: instruction encoding, bytecode builder, virtual machine and statement compiler

A shallow embedding of `exec/var.go`, `exec/func.go`, `exec/gopkg.go` and
`cl/block_stmt.go`.  Instruction words are `uint32` values, modelled as natural
numbers with explicit reduction modulo `2 ^ 32` where Go truncates.  Go `int` is
the 64-bit integer type and is modelled by `Int`.  A Go panic (`log.Panicln`, a
nil dereference, an index out of range) is the result `none`.
-/

namespace Qlang

/-! ## Instruction layout -/

/-- Bit layout of an instruction word.  The constant block of package `exec`
(`bitsOp`, `bitsOperand`, the opcodes, ...) is declared in a file that is not among
the translated sources, so every constant the translated code mentions is a field. -/
structure Layout where
  bitsOp : Nat
  bitsOpShift : Nat
  bitsOperand : Nat
  bitsVarScope : Nat
  bitsOpVarShift : Nat
  bitsOpVarOperand : Nat
  bitsFuncvArity : Nat
  bitsOpCallFuncvShift : Nat
  bitsOpCallFuncvOperand : Nat
  bitsFuncvArityOperand : Nat
  bitsFuncvArityVar : Nat
  bitsFuncvArityMax : Nat
  bitsOpClosureShift : Nat
  bitsOpClosureOperand : Nat
  opLoad : Nat
  opStore : Nat
  opClosure : Nat
  opGoClosure : Nat
  opCallClosure : Nat
  opCallGoClosure : Nat
  opCallFunc : Nat
  opCallFuncv : Nat
  opReturn : Nat
  opCallGoFunc : Nat
  opCallGoFuncv : Nat
  opAddrVar : Nat
  opLoadVar : Nat
  opStoreVar : Nat
  deriving DecidableEq, Repr

/-- The relations between the layout constants that their names announce: a 32-bit
word split into an opcode and an operand, each `...Operand` constant the all-ones
mask of its field, a non-empty opcode field, the variadic arity field directly above the function index, the
closure flag the top operand bit, pairwise distinct opcodes for the four
instructions that refer to a function, and `bitsFuncvArityVar`, `bitsFuncvArityMax` the
two largest values of the arity field. -/
structure Layout.WF (L : Layout) : Prop where
  word : L.bitsOp + L.bitsOpShift = 32
  opBits : 1 ≤ L.bitsOp
  operand : L.bitsOperand = 2 ^ L.bitsOpShift - 1
  varSplit : L.bitsVarScope + L.bitsOpVarShift = L.bitsOpShift
  varOperand : L.bitsOpVarOperand = 2 ^ L.bitsOpVarShift - 1
  funcvSplit : L.bitsFuncvArity + L.bitsOpCallFuncvShift = L.bitsOpShift
  funcvOperand : L.bitsOpCallFuncvOperand = 2 ^ L.bitsOpCallFuncvShift - 1
  arityOperand : L.bitsFuncvArityOperand = 2 ^ L.bitsFuncvArity - 1
  arityPos : 1 ≤ L.bitsFuncvArity
  arityVar : L.bitsFuncvArityVar = L.bitsFuncvArityOperand
  arityMax : L.bitsFuncvArityMax = L.bitsFuncvArityOperand - 1
  closureSplit : 1 + L.bitsOpClosureShift = L.bitsOpShift
  closureOperand : L.bitsOpClosureOperand = 2 ^ L.bitsOpClosureShift - 1
  refOps : [L.opClosure, L.opGoClosure, L.opCallFunc, L.opCallFuncv].Nodup

/-- A concrete layout on which the definitions are evaluated: 6 opcode bits, 26
operand bits, a 6-bit scope distance over a 20-bit slot index, and a 10-bit
variadic arity over a 16-bit function index. -/
def sampleLayout : Layout where
  bitsOp := 6
  bitsOpShift := 26
  bitsOperand := 67108863
  bitsVarScope := 6
  bitsOpVarShift := 20
  bitsOpVarOperand := 1048575
  bitsFuncvArity := 10
  bitsOpCallFuncvShift := 16
  bitsOpCallFuncvOperand := 65535
  bitsFuncvArityOperand := 1023
  bitsFuncvArityVar := 1023
  bitsFuncvArityMax := 1022
  bitsOpClosureShift := 25
  bitsOpClosureOperand := 33554431
  opLoad := 20
  opStore := 21
  opClosure := 22
  opGoClosure := 23
  opCallClosure := 24
  opCallGoClosure := 25
  opCallFunc := 26
  opCallFuncv := 27
  opReturn := 28
  opCallGoFunc := 11
  opCallGoFuncv := 12
  opAddrVar := 29
  opLoadVar := 30
  opStoreVar := 31

/-- Conversion to `uint32`: Go keeps the low 32 bits. -/
def u32 (n : Nat) : Nat := n % 2 ^ 32

/-- Conversion `uint32(x)` of a Go `int`: the low 32 bits of the two's complement. -/
def u32OfInt (x : Int) : Nat := (x % 2 ^ 32).toNat

/-- Result of `x << n` on `uint32`. -/
def shl32 (x n : Nat) : Nat := u32 (x <<< n)

/-- The opcode field of a word, `i >> bitsOpShift`. -/
def opOf (L : Layout) (i : Nat) : Nat := i >>> L.bitsOpShift

/-! ## Variable addresses (`exec/var.go`) -/

/-- `makeAddr(scope, idx)`: panics on an invalid scope or index, otherwise packs
`(scope << bitsOpVarShift) | idx`. -/
def makeAddr (L : Layout) (scope idx : Nat) : Option Nat :=
  if scope ≥ 1 <<< L.bitsVarScope ∨ idx > L.bitsOpVarOperand then none
  else some (shl32 scope L.bitsOpVarShift ||| idx)

/-! ## Values and execution contexts -/

/-- Run-time types (`reflect.Type`), as far as the translated code observes them:
kind, package path, name, field names, element type and function signature. -/
inductive Ty where
  | named (kind : Nat) (pkgPath : String) (name : String) (fields : List String)
  | ptr (elem : Ty)
  | slice (elem : Ty)
  | func (ins : List Ty) (outs : List Ty) (variadic : Bool)
  deriving Repr

/-- Values held by the value stack and by variable slots (`interface{}`).  `slice`
is an indexed collection, a slice or an array; `uint8` is a byte, as indexing a
string yields it. -/
inductive Value where
  | nil
  | int (n : Int)
  | int64 (n : Int)
  | uint64 (n : Nat)
  | rune (n : Int)
  | str (s : String)
  | float (lit : String)
  | complex (lit : String)
  | ref (ctx : Nat) (slot : Nat)
  | closure (fn : Nat) (parent : Nat)
  | slice (elems : List Value)
  | uint8 (n : Nat)
  deriving Repr

/-- An execution context (`*Context`).  `parent` is the parent link (`none` is the
nil pointer), `base` the base offset into the shared value stack.

Modelled from the spec: the `Context` type and its slot accessors `getVar`,
`setVar`, `addrVar` are declared outside the translated sources; a context owns one
slot per variable of its frame, `getVar`/`setVar` read and write the slot with the
given index and `addrVar` yields a pointer to it. -/
structure Context where
  parent : Option Nat
  base : Nat
  vars : List Value
  deriving Repr

/-- The machine: the contexts allocated so far (a `*Context` is an index into
`ctxs`) and the shared value stack `Stack.data`, whose top is the last element. -/
structure Machine where
  ctxs : List Context
  data : List Value
  deriving Repr

/-- `p.Push(v)` on the shared stack. -/
def Machine.push (m : Machine) (v : Value) : Machine :=
  { m with data := m.data ++ [v] }

/-- `p.Pop()`: removes and returns the top value; panics on an empty stack. -/
def Machine.pop (m : Machine) : Option (Value × Machine) :=
  match m.data.getLast? with
  | none => none
  | some v => some (v, { m with data := m.data.dropLast })

/-- `c.getVar(idx)` for the context with index `c`. -/
def Machine.getVar (m : Machine) (c idx : Nat) : Option Value :=
  match m.ctxs[c]? with
  | none => none
  | some cx => cx.vars[idx]?

/-- `c.addrVar(idx)`: a pointer to slot `idx` of context `c`. -/
def Machine.addrVar (m : Machine) (c idx : Nat) : Option Value :=
  match m.ctxs[c]? with
  | none => none
  | some cx => if idx < cx.vars.length then some (Value.ref c idx) else none

/-- `c.setVar(idx, v)`. -/
def Machine.setVar (m : Machine) (c idx : Nat) (v : Value) : Option Machine :=
  match m.ctxs[c]? with
  | none => none
  | some cx =>
    if idx < cx.vars.length then
      some { m with ctxs := m.ctxs.set c { cx with vars := cx.vars.set idx v } }
    else none

/-- `pp.parent` for a possibly nil `pp`; dereferencing nil panics. -/
def Machine.parentOf (m : Machine) (pp : Option Nat) : Option (Option Nat) :=
  match pp with
  | none => none
  | some a =>
    match m.ctxs[a]? with
    | none => none
    | some cx => some cx.parent

/-- The loop `for scope > 1 { pp = pp.parent; scope-- }` of `getParentCtx`. -/
def getParentCtxLoop (m : Machine) : Nat → Option Nat → Option (Option Nat)
  | 0, pp => some pp
  | 1, pp => some pp
  | scope + 2, pp =>
    match m.parentOf pp with
    | none => none
    | some q => getParentCtxLoop m (scope + 1) q

/-- `getParentCtx(p, idx)`: starts from `p.parent` and follows the parent link while
the scope distance `idx >> bitsOpVarShift` exceeds one. -/
def getParentCtx (L : Layout) (m : Machine) (p : Nat) (idx : Nat) : Option (Option Nat) :=
  match m.parentOf (some p) with
  | none => none
  | some pp => getParentCtxLoop m (idx >>> L.bitsOpVarShift) pp

/-- `execAddrVar(i, p)`. -/
def execAddrVar (L : Layout) (i : Nat) (p : Nat) (m : Machine) : Option Machine :=
  let idx := i &&& L.bitsOperand
  if idx ≤ L.bitsOpVarOperand then
    (m.addrVar p idx).map m.push
  else
    match getParentCtx L m p idx with
    | some (some q) => (m.addrVar q (idx &&& L.bitsOpVarOperand)).map m.push
    | _ => none

/-- `execLoadVar(i, p)`. -/
def execLoadVar (L : Layout) (i : Nat) (p : Nat) (m : Machine) : Option Machine :=
  let idx := i &&& L.bitsOperand
  if idx ≤ L.bitsOpVarOperand then
    (m.getVar p idx).map m.push
  else
    match getParentCtx L m p idx with
    | some (some q) => (m.getVar q (idx &&& L.bitsOpVarOperand)).map m.push
    | _ => none

/-- `execStoreVar(i, p)`. -/
def execStoreVar (L : Layout) (i : Nat) (p : Nat) (m : Machine) : Option Machine :=
  let idx := i &&& L.bitsOperand
  if idx ≤ L.bitsOpVarOperand then
    match m.pop with
    | none => none
    | some (v, m1) => m1.setVar p idx v
  else
    match getParentCtx L m p idx with
    | some (some q) =>
      match m.pop with
      | none => none
      | some (v, m1) => m1.setVar q (idx &&& L.bitsOpVarOperand) v
    | _ => none

/-- The context reached from `p` by following the parent link exactly `k` times
(`k = 0` is `p` itself); `none` when the chain has fewer than `k` links. -/
def ancestor (m : Machine) : Nat → Nat → Option Nat
  | 0, p => some p
  | k + 1, p =>
    match m.ctxs[p]? with
    | none => none
    | some cx =>
      match cx.parent with
      | none => none
      | some q => ancestor m k q

/-- `p.getNestDepth()`: the number of parent links above context `p`.  The Go loop
ends at the nil parent; `fuel` bounds the walk (a chain of heap indices that never
reaches nil within `fuel` steps yields `none`). -/
def getNestDepth (m : Machine) : Nat → Nat → Option Nat
  | 0, _ => none
  | fuel + 1, p =>
    match m.ctxs[p]? with
    | none => none
    | some cx =>
      match cx.parent with
      | none => some 0
      | some q => (getNestDepth m fuel q).map (· + 1)

/-! ## Variables and functions (`exec/var.go`, `exec/func.go`) -/

/-- Result of `a - b` on `uint32`. -/
def sub32 (a b : Nat) : Nat := (a + 2 ^ 32 - b % 2 ^ 32) % 2 ^ 32

/-- A variable (`Var`).  `name` is the stored name, which `NewVar` prefixes by `Q`. -/
structure Var where
  typ : Ty
  name : String
  nestDepth : Nat
  idx : Nat
  deriving Repr

/-- `NewVar(typ, name)`: the index starts as `^uint32(0)`. -/
def NewVar (typ : Ty) (name : String) : Var :=
  { typ := typ, name := "Q" ++ name, nestDepth := 0, idx := 4294967295 }

/-- `Var.isGlobal`. -/
def Var.isGlobal (L : Layout) (v : Var) : Bool :=
  decide (v.idx ≤ L.bitsOpVarOperand) && decide (v.nestDepth = 0)

/-- `Var.Name`: `p.name[1:]`. -/
def Var.Name (v : Var) : String := v.name.drop 1

/-- `Var.IsUnnamedOut`: tests the first byte `p.name[0]` of the stored name; indexing
an empty string panics. -/
def Var.IsUnnamedOut (v : Var) : Option Bool :=
  match v.name.toList with
  | [] => none
  | c :: _ => some (decide ('0' ≤ c) && decide (c ≤ '9'))

/-- `Var.SetAddr(nestDepth, idx)`: panics when the variable has an address already. -/
def Var.SetAddr (L : Layout) (v : Var) (nestDepth idx : Nat) : Option Var :=
  if v.idx ≤ L.bitsOpVarOperand then none
  else some { v with nestDepth := nestDepth, idx := idx }

/-- The embedded `varManager`: the list of variables (pointers into the variable
heap) and the nest depth of a scope. -/
structure VarManager where
  vlist : List Nat
  nestDepth : Nat
  deriving Repr, DecidableEq

def nVariadicInvalid : Nat := 0
def nVariadicFixedArgs : Nat := 1
def nVariadicVariadicArgs : Nat := 2

/-- A function descriptor (`FuncInfo`).  `offs` is the patch list of the embedded
`anyUnresolved`; `ins` is the field `in`. -/
structure FuncInfo where
  name : String
  funEntry : Nat
  funEnd : Nat
  ins : List Ty
  offs : List Nat
  numOut : Nat
  vm : VarManager
  nVariadic : Nat
  deriving Repr

/-- `NewFunc(name, nestDepth)`. -/
def NewFunc (name : String) (nestDepth : Nat) : FuncInfo :=
  { name := name, funEntry := 0, funEnd := 0, ins := [], offs := [], numOut := 0,
    vm := { vlist := [], nestDepth := nestDepth }, nVariadic := 0 }

/-- `FuncInfo.NumOut`. -/
def FuncInfo.NumOut (f : FuncInfo) : Nat := f.numOut

/-- `FuncInfo.IsTypeValid`. -/
def FuncInfo.IsTypeValid (f : FuncInfo) : Bool := f.nVariadic != nVariadicInvalid

/-- `FuncInfo.IsVariadic`: panics on an uninitialised descriptor. -/
def FuncInfo.IsVariadic (f : FuncInfo) : Option Bool :=
  if f.nVariadic = 0 then none else some (f.nVariadic == nVariadicVariadicArgs)

/-- `FuncInfo.setVariadic`. -/
def FuncInfo.setVariadic (f : FuncInfo) (nVariadic : Nat) : Option FuncInfo :=
  if f.nVariadic = 0 then some { f with nVariadic := nVariadic }
  else if f.nVariadic ≠ nVariadic then none
  else some f

/-- The loop of `varManager.addVars`: the variable at position `i` of `vars` gets
the address `(nestDepth, uint32(i + n))`; the variables are objects of the heap
`heap`, and `SetAddr` panics on one that has an address already. -/
def addVarsLoop (L : Layout) (nestDepth n : Nat) : Nat → List Nat → List Var → Option (List Var)
  | _, [], heap => some heap
  | i, v :: rest, heap =>
    match heap[v]? with
    | none => none
    | some x =>
      match x.SetAddr L nestDepth (u32 (i + n)) with
      | none => none
      | some x1 => addVarsLoop L nestDepth n (i + 1) rest (heap.set v x1)

/-- `varManager.addVars(vars...)`. -/
def VarManager.addVars (L : Layout) (vm : VarManager) (vars : List Nat) (heap : List Var) :
    Option (VarManager × List Var) :=
  match addVarsLoop L vm.nestDepth vm.vlist.length 0 vars heap with
  | none => none
  | some heap1 => some ({ vm with vlist := vm.vlist ++ vars }, heap1)

/-- `FuncInfo.Return(out...)`: panics when the function has variables already
(`p.vlist != nil`; the list is built by `append` only, so it is nil exactly when it
is empty). -/
def FuncInfo.Return (L : Layout) (f : FuncInfo) (out : List Nat) (heap : List Var) :
    Option (FuncInfo × List Var) :=
  if f.vm.vlist ≠ [] then none
  else
    match f.vm.addVars L out heap with
    | none => none
    | some (vm, heap1) => some ({ f with vm := vm, numOut := out.length }, heap1)

/-- A sequence of `addVars` calls on one scope, each with its list of variables. -/
def addVarsSeq (L : Layout) : List (List Nat) → VarManager → List Var →
    Option (VarManager × List Var)
  | [], vm, heap => some (vm, heap)
  | vars :: rest, vm, heap =>
    match vm.addVars L vars heap with
    | none => none
    | some (vm1, heap1) => addVarsSeq L rest vm1 heap1

/-- The property of a scope that the specification states: the i-th variable of the
list of the scope has slot index `i` and the nest depth of the scope. -/
def VarManager.SlotsAssigned (vm : VarManager) (heap : List Var) : Prop :=
  ∀ (i v : Nat), vm.vlist[i]? = some v →
    ∃ x : Var, heap[v]? = some x ∧ x.idx = i ∧ x.nestDepth = vm.nestDepth

/-! ## The bytecode builder -/

/-- An instruction of the program under construction.  `word` is a 32-bit word
whose encoder is among the translated sources.

Modelled from the spec: `Builder.Push`, `Builder.Reserve` and `Builder.BuiltinOp`
are defined outside the translated sources; each appends one instruction, kept
symbolic here: `push v` pushes the value `v` when executed, `reserved` is the
placeholder slot of an unbound constant, `builtinOp kind op` applies the operator
`op` at kind `kind`.  `ored i bits` is such an instruction after `|= bits`. -/
inductive Instr where
  | word (w : Nat)
  | push (v : Value)
  | reserved
  | builtinOp (kind : Nat) (op : Nat)
  | ored (i : Instr) (bits : Nat)
  deriving Repr

/-- The statement `data[off] |= bits` on one instruction. -/
def Instr.orBits (i : Instr) (bits : Nat) : Instr :=
  match i with
  | .word w => .word (w ||| bits)
  | other => .ored other bits

/-- The program under construction (`Code`): instruction sequence, the table of
fixed-arity functions, the table of variadic functions, and the module scope. -/
structure Code where
  data : List Instr
  funs : List Nat
  funvs : List Nat
  vm : VarManager
  deriving Repr

/-- The target of the builder's `*varManager` pointer. -/
inductive Scope where
  | code
  | func (f : Nat)
  deriving Repr, DecidableEq

/-- The builder together with the heap objects it points to: `finfos` holds the
`FuncInfo` objects and `vars` the `Var` objects (a pointer is an index), `funcs` is
the map from function to table index (`-1` for referenced, not yet defined), and
`scope` says which `varManager` the builder currently points to. -/
structure Builder where
  code : Code
  scope : Scope
  funcs : List (Nat × Int)
  finfos : List FuncInfo
  vars : List Var
  deriving Repr

/-- Lookup in the map `p.funcs`. -/
def Builder.funcPos (b : Builder) (fn : Nat) : Option Int := b.funcs.lookup fn

/-- Assignment `m[k] = v` on a map kept as an association list. -/
def mapSet (m : List (Nat × Int)) (k : Nat) (v : Int) : List (Nat × Int) :=
  match m with
  | [] => [(k, v)]
  | (k1, v1) :: rest => if k1 = k then (k, v) :: rest else (k1, v1) :: mapSet rest k v

/-- The `varManager` the builder points to. -/
def Builder.varManager (b : Builder) : Option VarManager :=
  match b.scope with
  | .code => some b.code.vm
  | .func f => (b.finfos[f]?).map (·.vm)

/-- `p.nestDepth`, read through the embedded `*varManager`. -/
def Builder.nestDepth (b : Builder) : Option Nat := b.varManager.map (·.nestDepth)

/-- `append(code.data, i)`. -/
def Builder.emit (b : Builder) (i : Instr) : Builder :=
  { b with code := { b.code with data := b.code.data ++ [i] } }

/-- `Builder.Push(val)`. -/
def Builder.Push (b : Builder) (v : Value) : Builder := b.emit (.push v)

/-- `Builder.Reserve()`: appends a placeholder and returns its offset. -/
def Builder.Reserve (b : Builder) : Int × Builder :=
  ((b.code.data.length : Int), b.emit .reserved)

/-- `Builder.BuiltinOp(kind, op)`. -/
def Builder.BuiltinOp (b : Builder) (kind op : Nat) : Builder := b.emit (.builtinOp kind op)

/-- `fun.offs = append(fun.offs, len(code.data))`. -/
def Builder.recordOff (b : Builder) (fn : Nat) : Option Builder :=
  match b.finfos[fn]? with
  | none => none
  | some f =>
    some { b with finfos := b.finfos.set fn { f with offs := f.offs ++ [b.code.data.length] } }

/-- `fun.setVariadic(n)` on the heap object `fn`. -/
def Builder.setVariadic (b : Builder) (fn : Nat) (n : Nat) : Option Builder :=
  match b.finfos[fn]? with
  | none => none
  | some f =>
    match f.setVariadic n with
    | none => none
    | some f1 => some { b with finfos := b.finfos.set fn f1 }

/-- `if _, ok := p.funcs[fun]; !ok { p.funcs[fun] = -1 }`. -/
def Builder.noteFunc (b : Builder) (fn : Nat) : Builder :=
  match b.funcPos fn with
  | some _ => b
  | none => { b with funcs := mapSet b.funcs fn (-1) }

/-- `closureVariadicFlag = 1 << bitsOpClosureShift`. -/
def closureVariadicFlag (L : Layout) : Nat := 1 <<< L.bitsOpClosureShift

/-- `isClosure(op)`. -/
def isClosure (L : Layout) (op : Nat) : Bool := op == L.opClosure || op == L.opGoClosure

/-- `isClosure(data[off] >> bitsOpShift)`; an instruction that is not a `word` is
none of the two closure instructions. -/
def Instr.isClosure (L : Layout) (i : Instr) : Bool :=
  match i with
  | .word w => Qlang.isClosure L (w >>> L.bitsOpShift)
  | _ => false

/-- The inner loop of `resolveFuncs` over the patch list of `fun`. -/
def patchOffs (L : Layout) (f : FuncInfo) (pos : Int) :
    List Nat → List Instr → Option (List Instr)
  | [], data => some data
  | off :: offs, data =>
    match data[off]? with
    | none => none
    | some i =>
      if i.isClosure L then
        match f.IsVariadic with
        | none => none
        | some true =>
          patchOffs L f pos offs (data.set off (i.orBits (closureVariadicFlag L ||| u32OfInt pos)))
        | some false => patchOffs L f pos offs (data.set off (i.orBits (u32OfInt pos)))
      else patchOffs L f pos offs (data.set off (i.orBits (u32OfInt pos)))

/-- The outer loop of `resolveFuncs` over the entries of `p.funcs`. -/
def resolveLoop (L : Layout) : List (Nat × Int) → Builder → Option Builder
  | [], b => some b
  | (fn, pos) :: rest, b =>
    if pos < 0 then none
    else
      match b.finfos[fn]? with
      | none => none
      | some f =>
        match patchOffs L f pos f.offs b.code.data with
        | none => none
        | some data =>
          resolveLoop L rest
            { b with code := { b.code with data := data },
                     finfos := b.finfos.set fn { f with offs := [] } }

/-- `Builder.resolveFuncs`. -/
def Builder.resolveFuncs (L : Layout) (b : Builder) : Option Builder :=
  resolveLoop L b.funcs b

/-- The part of `DefineFunc` after the already-defined check. -/
def Builder.defineFuncBody (b : Builder) (fn : Nat) : Option Builder :=
  match b.finfos[fn]? with
  | none => none
  | some f =>
    let f1 := { f with funEntry := b.code.data.length }
    match f1.IsVariadic with
    | none => none
    | some true =>
      some { b with scope := .func fn, finfos := b.finfos.set fn f1,
                    funcs := mapSet b.funcs fn b.code.funvs.length,
                    code := { b.code with funvs := b.code.funvs ++ [fn] } }
    | some false =>
      some { b with scope := .func fn, finfos := b.finfos.set fn f1,
                    funcs := mapSet b.funcs fn b.code.funs.length,
                    code := { b.code with funs := b.code.funs ++ [fn] } }

/-- `Builder.DefineFunc(fun)`: panics when the map already holds a non-negative
index for `fun`. -/
def Builder.DefineFunc (b : Builder) (fn : Nat) : Option Builder :=
  match b.funcPos fn with
  | some idx => if idx ≥ 0 then none else b.defineFuncBody fn
  | none => b.defineFuncBody fn

/-- `Builder.EndFunc(fun)`. -/
def Builder.EndFunc (b : Builder) (fn : Nat) : Option Builder :=
  if b.scope ≠ .func fn then none
  else
    match b.finfos[fn]? with
    | none => none
    | some f =>
      some { b with scope := .code,
                    finfos := b.finfos.set fn { f with funEnd := b.code.data.length } }

/-- `Builder.Closure(fun)`. -/
def Builder.Closure (L : Layout) (b : Builder) (fn : Nat) : Option Builder :=
  (b.recordOff fn).map (·.emit (.word (L.opClosure <<< L.bitsOpShift)))

/-- `Builder.GoClosure(fun)`. -/
def Builder.GoClosure (L : Layout) (b : Builder) (fn : Nat) : Option Builder :=
  (b.recordOff fn).map (·.emit (.word (L.opGoClosure <<< L.bitsOpShift)))

/-- `Builder.CallClosure(arity)`. -/
def Builder.CallClosure (L : Layout) (b : Builder) (arity : Int) : Builder :=
  b.emit (.word ((L.opCallClosure <<< L.bitsOpShift) ||| (u32OfInt arity &&& L.bitsOperand)))

/-- `Builder.CallGoClosure(arity)`. -/
def Builder.CallGoClosure (L : Layout) (b : Builder) (arity : Int) : Builder :=
  b.emit (.word ((L.opCallGoClosure <<< L.bitsOpShift) ||| (u32OfInt arity &&& L.bitsOperand)))

/-- `Builder.CallFunc(fun)`. -/
def Builder.CallFunc (L : Layout) (b : Builder) (fn : Nat) : Option Builder :=
  match b.setVariadic fn nVariadicFixedArgs with
  | none => none
  | some b1 =>
    ((b1.noteFunc fn).recordOff fn).map (·.emit (.word (L.opCallFunc <<< L.bitsOpShift)))

/-- The arity normalisation shared by `CallFuncv` and `CallGoFuncv`: a negative
arity becomes `bitsFuncvArityVar`; an arity of at least `bitsFuncvArityMax` pushes
the excess and becomes `bitsFuncvArityMax`. -/
def Builder.funcvArity (L : Layout) (b : Builder) (arity : Int) : Builder × Int :=
  if arity < 0 then (b, (L.bitsFuncvArityVar : Int))
  else if arity ≥ (L.bitsFuncvArityMax : Int) then
    (b.Push (.int (arity - (L.bitsFuncvArityMax : Int))), (L.bitsFuncvArityMax : Int))
  else (b, arity)

/-- `Builder.CallFuncv(fun, arity)`. -/
def Builder.CallFuncv (L : Layout) (b : Builder) (fn : Nat) (arity : Int) : Option Builder :=
  match b.setVariadic fn nVariadicVariadicArgs with
  | none => none
  | some b1 =>
    let r := (b1.noteFunc fn).funcvArity L arity
    (r.1.recordOff fn).map
      (·.emit (.word ((L.opCallFuncv <<< L.bitsOpShift) |||
        shl32 (u32OfInt r.2) L.bitsOpCallFuncvShift)))

/-- `Builder.Return(n)`. -/
def Builder.Return (L : Layout) (b : Builder) (n : Int) : Builder :=
  b.emit (.word ((L.opReturn <<< L.bitsOpShift) ||| (u32OfInt n &&& L.bitsOperand)))

/-- `Builder.Load(idx)`. -/
def Builder.Load (L : Layout) (b : Builder) (idx : Int) : Builder :=
  b.emit (.word ((L.opLoad <<< L.bitsOpShift) ||| (u32OfInt idx &&& L.bitsOperand)))

/-- `Builder.Store(idx)`. -/
def Builder.Store (L : Layout) (b : Builder) (idx : Int) : Builder :=
  b.emit (.word ((L.opStore <<< L.bitsOpShift) ||| (u32OfInt idx &&& L.bitsOperand)))

/-- `Builder.CallGoFunc(fun)`. -/
def Builder.CallGoFunc (L : Layout) (b : Builder) (addr : Nat) : Builder :=
  b.emit (.word ((L.opCallGoFunc <<< L.bitsOpShift) ||| u32 addr))

/-- `Builder.CallGoFuncv(fun, arity)`. -/
def Builder.CallGoFuncv (L : Layout) (b : Builder) (addr : Nat) (arity : Int) : Builder :=
  let r := b.funcvArity L arity
  r.1.emit (.word ((L.opCallGoFuncv <<< L.bitsOpShift) |||
    shl32 (u32OfInt r.2) L.bitsOpCallFuncvShift ||| u32 addr))

/-- The unexported `Builder.addrVar(addr)`. -/
def Builder.addrVar (L : Layout) (b : Builder) (addr : Nat) : Builder :=
  b.emit (.word ((L.opAddrVar <<< L.bitsOpShift) ||| u32 addr))

/-- The unexported `Builder.loadVar(addr)`. -/
def Builder.loadVar (L : Layout) (b : Builder) (addr : Nat) : Builder :=
  b.emit (.word ((L.opLoadVar <<< L.bitsOpShift) ||| u32 addr))

/-- The unexported `Builder.storeVar(addr)`. -/
def Builder.storeVar (L : Layout) (b : Builder) (addr : Nat) : Builder :=
  b.emit (.word ((L.opStoreVar <<< L.bitsOpShift) ||| u32 addr))

/-- `makeAddr(p.nestDepth - v.nestDepth, v.idx)` for the variable object `v`. -/
def Builder.varAddr (L : Layout) (b : Builder) (v : Nat) : Option Nat :=
  match b.nestDepth, b.vars[v]? with
  | some d, some x => makeAddr L (sub32 d x.nestDepth) x.idx
  | _, _ => none

/-- `Builder.AddrVar(v)`. -/
def Builder.AddrVar (L : Layout) (b : Builder) (v : Nat) : Option Builder :=
  (b.varAddr L v).map (b.addrVar L)

/-- `Builder.LoadVar(v)`. -/
def Builder.LoadVar (L : Layout) (b : Builder) (v : Nat) : Option Builder :=
  (b.varAddr L v).map (b.loadVar L)

/-- `Builder.StoreVar(v)`. -/
def Builder.StoreVar (L : Layout) (b : Builder) (v : Nat) : Option Builder :=
  (b.varAddr L v).map (b.storeVar L)

/-- `Builder.InCurrentCtx(v)`. -/
def Builder.InCurrentCtx (b : Builder) (v : Nat) : Option Bool :=
  match b.nestDepth, b.vars[v]? with
  | some d, some x => some (decide (d = x.nestDepth))
  | _, _ => none

/-- `Builder.DefineVar(vars...)`: `addVars` on the `varManager` the builder points to. -/
def Builder.DefineVar (L : Layout) (b : Builder) (vars : List Nat) : Option Builder :=
  match b.scope with
  | .code =>
    match b.code.vm.addVars L vars b.vars with
    | none => none
    | some (vm, heap) => some { b with code := { b.code with vm := vm }, vars := heap }
  | .func f =>
    match b.finfos[f]? with
    | none => none
    | some fi =>
      match fi.vm.addVars L vars b.vars with
      | none => none
      | some (vm, heap) =>
        some { b with finfos := b.finfos.set f { fi with vm := vm }, vars := heap }

/-- A builder with an empty program at module scope (nest depth 0) over the given
heap objects. -/
def Builder.init (finfos : List FuncInfo) (vars : List Var) : Builder :=
  { code := { data := [], funs := [], funvs := [], vm := { vlist := [], nestDepth := 0 } },
    scope := .code, funcs := [], finfos := finfos, vars := vars }

/-! ## Variadic call dispatch (`execFuncv`, `execGoFuncv`) -/

/-- Executing the instruction appended by `Builder.Push(v)`: it pushes `v`. -/
def execPush (v : Value) (m : Machine) : Machine := m.push v

/-- The arity dispatch of `execFuncv(i, p)`, that is the code between the lookup of
the callee and the call itself.  The result `none` in the first component is the
branch `arity == bitsFuncvArityVar`, which calls `fun.exec`; `some n` is the branch
calling `fun.execVariadic(n, ...)`, after the pop of the runtime arity operand when
the field holds `bitsFuncvArityMax`.  The type assertion `.(int)` panics on a value
that is not an `int`. -/
def execFuncvArity (L : Layout) (i : Nat) (m : Machine) : Option (Option Nat × Machine) :=
  let arity := (i >>> L.bitsOpCallFuncvShift) &&& L.bitsFuncvArityOperand
  if arity = L.bitsFuncvArityVar then some (none, m)
  else if arity = L.bitsFuncvArityMax then
    match m.pop with
    | some (.int n, m1) => some (some (u32OfInt (n + (L.bitsFuncvArityMax : Int))), m1)
    | _ => none
  else some (some arity, m)

/-- A registered variadic Go function (`GoFuncvInfo`), reduced to its name and the
number of parameters `reflect.TypeOf(p.This).NumIn()` that `getNumIn` caches. -/
structure GoFuncvInfo where
  name : String
  numIn : Nat
  deriving Repr, DecidableEq

/-- `p.Push` of every element of a popped collection, in order. -/
def Machine.pushAll (m : Machine) (vs : List Value) : Machine :=
  { m with data := m.data ++ vs }

/-- The arity computation of `execGoFuncv(i, p)`: everything before the final
`fun.exec(arity, p)`.  Returns the arity handed to the native function and the
machine at that point.  In the spread branch `reflect` takes `Len` and `Index` of
the popped value: a slice or an array yields its elements, a string its bytes, and
any other value panics. -/
def execGoFuncvArity (L : Layout) (gofunvs : List GoFuncvInfo) (i : Nat) (m : Machine) :
    Option (Nat × Machine) :=
  let idx := i &&& L.bitsOpCallFuncvOperand
  let arity := (i >>> L.bitsOpCallFuncvShift) &&& L.bitsFuncvArityOperand
  match gofunvs[idx]? with
  | none => none
  | some fn =>
    if arity = L.bitsFuncvArityVar then
      match m.pop with
      | some (.slice args, m1) =>
        some (u32OfInt ((fn.numIn : Int) - 1 + (args.length : Int)), m1.pushAll args)
      | some (.str s, m1) =>
        some (u32OfInt ((fn.numIn : Int) - 1 + (s.toUTF8.data.toList.length : Int)),
          m1.pushAll (s.toUTF8.data.toList.map (fun b => Value.uint8 b.toNat)))
      | _ => none
    else if arity = L.bitsFuncvArityMax then
      match m.pop with
      | some (.int n, m1) => some (u32OfInt (n + (L.bitsFuncvArityMax : Int)), m1)
      | _ => none
    else some (arity, m)

/-- The variadic arity field of a word, `(i >> bitsOpCallFuncvShift) & bitsFuncvArityOperand`. -/
def arityOf (L : Layout) (i : Nat) : Nat :=
  (i >>> L.bitsOpCallFuncvShift) &&& L.bitsFuncvArityOperand

/-! ## Decoding a function reference (`execFunc`, `execFuncv`, `makeClosure`) -/

/-- The callee lookup of `execFunc(i, p)`: `p.code.funs[i & bitsOperand]`. -/
def execFuncCallee (L : Layout) (code : Code) (i : Nat) : Option Nat :=
  code.funs[i &&& L.bitsOperand]?

/-- The callee lookup of `execFuncv(i, p)`: `p.code.funvs[i & bitsOpCallFuncvOperand]`. -/
def execFuncvCallee (L : Layout) (code : Code) (i : Nat) : Option Nat :=
  code.funvs[i &&& L.bitsOpCallFuncvOperand]?

/-- The function selection of `makeClosure(i, p)`: the entry `i & bitsOpClosureOperand`
of the variadic table when the closure variadic flag is set, of the fixed table
otherwise. -/
def makeClosureFun (L : Layout) (code : Code) (i : Nat) : Option Nat :=
  if (i &&& closureVariadicFlag L) ≠ 0 then code.funvs[i &&& L.bitsOpClosureOperand]?
  else code.funs[i &&& L.bitsOpClosureOperand]?

/-- The bits that one iteration of the inner loop of `resolveFuncs` ors into the
instruction `i` for the function `f` with table index `pos`. -/
def patchBits (L : Layout) (f : FuncInfo) (pos : Int) (i : Instr) : Nat :=
  if i.isClosure L = true ∧ f.nVariadic = nVariadicVariadicArgs then
    closureVariadicFlag L ||| u32OfInt pos
  else u32OfInt pos

/-- What the loops of `resolveFuncs` rely on for the map entries `l` of a builder:
the keys are distinct (it is a map), every recorded function is defined (its index
is not negative) and is a heap object with a resolved variadic flag, its recorded
offsets are distinct positions of the instruction sequence (each was recorded when
a new instruction was appended), and no offset is recorded for two functions. -/
structure Builder.ResolveReady (b : Builder) (l : List (Nat × Int)) : Prop where
  keys : (l.map Prod.fst).Nodup
  defined : ∀ e ∈ l, 0 ≤ e.2 ∧ ∃ f, b.finfos[e.1]? = some f ∧ f.nVariadic ≠ 0 ∧
    f.offs.Nodup ∧ ∀ off ∈ f.offs, off < b.code.data.length
  disjoint : ∀ e1 ∈ l, ∀ e2 ∈ l, e1.1 ≠ e2.1 → ∀ f1 f2, b.finfos[e1.1]? = some f1 →
    b.finfos[e2.1]? = some f2 → ∀ off ∈ f1.offs, off ∉ f2.offs

/-- An instruction word that refers to the function `f`, as its encoder appends it,
together with the condition that the table index `pos` fits the function-index
field of that word: a `Closure`/`GoClosure` word, a `CallFunc` word (the function
is then fixed), or a `CallFuncv` word with its arity field (the function is then
variadic). -/
def RefWord (L : Layout) (f : FuncInfo) (pos : Int) (w : Nat) : Prop :=
  ((w = L.opClosure <<< L.bitsOpShift ∨ w = L.opGoClosure <<< L.bitsOpShift) ∧
      pos ≤ (L.bitsOpClosureOperand : Int)) ∨
  (w = L.opCallFunc <<< L.bitsOpShift ∧ f.nVariadic = nVariadicFixedArgs ∧
      pos ≤ (L.bitsOperand : Int)) ∨
  ((∃ ar, ar < 2 ^ L.bitsFuncvArity ∧
      w = (L.opCallFuncv <<< L.bitsOpShift) ||| shl32 ar L.bitsOpCallFuncvShift) ∧
    f.nVariadic = nVariadicVariadicArgs ∧ pos ≤ (L.bitsOpCallFuncvOperand : Int))

/-! ## Local slots (`execLoad`, `execStore`) -/

/-- Conversion `int32(x)` of a `uint32` value: two's complement reinterpretation. -/
def i32OfU32 (n : Nat) : Int :=
  if n % 2 ^ 32 < 2 ^ 31 then ((n % 2 ^ 32 : Nat) : Int) else ((n % 2 ^ 32 : Nat) : Int) - 2 ^ 32

/-- The decode `idx := int32(i) << bitsOp >> bitsOp` of `execLoad` and `execStore`:
the left shift keeps the low 32 bits, the right shift is arithmetic. -/
def slotIdx (L : Layout) (i : Nat) : Int :=
  Int.shiftRight (i32OfU32 (shl32 i L.bitsOp)) L.bitsOp

/-- `execLoad(i, p)`: pushes `p.data[p.base + idx]`. -/
def execLoad (L : Layout) (i : Nat) (p : Nat) (m : Machine) : Option Machine :=
  match m.ctxs[p]? with
  | none => none
  | some cx =>
    let k := (cx.base : Int) + slotIdx L i
    if k < 0 then none
    else
      match m.data[k.toNat]? with
      | none => none
      | some v => some (m.push v)

/-- `execStore(i, p)`: `p.data[p.base + idx] = p.Pop()`.  The call `p.Pop()` is made
before the slice is indexed, so the index is checked against the length after the
pop: a store into the slot of the popped value panics. -/
def execStore (L : Layout) (i : Nat) (p : Nat) (m : Machine) : Option Machine :=
  match m.ctxs[p]? with
  | none => none
  | some cx =>
    let k := (cx.base : Int) + slotIdx L i
    match m.pop with
    | none => none
    | some (v, m1) =>
      if k < 0 then none
      else if k.toNat < m1.data.length then some { m1 with data := m1.data.set k.toNat v }
      else none

/-! ## Native packages (`exec/gopkg.go`) -/

/-- A registered Go package (`GoPackage`): import path, symbol table and types. -/
structure GoPackage where
  pkgPath : String
  syms : List (String × Nat)
  types : List (String × Ty)
  deriving Repr

/-- `SymbolVar`. -/
def SymbolVar : Nat := 0

/-- `SymbolFunc = opCallGoFunc`. -/
def SymbolFunc (L : Layout) : Nat := L.opCallGoFunc

/-- `SymbolFuncv = opCallGoFuncv`. -/
def SymbolFuncv (L : Layout) : Nat := L.opCallGoFuncv

/-- `(*GoPackage).Find(name)`: `none` is `ok = false`, which is also the answer of a nil
package; otherwise the address `v & bitsOperand` and the kind `v >> bitsOpShift`. -/
def GoPackage.Find (L : Layout) (p : Option GoPackage) (name : String) : Option (Nat × Nat) :=
  match p with
  | none => none
  | some pkg =>
    match pkg.syms.lookup name with
    | none => none
    | some v => some (v &&& L.bitsOperand, v >>> L.bitsOpShift)

/-- `FindGoPackage(pkgPath)` over the registry `gopkgs`; `none` is the nil result. -/
def FindGoPackage (gopkgs : List GoPackage) (pkgPath : String) : Option GoPackage :=
  gopkgs.find? (fun p => p.pkgPath == pkgPath)

/-! ## Literal conversion (`ast/astutil/ast_utils.go`) -/

def tokINT : Nat := 5
def tokFLOAT : Nat := 6
def tokIMAG : Nat := 7
def tokCHAR : Nat := 8
def tokSTRING : Nat := 9

/-- `ConstBoundRune = reflect.Int32`. -/
def ConstBoundRune : Nat := 5
/-- `ConstBoundString = reflect.String`. -/
def ConstBoundString : Nat := 24
/-- `reflect.UnsafePointer`, the largest bound kind. -/
def kindUnsafePointer : Nat := 26
/-- `ConstUnboundInt = reflect.UnsafePointer + 3`. -/
def ConstUnboundInt : Nat := 29
/-- `ConstUnboundFloat = reflect.UnsafePointer + 4`. -/
def ConstUnboundFloat : Nat := 30
/-- `ConstUnboundComplex = reflect.UnsafePointer + 5`. -/
def ConstUnboundComplex : Nat := 31

/-- `IsConstBound(kind)`. -/
def IsConstBound (kind : Nat) : Bool := decide (kind ≤ kindUnsafePointer)

/-- The functions of the Go library `strconv` that `ToConst` calls; `none` (or
`false`) is a returned error.  A parsed float is named by its literal text. -/
structure Strconv where
  parseInt : String → Option Int
  parseUint : String → Option Nat
  unquote : String → Option String
  parseFloat : String → Bool

/-- `ToConst(v)` for the literal of token kind `kind` and text `value`.  The result
`none` stands for `log.Fatalln` and for a panic. -/
def ToConst (S : Strconv) (kind : Nat) (value : String) : Option (Nat × Value) :=
  if kind = tokINT then
    match S.parseInt value with
    | some n => some (ConstUnboundInt, .int64 n)
    | none =>
      match S.parseUint value with
      | some n2 => some (ConstUnboundInt, .uint64 n2)
      | none => none
  else if kind = tokCHAR ∨ kind = tokSTRING then
    match S.unquote value with
    | none => none
    | some n =>
      if kind = tokCHAR then
        match n.toList with
        | c :: _ => some (ConstBoundRune, .int64 c.toNat)
        | [] => none
      else some (ConstBoundString, .str n)
  else if kind = tokFLOAT then
    if S.parseFloat value then some (ConstUnboundFloat, .float value) else none
  else if kind = tokIMAG then
    if value.length = 0 then none
    else if S.parseFloat (value.dropRight 1) then
      some (ConstUnboundComplex, .complex (value.dropRight 1))
    else none
  else none

/-! ## Syntax trees and inferred values (`cl/block_stmt.go`) -/

/-- Expressions, as far as `compileExpr` distinguishes them.  A function literal is
identified by `lit`: its type and body are handed to `newFuncDecl` unread.  `other`
is any node type without a case in `compileExpr`. -/
inductive Expr where
  | ident (name : String)
  | basicLit (kind : Nat) (value : String)
  | call (fn : Expr) (args : List Expr)
  | binary (x : Expr) (op : Nat) (y : Expr)
  | selector (x : Expr) (sel : String)
  | funcLit (lit : Nat)
  | other (tag : Nat)
  deriving Repr

/-- Statements, as far as `compileBlockStmt` distinguishes them.  The results of a
return statement are `none` when the slice is nil. -/
inductive Stmt where
  | exprStmt (x : Expr)
  | assign (lhs : List Expr) (tok : Nat) (rhs : List Expr)
  | ret (results : Option (List Expr))
  | other (tag : Nat)
  deriving Repr

/-- A function declaration known to the compiler (`*funcDecl`): its identity and
its function descriptor `fi` (a pointer into the builder's heap). -/
structure FuncDecl where
  id : Nat
  fi : Nat
  deriving Repr, DecidableEq

/-- An entry of the inference stack.

Modelled from the spec: the inferred-value types are declared outside the
translated sources.  The variants are a constant (value, kind, reserved instruction
slot or -1), a bound runtime value, a script function, a native function
(`isMethod` is the third argument of `newGoFunc`, 0 or 1), a non-value (a package,
or `none` for anything else), and the result list of a call. -/
inductive IValue where
  | constVal (v : Value) (kind : Nat) (reserve : Int)
  | goValue (t : Ty)
  | qlFunc (decl : FuncDecl)
  | goFunc (addr : Nat) (kind : Nat) (isMethod : Bool)
  | nonValue (pkg : Option GoPackage)
  | funcResults (tys : List Ty)
  deriving Repr

/-- What `ctx.find(name)` yields for a found name. -/
inductive Sym where
  | execVar (v : Nat)
  | stackVar (typ : Ty) (index : Int)
  | pkgPath (path : String)
  | funcDecl (decl : FuncDecl)
  | unknown
  deriving Repr

/-- A variable yielded by `findVar`/`insertVar`: an `*execVar` or a `*stackVar`. -/
inductive VarRef where
  | execVar (v : Nat)
  | stackVar (typ : Ty) (index : Int)
  deriving Repr

/-- The result of `ctx.findVar(name)`: a variable, the error `syscall.ENOENT`, or
another error. -/
inductive FindVar where
  | found (addr : VarRef)
  | enoent
  | error
  deriving Repr

/-- Compile modes (`compleMode`). -/
def inferOnly : Nat := 1
def lhsBase : Nat := 10
/-- `lhsAssign = token.ASSIGN`. -/
def lhsAssign : Nat := 42
/-- `lhsDefine = token.DEFINE`. -/
def lhsDefine : Nat := 47

/-- The collaborators of `block_stmt.go` that are defined outside the translated
sources, over an abstract lexical-scope state `σ`.  A result `none` is a panic.

Modelled from the spec: name lookup (`find`, `findVar`) reads the scope only;
`inCurrentCtx` is `addr.inCurrentCtx(ctx)`, consulted for the shadowing warning
only; `use` records a use in the scope and emits nothing; `insertVar` may define
the new variable in the builder; `newFuncDecl` (with `newBlockCtx`) yields the declaration
of a function literal and its fresh descriptor; the checks `checkType`,
`checkBinaryOp`, `checkFuncCall` receive `ctx.out` and may patch reserved constant
slots in it; the remaining fields are the methods of inferred values and the
operator tables. -/
structure Env (σ : Type) where
  L : Layout
  strconv : Strconv
  gopkgs : List GoPackage
  find : σ → String → Option Sym
  findVar : σ → String → FindVar
  inCurrentCtx : σ → Builder → VarRef → Bool
  insertVar : σ → Builder → String → Ty → Option (VarRef × σ × Builder)
  use : σ → FuncDecl → σ
  newFuncDecl : σ → Nat → Option (Nat × FuncInfo × σ)
  boundType : IValue → Option Ty
  checkType : Ty → IValue → Builder → Option Builder
  checkBinaryOp : Nat → Nat → IValue → IValue → Builder → Option Builder
  checkFuncCall : Ty → Nat → List IValue → Builder → Option (Int × Builder)
  binaryOps : Nat → Option Nat
  binaryOp : Nat → IValue → IValue → Option (Value × Nat × Int)
  opOut : Nat → Nat
  sameAsFirst : Nat
  typeFromKind : Nat → Ty
  numValues : IValue → Option Int
  kindOf : IValue → Nat
  valueAt : IValue → Nat → IValue
  results : IValue → IValue
  proto : IValue → Ty
  newFuncResults : Ty → IValue

/-- The compiler context (`*blockCtx`): the builder `out`, the inference stack
`infer` (top last), the enclosing function `fun` (nil at module level), the
built-in package, and the lexical-scope state. -/
structure BlockCtx (σ : Type) where
  out : Builder
  infer : List IValue
  fn : Option Nat
  builtin : Option GoPackage
  scope : σ

/-! ### The inference stack

Modelled from the spec: the stack type is defined outside the translated sources;
`Get` with a negative index counts from the top, `PopN` removes the top entries,
`Ret` replaces the top `arity` entries by the produced ones, `GetArgs` is the slice
of the top entries; each panics when the stack is too short. -/

/-- `infer.Get(-k)`. -/
def inferGet (s : List IValue) (k : Nat) : Option IValue :=
  if 1 ≤ k ∧ k ≤ s.length then s[s.length - k]? else none

/-- `infer.PopN(n)`. -/
def inferPopN (s : List IValue) (n : Nat) : Option (List IValue) :=
  if n ≤ s.length then some (s.take (s.length - n)) else none

/-- `infer.Ret(arity, results...)`. -/
def inferRet (s : List IValue) (arity : Nat) (results : List IValue) : Option (List IValue) :=
  if arity ≤ s.length then some (s.take (s.length - arity) ++ results) else none

/-- `infer.GetArgs(n)`. -/
def inferGetArgs (s : List IValue) (n : Nat) : Option (List IValue) :=
  if n ≤ s.length then some (s.drop (s.length - n)) else none

/-- `ctx.infer.Push(v)`. -/
def BlockCtx.push {σ : Type} (ctx : BlockCtx σ) (v : IValue) : BlockCtx σ :=
  { ctx with infer := ctx.infer ++ [v] }

/-- `addr.getType()`: the type of the variable. -/
def VarRef.getType (b : Builder) (addr : VarRef) : Option Ty :=
  match addr with
  | .execVar v => (b.vars[v]?).map (·.typ)
  | .stackVar typ _ => some typ

/-- `FuncInfo.Out(i)` on the heap: the i-th result variable. -/
def FuncInfo.Out (f : FuncInfo) (i : Nat) : Option Nat :=
  if i ≥ f.numOut then none else f.vm.vlist[i]?

/-- `FuncInfo.IsUnnamedOut()` on the heap of variables `vars`. -/
def FuncInfo.IsUnnamedOut (vars : List Var) (f : FuncInfo) : Option Bool :=
  if f.numOut > 0 then
    match f.vm.vlist[0]? with
    | none => none
    | some v =>
      match vars[v]? with
      | none => none
      | some x => x.IsUnnamedOut
  else some false

/-! ### Types as `reflect` shows them -/

def kindFunc : Nat := 19
def kindPtr : Nat := 22
def kindSlice : Nat := 23
def kindStruct : Nat := 25

/-- `t.Kind()`. -/
def Ty.Kind (t : Ty) : Nat :=
  match t with
  | .named kind _ _ _ => kind
  | .ptr _ => kindPtr
  | .slice _ => kindSlice
  | .func _ _ _ => kindFunc

/-- `t.Name()`: empty for an unnamed type. -/
def Ty.Name (t : Ty) : String :=
  match t with
  | .named _ _ name _ => name
  | _ => ""

/-- `t.PkgPath()`: empty for an unnamed type. -/
def Ty.PkgPath (t : Ty) : String :=
  match t with
  | .named _ pkgPath _ _ => pkgPath
  | _ => ""

/-- `t.FieldByName(name)`, reduced to its `ok` result; `reflect` panics when the
kind of `t` is not `Struct`. -/
def Ty.FieldByName (t : Ty) (name : String) : Option Bool :=
  match t with
  | .named kind _ _ fields => if kind = kindStruct then some (fields.contains name) else none
  | _ => none

/-- `countPtr(t)`: strips the pointer indirections and counts them. -/
def countPtr (t : Ty) : Nat × Ty :=
  match t with
  | .ptr elem => ((countPtr elem).1 + 1, (countPtr elem).2)
  | other => (0, other)

/-- `normalizeMethod(n, t, name)`. -/
def normalizeMethod (n : Nat) (t : Ty) (name : String) : String × String :=
  let typName := if n > 0 then String.join (List.replicate n "*") ++ t.Name else t.Name
  (t.PkgPath, "(" ++ typName ++ ")." ++ name)

/-! ### The expression compiler -/

/-- Replacing the inference stack of a context by `infer.Ret(arity, ret)`. -/
def BlockCtx.ret {σ : Type} (ctx : BlockCtx σ) (arity : Nat) (ret : IValue) :
    Option (BlockCtx σ) :=
  (inferRet ctx.infer arity [ret]).map (fun s => { ctx with infer := s })

/-- The variable an identifier on the left-hand side denotes: the one `findVar`
finds (the shadowing warning has no effect), or, when `findVar` answers `ENOENT`
and the mode is not `lhsAssign`, the one `insertVar` creates with the bound type
of the value `inv` on top of the inference stack. -/
def lhsTarget {σ : Type} (E : Env σ) (name : String) (mode : Nat) (inv : IValue)
    (ctx : BlockCtx σ) : Option (VarRef × BlockCtx σ) :=
  match E.findVar ctx.scope name with
  | .found addr => some (addr, ctx)
  | .error => none
  | .enoent =>
    if mode = lhsAssign then none
    else
      match E.boundType inv with
      | none => none
      | some typ =>
        match E.insertVar ctx.scope ctx.out name typ with
        | none => none
        | some (addr, sc, out) => some (addr, { ctx with scope := sc, out := out })

/-- The left-hand-side branch of `compileIdent` (`mode > lhsBase`). -/
def compileIdentLhs {σ : Type} (E : Env σ) (name : String) (mode : Nat) (ctx : BlockCtx σ) :
    Option (BlockCtx σ) :=
  match inferGet ctx.infer 1 with
  | none => none
  | some inv =>
    match lhsTarget E name mode inv ctx with
    | none => none
    | some (addr, ctx1) =>
      match addr.getType ctx1.out with
      | none => none
      | some t =>
        match E.checkType t inv ctx1.out with
        | none => none
        | some out2 =>
          match inferPopN ctx1.infer 1 with
          | none => none
          | some inf2 =>
            match addr with
            | .execVar v =>
              (out2.StoreVar E.L v).map (fun o => { ctx1 with out := o, infer := inf2 })
            | .stackVar _ index =>
              some { ctx1 with out := out2.Store E.L index, infer := inf2 }

/-- The branch of `compileIdent` for a name that `ctx.find` resolves. -/
def compileIdentSym {σ : Type} (E : Env σ) (sym : Sym) (mode : Nat) (ctx : BlockCtx σ) :
    Option (BlockCtx σ) :=
  match sym with
  | .execVar v =>
    match ctx.out.vars[v]? with
    | none => none
    | some x =>
      if mode = inferOnly then some (ctx.push (.goValue x.typ))
      else (ctx.out.LoadVar E.L v).map (fun o => { ctx.push (.goValue x.typ) with out := o })
  | .stackVar typ index =>
    if mode = inferOnly then some (ctx.push (.goValue typ))
    else some { ctx.push (.goValue typ) with out := ctx.out.Load E.L index }
  | .pkgPath path =>
    match FindGoPackage E.gopkgs path with
    | none => none
    | some pkg => some (ctx.push (.nonValue (some pkg)))
  | .funcDecl decl =>
    if mode = inferOnly then
      some ({ ctx with scope := E.use ctx.scope decl }.push (.qlFunc decl))
    else none
  | .unknown => none

/-- The branch of `compileIdent` for a name looked up in the built-in package. -/
def compileIdentBuiltin {σ : Type} (E : Env σ) (name : String) (mode : Nat)
    (ctx : BlockCtx σ) : Option (BlockCtx σ) :=
  match GoPackage.Find E.L ctx.builtin name with
  | none => none
  | some (addr, kind) =>
    if kind = SymbolVar then none
    else if kind = SymbolFunc E.L ∨ kind = SymbolFuncv E.L then
      if mode = inferOnly then some (ctx.push (.goFunc addr kind false)) else none
    else none

/-- `compileIdent(ctx, name, mode)`. -/
def compileIdent {σ : Type} (E : Env σ) (name : String) (mode : Nat) (ctx : BlockCtx σ) :
    Option (BlockCtx σ) :=
  if mode > lhsBase then compileIdentLhs E name mode ctx
  else
    match E.find ctx.scope name with
    | some sym => compileIdentSym E sym mode ctx
    | none => compileIdentBuiltin E name mode ctx

/-- `compileFuncLit(ctx, v, mode)`: the descriptor created by `newFuncDecl` is a new
object of the builder's heap. -/
def compileFuncLit {σ : Type} (E : Env σ) (lit : Nat) (mode : Nat) (ctx : BlockCtx σ) :
    Option (BlockCtx σ) :=
  match E.newFuncDecl ctx.scope lit with
  | none => none
  | some (id, finfo, sc) =>
    let decl : FuncDecl := { id := id, fi := ctx.out.finfos.length }
    let ctx1 : BlockCtx σ :=
      { ctx with scope := E.use sc decl,
                 out := { ctx.out with finfos := ctx.out.finfos ++ [finfo] } }
    if mode = inferOnly then some (ctx1.push (.qlFunc decl))
    else (ctx1.out.GoClosure E.L decl.fi).map (fun o => { ctx1.push (.qlFunc decl) with out := o })

/-- `compileBasicLit(ctx, v, mode)`. -/
def compileBasicLit {σ : Type} (E : Env σ) (kind : Nat) (value : String) (mode : Nat)
    (ctx : BlockCtx σ) : Option (BlockCtx σ) :=
  if mode > lhsBase then none
  else
    match ToConst E.strconv kind value with
    | none => none
    | some (k, n) =>
      if mode = inferOnly then some (ctx.push (.constVal n k (-1)))
      else if IsConstBound k then
        if k = ConstBoundRune then
          match n with
          | .int64 c => some { ctx.push (.constVal n k (-1)) with out := ctx.out.Push (.rune c) }
          | _ => none
        else some { ctx.push (.constVal n k (-1)) with out := ctx.out.Push n }
      else
        some { ctx.push (.constVal n k (ctx.out.Reserve).1) with out := (ctx.out.Reserve).2 }

/-- Whether an inferred value is a `*constVal`. -/
def IValue.isConst (v : IValue) : Bool :=
  match v with
  | .constVal _ _ _ => true
  | _ => false

/-- The branch `<const> op <const>` of `compileBinaryExpr`: fold, replace the two
operands by the result, and reserve a slot unless the mode is infer-only. -/
def binaryConst {σ : Type} (E : Env σ) (op : Nat) (x y : IValue) (mode : Nat)
    (ctx : BlockCtx σ) : Option (BlockCtx σ) :=
  match E.binaryOp op x y with
  | none => none
  | some (v, k, r) =>
    if mode ≠ inferOnly then
      (inferRet ctx.infer 2 [.constVal v k (ctx.out.Reserve).1]).map
        (fun s => { ctx with infer := s, out := (ctx.out.Reserve).2 })
    else ctx.ret 2 (.constVal v k r)

/-- `binaryOpResult(op, x, y)`. -/
def binaryOpResult {σ : Type} (E : Env σ) (op : Nat) (x y : IValue) : Option (Nat × IValue) :=
  match E.numValues x, E.numValues y with
  | some nx, some ny =>
    if nx ≠ 1 ∨ ny ≠ 1 then none
    else
      let kind :=
        if IsConstBound (E.kindOf x) then some (E.kindOf x)
        else if IsConstBound (E.kindOf y) then some (E.kindOf y)
        else none
      match kind with
      | none => none
      | some k =>
        let k2 := if E.opOut op ≠ E.sameAsFirst then E.opOut op else k
        some (k2, .goValue (E.typeFromKind k2))
  | _, _ => none

/-- The end of `compileBinaryExpr` in evaluate mode, after both operands have been
compiled again: check, emit the operator, replace the four entries by the result. -/
def binaryEmit {σ : Type} (E : Env σ) (kind op : Nat) (ret : IValue) (ctx : BlockCtx σ) :
    Option (BlockCtx σ) :=
  match inferGet ctx.infer 2, inferGet ctx.infer 1 with
  | some x, some y =>
    match E.checkBinaryOp kind op x y ctx.out with
    | none => none
    | some out1 => { ctx with out := out1.BuiltinOp kind op }.ret 4 ret
  | _, _ => none

/-- The end of the `*qlFunc` case of `compileCallExpr`, after the arguments. -/
def callQlFunc {σ : Type} (E : Env σ) (decl : FuncDecl) (vfn : IValue) (nargs : Nat)
    (ret : IValue) (ctx : BlockCtx σ) : Option (BlockCtx σ) :=
  match inferGetArgs ctx.infer (u32 nargs) with
  | none => none
  | some args =>
    match E.checkFuncCall (E.proto vfn) 0 args ctx.out with
    | none => none
    | some (arity, out1) =>
      match out1.finfos[decl.fi]? with
      | none => none
      | some f =>
        match f.IsVariadic with
        | none => none
        | some true =>
          match out1.CallFuncv E.L decl.fi arity with
          | none => none
          | some out2 => { ctx with out := out2 }.ret (u32 (nargs + 1)) ret
        | some false =>
          match out1.CallFunc E.L decl.fi with
          | none => none
          | some out2 => { ctx with out := out2 }.ret (u32 (nargs + 1)) ret

/-- The end of the `*goFunc` case of `compileCallExpr`, after receiver and arguments. -/
def callGoFunc {σ : Type} (E : Env σ) (addr kind : Nat) (isMethod : Bool) (vfn : IValue)
    (nargs : Nat) (ret : IValue) (ctx : BlockCtx σ) : Option (BlockCtx σ) :=
  match inferGetArgs ctx.infer (u32 nargs) with
  | none => none
  | some args =>
    match E.checkFuncCall (E.proto vfn) isMethod.toNat args ctx.out with
    | none => none
    | some (arity, out1) =>
      let out2 :=
        if kind = SymbolFunc E.L then out1.CallGoFunc E.L addr
        else if kind = SymbolFuncv E.L then out1.CallGoFuncv E.L addr arity
        else out1
      { ctx with out := out2 }.ret (u32 (nargs + 1 + isMethod.toNat)) ret

/-- The end of the `*goValue` case of `compileCallExpr`, after arguments and callee. -/
def callGoValue {σ : Type} (E : Env σ) (t : Ty) (nargs : Nat) (ret : IValue)
    (ctx : BlockCtx σ) : Option (BlockCtx σ) :=
  match inferGetArgs ctx.infer (u32 nargs) with
  | none => none
  | some args =>
    match E.checkFuncCall t 0 args ctx.out with
    | none => none
    | some (arity, out1) =>
      { ctx with out := out1.CallGoClosure E.L arity }.ret (u32 (nargs + 2)) ret

/-- `compileSelectorExpr` after its operand has been compiled infer-only. -/
def selectorFinish {σ : Type} (E : Env σ) (sel : String) (mode : Nat) (ctx : BlockCtx σ) :
    Option (BlockCtx σ) :=
  match inferGet ctx.infer 1 with
  | some (.nonValue (some nv)) =>
    match GoPackage.Find E.L (some nv) sel with
    | none => none
    | some (addr, kind) =>
      if kind = SymbolFunc E.L ∨ kind = SymbolFuncv E.L then
        if mode = inferOnly then ctx.ret 1 (.goFunc addr kind false) else none
      else none
  | some (.goValue vt) =>
    match (countPtr vt).2.FieldByName sel with
    | none => none
    | some true => none
    | some false =>
      match FindGoPackage E.gopkgs (normalizeMethod (countPtr vt).1 (countPtr vt).2 sel).1 with
      | none => none
      | some pkg =>
        match GoPackage.Find E.L (some pkg)
            (normalizeMethod (countPtr vt).1 (countPtr vt).2 sel).2 with
        | none => none
        | some (addr, kind) =>
          if mode = inferOnly then ctx.ret 1 (.goFunc addr kind true) else none
  | _ => none

/-- `compileSelectorExpr(ctx, v, mode)`; `xInfer` is `compileExpr` on `v.X` in
infer-only mode. -/
def compileSelectorExpr {σ : Type} (E : Env σ) (sel : String) (mode : Nat) (ctx : BlockCtx σ)
    (xInfer : BlockCtx σ → Option (BlockCtx σ)) : Option (BlockCtx σ) :=
  match xInfer ctx with
  | none => none
  | some c1 => selectorFinish E sel mode c1

/-- `compileBinaryExpr(ctx, v, mode)` for the operator token `op`; `xInfer`, `yInfer`,
`xEval`, `yEval` are `compileExpr` on `v.X` and `v.Y` in infer-only mode and in
evaluate mode. -/
def compileBinaryExpr {σ : Type} (E : Env σ) (op : Nat) (mode : Nat) (ctx : BlockCtx σ)
    (xInfer yInfer xEval yEval : BlockCtx σ → Option (BlockCtx σ)) : Option (BlockCtx σ) :=
  if mode > lhsBase then none
  else
    match xInfer ctx with
    | none => none
    | some c1 =>
      match yInfer c1 with
      | none => none
      | some c2 =>
        match inferGet c2.infer 2, inferGet c2.infer 1, E.binaryOps op with
        | some vx, some vy, some bop =>
          if vx.isConst && vy.isConst then binaryConst E bop vx vy mode c2
          else
            match binaryOpResult E bop vx vy with
            | none => none
            | some (kind, ret) =>
              if mode = inferOnly then c2.ret 2 ret
              else
                match xEval c2 with
                | none => none
                | some c3 =>
                  match yEval c3 with
                  | none => none
                  | some c4 => binaryEmit E kind bop ret c4
        | _, _, _ => none

/-- `compileCallExpr(ctx, v, mode)` for a call with `nargs` arguments; `fnInfer` and
`fnEval` are `compileExpr` on `v.Fun` in infer-only and in evaluate mode, `recvEval`
is `compileExpr` in evaluate mode on the operand `v.Fun.(*ast.SelectorExpr).X`
(failing when `v.Fun` is no selector), and `argsEval` is the loop compiling the
arguments in evaluate mode. -/
def compileCallExpr {σ : Type} (E : Env σ) (nargs : Nat) (mode : Nat) (ctx : BlockCtx σ)
    (fnInfer fnEval recvEval argsEval : BlockCtx σ → Option (BlockCtx σ)) :
    Option (BlockCtx σ) :=
  if mode > lhsBase then none
  else
    match fnInfer ctx with
    | none => none
    | some c1 =>
      match inferGet c1.infer 1 with
      | some (.qlFunc decl) =>
        if mode = inferOnly then c1.ret 1 (E.results (.qlFunc decl))
        else
          match argsEval c1 with
          | none => none
          | some c2 => callQlFunc E decl (.qlFunc decl) nargs (E.results (.qlFunc decl)) c2
      | some (.goFunc addr kind isMethod) =>
        if mode = inferOnly then c1.ret 1 (E.results (.goFunc addr kind isMethod))
        else
          match (if isMethod then recvEval c1 else some c1) with
          | none => none
          | some c2 =>
            match argsEval c2 with
            | none => none
            | some c3 =>
              callGoFunc E addr kind isMethod (.goFunc addr kind isMethod) nargs
                (E.results (.goFunc addr kind isMethod)) c3
      | some (.goValue t) =>
        if t.Kind ≠ kindFunc then none
        else if mode = inferOnly then c1.ret 1 (E.newFuncResults t)
        else
          match argsEval c1 with
          | none => none
          | some c2 =>
            match fnEval c2 with
            | none => none
            | some c3 => callGoValue E t nargs (E.newFuncResults t) c3
      | _ => none

mutual
/-- `compileExpr(ctx, expr, mode)`. -/
def compileExpr {σ : Type} (E : Env σ) : Expr → Nat → BlockCtx σ → Option (BlockCtx σ)
  | .ident name, mode, ctx => compileIdent E name mode ctx
  | .basicLit kind value, mode, ctx => compileBasicLit E kind value mode ctx
  | .funcLit lit, mode, ctx => compileFuncLit E lit mode ctx
  | .other _, _, _ => none
  | .selector x sel, mode, ctx =>
    compileSelectorExpr E sel mode ctx (compileExpr E x inferOnly)
  | .binary x op y, mode, ctx =>
    compileBinaryExpr E op mode ctx (compileExpr E x inferOnly) (compileExpr E y inferOnly)
      (compileExpr E x 0) (compileExpr E y 0)
  | .call fn args, mode, ctx =>
    compileCallExpr E args.length mode ctx (compileExpr E fn inferOnly) (compileExpr E fn 0)
      (compileRecv E fn) (compileExprs E args)
/-- `compileExpr(ctx, v.Fun.(*ast.SelectorExpr).X, 0)`: the type assertion panics when
`v.Fun` is not a selector expression. -/
def compileRecv {σ : Type} (E : Env σ) : Expr → BlockCtx σ → Option (BlockCtx σ)
  | .selector x _, ctx => compileExpr E x 0 ctx
  | _, _ => none
/-- The loop `for _, arg := range v.Args { compileExpr(ctx, arg, 0) }`. -/
def compileExprs {σ : Type} (E : Env σ) : List Expr → BlockCtx σ → Option (BlockCtx σ)
  | [], ctx => some ctx
  | a :: rest, ctx =>
    match compileExpr E a 0 ctx with
    | none => none
    | some c => compileExprs E rest c
end

/-! ### Size of argument lists -/

mutual
/-- Every call inside the expression has fewer than `2^32 - 2` arguments, so that
the conversions `uint32(len(v.Args) + 2)` of `compileCallExpr` do not truncate. -/
def Expr.argsFit : Expr → Prop
  | .ident _ => True
  | .basicLit _ _ => True
  | .funcLit _ => True
  | .other _ => True
  | .selector x _ => x.argsFit
  | .binary x _ y => x.argsFit ∧ y.argsFit
  | .call fn args => fn.argsFit ∧ args.length + 2 < 2 ^ 32 ∧ Expr.argsFitList args
/-- `Expr.argsFit` for every expression of a list. -/
def Expr.argsFitList : List Expr → Prop
  | [] => True
  | a :: rest => a.argsFit ∧ Expr.argsFitList rest
end

/-! ### The statement compiler -/

/-- `compileExprStmt(ctx, expr)`. -/
def compileExprStmt {σ : Type} (E : Env σ) (x : Expr) (ctx : BlockCtx σ) :
    Option (BlockCtx σ) :=
  match compileExpr E x 0 ctx with
  | none => none
  | some c1 => (inferPopN c1.infer 1).map (fun s => { c1 with infer := s })

/-- The values `v.Value(0), ..., v.Value(n-1)` of a multi-valued entry. -/
def valuesOf {σ : Type} (E : Env σ) (v : IValue) (n : Nat) : List IValue :=
  (List.range n).map (E.valueAt v)

/-- The single right-hand side of `compileAssignStmt`: compile it and, when it has
`n != 1` values, replace it by its `n` values (`n = 0` and `n < 0` panic). -/
def compileRhsSingle {σ : Type} (E : Env σ) (x : Expr) (ctx : BlockCtx σ) :
    Option (BlockCtx σ) :=
  match compileExpr E x 0 ctx with
  | none => none
  | some c1 =>
    match inferGet c1.infer 1 with
    | none => none
    | some v =>
      match E.numValues v with
      | none => none
      | some n =>
        if n ≠ 1 then
          if n ≤ 0 then none
          else (inferRet c1.infer 1 (valuesOf E v n.toNat)).map (fun s => { c1 with infer := s })
        else some c1

/-- The loop over several right-hand sides of `compileAssignStmt`: each must have
exactly one value. -/
def compileRhsItems {σ : Type} (E : Env σ) : List Expr → BlockCtx σ → Option (BlockCtx σ)
  | [], ctx => some ctx
  | item :: rest, ctx =>
    match compileExpr E item 0 ctx with
    | none => none
    | some c1 =>
      match inferGet c1.infer 1 with
      | none => none
      | some v =>
        match E.numValues v with
        | none => none
        | some n => if n ≠ 1 then none else compileRhsItems E rest c1

/-- The loop `compileExpr(ctx, expr.Lhs[i], expr.Tok)` over the targets in the order
given (the caller passes the targets last to first). -/
def compileLhsItems {σ : Type} (E : Env σ) (tok : Nat) :
    List Expr → BlockCtx σ → Option (BlockCtx σ)
  | [], ctx => some ctx
  | x :: rest, ctx =>
    match compileExpr E x tok ctx with
    | none => none
    | some c1 => compileLhsItems E tok rest c1

/-- `compileAssignStmt(ctx, expr)`. -/
def compileAssignStmt {σ : Type} (E : Env σ) (lhs : List Expr) (tok : Nat) (rhs : List Expr)
    (ctx : BlockCtx σ) : Option (BlockCtx σ) :=
  if ctx.infer.length ≠ 0 then none
  else
    let r :=
      match rhs with
      | [x] => compileRhsSingle E x ctx
      | items => compileRhsItems E items ctx
    match r with
    | none => none
    | some c1 =>
      if c1.infer.length ≠ lhs.length then none
      else compileLhsItems E tok lhs.reverse c1

/-- The loop of `compileReturnStmt` that checks result `i` against the type of the
function's i-th result variable. -/
def checkResults {σ : Type} (E : Env σ) (vars : List Var) (f : FuncInfo) :
    Nat → List IValue → Builder → Option Builder
  | _, [], out => some out
  | i, result :: rest, out =>
    match f.Out i with
    | none => none
    | some v =>
      match vars[v]? with
      | none => none
      | some x =>
        match E.checkType x.typ result out with
        | none => none
        | some out1 => checkResults E vars f (i + 1) rest out1

/-- `compileReturnStmt(ctx, expr)`. -/
def compileReturnStmt {σ : Type} (E : Env σ) (results : Option (List Expr))
    (ctx : BlockCtx σ) : Option (BlockCtx σ) :=
  match ctx.fn with
  | none => none
  | some fi =>
    match results with
    | none =>
      match ctx.out.finfos[fi]? with
      | none => none
      | some f =>
        match f.IsUnnamedOut ctx.out.vars with
        | none => none
        | some true => none
        | some false => some { ctx with out := ctx.out.Return E.L (-1) }
    | some rets =>
      match compileExprs E rets ctx with
      | none => none
      | some c1 =>
        match c1.out.finfos[fi]? with
        | none => none
        | some f =>
          if f.NumOut ≠ rets.length then none
          else if c1.infer.length ≠ rets.length then none
          else
            match inferGetArgs c1.infer (u32 rets.length) with
            | none => none
            | some res =>
              match checkResults E c1.out.vars f 0 res c1.out with
              | none => none
              | some out1 =>
                some { c1 with infer := [],
                               out := out1.Return E.L (i32OfU32 (u32 rets.length)) }

/-- One iteration of the loop of `compileBlockStmt`. -/
def compileStmt {σ : Type} (E : Env σ) (stmt : Stmt) (ctx : BlockCtx σ) :
    Option (BlockCtx σ) :=
  match stmt with
  | .exprStmt x => compileExprStmt E x ctx
  | .assign lhs tok rhs => compileAssignStmt E lhs tok rhs ctx
  | .ret results => compileReturnStmt E results ctx
  | .other _ => none

/-- `compileBlockStmt(ctx, body)`. -/
def compileBlockStmt {σ : Type} (E : Env σ) : List Stmt → BlockCtx σ → Option (BlockCtx σ)
  | [], ctx => some ctx
  | stmt :: rest, ctx =>
    match compileStmt E stmt ctx with
    | none => none
    | some c1 => compileBlockStmt E rest c1

/-! ### A concrete environment -/

/-- The value of a list of decimal digits read after the prefix value `acc`; `none`
when a character is not a digit. -/
def digitsValue : List Char → Nat → Option Nat
  | [], acc => some acc
  | c :: rest, acc =>
    if '0' ≤ c ∧ c ≤ '9' then digitsValue rest (acc * 10 + (c.toNat - 48)) else none

/-- The value of a non-empty text of decimal digits. -/
def decimalValue (s : String) : Option Nat :=
  match s.toList with
  | [] => none
  | cs => digitsValue cs 0

/-- A `strconv` stand-in for evaluation: decimal digits parse as integers, a text
between double quotes or single quotes unquotes to its inside, no float parses. -/
def sampleStrconv : Strconv where
  parseInt := fun s => (decimalValue s).map Int.ofNat
  parseUint := fun s => decimalValue s
  unquote := fun s =>
    if s.length ≥ 2 ∧ (s.front = Char.ofNat 34 ∨ s.front = Char.ofNat 39) ∧
        s.back = s.front then
      some ((s.drop 1).dropRight 1)
    else none
  parseFloat := fun _ => false

/-- A concrete environment over a trivial scope: no name resolves, a function
literal gets a fresh descriptor of nest depth 1, every check accepts and emits
nothing, every inferred value has one value of kind `int`. -/
def sampleEnv : Env Unit where
  L := sampleLayout
  strconv := sampleStrconv
  gopkgs := []
  find := fun _ _ => none
  findVar := fun _ _ => .enoent
  inCurrentCtx := fun _ _ _ => true
  insertVar := fun _ _ _ _ => none
  use := fun s _ => s
  newFuncDecl := fun s lit => some (lit, NewFunc "" 1, s)
  boundType := fun _ => none
  checkType := fun _ _ b => some b
  checkBinaryOp := fun _ _ _ _ b => some b
  checkFuncCall := fun _ _ args b => some ((args.length : Int), b)
  binaryOps := fun tok => some tok
  binaryOp := fun _ x _ =>
    match x with
    | .constVal v k _ => some (v, k, -1)
    | _ => none
  opOut := fun _ => 0
  sameAsFirst := 0
  typeFromKind := fun k => .named k "" "" []
  numValues := fun _ => some 1
  kindOf := fun _ => 2
  valueAt := fun v _ => v
  results := fun _ => .funcResults []
  proto := fun _ => .func [] [] false
  newFuncResults := fun _ => .funcResults []

/-- An empty compiler context at module level over the sample environment. -/
def sampleCtx : BlockCtx Unit :=
  { out := Builder.init [] [], infer := [], fn := none, builtin := none, scope := () }

/-- A lexical scope for evaluation: what `find` and `findVar` resolve. -/
structure SimpleScope where
  names : List (String × Sym)
  vars : List (String × VarRef)

/-- The type `int`. -/
def intTy : Ty := .named 2 "" "int" []

/-- A concrete environment over `SimpleScope`: names resolve by lookup, a stack
variable always counts as current and a heap variable when the builder says so,
`insertVar` creates a heap variable and defines it in the builder, every check
accepts and emits nothing, a function declaration with id `n` returns `n` values of
type `int`, and a value of function type returns the results of that type. -/
def scopedEnv : Env SimpleScope where
  L := sampleLayout
  strconv := sampleStrconv
  gopkgs := []
  find := fun s name => s.names.lookup name
  findVar := fun s name =>
    match s.vars.lookup name with
    | some addr => .found addr
    | none => .enoent
  inCurrentCtx := fun _ b addr =>
    match addr with
    | .execVar v => (b.InCurrentCtx v).getD false
    | .stackVar _ _ => true
  insertVar := fun s b name typ =>
    match ({ b with vars := b.vars ++ [NewVar typ name] } : Builder).DefineVar sampleLayout
        [b.vars.length] with
    | none => none
    | some b1 =>
      some (.execVar b.vars.length,
        { names := (name, .execVar b.vars.length) :: s.names,
          vars := (name, .execVar b.vars.length) :: s.vars }, b1)
  use := fun s _ => s
  newFuncDecl := fun s lit => some (lit, NewFunc "" 1, s)
  boundType := fun v =>
    match v with
    | .goValue t => some t
    | .constVal _ k _ => some (.named k "" "" [])
    | _ => none
  checkType := fun _ _ b => some b
  checkBinaryOp := fun _ _ _ _ b => some b
  checkFuncCall := fun _ _ args b => some ((args.length : Int), b)
  binaryOps := fun tok => some tok
  binaryOp := fun _ x _ =>
    match x with
    | .constVal v k _ => some (v, k, -1)
    | _ => none
  opOut := fun _ => 0
  sameAsFirst := 0
  typeFromKind := fun k => .named k "" "" []
  numValues := fun v =>
    match v with
    | .funcResults tys => some (tys.length : Int)
    | _ => some 1
  kindOf := fun v =>
    match v with
    | .constVal _ k _ => k
    | .goValue t => t.Kind
    | _ => 0
  valueAt := fun v i =>
    match v with
    | .funcResults tys =>
      match tys[i]? with
      | some t => .goValue t
      | none => v
    | _ => v
  results := fun v =>
    match v with
    | .qlFunc decl => .funcResults (List.replicate decl.id intTy)
    | _ => .funcResults []
  proto := fun _ => .func [] [] false
  newFuncResults := fun t =>
    match t with
    | .func _ outs _ => .funcResults outs
    | _ => .funcResults []

/-- The store that ends the left-hand-side branch of `compileIdent`: `StoreVar` for
an `*execVar`, `Store` of the index for a `*stackVar`. -/
def storeTarget (L : Layout) (out : Builder) (addr : VarRef) : Option Builder :=
  match addr with
  | .execVar v => out.StoreVar L v
  | .stackVar _ index => some (out.Store L index)

/-- A function `f` of nest depth 1 with one named result `x` of type `int`, as
`NewFunc`, `NewVar` and `Return` leave them. -/
def namedResultFunc : FuncInfo :=
  { name := "f", funEntry := 0, funEnd := 0, ins := [], offs := [], numOut := 1,
    vm := { vlist := [0], nestDepth := 1 }, nVariadic := 1 }

/-- A compiler context inside the body of `namedResultFunc`: the builder points to
the scope of the function, whose result variable is object 0 of the heap. -/
def namedResultCtx : BlockCtx SimpleScope :=
  { out := { code := { data := [], funs := [], funvs := [],
                       vm := { vlist := [], nestDepth := 0 } },
             scope := .func 0, funcs := [], finfos := [namedResultFunc],
             vars := [{ typ := intTy, name := "Qx", nestDepth := 1, idx := 0 }] },
    infer := [], fn := some 0, builtin := none,
    scope := { names := [("x", .execVar 0)], vars := [("x", .execVar 0)] } }

/-- A compiler context at module level whose scope knows the module variable `g`
(object 0 of the heap, slot 0 of depth 0) and in which a value of type `int` is on
the inference stack. -/
def moduleVarCtx : BlockCtx SimpleScope :=
  { out := { code := { data := [], funs := [], funvs := [],
                       vm := { vlist := [0], nestDepth := 0 } },
             scope := .code, funcs := [], finfos := [],
             vars := [{ typ := intTy, name := "Qg", nestDepth := 0, idx := 0 }] },
    infer := [.goValue intTy], fn := none, builtin := none,
    scope := { names := [("g", .execVar 0)], vars := [("g", .execVar 0)] } }

/-- The context of `moduleVarCtx` seen from inside a function of nest depth 1: the
variable `g` belongs to the enclosing scope. -/
def nestedVarCtx : BlockCtx SimpleScope :=
  { moduleVarCtx with
    out := { moduleVarCtx.out with scope := .func 0, finfos := [NewFunc "f" 1] },
    fn := some 0 }

/-- A compiler context inside a function whose scope knows the stack variable `h`,
a parameter at offset -1 whose type is `func(int) int`. -/
def closureCallCtx : BlockCtx SimpleScope :=
  { out := Builder.init [] [], infer := [], fn := some 0, builtin := none,
    scope := { names := [("h", .stackVar (.func [intTy] [intTy] false) (-1))], vars := [] } }

/-- A compiler context at module level whose scope knows the function `f`, declared
with id 2 and so returning two values of type `int`, and the module variables `a`
and `b` (objects 0 and 1 of the heap, slots 0 and 1 of depth 0). -/
def twoResultsCtx : BlockCtx SimpleScope :=
  { out := { code := { data := [], funs := [], funvs := [],
                       vm := { vlist := [0, 1], nestDepth := 0 } },
             scope := .code, funcs := [],
             finfos := [{ name := "f", funEntry := 0, funEnd := 0, ins := [], offs := [],
                          numOut := 2, vm := { vlist := [], nestDepth := 1 },
                          nVariadic := 1 }],
             vars := [{ typ := intTy, name := "Qa", nestDepth := 0, idx := 0 },
                      { typ := intTy, name := "Qb", nestDepth := 0, idx := 1 }] },
    infer := [], fn := none, builtin := none,
    scope := { names := [("f", .funcDecl { id := 2, fi := 0 })],
               vars := [("a", .execVar 0), ("b", .execVar 1)] } }

/-- A compiler context inside the body of `namedResultFunc`, which has one result,
whose scope knows the function `g`, declared with id 2 and so returning two values
of type `int` (object 1 of the heap of functions). -/
def twoValuedCallCtx : BlockCtx SimpleScope :=
  { namedResultCtx with
    out := { namedResultCtx.out with
      finfos := [namedResultFunc,
                 { name := "g", funEntry := 0, funEnd := 0, ins := [], offs := [], numOut := 2,
                   vm := { vlist := [], nestDepth := 1 }, nVariadic := 1 }] },
    scope := { names := [("g", .funcDecl { id := 2, fi := 1 }), ("x", .execVar 0)],
               vars := [("x", .execVar 0)] } }

/-! ## Argument lists of a function (`exec/func.go`) -/

/-- `FuncInfo.Args(in...)`: the list is stored before the flag is set. -/
def FuncInfo.Args (f : FuncInfo) (ins : List Ty) : Option FuncInfo :=
  ({ f with ins := ins } : FuncInfo).setVariadic nVariadicFixedArgs

/-- `FuncInfo.Vargs(in...)`: indexing the last type panics on an empty list, and the
last type must be of kind `Slice`. -/
def FuncInfo.Vargs (f : FuncInfo) (ins : List Ty) : Option FuncInfo :=
  match ins.getLast? with
  | none => none
  | some t =>
    if t.Kind ≠ kindSlice then none
    else ({ f with ins := ins } : FuncInfo).setVariadic nVariadicVariadicArgs

/-! ## Sequences of builder calls -/

/-- What a builder call other than `DefineFunc` and `EndFunc` keeps of the builder
`b` in its result `b2`: the `varManager` pointer, the instructions so far (new ones
are appended), the two function tables, and of every function object its entry, its
end and its variadic flag once that is resolved; a function that has a table index
keeps it. -/
structure Builder.Extends (b b2 : Builder) : Prop where
  scope : b2.scope = b.scope
  data : ∃ ext, b2.code.data = b.code.data ++ ext
  funs : b2.code.funs = b.code.funs
  funvs : b2.code.funvs = b.code.funvs
  finfos : ∀ (fn : Nat) (f : FuncInfo), b.finfos[fn]? = some f →
    ∃ f2, b2.finfos[fn]? = some f2 ∧ f2.funEntry = f.funEntry ∧ f2.funEnd = f.funEnd ∧
      (f.nVariadic ≠ 0 → f2.nVariadic = f.nVariadic)
  funcs : ∀ (fn : Nat) (idx : Int), b.funcPos fn = some idx → 0 ≤ idx →
    b2.funcPos fn = some idx

/-- One successful call of an instruction encoder, of `DefineVar`, or of `Args`,
`Vargs`, `Return` on a function object of the heap. -/
inductive Builder.EmitStep (L : Layout) : Builder → Builder → Prop
  | push (b : Builder) (v : Value) : Builder.EmitStep L b (b.Push v)
  | reserve (b : Builder) : Builder.EmitStep L b b.Reserve.2
  | builtinOp (b : Builder) (kind op : Nat) : Builder.EmitStep L b (b.BuiltinOp kind op)
  | closure (b b2 : Builder) (fn : Nat) : b.Closure L fn = some b2 → Builder.EmitStep L b b2
  | goClosure (b b2 : Builder) (fn : Nat) :
      b.GoClosure L fn = some b2 → Builder.EmitStep L b b2
  | callClosure (b : Builder) (arity : Int) : Builder.EmitStep L b (b.CallClosure L arity)
  | callGoClosure (b : Builder) (arity : Int) :
      Builder.EmitStep L b (b.CallGoClosure L arity)
  | callFunc (b b2 : Builder) (fn : Nat) : b.CallFunc L fn = some b2 → Builder.EmitStep L b b2
  | callFuncv (b b2 : Builder) (fn : Nat) (arity : Int) :
      b.CallFuncv L fn arity = some b2 → Builder.EmitStep L b b2
  | ret (b : Builder) (n : Int) : Builder.EmitStep L b (b.Return L n)
  | load (b : Builder) (idx : Int) : Builder.EmitStep L b (b.Load L idx)
  | store (b : Builder) (idx : Int) : Builder.EmitStep L b (b.Store L idx)
  | callGoFunc (b : Builder) (addr : Nat) : Builder.EmitStep L b (b.CallGoFunc L addr)
  | callGoFuncv (b : Builder) (addr : Nat) (arity : Int) :
      Builder.EmitStep L b (b.CallGoFuncv L addr arity)
  | addrVar (b b2 : Builder) (v : Nat) : b.AddrVar L v = some b2 → Builder.EmitStep L b b2
  | loadVar (b b2 : Builder) (v : Nat) : b.LoadVar L v = some b2 → Builder.EmitStep L b b2
  | storeVar (b b2 : Builder) (v : Nat) : b.StoreVar L v = some b2 → Builder.EmitStep L b b2
  | defineVar (b b2 : Builder) (vs : List Nat) :
      b.DefineVar L vs = some b2 → Builder.EmitStep L b b2
  | args (b : Builder) (fn : Nat) (f f2 : FuncInfo) (ins : List Ty) :
      b.finfos[fn]? = some f → f.Args ins = some f2 →
      Builder.EmitStep L b { b with finfos := b.finfos.set fn f2 }
  | vargs (b : Builder) (fn : Nat) (f f2 : FuncInfo) (ins : List Ty) :
      b.finfos[fn]? = some f → f.Vargs ins = some f2 →
      Builder.EmitStep L b { b with finfos := b.finfos.set fn f2 }
  | funcReturn (b : Builder) (fn : Nat) (f f2 : FuncInfo) (out : List Nat) (heap : List Var) :
      b.finfos[fn]? = some f → f.Return L out b.vars = some (f2, heap) →
      Builder.EmitStep L b { b with finfos := b.finfos.set fn f2, vars := heap }

/-- A sequence of such calls. -/
inductive Builder.Emits (L : Layout) : Builder → Builder → Prop
  | refl (b : Builder) : Builder.Emits L b b
  | step (b b1 b2 : Builder) :
      Builder.Emits L b b1 → Builder.EmitStep L b1 b2 → Builder.Emits L b b2

/-- The builders reached from a new builder by successful calls, together with the
function of the most recent `DefineFunc`/`EndFunc` call when that call was a
`DefineFunc` (`none` when it was an `EndFunc` or there was none), and the list of
the functions that `DefineFunc` has been called on. -/
inductive Builder.Trace (L : Layout) : Builder → Option Nat → List Nat → Prop
  | init (finfos : List FuncInfo) (vars : List Var) :
      Builder.Trace L (Builder.init finfos vars) none []
  | emit (b b2 : Builder) (last : Option Nat) (defined : List Nat) :
      Builder.Trace L b last defined → Builder.EmitStep L b b2 →
      Builder.Trace L b2 last defined
  | define (b b2 : Builder) (last : Option Nat) (defined : List Nat) (fn : Nat) :
      Builder.Trace L b last defined → b.DefineFunc fn = some b2 →
      Builder.Trace L b2 (some fn) (fn :: defined)
  | endFunc (b b2 : Builder) (last : Option Nat) (defined : List Nat) (fn : Nat) :
      Builder.Trace L b last defined → b.EndFunc fn = some b2 →
      Builder.Trace L b2 none defined

/-! ## Calling a script function (`FuncInfo.exec`, `FuncInfo.execVariadic`)

Modelled from the spec: the stack methods `GetArgs`, `Ret` and `SetLen` are defined
outside the translated sources; `GetArgs(n)` is the slice of the top `n` values,
`Ret(arity, results...)` replaces the top `arity` values by the results, `SetLen(n)`
truncates the stack to `n` values; each panics when the stack is too short.  Every
context shares the one value stack of the machine. -/

/-- `stk.GetArgs(n)`. -/
def Machine.getArgs (m : Machine) (n : Nat) : Option (List Value) :=
  if n ≤ m.data.length then some (m.data.drop (m.data.length - n)) else none

/-- `stk.Ret(arity, results...)`. -/
def Machine.ret (m : Machine) (arity : Nat) (results : List Value) : Option Machine :=
  if arity ≤ m.data.length then
    some { m with data := m.data.take (m.data.length - arity) ++ results }
  else none

/-- `stk.SetLen(n)`. -/
def Machine.setLen (m : Machine) (n : Int) : Option Machine :=
  if 0 ≤ n ∧ n ≤ (m.data.length : Int) then some { m with data := m.data.take n.toNat }
  else none

/-- `reflect.Interface`. -/
def kindInterface : Nat := 20

/-- The test `tVariadic == tyEmptyInterfaceSlice`: the type is `[]interface{}`. -/
def Ty.isEmptyInterfaceSlice (t : Ty) : Bool :=
  match t with
  | .slice (.named kind pkgPath name _) => kind == kindInterface && pkgPath == "" && name == ""
  | _ => false

/-- The loop `for i, item := range items { setValue(variadic.Index(i), item) }`:
the elements of the new collection of type `t`.  `setValue` is defined outside the
translated sources; it yields the element stored for an item, or panics. -/
def storeItems (setValue : Ty → Value → Option Value) (t : Ty) :
    List Value → Option (List Value)
  | [] => some []
  | item :: rest =>
    match setValue t item with
    | none => none
    | some x => (storeItems setValue t rest).map (x :: ·)

/-- The part of `FuncInfo.execVariadic(arity, stk, parent)` before the final
`p.exec(stk, parent)`: when `arity > n` for `n = uint32(len(p.in) - 1)`, the top
`arity - n` values are replaced by one collection of the type `p.in[n]`. -/
def FuncInfo.execVariadicPack (setValue : Ty → Value → Option Value) (f : FuncInfo)
    (arity : Nat) (m : Machine) : Option Machine :=
  let n := u32OfInt ((f.ins.length : Int) - 1)
  if arity > n then
    match f.ins[n]? with
    | none => none
    | some tVariadic =>
      match m.getArgs (sub32 arity n) with
      | none => none
      | some items =>
        if tVariadic.isEmptyInterfaceSlice then m.ret (sub32 arity n) [.slice items]
        else
          match storeItems setValue tVariadic items with
          | none => none
          | some elems => m.ret (sub32 arity n) [.slice elems]
  else some m

/-- A variadic function `f(a int, rest ...int)`. -/
def variadicFunc : FuncInfo :=
  { name := "f", funEntry := 0, funEnd := 0, ins := [intTy, .slice intTy], offs := [],
    numOut := 0, vm := { vlist := [], nestDepth := 1 }, nVariadic := 2 }

/-- The loop `for i := uint32(0); i < n; i++ { stk.Push(ctx.getVar(i)) }` of
`FuncInfo.exec`, with `k` iterations left and the next index `i`. -/
def pushVarsLoop (ctx : Nat) : Nat → Nat → Machine → Option Machine
  | 0, _, m => some m
  | k + 1, i, m =>
    match m.getVar ctx i with
    | none => none
    | some v => pushVarsLoop ctx k (i + 1) (m.push v)

/-- The part of `FuncInfo.exec(stk, parent)` after `ctx.Exec(p.FunEntry, p.FunEnd)`,
for the context `ctx` of the call and the machine as the body left it; `returned`
says whether `ctx.ip == ipReturnN`.  The interpreter loop `Exec` is defined outside
the translated sources. -/
def FuncInfo.execFinish (f : FuncInfo) (returned : Bool) (ctx : Nat) (m : Machine) :
    Option Machine :=
  match m.ctxs[ctx]? with
  | none => none
  | some cx =>
    if returned then
      if f.numOut > m.data.length then none
      else
        m.ret (u32OfInt ((f.ins.length : Int) + (m.data.length : Int) - (cx.base : Int)))
          (m.data.drop (m.data.length - f.numOut))
    else
      match m.setLen ((cx.base : Int) - (f.ins.length : Int)) with
      | none => none
      | some m1 => pushVarsLoop ctx (u32 f.numOut) 0 m1

/-! ## The parent context of a callee (`makeClosure`, `execFunc`, `execFuncv`)

Modelled from the spec: `Context.globalCtx` is defined outside the translated
sources; `globalCtx p` is the process-wide global context as context `p` yields it
(`none` is a panic). -/

/-- `makeClosure(i, p)` over the function objects `finfos`: the function and the
parent of the closure. -/
def makeClosure (L : Layout) (code : Code) (finfos : List FuncInfo)
    (globalCtx : Nat → Option Nat) (i : Nat) (p : Nat) : Option (Nat × Nat) :=
  match (if (i &&& closureVariadicFlag L) ≠ 0 then code.funvs[i &&& L.bitsOpClosureOperand]?
         else code.funs[i &&& L.bitsOpClosureOperand]?) with
  | none => none
  | some fn =>
    match finfos[fn]? with
    | none => none
    | some f =>
      if f.vm.nestDepth = 1 then (globalCtx p).map (fun g => (fn, g))
      else some (fn, p)

/-- The callee of `execFunc(i, p)` and the context handed to `fun.exec`. -/
def execFuncTarget (L : Layout) (code : Code) (finfos : List FuncInfo)
    (globalCtx : Nat → Option Nat) (i : Nat) (p : Nat) : Option (Nat × Nat) :=
  match code.funs[i &&& L.bitsOperand]? with
  | none => none
  | some fn =>
    match finfos[fn]? with
    | none => none
    | some f =>
      if f.vm.nestDepth = 1 then (globalCtx p).map (fun g => (fn, g))
      else some (fn, p)

/-- The callee of `execFuncv(i, p)` and the context handed to `fun.exec` or
`fun.execVariadic`. -/
def execFuncvTarget (L : Layout) (code : Code) (finfos : List FuncInfo)
    (globalCtx : Nat → Option Nat) (i : Nat) (p : Nat) : Option (Nat × Nat) :=
  match code.funvs[i &&& L.bitsOpCallFuncvOperand]? with
  | none => none
  | some fn =>
    match finfos[fn]? with
    | none => none
    | some f =>
      if f.vm.nestDepth = 1 then (globalCtx p).map (fun g => (fn, g))
      else some (fn, p)

/-- The rule of the specification for the parent of a callee: the current context,
or the global context for a function of nest depth 1. -/
def parentRule (globalCtx : Nat → Option Nat) (f : FuncInfo) (p : Nat) : Option Nat :=
  if f.vm.nestDepth = 1 then globalCtx p else some p

/-! ## Registration of native symbols (`exec/gopkg.go`) -/

/-- A registered Go function (`GoFuncInfo`), reduced to its name. -/
structure GoFuncInfo where
  name : String
  deriving Repr, DecidableEq

/-- A registered Go variable (`GoVarInfo`), reduced to its name. -/
structure GoVarInfo where
  name : String
  deriving Repr, DecidableEq

/-- A type to register (`GoTypeInfo`): the path of the package it names, its name
and the type. -/
structure GoTypeInfo where
  pkg : String
  name : String
  typ : Ty
  deriving Repr

/-- Assignment `m[k] = v` on a map from names kept as an association list. -/
def symSet {α : Type} (m : List (String × α)) (k : String) (v : α) : List (String × α) :=
  match m with
  | [] => [(k, v)]
  | (k1, v1) :: rest => if k1 = k then (k, v) :: rest else (k1, v1) :: symSet rest k v

/-- The loop `for i, v := range entries { p.syms[v.Name] = enc(uint32(base) + uint32(i)) }`
of the three registration functions over the names of the entries, from index `i`
on; `enc` adds the kind bits. -/
def registerSyms (enc : Nat → Nat) (base : Nat) :
    Nat → List String → List (String × Nat) → List (String × Nat)
  | _, [], syms => syms
  | i, name :: rest, syms =>
    registerSyms enc base (i + 1) rest (symSet syms name (enc (u32 (base + u32 i))))

/-- `p.RegisterVars(vars...)` on the table `govars`: the base address, the package
and the table afterwards. -/
def GoPackage.RegisterVars (p : GoPackage) (govars : List GoVarInfo) (vars : List GoVarInfo) :
    Nat × GoPackage × List GoVarInfo :=
  (u32 govars.length,
   { p with syms := registerSyms (fun a => a) (u32 govars.length) 0 (vars.map (·.name)) p.syms },
   govars ++ vars)

/-- `p.RegisterFuncs(funs...)` on the table `gofuns`.  `bad v` says that debug
output is enabled and the entry `v` fails the checks of the debug branch (it
belongs to another package, or its function is variadic), which panics. -/
def GoPackage.RegisterFuncs (L : Layout) (bad : GoFuncInfo → Bool) (p : GoPackage)
    (gofuns : List GoFuncInfo) (funs : List GoFuncInfo) :
    Option (Nat × GoPackage × List GoFuncInfo) :=
  if funs.any bad then none
  else
    some (u32 gofuns.length,
      { p with
        syms := registerSyms (fun a => a ||| (L.opCallGoFunc <<< L.bitsOpShift))
          (u32 gofuns.length) 0 (funs.map (·.name)) p.syms },
      gofuns ++ funs)

/-- `p.RegisterFuncvs(funs...)` on the table `gofunvs`; `bad` as for `RegisterFuncs`
(the entry belongs to another package, or its function is not variadic). -/
def GoPackage.RegisterFuncvs (L : Layout) (bad : GoFuncvInfo → Bool) (p : GoPackage)
    (gofunvs : List GoFuncvInfo) (funs : List GoFuncvInfo) :
    Option (Nat × GoPackage × List GoFuncvInfo) :=
  if funs.any bad then none
  else
    some (u32 gofunvs.length,
      { p with
        syms := registerSyms (fun a => a ||| (L.opCallGoFuncv <<< L.bitsOpShift))
          (u32 gofunvs.length) 0 (funs.map (·.name)) p.syms },
      gofunvs ++ funs)

/-- `p.RegisterTypes(typinfos...)`. -/
def GoPackage.RegisterTypes (p : GoPackage) : List GoTypeInfo → Option GoPackage
  | [] => some p
  | ti :: rest =>
    if p.pkgPath ≠ ti.pkg then none
    else if ti.name = "" then none
    else
      match p.types.lookup ti.name with
      | some _ => none
      | none => GoPackage.RegisterTypes { p with types := symSet p.types ti.name ti.typ } rest

/-- `NewGoPackage(pkgPath)` on the registry `gopkgs`: the new package and the
registry afterwards; panics when the path is registered already. -/
def NewGoPackage (gopkgs : List GoPackage) (pkgPath : String) :
    Option (GoPackage × List GoPackage) :=
  match FindGoPackage gopkgs pkgPath with
  | some _ => none
  | none =>
    some ({ pkgPath := pkgPath, syms := [], types := [] },
      gopkgs ++ [{ pkgPath := pkgPath, syms := [], types := [] }])

/-- `(*GoPackage).FindFunc(name)`; a nil package is dereferenced, which panics. -/
def GoPackage.FindFunc (L : Layout) (p : Option GoPackage) (name : String) : Option Nat :=
  match p with
  | none => none
  | some pkg =>
    match pkg.syms.lookup name with
    | none => none
    | some v => if v >>> L.bitsOpShift = L.opCallGoFunc then some (v &&& L.bitsOperand) else none

/-- `(*GoPackage).FindFuncv(name)`. -/
def GoPackage.FindFuncv (L : Layout) (p : Option GoPackage) (name : String) : Option Nat :=
  match p with
  | none => none
  | some pkg =>
    match pkg.syms.lookup name with
    | none => none
    | some v => if v >>> L.bitsOpShift = L.opCallGoFuncv then some (v &&& L.bitsOperand) else none

/-- `(*GoPackage).FindVar(name)`: the address is the symbol value itself. -/
def GoPackage.FindVar (L : Layout) (p : Option GoPackage) (name : String) : Option Nat :=
  match p with
  | none => none
  | some pkg =>
    match pkg.syms.lookup name with
    | none => none
    | some v => if v >>> L.bitsOpShift = 0 then some v else none

/-- `(*GoPackage).FindType(name)`. -/
def GoPackage.FindType (p : GoPackage) (name : String) : Option Ty := p.types.lookup name

/-- `GoFuncAddr.GetInfo()`: `none` is the nil result. -/
def GoFuncAddr.GetInfo (gofuns : List GoFuncInfo) (i : Nat) : Option GoFuncInfo :=
  if i < u32 gofuns.length then gofuns[i]? else none

/-- `GoFuncvAddr.GetInfo()`. -/
def GoFuncvAddr.GetInfo (gofunvs : List GoFuncvInfo) (i : Nat) : Option GoFuncvInfo :=
  if i < u32 gofunvs.length then gofunvs[i]? else none

/-- `GoVarAddr.GetInfo()`. -/
def GoVarAddr.GetInfo (govars : List GoVarInfo) (i : Nat) : Option GoVarInfo :=
  if i < u32 govars.length then govars[i]? else none

/-- A package `fmt` without symbols and types, as `NewGoPackage` makes it. -/
def emptyPkg : GoPackage := { pkgPath := "fmt", syms := [], types := [] }

/-! ## Receivers (`ast/astutil/ast_utils.go`) -/

/-- A type expression of the syntax tree, as far as `ToRecv` distinguishes: an
identifier (`*ast.Ident`), a pointer type (`*ast.StarExpr`), or any other node. -/
inductive TypeExpr where
  | ident (name : String)
  | star (x : TypeExpr)
  | other (tag : Nat)
  deriving Repr, DecidableEq

/-- A field of a field list (`*ast.Field`): its names (`none` is the nil slice of an
unnamed field) and its type. -/
structure Field where
  names : Option (List String)
  typ : TypeExpr
  deriving Repr, DecidableEq

/-- `RecvInfo`. -/
structure RecvInfo where
  name : String
  typ : String
  pointer : Int
  deriving Repr, DecidableEq

/-- The loop at the label `retry` of `ToRecv`: `ret.Pointer` counts the stars passed
and `ret.Type` is the identifier reached; any other node panics. -/
def toRecvType : TypeExpr → Int → Option (String × Int)
  | .ident name, k => some (name, k)
  | .star x, k => toRecvType x (k + 1)
  | .other _, _ => none

/-- `ToRecv(recv)` for the field list `recv.List`. -/
def ToRecv (fields : List Field) : Option RecvInfo :=
  match fields with
  | [field] =>
    let name : Option String :=
      match field.names with
      | none => some ""
      | some [] => none
      | some (n :: _) => some n
    match name, toRecvType field.typ 0 with
    | some n, some (t, k) => some { name := n, typ := t, pointer := k }
    | _, _ => none
  | _ => none

/-- The identifier `T` under `k` pointer stars. -/
def starred : Nat → String → TypeExpr
  | 0, t => .ident t
  | k + 1, t => .star (starred k t)

/-- The node under all pointer stars of a type expression. -/
def TypeExpr.innermost : TypeExpr → TypeExpr
  | .star x => x.innermost
  | e => e

/-! ## Executing the stores of an assignment -/

/-- A place that a store instruction writes to: a position of the value stack (for
`execStore`) or a slot of a context (for `execStoreVar`). -/
inductive Loc where
  | stack (pos : Nat)
  | slot (ctx : Nat) (idx : Nat)
  deriving Repr, DecidableEq

/-- The value a place holds. -/
def Machine.readLoc (m : Machine) (loc : Loc) : Option Value :=
  match loc with
  | .stack pos => m.data[pos]?
  | .slot c idx => m.getVar c idx

/-- Writing a value to a place: `p.data[pos] = v`, or `setVar` on the context. -/
def Machine.writeLoc (m : Machine) (loc : Loc) (v : Value) : Option Machine :=
  match loc with
  | .stack pos => if pos < m.data.length then some { m with data := m.data.set pos v } else none
  | .slot c idx => m.setVar c idx v

/-- Whether a place exists in a machine whose value stack holds the frames up to
`depth`: a stack position below `depth`, or a slot that its context has. -/
def Loc.validIn (m : Machine) (depth : Nat) (loc : Loc) : Bool :=
  match loc with
  | .stack pos => decide (pos < depth)
  | .slot c idx =>
    match m.ctxs[c]? with
    | none => false
    | some cx => decide (idx < cx.vars.length)

/-- The place that the store word `w` addresses when it is executed in context `p`:
for the opcode `opStore` the stack position `p.base + idx` that `execStore` indexes,
otherwise the slot that `execStoreVar` selects (slot `idx` of `p`, or of the context
`getParentCtx` yields).  `none` where the instruction panics before the write. -/
def storeLoc (L : Layout) (w : Nat) (p : Nat) (m : Machine) : Option Loc :=
  if opOf L w = L.opStore then
    match m.ctxs[p]? with
    | none => none
    | some cx =>
      if (cx.base : Int) + slotIdx L w < 0 then none
      else some (.stack ((cx.base : Int) + slotIdx L w).toNat)
  else if w &&& L.bitsOperand ≤ L.bitsOpVarOperand then some (.slot p (w &&& L.bitsOperand))
  else
    match getParentCtx L m p (w &&& L.bitsOperand) with
    | some (some q) => some (.slot q ((w &&& L.bitsOperand) &&& L.bitsOpVarOperand))
    | _ => none

/-- Executing one store instruction in context `p`.

Modelled from the spec: the interpreter loop and its dispatch on the opcode are
defined outside the translated sources; a word with the opcode `opStore` runs
`execStore` and a word with the opcode `opStoreVar` runs `execStoreVar`.  Any other
instruction is not a store (`none`). -/
def execStoreInstr (L : Layout) (i : Instr) (p : Nat) (m : Machine) : Option Machine :=
  match i with
  | .word w =>
    if opOf L w = L.opStore then execStore L w p m
    else if opOf L w = L.opStoreVar then execStoreVar L w p m
    else none
  | _ => none

/-- Executing a sequence of store instructions in context `p`, first to last. -/
def execStores (L : Layout) (p : Nat) : List Instr → Machine → Option Machine
  | [], m => some m
  | i :: rest, m =>
    match execStoreInstr L i p m with
    | none => none
    | some m1 => execStores L p rest m1

/-- What the stores of an assignment leave of a context as it was: the parent link,
the base and the number of slots. -/
def Context.frame (cx : Context) : Option Nat × Nat × Nat := (cx.parent, cx.base, cx.vars.length)

/-- The builder `b2` has the instruction sequence of `b` with every encoded word at
its offset; only instructions that are no encoded words (the reserved slot of an
unbound constant) may differ. -/
def Builder.KeepsWords (b b2 : Builder) : Prop :=
  b2.code.data.length = b.code.data.length ∧
    ∀ (i w : Nat), b.code.data[i]? = some (.word w) → b2.code.data[i]? = some (.word w)

/-- The collaborators `checkType` and `insertVar` of the left-hand side append no
instruction and leave every encoded word in place (`checkType` may fill the reserved
slot of an unbound constant, `insertVar` defines the new variable). -/
structure Env.KeepsCode {σ : Type} (E : Env σ) : Prop where
  checkType : ∀ (t : Ty) (v : IValue) (b b2 : Builder),
    E.checkType t v b = some b2 → b.KeepsWords b2
  insertVar : ∀ (s s2 : σ) (b b2 : Builder) (name : String) (typ : Ty) (addr : VarRef),
    E.insertVar s b name typ = some (addr, s2, b2) → b.KeepsWords b2

/-- The word `w` is the store that `compileIdent(name, tok)` emits in the compiler
state `cx` for the entry `inv` of the inference stack: `inv` is on top of that stack,
the name denotes the variable `addr` (the one `findVar` finds, or the one `insertVar`
creates), `inv` passes `checkType` against the type of `addr`, and `w` is the word
that `StoreVar` (for an `*execVar`) or `Store` (for a `*stackVar`) appends for
`addr`. -/
def StoreOf {σ : Type} (E : Env σ) (tok : Nat) (name : String) (inv : IValue)
    (cx : BlockCtx σ) (w : Nat) : Prop :=
  ∃ (cx1 : BlockCtx σ) (addr : VarRef) (t : Ty) (out2 : Builder),
    inferGet cx.infer 1 = some inv ∧ lhsTarget E name tok inv cx = some (addr, cx1) ∧
    addr.getType cx1.out = some t ∧ E.checkType t inv cx1.out = some out2 ∧
    storeTarget E.L out2 addr = some (out2.emit (.word w))

/-- A run-time frame for the module variables `a` and `b` of `twoResultsCtx`: one
context with two empty slots, and the values 1 and 2 on the stack. -/
def twoValuesMachine : Machine :=
  { ctxs := [{ parent := none, base := 0, vars := [.nil, .nil] }], data := [.int 1, .int 2] }

/-! ## Concrete builder states -/

/-- The state reached from an empty builder over one function object by
`CallFunc(f)`, `DefineFunc(f)`, `EndFunc(f)` on the sample layout: one `CallFunc`
word at offset 0, recorded in the patch list of `f`, and `f` defined with index 0
of the fixed table. -/
def calledThenDefined : Builder :=
  { code := { data := [.word 1744830464], funs := [0], funvs := [],
              vm := { vlist := [], nestDepth := 0 } },
    scope := .code, funcs := [(0, 0)],
    finfos := [{ name := "f", funEntry := 1, funEnd := 1, ins := [], offs := [0], numOut := 0,
                 vm := { vlist := [], nestDepth := 1 }, nVariadic := 1 }],
    vars := [] }

/-- The state reached from an empty builder over one function object by
`Closure(g)`: one closure word at offset 0, recorded in the patch list of `g`, and
an empty function map. -/
def closureOnly : Builder :=
  { code := { data := [.word 1476395008], funs := [], funvs := [],
              vm := { vlist := [], nestDepth := 0 } },
    scope := .code, funcs := [],
    finfos := [{ name := "g", funEntry := 0, funEnd := 0, ins := [], offs := [0], numOut := 0,
                 vm := { vlist := [], nestDepth := 2 }, nVariadic := 0 }],
    vars := [] }

/-- A state with 65537 entries in the variadic table, the last of which is the
function object 0, called with arity 0 by the `CallFuncv` word at offset 0 and
defined with index 65536. -/
def indexOverflow : Builder :=
  { code := { data := [.word 1811939328], funs := [],
              funvs := List.replicate 65536 1 ++ [0],
              vm := { vlist := [], nestDepth := 0 } },
    scope := .code, funcs := [(0, 65536)],
    finfos := [{ name := "f", funEntry := 1, funEnd := 1, ins := [], offs := [0], numOut := 0,
                 vm := { vlist := [], nestDepth := 1 }, nVariadic := 2 },
               { name := "h", funEntry := 1, funEnd := 1, ins := [], offs := [], numOut := 0,
                 vm := { vlist := [], nestDepth := 1 }, nVariadic := 2 }],
    vars := [] }

/-! # Theorems -/

/-! ## Word arithmetic -/

theorem shl_or_eq_add (hi lo n : Nat) (h : lo < 2 ^ n) :
    (hi <<< n) ||| lo = hi * 2 ^ n + lo := by
  rw [Nat.shiftLeft_eq, Nat.mul_comm, ← Nat.mul_add_lt_is_or h]

theorem shl_or_shr (hi lo n : Nat) (h : lo < 2 ^ n) :
    ((hi <<< n) ||| lo) >>> n = hi := by
  rw [shl_or_eq_add hi lo n h, Nat.shiftRight_eq_div_pow]
  have hp : 0 < 2 ^ n := Nat.two_pow_pos n
  rw [Nat.add_comm, Nat.add_mul_div_right _ _ hp, Nat.div_eq_of_lt h, Nat.zero_add]

theorem shl_or_mask (hi lo n : Nat) (h : lo < 2 ^ n) :
    ((hi <<< n) ||| lo) &&& (2 ^ n - 1) = lo := by
  rw [shl_or_eq_add hi lo n h, Nat.and_pow_two_sub_one_eq_mod, Nat.add_comm,
    Nat.add_mul_mod_self_right, Nat.mod_eq_of_lt h]

theorem shl_or_lt (hi lo n m : Nat) (h : lo < 2 ^ n) (hh : hi < 2 ^ m) :
    (hi <<< n) ||| lo < 2 ^ (m + n) := by
  rw [shl_or_eq_add hi lo n h, Nat.pow_add]
  have : (hi + 1) * 2 ^ n ≤ 2 ^ m * 2 ^ n := Nat.mul_le_mul_right _ hh
  calc hi * 2 ^ n + lo < hi * 2 ^ n + 2 ^ n := by omega
    _ = (hi + 1) * 2 ^ n := by ring
    _ ≤ 2 ^ m * 2 ^ n := this

theorem shl32_eq (x n m : Nat) (hx : x < 2 ^ m) (hmn : m + n ≤ 32) :
    shl32 x n = x <<< n := by
  unfold shl32 u32
  apply Nat.mod_eq_of_lt
  rw [Nat.shiftLeft_eq]
  calc x * 2 ^ n < 2 ^ m * 2 ^ n := Nat.mul_lt_mul_of_pos_right hx (Nat.two_pow_pos n)
    _ = 2 ^ (m + n) := (Nat.pow_add 2 m n).symm
    _ ≤ 2 ^ 32 := Nat.pow_le_pow_right (by decide) hmn

theorem sampleLayout_wf : sampleLayout.WF :=
  ⟨by decide, by decide, by decide, by decide, by decide, by decide, by decide, by decide,
   by decide, by decide, by decide, by decide, by decide, by decide⟩

theorem Layout.WF.varOperand_lt {L : Layout} (hL : L.WF) (idx : Nat) :
    idx ≤ L.bitsOpVarOperand ↔ idx < 2 ^ L.bitsOpVarShift := by
  have hp : 0 < 2 ^ L.bitsOpVarShift := Nat.two_pow_pos _
  rw [hL.varOperand]; omega

theorem makeAddr_eq_some {L : Layout} (hL : L.WF) (scope idx : Nat)
    (hs : scope < 2 ^ L.bitsVarScope) (hi : idx ≤ L.bitsOpVarOperand) :
    makeAddr L scope idx = some ((scope <<< L.bitsOpVarShift) ||| idx) := by
  have h1 : (1 : Nat) <<< L.bitsVarScope = 2 ^ L.bitsVarScope := by
    rw [Nat.shiftLeft_eq, Nat.one_mul]
  have hle : L.bitsVarScope + L.bitsOpVarShift ≤ 32 := by
    have := hL.word; have := hL.varSplit; omega
  unfold makeAddr
  rw [h1, if_neg (by omega), shl32_eq scope _ _ hs hle]

/-! ## Scope-relative addresses -/

theorem makeAddr_eq_none_iff {L : Layout} (scope idx : Nat) :
    makeAddr L scope idx = none ↔ (scope ≥ 2 ^ L.bitsVarScope ∨ idx > L.bitsOpVarOperand) := by
  have h1 : (1 : Nat) <<< L.bitsVarScope = 2 ^ L.bitsVarScope := by
    rw [Nat.shiftLeft_eq, Nat.one_mul]
  unfold makeAddr
  rw [h1]
  split <;> simp_all

theorem makeAddr_some_inv {L : Layout} (hL : L.WF) {scope idx a : Nat}
    (h : makeAddr L scope idx = some a) :
    scope < 2 ^ L.bitsVarScope ∧ idx < 2 ^ L.bitsOpVarShift ∧
      a = (scope <<< L.bitsOpVarShift) ||| idx := by
  have hn : ¬ (scope ≥ 2 ^ L.bitsVarScope ∨ idx > L.bitsOpVarOperand) := by
    rw [← makeAddr_eq_none_iff]; rw [h]; simp
  have hs : scope < 2 ^ L.bitsVarScope := by omega
  have hi : idx ≤ L.bitsOpVarOperand := by omega
  rw [makeAddr_eq_some hL scope idx hs hi] at h
  exact ⟨hs, (hL.varOperand_lt idx).1 hi, (Option.some.inj h).symm⟩

theorem addr_lt_operand {L : Layout} (hL : L.WF) {scope idx : Nat}
    (hs : scope < 2 ^ L.bitsVarScope) (hi : idx < 2 ^ L.bitsOpVarShift) :
    (scope <<< L.bitsOpVarShift) ||| idx < 2 ^ L.bitsOpShift := by
  have := shl_or_lt scope idx L.bitsOpVarShift L.bitsVarScope hi hs
  rwa [hL.varSplit] at this

/-- C2: `makeAddr(scope, idx)` fails exactly when `scope >= 2^bitsVarScope` or
`idx > bitsOpVarOperand`; an address it returns fits the operand field (or-ing it
under any opcode leaves the opcode field as it was), unpacks to its inputs by
`a >> bitsOpVarShift` and `a & bitsOpVarOperand`, and is returned for no other pair
of inputs. -/
theorem makeAddr_pack_unpack (L : Layout) (hL : L.WF) (scope idx : Nat) :
    (makeAddr L scope idx = none ↔
        (scope ≥ 2 ^ L.bitsVarScope ∨ idx > L.bitsOpVarOperand)) ∧
    (∀ a, makeAddr L scope idx = some a →
        a ≤ L.bitsOperand ∧
        (∀ op, opOf L ((op <<< L.bitsOpShift) ||| a) = op) ∧
        a >>> L.bitsOpVarShift = scope ∧
        a &&& L.bitsOpVarOperand = idx ∧
        (∀ scope2 idx2, makeAddr L scope2 idx2 = some a → scope2 = scope ∧ idx2 = idx)) := by
  refine ⟨makeAddr_eq_none_iff scope idx, ?_⟩
  intro a ha
  obtain ⟨hs, hi, rfl⟩ := makeAddr_some_inv hL ha
  have hlt := addr_lt_operand hL hs hi
  have hp : 0 < 2 ^ L.bitsOpShift := Nat.two_pow_pos _
  refine ⟨by rw [hL.operand]; omega, fun op => shl_or_shr op _ _ hlt,
    shl_or_shr scope idx _ hi, by rw [hL.varOperand]; exact shl_or_mask scope idx _ hi, ?_⟩
  intro scope2 idx2 h2
  obtain ⟨_, hi2, e⟩ := makeAddr_some_inv hL h2
  constructor
  · have := shl_or_shr scope2 idx2 _ hi2
    rw [← e, shl_or_shr scope idx _ hi] at this
    exact this.symm
  · have := shl_or_mask scope2 idx2 _ hi2
    rw [← e, shl_or_mask scope idx _ hi] at this
    exact this.symm

/-- Witness for C2 on the sample layout: scope distance 2, slot 5. -/
theorem makeAddr_pack_unpack_witness :
    makeAddr sampleLayout 2 5 = some 2097157 ∧
      2097157 >>> sampleLayout.bitsOpVarShift = 2 ∧
      2097157 &&& sampleLayout.bitsOpVarOperand = 5 :=
  ⟨by decide,
   ((makeAddr_pack_unpack sampleLayout sampleLayout_wf 2 5).2 2097157 (by decide)).2.2.1,
   ((makeAddr_pack_unpack sampleLayout sampleLayout_wf 2 5).2 2097157 (by decide)).2.2.2.1⟩

/-! ## Variable access walks the parent chain -/

theorem getParentCtxLoop_ancestor (m : Machine) :
    ∀ (k a q : Nat), ancestor m k a = some q →
      getParentCtxLoop m (k + 1) (some a) = some (some q) := by
  intro k
  induction k with
  | zero =>
    intro a q h
    simp only [ancestor, Option.some.injEq] at h
    simp [getParentCtxLoop, h]
  | succ k ih =>
    intro a q h
    simp only [ancestor] at h
    cases hc : m.ctxs[a]? with
    | none => simp [hc] at h
    | some cx =>
      rw [hc] at h
      cases hp : cx.parent with
      | none => simp [hp] at h
      | some b =>
        simp only [hp] at h
        simp only [getParentCtxLoop, Machine.parentOf, hc, hp]
        exact ih b q h

theorem getParentCtx_ancestor (L : Layout) (m : Machine) (p q k idx : Nat)
    (hk : idx >>> L.bitsOpVarShift = k + 1) (h : ancestor m (k + 1) p = some q) :
    getParentCtx L m p idx = some (some q) := by
  simp only [ancestor] at h
  cases hc : m.ctxs[p]? with
  | none => simp [hc] at h
  | some cx =>
    rw [hc] at h
    cases hp : cx.parent with
    | none => simp [hp] at h
    | some b =>
      simp only [hp] at h
      simp only [getParentCtx, Machine.parentOf, hc, hp, hk]
      exact getParentCtxLoop_ancestor m k b q h

theorem operand_of_word {L : Layout} (hL : L.WF) (op a : Nat) (ha : a < 2 ^ L.bitsOpShift) :
    ((op <<< L.bitsOpShift) ||| a) &&& L.bitsOperand = a := by
  rw [hL.operand]; exact shl_or_mask op a _ ha

theorem Machine.getVar_setVar_of_ne (m m2 : Machine) (q s c j : Nat) (v : Value)
    (h : m.setVar q s v = some m2) (hne : c ≠ q ∨ j ≠ s) :
    m2.getVar c j = m.getVar c j := by
  unfold Machine.setVar at h
  cases hq : m.ctxs[q]? with
  | none => simp [hq] at h
  | some cx =>
    simp only [hq] at h
    split at h
    · cases h
      unfold Machine.getVar
      by_cases hc : c = q
      · subst hc
        have hj : j ≠ s := by
          cases hne with
          | inl h1 => exact absurd rfl h1
          | inr h2 => exact h2
        have hlt : c < m.ctxs.length := by
          rcases List.getElem?_eq_some.1 hq with ⟨hl, _⟩
          exact hl
        simp only [List.getElem?_set_self hlt, hq]
        exact List.getElem?_set_ne (Ne.symm hj)
      · simp only [List.getElem?_set_ne (Ne.symm hc)]
    · cases h

theorem Machine.pop_ctxs (m m1 : Machine) (v : Value) (h : m.pop = some (v, m1)) :
    m1.ctxs = m.ctxs := by
  unfold Machine.pop at h
  cases hl : m.data.getLast? with
  | none => simp [hl] at h
  | some w =>
    simp only [hl, Option.some.injEq, Prod.mk.injEq] at h
    rw [← h.2]

theorem execVar_accesses_kth_ancestor_aux (L : Layout) (hL : L.WF) (m : Machine)
    (op p q k s a : Nat) (ha : makeAddr L k s = some a)
    (hanc : ancestor m k p = some q) :
    execLoadVar L ((op <<< L.bitsOpShift) ||| a) p m = (m.getVar q s).map m.push ∧
    execAddrVar L ((op <<< L.bitsOpShift) ||| a) p m = (m.addrVar q s).map m.push ∧
    execStoreVar L ((op <<< L.bitsOpShift) ||| a) p m =
      m.pop.bind (fun r => r.2.setVar q s r.1) ∧
    (∀ m2, execStoreVar L ((op <<< L.bitsOpShift) ||| a) p m = some m2 →
      ∀ c j, (c ≠ q ∨ j ≠ s) → m2.getVar c j = m.getVar c j) := by
  obtain ⟨hs, hi, rfl⟩ := makeAddr_some_inv hL ha
  have hlt := addr_lt_operand hL hs hi
  have hopd := operand_of_word hL op _ hlt
  have hshr := shl_or_shr k s _ hi
  have hmask : ((k <<< L.bitsOpVarShift) ||| s) &&& L.bitsOpVarOperand = s := by
    rw [hL.varOperand]; exact shl_or_mask k s _ hi
  have hstore : execStoreVar L ((op <<< L.bitsOpShift) ||| ((k <<< L.bitsOpVarShift) ||| s)) p m =
      m.pop.bind (fun r => r.2.setVar q s r.1) := by
    cases k with
    | zero =>
      simp only [ancestor, Option.some.injEq] at hanc
      subst hanc
      have h0 : (0 <<< L.bitsOpVarShift) ||| s = s := by simp
      have hle : s ≤ L.bitsOpVarOperand := (hL.varOperand_lt s).2 hi
      rw [h0] at hopd
      simp only [h0, execStoreVar, hopd, if_pos hle]
      cases m.pop <;> rfl
    | succ k =>
      have hgt : ¬ ((k + 1) <<< L.bitsOpVarShift ||| s) ≤ L.bitsOpVarOperand := by
        rw [hL.varOperand_lt, shl_or_eq_add _ _ _ hi]
        have : 2 ^ L.bitsOpVarShift ≤ (k + 1) * 2 ^ L.bitsOpVarShift :=
          Nat.le_mul_of_pos_left _ (Nat.succ_pos k)
        omega
      simp only [execStoreVar, hopd, if_neg hgt,
        getParentCtx_ancestor L m p q k _ hshr hanc, hmask]
      cases m.pop <;> rfl
  refine ⟨?_, ?_, hstore, ?_⟩
  · cases k with
    | zero =>
      simp only [ancestor, Option.some.injEq] at hanc
      subst hanc
      have h0 : (0 <<< L.bitsOpVarShift) ||| s = s := by simp
      have hle : s ≤ L.bitsOpVarOperand := (hL.varOperand_lt s).2 hi
      rw [h0] at hopd
      simp only [h0, execLoadVar, hopd, if_pos hle]
    | succ k =>
      have hgt : ¬ ((k + 1) <<< L.bitsOpVarShift ||| s) ≤ L.bitsOpVarOperand := by
        rw [hL.varOperand_lt, shl_or_eq_add _ _ _ hi]
        have : 2 ^ L.bitsOpVarShift ≤ (k + 1) * 2 ^ L.bitsOpVarShift :=
          Nat.le_mul_of_pos_left _ (Nat.succ_pos k)
        omega
      simp only [execLoadVar, hopd, if_neg hgt,
        getParentCtx_ancestor L m p q k _ hshr hanc, hmask]
  · cases k with
    | zero =>
      simp only [ancestor, Option.some.injEq] at hanc
      subst hanc
      have h0 : (0 <<< L.bitsOpVarShift) ||| s = s := by simp
      have hle : s ≤ L.bitsOpVarOperand := (hL.varOperand_lt s).2 hi
      rw [h0] at hopd
      simp only [h0, execAddrVar, hopd, if_pos hle]
    | succ k =>
      have hgt : ¬ ((k + 1) <<< L.bitsOpVarShift ||| s) ≤ L.bitsOpVarOperand := by
        rw [hL.varOperand_lt, shl_or_eq_add _ _ _ hi]
        have : 2 ^ L.bitsOpVarShift ≤ (k + 1) * 2 ^ L.bitsOpVarShift :=
          Nat.le_mul_of_pos_left _ (Nat.succ_pos k)
        omega
      simp only [execAddrVar, hopd, if_neg hgt,
        getParentCtx_ancestor L m p q k _ hshr hanc, hmask]
  · intro m2 h2 c j hne
    rw [hstore] at h2
    cases hpop : m.pop with
    | none => simp [hpop] at h2
    | some r =>
      obtain ⟨v, m1⟩ := r
      simp only [hpop, Option.some_bind] at h2
      rw [Machine.getVar_setVar_of_ne m1 m2 q s c j v h2 hne]
      unfold Machine.getVar
      rw [Machine.pop_ctxs m m1 v hpop]

/-- C3: a variable-access word whose operand is the address of scope distance `k`
and slot `s`, executed in context `p` whose parent chain has at least `k` links,
accesses slot `s` of the context `q` reached from `p` by following the parent link
exactly `k` times (`q = p` for `k = 0`): the load pushes `q`'s slot `s`, the
address instruction pushes a pointer to it, the store pops the top value into it,
and a store leaves every other slot of every context as it was. -/
theorem execVar_accesses_kth_ancestor (L : Layout) (hL : L.WF) (m : Machine)
    (op p q k s a : Nat) (ha : makeAddr L k s = some a)
    (hanc : ancestor m k p = some q) :
    execLoadVar L ((op <<< L.bitsOpShift) ||| a) p m = (m.getVar q s).map m.push ∧
    execAddrVar L ((op <<< L.bitsOpShift) ||| a) p m = (m.addrVar q s).map m.push ∧
    execStoreVar L ((op <<< L.bitsOpShift) ||| a) p m =
      m.pop.bind (fun r => r.2.setVar q s r.1) ∧
    (∀ m2, execStoreVar L ((op <<< L.bitsOpShift) ||| a) p m = some m2 →
      ∀ c j, (c ≠ q ∨ j ≠ s) → m2.getVar c j = m.getVar c j) :=
  execVar_accesses_kth_ancestor_aux L hL m op p q k s a ha hanc

/-- Witness for C3: one parent link, slot 0 of the parent holds 7. -/
theorem execVar_accesses_kth_ancestor_witness :
    makeAddr sampleLayout 1 0 = some 1048576 ∧
    ancestor ⟨[⟨none, 0, [Value.int 7]⟩, ⟨some 0, 1, []⟩], []⟩ 1 1 = some 0 ∧
    execLoadVar sampleLayout ((30 <<< sampleLayout.bitsOpShift) ||| 1048576) 1
        ⟨[⟨none, 0, [Value.int 7]⟩, ⟨some 0, 1, []⟩], []⟩ =
      (Machine.getVar ⟨[⟨none, 0, [Value.int 7]⟩, ⟨some 0, 1, []⟩], []⟩ 0 0).map
        (Machine.push ⟨[⟨none, 0, [Value.int 7]⟩, ⟨some 0, 1, []⟩], []⟩) :=
  ⟨by decide, by decide,
   (execVar_accesses_kth_ancestor sampleLayout sampleLayout_wf
      ⟨[⟨none, 0, [Value.int 7]⟩, ⟨some 0, 1, []⟩], []⟩ 30 1 0 1 0 1048576
      (by decide) (by decide)).1⟩

/-! ## Variadic arity encoding -/

theorem u32OfInt_of_lt (x : Int) (h0 : 0 ≤ x) (h1 : x < 2 ^ 32) : u32OfInt x = x.toNat := by
  unfold u32OfInt
  rw [Int.emod_eq_of_lt h0 h1]

theorem u32OfInt_natCast (n : Nat) (h : n < 2 ^ 32) : u32OfInt (n : Int) = n := by
  rw [u32OfInt_of_lt _ (Int.natCast_nonneg n) (by exact_mod_cast h)]
  simp

theorem Layout.WF.arityMax_succ {L : Layout} (hL : L.WF) :
    L.bitsFuncvArityMax + 2 = 2 ^ L.bitsFuncvArity ∧
      L.bitsFuncvArityVar = L.bitsFuncvArityMax + 1 := by
  have h2 : 2 ^ 1 ≤ 2 ^ L.bitsFuncvArity := Nat.pow_le_pow_right (by decide) hL.arityPos
  have := hL.arityOperand; have := hL.arityVar; have := hL.arityMax
  omega

theorem Layout.WF.pow_le {L : Layout} (hL : L.WF) :
    2 ^ L.bitsFuncvArity ≤ 2 ^ 32 ∧ 2 ^ L.bitsOpCallFuncvShift ≤ 2 ^ 32 ∧
      2 ^ L.bitsOpShift ≤ 2 ^ 32 := by
  have := hL.word; have := hL.funcvSplit
  exact ⟨Nat.pow_le_pow_right (by decide) (by omega),
    Nat.pow_le_pow_right (by decide) (by omega), Nat.pow_le_pow_right (by decide) (by omega)⟩

/-- The fields of a variadic call word: opcode, arity and function index. -/
theorem funcv_word_fields {L : Layout} (hL : L.WF) (op a pos : Nat)
    (ha : a < 2 ^ L.bitsFuncvArity) (hp : pos < 2 ^ L.bitsOpCallFuncvShift) :
    arityOf L (((op <<< L.bitsOpShift) ||| shl32 a L.bitsOpCallFuncvShift) ||| pos) = a ∧
    (((op <<< L.bitsOpShift) ||| shl32 a L.bitsOpCallFuncvShift) ||| pos) &&&
        L.bitsOpCallFuncvOperand = pos ∧
    opOf L (((op <<< L.bitsOpShift) ||| shl32 a L.bitsOpCallFuncvShift) ||| pos) = op := by
  have hle : L.bitsFuncvArity + L.bitsOpCallFuncvShift ≤ 32 := by
    have := hL.word; have := hL.funcvSplit; omega
  rw [shl32_eq a _ _ ha hle, Nat.lor_assoc]
  have hin : (a <<< L.bitsOpCallFuncvShift) ||| pos < 2 ^ L.bitsOpShift := by
    have := shl_or_lt a pos _ _ hp ha
    rwa [hL.funcvSplit] at this
  refine ⟨?_, ?_, shl_or_shr op _ _ hin⟩
  · unfold arityOf
    rw [shl_or_eq_add op _ _ hin, shl_or_eq_add a pos _ hp, hL.arityOperand,
      Nat.and_pow_two_sub_one_eq_mod, Nat.shiftRight_eq_div_pow, ← hL.funcvSplit, Nat.pow_add]
    have hpos : 0 < 2 ^ L.bitsOpCallFuncvShift := Nat.two_pow_pos _
    have e : op * (2 ^ L.bitsFuncvArity * 2 ^ L.bitsOpCallFuncvShift) +
        (a * 2 ^ L.bitsOpCallFuncvShift + pos) =
        pos + (op * 2 ^ L.bitsFuncvArity + a) * 2 ^ L.bitsOpCallFuncvShift := by ring
    rw [e, Nat.add_mul_div_right _ _ hpos, Nat.div_eq_of_lt hp, Nat.zero_add,
      Nat.add_comm, Nat.add_mul_mod_self_right, Nat.mod_eq_of_lt ha]
  · rw [shl_or_eq_add op _ _ hin, shl_or_eq_add a pos _ hp, hL.funcvOperand,
      Nat.and_pow_two_sub_one_eq_mod, ← hL.funcvSplit, Nat.pow_add]
    have e : op * (2 ^ L.bitsFuncvArity * 2 ^ L.bitsOpCallFuncvShift) +
        (a * 2 ^ L.bitsOpCallFuncvShift + pos) =
        pos + (op * 2 ^ L.bitsFuncvArity + a) * 2 ^ L.bitsOpCallFuncvShift := by ring
    rw [e, Nat.add_mul_mod_self_right, Nat.mod_eq_of_lt hp]


theorem Builder.funcvArity_neg (L : Layout) (b : Builder) (a : Int) (h : a < 0) :
    b.funcvArity L a = (b, (L.bitsFuncvArityVar : Int)) := by
  unfold Builder.funcvArity; rw [if_pos h]

theorem Builder.funcvArity_small (L : Layout) (b : Builder) (a : Int) (h0 : 0 ≤ a)
    (h : a < (L.bitsFuncvArityMax : Int)) : b.funcvArity L a = (b, a) := by
  unfold Builder.funcvArity; rw [if_neg (by omega), if_neg (by omega)]

theorem Builder.funcvArity_large (L : Layout) (b : Builder) (a : Int)
    (h : (L.bitsFuncvArityMax : Int) ≤ a) :
    b.funcvArity L a =
      (b.Push (.int (a - (L.bitsFuncvArityMax : Int))), (L.bitsFuncvArityMax : Int)) := by
  unfold Builder.funcvArity
  have : (0 : Int) ≤ (L.bitsFuncvArityMax : Int) := Int.natCast_nonneg _
  rw [if_neg (by omega), if_pos (by omega)]

theorem Builder.CallFuncv_data (L : Layout) (b : Builder) (fn : Nat) (a : Int) (f : FuncInfo)
    (hf : b.finfos[fn]? = some f)
    (hv : f.nVariadic = 0 ∨ f.nVariadic = nVariadicVariadicArgs) :
    ∃ b2, b.CallFuncv L fn a = some b2 ∧
      b2.code.data = (b.funcvArity L a).1.code.data ++
        [.word ((L.opCallFuncv <<< L.bitsOpShift) |||
          shl32 (u32OfInt (b.funcvArity L a).2) L.bitsOpCallFuncvShift)] := by
  have hlt : fn < b.finfos.length := (List.getElem?_eq_some.1 hf).1
  have hsv : ∃ f1, f.setVariadic nVariadicVariadicArgs = some f1 := by
    unfold FuncInfo.setVariadic
    rcases hv with h | h
    · exact ⟨_, by rw [if_pos h]⟩
    · refine ⟨f, ?_⟩
      rw [if_neg (by rw [h]; decide), if_neg (by simp [h])]
  obtain ⟨f1, hf1⟩ := hsv
  unfold Builder.CallFuncv Builder.setVariadic
  simp only [hf, hf1]
  unfold Builder.funcvArity Builder.noteFunc Builder.recordOff
  split_ifs <;> split <;>
    simp [Builder.Push, Builder.emit, List.getElem?_set_self hlt]

theorem Builder.CallGoFuncv_data (L : Layout) (b : Builder) (addr : Nat) (a : Int) :
    (b.CallGoFuncv L addr a).code.data = (b.funcvArity L a).1.code.data ++
      [.word ((L.opCallGoFuncv <<< L.bitsOpShift) |||
        shl32 (u32OfInt (b.funcvArity L a).2) L.bitsOpCallFuncvShift ||| u32 addr)] := by
  simp [Builder.CallGoFuncv, Builder.emit]

theorem Machine.pop_push (m : Machine) (v : Value) : (m.push v).pop = some (v, m) := by
  cases m
  simp [Machine.push, Machine.pop]

theorem execFuncvArity_field (L : Layout) (hL : L.WF) (w : Nat) (m : Machine)
    (h : arityOf L w < L.bitsFuncvArityMax) :
    execFuncvArity L w m = some (some (arityOf L w), m) := by
  have hv := hL.arityMax_succ.2
  unfold execFuncvArity
  unfold arityOf at h
  simp only
  rw [if_neg (by omega), if_neg (by omega)]
  rfl

theorem execFuncvArity_max (L : Layout) (hL : L.WF) (w : Nat) (m : Machine) (n : Int)
    (h : arityOf L w = L.bitsFuncvArityMax) :
    execFuncvArity L w (execPush (.int n) m) =
      some (some (u32OfInt (n + (L.bitsFuncvArityMax : Int))), m) := by
  have hv := hL.arityMax_succ.2
  unfold execFuncvArity execPush
  unfold arityOf at h
  simp only [h, Machine.pop_push]
  rw [if_neg (by omega), if_pos trivial]

theorem execGoFuncvArity_field (L : Layout) (hL : L.WF) (gofunvs : List GoFuncvInfo)
    (g : GoFuncvInfo) (w : Nat) (m : Machine)
    (hg : gofunvs[w &&& L.bitsOpCallFuncvOperand]? = some g)
    (h : arityOf L w < L.bitsFuncvArityMax) :
    execGoFuncvArity L gofunvs w m = some (arityOf L w, m) := by
  have hv := hL.arityMax_succ.2
  unfold execGoFuncvArity
  unfold arityOf at h
  simp only [hg]
  rw [if_neg (by omega), if_neg (by omega)]
  rfl

theorem execGoFuncvArity_max (L : Layout) (hL : L.WF) (gofunvs : List GoFuncvInfo)
    (g : GoFuncvInfo) (w : Nat) (m : Machine) (n : Int)
    (hg : gofunvs[w &&& L.bitsOpCallFuncvOperand]? = some g)
    (h : arityOf L w = L.bitsFuncvArityMax) :
    execGoFuncvArity L gofunvs w (execPush (.int n) m) =
      some (u32OfInt (n + (L.bitsFuncvArityMax : Int)), m) := by
  have hv := hL.arityMax_succ.2
  unfold execGoFuncvArity execPush
  unfold arityOf at h
  simp only [hg, h, Machine.pop_push]
  rw [if_neg (by omega), if_pos trivial]


/-- C1 (amended): for every arity `a`, `CallFuncv(fun, a)` and `CallGoFuncv(addr, a)`
(`addr` within the function-index field) append one call word, preceded by one
`Push(a - bitsFuncvArityMax)` exactly when `a >= bitsFuncvArityMax`.  The arity field
of the word is `bitsFuncvArityVar` for `a < 0`, `a` for `0 <= a < bitsFuncvArityMax`
and `bitsFuncvArityMax` for `a >= bitsFuncvArityMax`, so the spread sentinel is used
only for `a < 0`.  For `0 <= a < 2^32` the run-time dispatch of `execFuncv` (on the
word with any function index patched in) and of `execGoFuncv` recovers exactly `a`,
popping the pushed operand when the field holds `bitsFuncvArityMax`. -/
theorem funcv_arity_roundtrip (L : Layout) (hL : L.WF) (b : Builder) (a : Int) (m : Machine)
    (fn : Nat) (f : FuncInfo) (hf : b.finfos[fn]? = some f)
    (hv : f.nVariadic = 0 ∨ f.nVariadic = nVariadicVariadicArgs)
    (gofunvs : List GoFuncvInfo) (addr : Nat) (g : GoFuncvInfo)
    (hg : gofunvs[addr]? = some g) (haddr : addr ≤ L.bitsOpCallFuncvOperand) :
    ∃ b2 w wg, b.CallFuncv L fn a = some b2 ∧
      (a < 0 →
        b2.code.data = b.code.data ++ [.word w] ∧
        (b.CallGoFuncv L addr a).code.data = b.code.data ++ [.word wg] ∧
        arityOf L w = L.bitsFuncvArityVar ∧ arityOf L wg = L.bitsFuncvArityVar) ∧
      (0 ≤ a → a < (L.bitsFuncvArityMax : Int) →
        b2.code.data = b.code.data ++ [.word w] ∧
        (b.CallGoFuncv L addr a).code.data = b.code.data ++ [.word wg] ∧
        arityOf L w = a.toNat ∧ arityOf L wg = a.toNat ∧
        (∀ pos, pos ≤ L.bitsOpCallFuncvOperand →
          execFuncvArity L (w ||| pos) m = some (some a.toNat, m)) ∧
        execGoFuncvArity L gofunvs wg m = some (a.toNat, m)) ∧
      ((L.bitsFuncvArityMax : Int) ≤ a →
        b2.code.data =
          b.code.data ++ [.push (.int (a - (L.bitsFuncvArityMax : Int))), .word w] ∧
        (b.CallGoFuncv L addr a).code.data =
          b.code.data ++ [.push (.int (a - (L.bitsFuncvArityMax : Int))), .word wg] ∧
        arityOf L w = L.bitsFuncvArityMax ∧ arityOf L wg = L.bitsFuncvArityMax ∧
        (a < 2 ^ 32 →
          (∀ pos, pos ≤ L.bitsOpCallFuncvOperand →
            execFuncvArity L (w ||| pos)
              (execPush (.int (a - (L.bitsFuncvArityMax : Int))) m) = some (some a.toNat, m)) ∧
          execGoFuncvArity L gofunvs wg
            (execPush (.int (a - (L.bitsFuncvArityMax : Int))) m) = some (a.toNat, m))) := by
  obtain ⟨b2, hb2, hdata⟩ := Builder.CallFuncv_data L b fn a f hf hv
  have hgdata := Builder.CallGoFuncv_data L b addr a
  have hmax := hL.arityMax_succ
  have hpw := hL.pow_le
  have hshift : 0 < 2 ^ L.bitsOpCallFuncvShift := Nat.two_pow_pos _
  have haddr2 : addr < 2 ^ L.bitsOpCallFuncvShift := by
    have := hL.funcvOperand; omega
  have hu : u32 addr = addr := by
    unfold u32; exact Nat.mod_eq_of_lt (by omega)
  have hposlt : ∀ pos, pos ≤ L.bitsOpCallFuncvOperand → pos < 2 ^ L.bitsOpCallFuncvShift := by
    intro pos hp; have := hL.funcvOperand; omega
  have hmaxlt : L.bitsFuncvArityMax < 2 ^ L.bitsFuncvArity := by omega
  have hvarlt : L.bitsFuncvArityVar < 2 ^ L.bitsFuncvArity := by omega
  refine ⟨b2, (L.opCallFuncv <<< L.bitsOpShift) |||
      shl32 (u32OfInt (b.funcvArity L a).2) L.bitsOpCallFuncvShift,
    (L.opCallGoFuncv <<< L.bitsOpShift) |||
      shl32 (u32OfInt (b.funcvArity L a).2) L.bitsOpCallFuncvShift ||| u32 addr,
    hb2, ?_, ?_, ?_⟩
  · intro hneg
    rw [Builder.funcvArity_neg L b a hneg] at hdata hgdata ⊢
    simp only at hdata hgdata ⊢
    rw [u32OfInt_natCast _ (by omega), hu]
    rw [u32OfInt_natCast _ (by omega)] at hdata
    rw [u32OfInt_natCast _ (by omega), hu] at hgdata
    have h0 := (funcv_word_fields hL L.opCallFuncv L.bitsFuncvArityVar 0 hvarlt hshift).1
    rw [Nat.or_zero] at h0
    exact ⟨hdata, hgdata, h0,
      (funcv_word_fields hL L.opCallGoFuncv L.bitsFuncvArityVar addr hvarlt haddr2).1⟩
  · intro h0 hlt
    have hcast : ((a.toNat : Nat) : Int) = a := Int.toNat_of_nonneg h0
    have hnat : a.toNat < L.bitsFuncvArityMax := by omega
    have hu2 : u32OfInt a = a.toNat := by
      have h1 : (L.bitsFuncvArityMax : Int) < 2 ^ 32 := by
        exact_mod_cast (by omega : L.bitsFuncvArityMax < 2 ^ 32)
      exact u32OfInt_of_lt a h0 (by omega)
    rw [Builder.funcvArity_small L b a h0 hlt] at hdata hgdata ⊢
    simp only at hdata hgdata ⊢
    rw [hu2, hu]
    rw [hu2] at hdata
    rw [hu2, hu] at hgdata
    have hfw := fun pos hp => funcv_word_fields hL L.opCallFuncv a.toNat pos (by omega) hp
    have hfg := funcv_word_fields hL L.opCallGoFuncv a.toNat addr (by omega) haddr2
    have h00 := (hfw 0 hshift).1
    rw [Nat.or_zero] at h00
    refine ⟨hdata, hgdata, h00, hfg.1, ?_, ?_⟩
    · intro pos hp
      have := execFuncvArity_field L hL _ m
        (by rw [(hfw pos (hposlt pos hp)).1]; exact hnat)
      rw [this, (hfw pos (hposlt pos hp)).1]
    · have := execGoFuncvArity_field L hL gofunvs g _ m (by rw [hfg.2.1]; exact hg)
        (by rw [hfg.1]; exact hnat)
      rw [this, hfg.1]
  · intro hge
    rw [Builder.funcvArity_large L b a hge] at hdata hgdata ⊢
    simp only at hdata hgdata ⊢
    rw [u32OfInt_natCast _ (by omega), hu]
    rw [u32OfInt_natCast _ (by omega)] at hdata
    rw [u32OfInt_natCast _ (by omega), hu] at hgdata
    have hfw := fun pos hp =>
      funcv_word_fields hL L.opCallFuncv L.bitsFuncvArityMax pos hmaxlt hp
    have hfg := funcv_word_fields hL L.opCallGoFuncv L.bitsFuncvArityMax addr hmaxlt haddr2
    have h00 := (hfw 0 hshift).1
    rw [Nat.or_zero] at h00
    refine ⟨by simpa [Builder.Push, Builder.emit] using hdata,
      by simpa [Builder.Push, Builder.emit] using hgdata, h00, hfg.1, ?_⟩
    intro h32
    have h0 : 0 ≤ a := le_trans (Int.natCast_nonneg _) hge
    have hsum : a - (L.bitsFuncvArityMax : Int) + (L.bitsFuncvArityMax : Int) = a := by ring
    constructor
    · intro pos hp
      rw [execFuncvArity_max L hL _ m _ (hfw pos (hposlt pos hp)).1, hsum,
        u32OfInt_of_lt a h0 h32]
    · rw [execGoFuncvArity_max L hL gofunvs g _ m _ (by rw [hfg.2.1]; exact hg) hfg.1, hsum,
        u32OfInt_of_lt a h0 h32]


/-- Witness for C1: arity 3 on the sample layout, one script function and one
registered variadic Go function. -/
theorem funcv_arity_roundtrip_witness :
    (Builder.init [NewFunc "f" 1] []).finfos[0]? = some (NewFunc "f" 1) ∧
    [GoFuncvInfo.mk "g" 1][0]? = some (GoFuncvInfo.mk "g" 1) ∧
    ∃ b2 w, Builder.CallFuncv sampleLayout (Builder.init [NewFunc "f" 1] []) 0 3 = some b2 ∧
      b2.code.data = [Instr.word w] ∧ arityOf sampleLayout w = 3 ∧
      execFuncvArity sampleLayout w ⟨[], []⟩ = some (some 3, ⟨[], []⟩) :=
  ⟨rfl, rfl,
   match funcv_arity_roundtrip sampleLayout sampleLayout_wf (Builder.init [NewFunc "f" 1] [])
      3 ⟨[], []⟩ 0 (NewFunc "f" 1) rfl (Or.inl rfl) [GoFuncvInfo.mk "g" 1] 0
      (GoFuncvInfo.mk "g" 1) rfl (by decide) with
   | ⟨b2, w, _, hb, _, h, _⟩ =>
     ⟨b2, w, hb, (h (by decide) (by decide)).1, (h (by decide) (by decide)).2.2.1,
      by simpa using (h (by decide) (by decide)).2.2.2.2.1 0 (by decide)⟩⟩

/-- Counterexample for C1 as stated: at arity `2^32` the operand `2^32 - 1022` is
pushed and the field holds `bitsFuncvArityMax`, but the dispatch of `execFuncv` and
of `execGoFuncv` converts the sum to `uint32` and obtains arity 0; and for the Go
function address `2^16`, which does not fit the function-index field, the word
emitted for arity 0 decodes to arity 1. -/
theorem funcv_arity_roundtrip_fails :
    (∃ b2, Builder.CallFuncv sampleLayout (Builder.init [NewFunc "f" 1] []) 0 4294967296 =
        some b2 ∧
      b2.code.data = [Instr.push (.int 4294966274), Instr.word 1878917120] ∧
      execFuncvArity sampleLayout 1878917120 (execPush (.int 4294966274) ⟨[], []⟩) =
        some (some 0, ⟨[], []⟩)) ∧
    (Builder.CallGoFuncv sampleLayout (Builder.init [] []) 0 4294967296).code.data =
      [Instr.push (.int 4294966274), Instr.word 872284160] ∧
    execGoFuncvArity sampleLayout [GoFuncvInfo.mk "g" 1] 872284160
      (execPush (.int 4294966274) ⟨[], []⟩) = some (0, ⟨[], []⟩) ∧
    (Builder.CallGoFuncv sampleLayout (Builder.init [] []) 65536 0).code.data =
      [Instr.word 805371904] ∧
    arityOf sampleLayout 805371904 = 1 :=
  ⟨⟨_, rfl, rfl, rfl⟩, rfl, rfl, rfl, rfl⟩


/-! ## Compile-time addresses agree with run-time frames -/

theorem sub32_of_le (d dv : Nat) (h : dv ≤ d) (hd : d < 2 ^ 32) : sub32 d dv = d - dv := by
  unfold sub32
  rw [Nat.mod_eq_of_lt (by omega : dv < 2 ^ 32)]
  have : d + 2 ^ 32 - dv = (d - dv) + 2 ^ 32 := by omega
  rw [this, Nat.add_mod_right, Nat.mod_eq_of_lt (by omega)]

theorem sub32_of_gt (d dv : Nat) (h : d < dv) (hdv : dv < 2 ^ 32) :
    sub32 d dv = 2 ^ 32 - (dv - d) := by
  unfold sub32
  rw [Nat.mod_eq_of_lt hdv]
  have : d + 2 ^ 32 - dv = 2 ^ 32 - (dv - d) := by omega
  rw [this, Nat.mod_eq_of_lt (by omega)]

theorem ancestor_depth (m : Machine) :
    ∀ (k fuel p d : Nat), getNestDepth m fuel p = some d → k ≤ d →
      ∃ q, ancestor m k p = some q ∧ getNestDepth m (fuel - k) q = some (d - k) := by
  intro k
  induction k with
  | zero => intro fuel p d h _; exact ⟨p, rfl, by simpa using h⟩
  | succ k ih =>
    intro fuel p d h hk
    cases fuel with
    | zero => simp [getNestDepth] at h
    | succ fuel =>
      simp only [getNestDepth] at h
      cases hc : m.ctxs[p]? with
      | none => simp [hc] at h
      | some cx =>
        rw [hc] at h
        cases hp : cx.parent with
        | none =>
          simp only [hp, Option.some.injEq] at h
          omega
        | some q1 =>
          simp only [hp] at h
          cases hg : getNestDepth m fuel q1 with
          | none => simp [hg] at h
          | some d1 =>
          have hd1 := hg
          have hdd : d1 + 1 = d := by simpa [hg] using h
          obtain ⟨q, hq, hq2⟩ := ih fuel q1 d1 hd1 (by omega)
          refine ⟨q, ?_, ?_⟩
          · simp only [ancestor, hc, hp]; exact hq
          · have e1 : fuel + 1 - (k + 1) = fuel - k := by omega
            have e2 : d - (k + 1) = d1 - k := by omega
            rw [e1, e2]; exact hq2

theorem Builder.varAddr_eq (L : Layout) (b : Builder) (v d : Nat) (x : Var)
    (hd : b.nestDepth = some d) (hx : b.vars[v]? = some x) :
    b.varAddr L v = makeAddr L (sub32 d x.nestDepth) x.idx := by
  unfold Builder.varAddr
  rw [hd, hx]

/-- C4 (amended): for a variable with the assigned address `(dv, s)`
(`s <= bitsOpVarOperand`) and a builder at nest depth `d` with
`0 <= d - dv < 2^bitsVarScope`, `LoadVar`, `StoreVar` and `AddrVar` append one word
whose operand unpacks to scope distance `d - dv` and slot `s`; executed in a frame
at depth `d` the word accesses slot `s` of the ancestor frame at depth `dv`.  The
emitters fail for a variable without an assigned address (as every variable is
when `NewVar` returns it), and for a variable declared deeper than the builder's scope by at most `2^32 - 2^bitsVarScope`
levels. -/
theorem varEmit_address_consistent (L : Layout) (hL : L.WF) (b : Builder) (v d : Nat) (x : Var)
    (hd : b.nestDepth = some d) (hx : b.vars[v]? = some x)
    (hd32 : d < 2 ^ 32) (hdv32 : x.nestDepth < 2 ^ 32) :
    (x.idx ≤ L.bitsOpVarOperand → x.nestDepth ≤ d → d - x.nestDepth < 2 ^ L.bitsVarScope →
      ∃ a, a >>> L.bitsOpVarShift = d - x.nestDepth ∧ a &&& L.bitsOpVarOperand = x.idx ∧
        b.LoadVar L v = some (b.emit (.word ((L.opLoadVar <<< L.bitsOpShift) ||| a))) ∧
        b.StoreVar L v = some (b.emit (.word ((L.opStoreVar <<< L.bitsOpShift) ||| a))) ∧
        b.AddrVar L v = some (b.emit (.word ((L.opAddrVar <<< L.bitsOpShift) ||| a))) ∧
        (∀ op, ((op <<< L.bitsOpShift) ||| a) &&& L.bitsOperand = a) ∧
        ∀ (m : Machine) (fuel p : Nat), getNestDepth m fuel p = some d →
          ∃ q, ancestor m (d - x.nestDepth) p = some q ∧
            getNestDepth m (fuel - (d - x.nestDepth)) q = some x.nestDepth ∧
            execLoadVar L ((L.opLoadVar <<< L.bitsOpShift) ||| a) p m =
              (m.getVar q x.idx).map m.push ∧
            execStoreVar L ((L.opStoreVar <<< L.bitsOpShift) ||| a) p m =
              m.pop.bind (fun r => r.2.setVar q x.idx r.1) ∧
            execAddrVar L ((L.opAddrVar <<< L.bitsOpShift) ||| a) p m =
              (m.addrVar q x.idx).map m.push) ∧
    (x.idx > L.bitsOpVarOperand →
      b.LoadVar L v = none ∧ b.StoreVar L v = none ∧ b.AddrVar L v = none) ∧
    (d < x.nestDepth → x.nestDepth - d ≤ 2 ^ 32 - 2 ^ L.bitsVarScope →
      b.LoadVar L v = none ∧ b.StoreVar L v = none ∧ b.AddrVar L v = none) ∧
    (∀ typ name, (NewVar typ name).idx > L.bitsOpVarOperand) := by
  have hva := Builder.varAddr_eq L b v d x hd hx
  refine ⟨?_, ?_, ?_, ?_⟩
  rotate_right
  · intro typ name
    have h1 : 2 ^ L.bitsOpVarShift ≤ 2 ^ 31 := by
      apply Nat.pow_le_pow_right (by decide)
      have := hL.word; have := hL.varSplit; have := hL.opBits; omega
    have h2 := hL.varOperand
    show 4294967295 > L.bitsOpVarOperand
    omega
  · intro hs hle hsc
    rw [sub32_of_le d x.nestDepth hle hd32] at hva
    have hsome := makeAddr_eq_some hL (d - x.nestDepth) x.idx hsc hs
    have hi := (hL.varOperand_lt x.idx).1 hs
    have hlt := addr_lt_operand hL hsc hi
    have hu : u32 ((d - x.nestDepth) <<< L.bitsOpVarShift ||| x.idx) =
        (d - x.nestDepth) <<< L.bitsOpVarShift ||| x.idx := by
      unfold u32
      exact Nat.mod_eq_of_lt (lt_of_lt_of_le hlt hL.pow_le.2.2)
    refine ⟨(d - x.nestDepth) <<< L.bitsOpVarShift ||| x.idx, shl_or_shr _ _ _ hi,
      by rw [hL.varOperand]; exact shl_or_mask _ _ _ hi, ?_, ?_, ?_,
      fun op => operand_of_word hL op _ hlt, ?_⟩
    · simp [Builder.LoadVar, hva, hsome, Builder.loadVar, hu]
    · simp [Builder.StoreVar, hva, hsome, Builder.storeVar, hu]
    · simp [Builder.AddrVar, hva, hsome, Builder.addrVar, hu]
    · intro m fuel p hdep
      obtain ⟨q, hq, hq2⟩ := ancestor_depth m (d - x.nestDepth) fuel p d hdep (by omega)
      have hacc := fun op =>
        execVar_accesses_kth_ancestor_aux L hL m op p q (d - x.nestDepth) x.idx _ hsome hq
      have e : d - (d - x.nestDepth) = x.nestDepth := by omega
      rw [e] at hq2
      exact ⟨q, hq, hq2, (hacc _).1, (hacc _).2.2.1, (hacc _).2.1⟩
  · intro hbig
    have hnone : makeAddr L (sub32 d x.nestDepth) x.idx = none :=
      (makeAddr_eq_none_iff _ _).2 (Or.inr hbig)
    simp [Builder.LoadVar, Builder.StoreVar, Builder.AddrVar, hva, hnone]
  · intro hgt hdiff
    have hnone : makeAddr L (sub32 d x.nestDepth) x.idx = none := by
      apply (makeAddr_eq_none_iff _ _).2
      left
      rw [sub32_of_gt d x.nestDepth hgt hdv32]
      have : 2 ^ L.bitsVarScope ≤ 2 ^ 32 := by
        apply Nat.pow_le_pow_right (by decide)
        have := hL.word; have := hL.varSplit; omega
      omega
    simp [Builder.LoadVar, Builder.StoreVar, Builder.AddrVar, hva, hnone]


/-- Witness for C4: a module-level variable with slot 3, loaded at module scope. -/
theorem varEmit_address_consistent_witness :
    (Builder.init [] [⟨Ty.named 2 "" "int" [], "Qx", 0, 3⟩]).nestDepth = some 0 ∧
    (Builder.init [] [⟨Ty.named 2 "" "int" [], "Qx", 0, 3⟩]).vars[0]? =
      some ⟨Ty.named 2 "" "int" [], "Qx", 0, 3⟩ ∧
    ∃ a, a >>> sampleLayout.bitsOpVarShift = 0 ∧ a &&& sampleLayout.bitsOpVarOperand = 3 ∧
      (Builder.init [] [⟨Ty.named 2 "" "int" [], "Qx", 0, 3⟩]).LoadVar sampleLayout 0 =
        some ((Builder.init [] [⟨Ty.named 2 "" "int" [], "Qx", 0, 3⟩]).emit
          (.word ((sampleLayout.opLoadVar <<< sampleLayout.bitsOpShift) ||| a))) :=
  ⟨rfl, rfl,
   match (varEmit_address_consistent sampleLayout sampleLayout_wf
      (Builder.init [] [⟨Ty.named 2 "" "int" [], "Qx", 0, 3⟩]) 0 0
      ⟨Ty.named 2 "" "int" [], "Qx", 0, 3⟩ rfl rfl (by decide) (by decide)).1
      (by decide) (by decide) (by decide) with
   | ⟨a, h1, h2, h3, _⟩ => ⟨a, h1, h2, h3⟩⟩

/-- Counterexample for C4 as stated: a variable declared at nest depth `2^32 - 1`
is deeper than a builder at depth 0, yet the `uint32` difference wraps to 1 and
`LoadVar`, `StoreVar` and `AddrVar` succeed, emitting scope distance 1. -/
theorem varEmit_deeper_wraps :
    (Builder.init [] [⟨Ty.named 2 "" "int" [], "Qx", 4294967295, 0⟩]).nestDepth = some 0 ∧
    (Builder.init [] [⟨Ty.named 2 "" "int" [], "Qx", 4294967295, 0⟩]).LoadVar sampleLayout 0 =
      some ((Builder.init [] [⟨Ty.named 2 "" "int" [], "Qx", 4294967295, 0⟩]).emit
        (.word 2014314496)) ∧
    (Builder.init [] [⟨Ty.named 2 "" "int" [], "Qx", 4294967295, 0⟩]).StoreVar sampleLayout 0 =
      some ((Builder.init [] [⟨Ty.named 2 "" "int" [], "Qx", 4294967295, 0⟩]).emit
        (.word 2081423360)) ∧
    (Builder.init [] [⟨Ty.named 2 "" "int" [], "Qx", 4294967295, 0⟩]).AddrVar sampleLayout 0 =
      some ((Builder.init [] [⟨Ty.named 2 "" "int" [], "Qx", 4294967295, 0⟩]).emit
        (.word 1947205632)) ∧
    (2014314496 &&& sampleLayout.bitsOperand) >>> sampleLayout.bitsOpVarShift = 1 :=
  ⟨rfl, rfl, rfl, rfl, rfl⟩


/-! ## Forward-reference patching -/

theorem patchOffs_cons (L : Layout) (f : FuncInfo) (pos : Int) (hv : f.nVariadic ≠ 0)
    (off : Nat) (offs : List Nat) (data : List Instr) (i : Instr)
    (hi : data[off]? = some i) :
    patchOffs L f pos (off :: offs) data =
      patchOffs L f pos offs (data.set off (i.orBits (patchBits L f pos i))) := by
  simp only [patchOffs, hi, FuncInfo.IsVariadic, if_neg hv, patchBits]
  by_cases hc : i.isClosure L = true
  · by_cases h2 : f.nVariadic = nVariadicVariadicArgs
    · simp [hc, h2]
    · have hb : (f.nVariadic == nVariadicVariadicArgs) = false := by simpa using h2
      simp [hc, h2, hb]
  · simp [hc]

theorem patchOffs_spec (L : Layout) (f : FuncInfo) (pos : Int) (hv : f.nVariadic ≠ 0) :
    ∀ (offs : List Nat) (data : List Instr), offs.Nodup →
      (∀ off ∈ offs, off < data.length) →
      ∃ data2, patchOffs L f pos offs data = some data2 ∧ data2.length = data.length ∧
        (∀ off ∈ offs, ∀ i, data[off]? = some i →
          data2[off]? = some (i.orBits (patchBits L f pos i))) ∧
        (∀ j, j ∉ offs → data2[j]? = data[j]?) := by
  intro offs
  induction offs with
  | nil =>
    intro data _ _
    exact ⟨data, rfl, rfl, fun off h => absurd h (List.not_mem_nil off), fun _ _ => rfl⟩
  | cons off offs ih =>
    intro data hnd hlt
    have hoff : off < data.length := hlt off (List.mem_cons_self off offs)
    have hi : data[off]? = some data[off] := List.getElem?_eq_getElem hoff
    have hnd2 := List.nodup_cons.1 hnd
    obtain ⟨data2, h1, h2, h3, h4⟩ :=
      ih (data.set off (data[off].orBits (patchBits L f pos data[off]))) hnd2.2
        (by intro o ho; rw [List.length_set]; exact hlt o (List.mem_cons_of_mem off ho))
    refine ⟨data2, ?_, ?_, ?_, ?_⟩
    · rw [patchOffs_cons L f pos hv off offs data _ hi]; exact h1
    · rw [h2, List.length_set]
    · intro o ho i hio
      rcases List.mem_cons.1 ho with rfl | ho2
      · rw [h4 o hnd2.1, List.getElem?_set_self hoff]
        rw [hi] at hio
        cases hio; rfl
      · have hne : off ≠ o := fun e => hnd2.1 (e ▸ ho2)
        exact h3 o ho2 i (by rw [List.getElem?_set_ne hne]; exact hio)
    · intro j hj
      have hj1 : off ≠ j := fun e => hj (e ▸ List.mem_cons_self off offs)
      have hj2 : j ∉ offs := fun h => hj (List.mem_cons_of_mem off h)
      rw [h4 j hj2, List.getElem?_set_ne hj1]


theorem resolveLoop_spec (L : Layout) :
    ∀ (l : List (Nat × Int)) (b : Builder), b.ResolveReady l →
      ∃ b2, resolveLoop L l b = some b2 ∧
        b2.code.data.length = b.code.data.length ∧
        b2.code.funs = b.code.funs ∧ b2.code.funvs = b.code.funvs ∧ b2.funcs = b.funcs ∧
        (∀ e ∈ l, ∀ f, b.finfos[e.1]? = some f →
          b2.finfos[e.1]? = some { f with offs := [] } ∧
          ∀ off ∈ f.offs, ∀ i, b.code.data[off]? = some i →
            b2.code.data[off]? = some (i.orBits (patchBits L f e.2 i))) ∧
        (∀ j, (∀ e ∈ l, ∀ f, b.finfos[e.1]? = some f → j ∉ f.offs) →
          b2.code.data[j]? = b.code.data[j]?) ∧
        (∀ fn, fn ∉ l.map Prod.fst → b2.finfos[fn]? = b.finfos[fn]?) := by
  intro l
  induction l with
  | nil =>
    intro b _
    exact ⟨b, rfl, rfl, rfl, rfl, rfl, fun e h => absurd h (List.not_mem_nil e),
      fun _ _ => rfl, fun _ _ => rfl⟩
  | cons hd rest ih =>
    intro b hr
    obtain ⟨fn, pos⟩ := hd
    have hkeys : fn ∉ rest.map Prod.fst ∧ (rest.map Prod.fst).Nodup := by
      have := hr.keys
      rw [List.map_cons] at this
      exact List.nodup_cons.1 this
    obtain ⟨hpos, f, hf, hv, hnd, hlt⟩ := hr.defined (fn, pos) (List.mem_cons_self _ _)
    have hfnlt : fn < b.finfos.length := (List.getElem?_eq_some.1 hf).1
    obtain ⟨data1, hp1, hp2, hp3, hp4⟩ := patchOffs_spec L f pos hv f.offs b.code.data hnd hlt
    have hkey_ne : ∀ e ∈ rest, e.1 ≠ fn := by
      intro e he h
      exact hkeys.1 (h ▸ List.mem_map_of_mem Prod.fst he)
    have hsame : ∀ e ∈ rest,
        (b.finfos.set fn { f with offs := [] })[e.1]? = b.finfos[e.1]? := by
      intro e he
      exact List.getElem?_set_ne (Ne.symm (hkey_ne e he))
    have hready : Builder.ResolveReady
        { b with code := { b.code with data := data1 },
                 finfos := b.finfos.set fn { f with offs := [] } } rest := by
      refine ⟨hkeys.2, ?_, ?_⟩
      · intro e he
        obtain ⟨h0, f2, hf2, hv2, hnd2, hlt2⟩ := hr.defined e (List.mem_cons_of_mem _ he)
        refine ⟨h0, f2, ?_, hv2, hnd2, ?_⟩
        · show (b.finfos.set fn { f with offs := [] })[e.1]? = some f2
          rw [hsame e he]; exact hf2
        · intro off ho
          show off < data1.length
          rw [hp2]; exact hlt2 off ho
      · intro e1 he1 e2 he2 hne f1 f2 hf1 hf2
        have hf1b : b.finfos[e1.1]? = some f1 := by rw [← hsame e1 he1]; exact hf1
        have hf2b : b.finfos[e2.1]? = some f2 := by rw [← hsame e2 he2]; exact hf2
        exact hr.disjoint e1 (List.mem_cons_of_mem _ he1) e2 (List.mem_cons_of_mem _ he2)
          hne f1 f2 hf1b hf2b
    obtain ⟨b2, hb2, hlen, hfuns, hfunvs, hfuncs, ha, hb, hd⟩ := ih _ hready
    have hstep : resolveLoop L ((fn, pos) :: rest) b = some b2 := by
      simp only [resolveLoop, if_neg (not_lt.2 hpos), hf, hp1]
      exact hb2
    refine ⟨b2, hstep, by rw [hlen]; exact hp2, hfuns, hfunvs, hfuncs, ?_, ?_, ?_⟩
    · intro e he f2 hf2
      rcases List.mem_cons.1 he with rfl | he2
      · have hff : f2 = f := by rw [hf] at hf2; exact (Option.some.inj hf2).symm
        subst hff
        refine ⟨?_, ?_⟩
        · rw [hd fn hkeys.1]
          exact List.getElem?_set_self hfnlt
        · intro off ho i hi
          have hno : ∀ e ∈ rest, ∀ f3,
              (b.finfos.set fn { f2 with offs := [] })[e.1]? = some f3 → off ∉ f3.offs := by
            intro e3 he3 f3 hf3
            rw [hsame e3 he3] at hf3
            exact hr.disjoint (fn, pos) (List.mem_cons_self _ _) e3
              (List.mem_cons_of_mem _ he3) (Ne.symm (hkey_ne e3 he3)) f2 f3 hf hf3 off ho
          rw [hb off hno]
          exact hp3 off ho i hi
      · have hf2b : (b.finfos.set fn { f with offs := [] })[e.1]? = some f2 := by
          rw [hsame e he2]; exact hf2
        obtain ⟨h1, h2⟩ := ha e he2 f2 hf2b
        refine ⟨h1, ?_⟩
        intro off ho i hi
        have hnot : off ∉ f.offs :=
          hr.disjoint e (List.mem_cons_of_mem _ he2) (fn, pos) (List.mem_cons_self _ _)
            (hkey_ne e he2) f2 f hf2 hf off ho
        exact h2 off ho i (by show data1[off]? = some i; rw [hp4 off hnot]; exact hi)
    · intro j hj
      have hj1 : j ∉ f.offs := hj (fn, pos) (List.mem_cons_self _ _) f hf
      have hj2 : ∀ e ∈ rest, ∀ f3,
          (b.finfos.set fn { f with offs := [] })[e.1]? = some f3 → j ∉ f3.offs := by
        intro e3 he3 f3 hf3
        rw [hsame e3 he3] at hf3
        exact hj e3 (List.mem_cons_of_mem _ he3) f3 hf3
      rw [hb j hj2]
      exact hp4 j hj1
    · intro fn2 hfn2
      have h1 : fn2 ≠ fn := fun e => hfn2 (by simp [e])
      have h2 : fn2 ∉ rest.map Prod.fst := fun h => hfn2 (by
        rw [List.map_cons]; exact List.mem_cons_of_mem _ h)
      rw [hd fn2 h2]
      exact List.getElem?_set_ne (Ne.symm h1)


theorem and_two_pow_ne_zero_iff (x n : Nat) : x &&& 2 ^ n ≠ 0 ↔ x.testBit n = true := by
  constructor
  · intro h
    by_contra hb
    apply h
    apply Nat.eq_of_testBit_eq
    intro i
    rw [Nat.testBit_and, Nat.zero_testBit, Nat.testBit_two_pow]
    by_cases hi : n = i
    · subst hi; simp [hb]
    · simp [hi]
  · intro h h0
    have : (x &&& 2 ^ n).testBit n = true := by
      rw [Nat.testBit_and, h, Nat.testBit_two_pow_self]; rfl
    rw [h0, Nat.zero_testBit] at this
    exact Bool.noConfusion this

theorem shl_shr_self (op n : Nat) : (op <<< n) >>> n = op := by
  have := shl_or_shr op 0 n (Nat.two_pow_pos n)
  rwa [Nat.or_zero] at this

/-- The fields of a call word with the index `pos` or-ed in. -/
theorem call_word_fields {L : Layout} (hL : L.WF) (op pos : Nat) (hp : pos < 2 ^ L.bitsOpShift) :
    opOf L ((op <<< L.bitsOpShift) ||| pos) = op ∧
      ((op <<< L.bitsOpShift) ||| pos) &&& L.bitsOperand = pos :=
  ⟨shl_or_shr op pos _ hp, operand_of_word hL op pos hp⟩

/-- The fields of a closure word with the index `pos`, and the variadic flag when
`flagged`, or-ed in. -/
theorem closure_word_fields {L : Layout} (hL : L.WF) (op pos : Nat) (flagged : Bool)
    (hp : pos < 2 ^ L.bitsOpClosureShift) :
    opOf L ((op <<< L.bitsOpShift) |||
        (if flagged then closureVariadicFlag L ||| pos else pos)) = op ∧
    ((op <<< L.bitsOpShift) ||| (if flagged then closureVariadicFlag L ||| pos else pos)) &&&
        L.bitsOpClosureOperand = pos ∧
    (((op <<< L.bitsOpShift) ||| (if flagged then closureVariadicFlag L ||| pos else pos)) &&&
        closureVariadicFlag L ≠ 0 ↔ flagged = true) := by
  have hbs : L.bitsOpShift = L.bitsOpClosureShift + 1 := by have := hL.closureSplit; omega
  have hpow : 2 ^ L.bitsOpShift = 2 * 2 ^ L.bitsOpClosureShift := by rw [hbs, Nat.pow_succ]; ring
  have hflag : closureVariadicFlag L = 2 ^ L.bitsOpClosureShift := by
    unfold closureVariadicFlag; rw [Nat.shiftLeft_eq, Nat.one_mul]
  have hfp : 2 ^ L.bitsOpClosureShift ||| pos = 2 ^ L.bitsOpClosureShift + pos := by
    have := shl_or_eq_add 1 pos _ hp
    simpa [Nat.shiftLeft_eq] using this
  have hcs : 0 < 2 ^ L.bitsOpClosureShift := Nat.two_pow_pos _
  rw [hflag, and_two_pow_ne_zero_iff, Nat.testBit_or, Nat.testBit_shiftLeft]
  have hlow : (if flagged then 2 ^ L.bitsOpClosureShift ||| pos else pos) <
      2 ^ L.bitsOpShift := by
    cases flagged
    · simp only [Bool.false_eq_true, if_false]; omega
    · simp only [if_true, hfp]; omega
  refine ⟨shl_or_shr op _ _ hlow, ?_, ?_⟩
  · rw [shl_or_eq_add op _ _ hlow, hL.closureOperand, Nat.and_pow_two_sub_one_eq_mod, hpow]
    cases flagged
    · simp only [Bool.false_eq_true, if_false]
      have e : op * (2 * 2 ^ L.bitsOpClosureShift) + pos =
          pos + (op * 2) * 2 ^ L.bitsOpClosureShift := by ring
      rw [e, Nat.add_mul_mod_self_right, Nat.mod_eq_of_lt hp]
    · simp only [if_true, hfp]
      have e : op * (2 * 2 ^ L.bitsOpClosureShift) + (2 ^ L.bitsOpClosureShift + pos) =
          pos + (op * 2 + 1) * 2 ^ L.bitsOpClosureShift := by ring
      rw [e, Nat.add_mul_mod_self_right, Nat.mod_eq_of_lt hp]
  · have hge : ¬ L.bitsOpClosureShift ≥ L.bitsOpShift := by omega
    cases flagged
    · simp only [Bool.false_eq_true, if_false, Nat.testBit_lt_two_pow hp]
      simp [hge]
    · simp only [if_true, hfp, Nat.testBit_two_pow_add_eq, Nat.testBit_lt_two_pow hp]
      simp


theorem Layout.WF.isClosure_ops {L : Layout} (hL : L.WF) :
    isClosure L L.opClosure = true ∧ isClosure L L.opGoClosure = true ∧
    isClosure L L.opCallFunc = false ∧ isClosure L L.opCallFuncv = false ∧
    L.opCallFunc ≠ L.opCallFuncv := by
  have h := hL.refOps
  simp only [List.nodup_cons, List.mem_cons, List.mem_singleton, not_or, List.not_mem_nil,
    not_false_eq_true, List.nodup_nil, and_true] at h
  obtain ⟨⟨h1, h2, h3⟩, ⟨h4, h5⟩, h6⟩ := h
  refine ⟨by simp [isClosure], by simp [isClosure], ?_, ?_, h6⟩
  · simp only [isClosure, Bool.or_eq_false_iff, beq_eq_false_iff_ne, ne_eq]
    exact ⟨fun e => h2 e.symm, fun e => h4 e.symm⟩
  · simp only [isClosure, Bool.or_eq_false_iff, beq_eq_false_iff_ne, ne_eq]
    exact ⟨fun e => h3 e.symm, fun e => h5 e.symm⟩

theorem refWord_patch {L : Layout} (hL : L.WF) (f : FuncInfo) (pos : Int) (w : Nat)
    (code : Code) (fn : Nat) (h0 : 0 ≤ pos) (hw : RefWord L f pos w)
    (ht : if f.nVariadic = nVariadicVariadicArgs then code.funvs[pos.toNat]? = some fn
          else code.funs[pos.toNat]? = some fn) :
    opOf L (w ||| patchBits L f pos (.word w)) = opOf L w ∧
    (w = L.opCallFunc <<< L.bitsOpShift →
      (w ||| patchBits L f pos (.word w)) &&& L.bitsOperand = pos.toNat ∧
      execFuncCallee L code (w ||| patchBits L f pos (.word w)) = some fn) ∧
    (opOf L w = L.opCallFuncv →
      (w ||| patchBits L f pos (.word w)) &&& L.bitsOpCallFuncvOperand = pos.toNat ∧
      arityOf L (w ||| patchBits L f pos (.word w)) = arityOf L w ∧
      execFuncvCallee L code (w ||| patchBits L f pos (.word w)) = some fn) ∧
    (isClosure L (opOf L w) = true →
      (w ||| patchBits L f pos (.word w)) &&& L.bitsOpClosureOperand = pos.toNat ∧
      makeClosureFun L code (w ||| patchBits L f pos (.word w)) = some fn ∧
      ((w ||| patchBits L f pos (.word w)) &&& closureVariadicFlag L ≠ 0 ↔
        f.nVariadic = nVariadicVariadicArgs)) := by
  obtain ⟨hc1, hc2, hc3, hc4, hne⟩ := hL.isClosure_ops
  have hpw := hL.pow_le
  have hcast : ((pos.toNat : Nat) : Int) = pos := Int.toNat_of_nonneg h0
  have hbs : L.bitsOpShift = L.bitsOpClosureShift + 1 := by have := hL.closureSplit; omega
  have hu : ∀ mask : Nat, mask < 2 ^ 32 → pos ≤ (mask : Int) →
      u32OfInt pos = pos.toNat ∧ pos.toNat ≤ mask := by
    intro mask hm hp
    have : pos.toNat ≤ mask := by omega
    refine ⟨?_, this⟩
    have h32 : pos < 2 ^ 32 := by
      have : (mask : Int) < 2 ^ 32 := by exact_mod_cast hm
      omega
    exact u32OfInt_of_lt pos h0 h32
  rcases hw with ⟨hop, hfit⟩ | ⟨rfl, hfix, hfit⟩ | ⟨⟨ar, har, rfl⟩, hvar, hfit⟩
  · -- a closure word
    have hcs : 2 ^ L.bitsOpClosureShift ≤ 2 ^ 32 :=
      Nat.pow_le_pow_right (by decide) (by have := hL.word; omega)
    have hcp : 0 < 2 ^ L.bitsOpClosureShift := Nat.two_pow_pos _
    obtain ⟨hu1, hu2⟩ := hu L.bitsOpClosureOperand (by have := hL.closureOperand; omega) hfit
    have hplt : pos.toNat < 2 ^ L.bitsOpClosureShift := by
      have := hL.closureOperand; omega
    have hr := hL.refOps
    simp only [List.nodup_cons, List.mem_cons, List.mem_singleton, not_or, List.not_mem_nil,
      not_false_eq_true, List.nodup_nil, and_true] at hr
    have hex : ∃ op, isClosure L op = true ∧ w = op <<< L.bitsOpShift ∧
        op ≠ L.opCallFunc ∧ op ≠ L.opCallFuncv := by
      rcases hop with h | h
      · exact ⟨L.opClosure, hc1, h, hr.1.2.1, hr.1.2.2⟩
      · exact ⟨L.opGoClosure, hc2, h, hr.2.1.1, hr.2.1.2⟩
    obtain ⟨op, hic, hwop, hn1, hn2⟩ := hex
    have hopw : opOf L w = op := by rw [hwop]; exact shl_shr_self op _
    have hpb : patchBits L f pos (.word w) =
        if decide (f.nVariadic = nVariadicVariadicArgs) = true then
          closureVariadicFlag L ||| pos.toNat else pos.toNat := by
      unfold patchBits
      have : (Instr.word w).isClosure L = true := by
        show isClosure L (w >>> L.bitsOpShift) = true
        rw [show w >>> L.bitsOpShift = opOf L w from rfl, hopw]; exact hic
      simp only [this, true_and, hu1, decide_eq_true_eq]
    have hf := closure_word_fields hL op pos.toNat
      (decide (f.nVariadic = nVariadicVariadicArgs)) hplt
    rw [hpb, hopw]
    subst hwop
    refine ⟨hf.1, ?_, ?_, ?_⟩
    · intro e
      exact absurd (by rw [← shl_shr_self op L.bitsOpShift, e, shl_shr_self]) hn1
    · intro e; exact absurd e hn2
    · intro _
      refine ⟨hf.2.1, ?_, by rw [hf.2.2]; simp⟩
      unfold makeClosureFun
      rw [hf.2.1]
      by_cases hvv : f.nVariadic = nVariadicVariadicArgs
      · rw [if_pos hvv] at ht
        rw [if_pos (hf.2.2.2 (by simp [hvv]))]; exact ht
      · rw [if_neg hvv] at ht
        rw [if_neg (fun h => hvv (by simpa using hf.2.2.1 h))]; exact ht
  · -- a CallFunc word
    obtain ⟨hu1, hu2⟩ := hu L.bitsOperand (by have := hL.operand; omega) hfit
    have hplt : pos.toNat < 2 ^ L.bitsOpShift := by
      have := hL.operand; have : 0 < 2 ^ L.bitsOpShift := Nat.two_pow_pos _; omega
    have hopw : opOf L (L.opCallFunc <<< L.bitsOpShift) = L.opCallFunc := shl_shr_self _ _
    have hnv : ¬ f.nVariadic = nVariadicVariadicArgs := by rw [hfix]; decide
    have hpb : patchBits L f pos (.word (L.opCallFunc <<< L.bitsOpShift)) = pos.toNat := by
      unfold patchBits
      rw [if_neg (fun h => hnv h.2), hu1]
    have hf := call_word_fields hL L.opCallFunc pos.toNat hplt
    rw [if_neg hnv] at ht
    rw [hpb, hopw]
    refine ⟨hf.1, fun _ => ⟨hf.2, ?_⟩, fun e => absurd e hne, fun e => ?_⟩
    · unfold execFuncCallee; rw [hf.2]; exact ht
    · rw [hc3] at e; exact Bool.noConfusion e
  · -- a CallFuncv word
    obtain ⟨hu1, hu2⟩ := hu L.bitsOpCallFuncvOperand (by have := hL.funcvOperand; omega) hfit
    have hsp : 0 < 2 ^ L.bitsOpCallFuncvShift := Nat.two_pow_pos _
    have hplt : pos.toNat < 2 ^ L.bitsOpCallFuncvShift := by
      have := hL.funcvOperand; omega
    have hf0 := funcv_word_fields hL L.opCallFuncv ar 0 har hsp
    rw [Nat.or_zero] at hf0
    have hf := funcv_word_fields hL L.opCallFuncv ar pos.toNat har hplt
    have hpb : patchBits L f pos
        (.word ((L.opCallFuncv <<< L.bitsOpShift) ||| shl32 ar L.bitsOpCallFuncvShift)) =
        pos.toNat := by
      unfold patchBits
      have : (Instr.word ((L.opCallFuncv <<< L.bitsOpShift) |||
          shl32 ar L.bitsOpCallFuncvShift)).isClosure L = false := by
        show isClosure L (opOf L _) = false
        rw [hf0.2.2]; exact hc4
      rw [if_neg (by rw [this]; simp), hu1]
    rw [if_pos hvar] at ht
    rw [hpb, hf0.2.2, hf0.1]
    refine ⟨hf.2.2, fun e => ?_, fun _ => ⟨hf.2.1, hf.1, ?_⟩, fun e => ?_⟩
    · have : opOf L (L.opCallFunc <<< L.bitsOpShift) = L.opCallFuncv := by rw [← e]; exact hf0.2.2
      rw [show opOf L (L.opCallFunc <<< L.bitsOpShift) = L.opCallFunc from shl_shr_self _ _] at this
      exact absurd this hne
    · unfold execFuncvCallee; rw [hf.2.1]; exact ht
    · rw [hc4] at e; exact Bool.noConfusion e


/-- C5 (amended): in a builder state in which every function recorded in the
function map is defined, is found at its map index in its table (`funvs` for a
variadic function, `funs` for a fixed one), and has in its patch list offsets of
reference words whose function-index field can hold that index, `resolveFuncs`
succeeds; afterwards each word at an offset recorded for such a function keeps its
opcode (and a `CallFuncv` word its arity) and has the function index or-ed in, so
that `execFunc`, `execFuncv` and `makeClosure` decode it to that very function; a
closure word has the variadic flag set exactly when the function is variadic; every
word at an offset recorded for no function of the map is unchanged; and the patch
list of every function of the map is empty. -/
theorem resolveFuncs_patches (L : Layout) (hL : L.WF) (b : Builder)
    (hr : b.ResolveReady b.funcs)
    (hw : ∀ e ∈ b.funcs, ∀ f, b.finfos[e.1]? = some f → ∀ off ∈ f.offs,
      ∃ w, b.code.data[off]? = some (.word w) ∧ RefWord L f e.2 w)
    (ht : ∀ e ∈ b.funcs, ∀ f, b.finfos[e.1]? = some f →
      if f.nVariadic = nVariadicVariadicArgs then b.code.funvs[e.2.toNat]? = some e.1
      else b.code.funs[e.2.toNat]? = some e.1) :
    ∃ b2, b.resolveFuncs L = some b2 ∧
      b2.code.funs = b.code.funs ∧ b2.code.funvs = b.code.funvs ∧
      (∀ e ∈ b.funcs, ∀ f, b.finfos[e.1]? = some f →
        b2.finfos[e.1]? = some { f with offs := [] } ∧
        ∀ off ∈ f.offs, ∃ w w2, b.code.data[off]? = some (.word w) ∧
          b2.code.data[off]? = some (.word w2) ∧ opOf L w2 = opOf L w ∧
          (w = L.opCallFunc <<< L.bitsOpShift →
            w2 &&& L.bitsOperand = e.2.toNat ∧ execFuncCallee L b2.code w2 = some e.1) ∧
          (opOf L w = L.opCallFuncv →
            w2 &&& L.bitsOpCallFuncvOperand = e.2.toNat ∧ arityOf L w2 = arityOf L w ∧
            execFuncvCallee L b2.code w2 = some e.1) ∧
          (isClosure L (opOf L w) = true →
            w2 &&& L.bitsOpClosureOperand = e.2.toNat ∧
            makeClosureFun L b2.code w2 = some e.1 ∧
            (w2 &&& closureVariadicFlag L ≠ 0 ↔ f.nVariadic = nVariadicVariadicArgs))) ∧
      (∀ j, (∀ e ∈ b.funcs, ∀ f, b.finfos[e.1]? = some f → j ∉ f.offs) →
        b2.code.data[j]? = b.code.data[j]?) := by
  obtain ⟨b2, hb2, _, hfuns, hfunvs, _, ha, hb, _⟩ := resolveLoop_spec L b.funcs b hr
  refine ⟨b2, hb2, hfuns, hfunvs, ?_, hb⟩
  intro e he f hf
  obtain ⟨h1, h2⟩ := ha e he f hf
  refine ⟨h1, ?_⟩
  intro off ho
  obtain ⟨w, hwd, hrw⟩ := hw e he f hf off ho
  have hpatched := h2 off ho (.word w) hwd
  have htab : if f.nVariadic = nVariadicVariadicArgs then b2.code.funvs[e.2.toNat]? = some e.1
      else b2.code.funs[e.2.toNat]? = some e.1 := by
    rw [hfuns, hfunvs]; exact ht e he f hf
  have hp := refWord_patch hL f e.2 w b2.code e.1 (hr.defined e he).1 hrw htab
  exact ⟨w, w ||| patchBits L f e.2 (.word w), hwd, hpatched, hp⟩


theorem calledThenDefined_reached :
    (((Builder.init [NewFunc "f" 1] []).CallFunc sampleLayout 0).bind
      (fun b => b.DefineFunc 0)).bind (fun b => b.EndFunc 0) = some calledThenDefined := rfl

theorem closureOnly_reached :
    (Builder.init [NewFunc "g" 2] []).Closure sampleLayout 0 = some closureOnly := rfl

/-- Witness for C5: a call emitted before its function is defined, then resolved. -/
theorem resolveFuncs_patches_witness :
    ∃ b2, calledThenDefined.resolveFuncs sampleLayout = some b2 ∧
      ∃ w2, b2.code.data[0]? = some (.word w2) ∧
        opOf sampleLayout w2 = opOf sampleLayout 1744830464 ∧
        execFuncCallee sampleLayout b2.code w2 = some 0 :=
  have hf : ∀ (e : Nat × Int), e ∈ calledThenDefined.funcs → e = (0, 0) := by
    intro e he
    simpa [calledThenDefined] using he
  have hfi : ∀ f, calledThenDefined.finfos[0]? = some f →
      f = { name := "f", funEntry := 1, funEnd := 1, ins := [], offs := [0], numOut := 0,
            vm := { vlist := [], nestDepth := 1 }, nVariadic := 1 } := by
    intro f h
    exact (Option.some.inj h).symm
  match resolveFuncs_patches sampleLayout sampleLayout_wf calledThenDefined
      ⟨by decide,
       by
        intro e he
        rw [hf e he]
        refine ⟨by decide, _, rfl, by decide, by decide, ?_⟩
        intro off ho
        have : off = 0 := by simpa [calledThenDefined] using ho
        subst this
        decide,
       by
        intro e1 he1 e2 he2 hne
        rw [hf e1 he1, hf e2 he2] at hne
        exact absurd rfl hne⟩
      (by
        intro e he f hfe off ho
        rw [hf e he] at hfe ⊢
        rw [hfi f hfe] at ho ⊢
        have : off = 0 := by simpa using ho
        subst this
        exact ⟨1744830464, rfl, Or.inr (Or.inl ⟨rfl, rfl, by decide⟩)⟩)
      (by
        intro e he f hfe
        rw [hf e he] at hfe ⊢
        rw [hfi f hfe]
        decide) with
  | ⟨b2, h1, _, _, h4, _⟩ =>
    match (h4 (0, 0) (by decide) _ rfl).2 0 (by decide) with
    | ⟨w, w2, hw, hw2, hop, hcall, _⟩ =>
      have hweq : w = 1744830464 := by
        have : (Instr.word w) = Instr.word 1744830464 := by
          have h0 : calledThenDefined.code.data[0]? = some (Instr.word 1744830464) := rfl
          rw [h0] at hw
          exact (Option.some.inj hw).symm
        exact Instr.word.inj this
      ⟨b2, h1, w2, hw2, by rw [← hweq]; exact hop, (hcall (by rw [hweq]; rfl)).2⟩

/-- Counterexample for C5 as stated.  (1) After `Closure(g)` the function map is
empty, so every function recorded in it is defined, and `resolveFuncs` returns the
state unchanged: the patch list of `g` still holds offset 0 and the closure word is
not patched.  (2) With the variadic function at table index `2^16`, which does not
fit the 16-bit index field of a `CallFuncv` word, patching turns the arity field of
the word from 0 into 1 and the word decodes to entry 0 of the table, another
function. -/
theorem resolveFuncs_unpatched_and_overflow :
    (closureOnly.resolveFuncs sampleLayout = some closureOnly ∧
      (closureOnly.finfos[0]?).map (·.offs) = some [0] ∧
      closureOnly.code.data[0]? = some (.word 1476395008)) ∧
    (∃ b2, indexOverflow.resolveFuncs sampleLayout = some b2 ∧
      indexOverflow.code.funvs[65536]? = some 0 ∧
      b2.code.data[0]? = some (.word 1812004864) ∧
      arityOf sampleLayout 1811939328 = 0 ∧
      arityOf sampleLayout 1812004864 = 1 ∧
      b2.code.funvs = indexOverflow.code.funvs ∧
      execFuncvCallee sampleLayout indexOverflow.code 1812004864 = some 1) :=
  ⟨⟨rfl, rfl, rfl⟩,
   ⟨_, rfl,
    by
      show (List.replicate 65536 1 ++ [0])[65536]? = some 0
      rw [List.getElem?_append_right (by rw [List.length_replicate])]
      simp only [List.length_replicate, Nat.sub_self]
      rfl,
    rfl, rfl, rfl, rfl,
    by
      have h0 : 1812004864 &&& sampleLayout.bitsOpCallFuncvOperand = 0 := by decide
      unfold execFuncvCallee
      rw [h0]
      simp only [indexOverflow]
      rw [List.getElem?_append_left (by rw [List.length_replicate]; decide)]
      rw [List.getElem?_replicate]
      simp⟩⟩


/-! ## Undefined functions at finalization -/

/-- C6, evaluated at the failing input: after `Closure(g)` (and likewise after
`GoClosure(g)`) on a fresh builder, `g` is referenced by the emitted word, was
never defined and is not in the function map, and `resolveFuncs` succeeds, leaving
the closure word unpatched; after `CallFunc(f)` on a fresh builder `resolveFuncs`
fails. -/
theorem resolveFuncs_accepts_undefined_closure :
    ((Builder.init [NewFunc "g" 2] []).Closure sampleLayout 0 = some closureOnly ∧
      closureOnly.funcPos 0 = none ∧
      closureOnly.resolveFuncs sampleLayout = some closureOnly) ∧
    (∃ b1, (Builder.init [NewFunc "g" 2] []).GoClosure sampleLayout 0 = some b1 ∧
      b1.funcPos 0 = none ∧ b1.code.data = [.word 1543503872] ∧
      b1.resolveFuncs sampleLayout = some b1) ∧
    ((Builder.init [NewFunc "f" 1] []).CallFunc sampleLayout 0).bind
      (fun b => b.resolveFuncs sampleLayout) = none :=
  ⟨⟨rfl, rfl, rfl⟩, ⟨_, rfl, rfl, rfl, rfl⟩, rfl⟩

/-! ## Operand validation at encode time -/

theorem and_operand_lt {L : Layout} (hL : L.WF) (x : Nat) :
    x &&& L.bitsOperand < 2 ^ L.bitsOpShift := by
  have hp : 0 < 2 ^ L.bitsOpShift := Nat.two_pow_pos _
  rw [hL.operand, Nat.and_pow_two_sub_one_eq_mod]
  exact Nat.mod_lt _ hp

/-- C7 (amended): the encoders named in the claim do not validate their operand.
`Load(idx)` and `Store(idx)` always append one word with the requested opcode whose
operand field is `uint32(idx) & bitsOperand`, the low `bitsOpShift` bits of the
offset; `CallGoFunc(addr)` and `CallGoFuncv(addr, arity)` always append one word
(`CallGoFuncv` after the arity push of large arities), which has the requested
opcode and address whenever the address fits its field. -/
theorem encoders_do_not_validate (L : Layout) (hL : L.WF) (b : Builder) (idx : Int)
    (addr : Nat) (arity : Int) :
    (∃ w, (b.Load L idx).code.data = b.code.data ++ [.word w] ∧ opOf L w = L.opLoad ∧
      w &&& L.bitsOperand = u32OfInt idx % 2 ^ L.bitsOpShift) ∧
    (∃ w, (b.Store L idx).code.data = b.code.data ++ [.word w] ∧ opOf L w = L.opStore ∧
      w &&& L.bitsOperand = u32OfInt idx % 2 ^ L.bitsOpShift) ∧
    (∃ w, (b.CallGoFunc L addr).code.data = b.code.data ++ [.word w] ∧
      (addr ≤ L.bitsOperand → opOf L w = L.opCallGoFunc ∧ w &&& L.bitsOperand = addr)) ∧
    (∃ w, (b.CallGoFuncv L addr arity).code.data =
        (b.funcvArity L arity).1.code.data ++ [.word w] ∧
      (addr ≤ L.bitsOpCallFuncvOperand →
        opOf L w = L.opCallGoFuncv ∧ w &&& L.bitsOpCallFuncvOperand = addr)) := by
  have hpw := hL.pow_le
  have hmod : u32OfInt idx &&& L.bitsOperand = u32OfInt idx % 2 ^ L.bitsOpShift := by
    rw [hL.operand, Nat.and_pow_two_sub_one_eq_mod]
  have hlt := and_operand_lt hL (u32OfInt idx)
  refine ⟨⟨(L.opLoad <<< L.bitsOpShift) ||| (u32OfInt idx &&& L.bitsOperand), rfl, ?_, ?_⟩,
    ⟨(L.opStore <<< L.bitsOpShift) ||| (u32OfInt idx &&& L.bitsOperand), rfl, ?_, ?_⟩,
    ⟨(L.opCallGoFunc <<< L.bitsOpShift) ||| u32 addr, rfl, ?_⟩,
    ⟨_, Builder.CallGoFuncv_data L b addr arity, ?_⟩⟩
  · exact shl_or_shr _ _ _ hlt
  · rw [operand_of_word hL _ _ hlt, hmod]
  · exact shl_or_shr _ _ _ hlt
  · rw [operand_of_word hL _ _ hlt, hmod]
  · intro ha
    have hp : 0 < 2 ^ L.bitsOpShift := Nat.two_pow_pos _
    have ha2 : addr < 2 ^ L.bitsOpShift := by have := hL.operand; omega
    have hu : u32 addr = addr := by unfold u32; exact Nat.mod_eq_of_lt (by omega)
    rw [hu]
    exact call_word_fields hL _ addr ha2
  · intro ha
    have hp : 0 < 2 ^ L.bitsOpCallFuncvShift := Nat.two_pow_pos _
    have ha2 : addr < 2 ^ L.bitsOpCallFuncvShift := by have := hL.funcvOperand; omega
    have hu : u32 addr = addr := by unfold u32; exact Nat.mod_eq_of_lt (by omega)
    have hmax := hL.arityMax_succ
    have hfield : u32OfInt (b.funcvArity L arity).2 < 2 ^ L.bitsFuncvArity := by
      by_cases h0 : arity < 0
      · rw [Builder.funcvArity_neg L b arity h0, u32OfInt_natCast _ (by omega)]; omega
      · by_cases h1 : arity < (L.bitsFuncvArityMax : Int)
        · rw [Builder.funcvArity_small L b arity (by omega) h1]
          have h32 : (L.bitsFuncvArityMax : Int) < 2 ^ 32 := by
            exact_mod_cast (by omega : L.bitsFuncvArityMax < 2 ^ 32)
          rw [u32OfInt_of_lt arity (by omega) (by omega)]
          omega
        · rw [Builder.funcvArity_large L b arity (by omega), u32OfInt_natCast _ (by omega)]
          omega
    rw [hu]
    have hf := funcv_word_fields hL L.opCallGoFuncv _ addr hfield ha2
    exact ⟨hf.2.2, hf.2.1⟩

/-- Witness for C7: `Load(3)`, `CallGoFunc(5)` and `CallGoFuncv(5, 2)` on the sample
layout. -/
theorem encoders_do_not_validate_witness :
    ∃ w, ((Builder.init [] []).CallGoFunc sampleLayout 5).code.data = [.word w] ∧
      opOf sampleLayout w = sampleLayout.opCallGoFunc ∧ w &&& sampleLayout.bitsOperand = 5 :=
  match (encoders_do_not_validate sampleLayout sampleLayout_wf (Builder.init [] []) 3 5 2).2.2.1
    with
  | ⟨w, h1, h2⟩ => ⟨w, h1, (h2 (by decide)).1, (h2 (by decide)).2⟩

/-- Counterexample for C7 as stated: `Load(2^25)` and `Store(2^25)`, whose offset is
outside the signed operand range, succeed and append a word that decodes to the
offset `-2^25`; `CallGoFunc(2^28)` succeeds and appends a word whose opcode field
is `opCallGoFunc + 4`; `CallGoFuncv(2^16, 0)` succeeds and appends a word whose
arity field is 1. -/
theorem encoders_accept_overflow :
    ((Builder.init [] []).Load sampleLayout 33554432).code.data = [.word 1375731712] ∧
    slotIdx sampleLayout 1375731712 = -33554432 ∧
    ((Builder.init [] []).Store sampleLayout 33554432).code.data = [.word 1442840576] ∧
    slotIdx sampleLayout 1442840576 = -33554432 ∧
    ((Builder.init [] []).CallGoFunc sampleLayout 268435456).code.data = [.word 1006632960] ∧
    opOf sampleLayout 1006632960 = sampleLayout.opCallGoFunc + 4 ∧
    ((Builder.init [] []).CallGoFuncv sampleLayout 65536 0).code.data = [.word 805371904] ∧
    arityOf sampleLayout 805371904 = 1 :=
  ⟨rfl, by decide, rfl, by decide, rfl, by decide, rfl, by decide⟩



/-! ## Infer-only compilation emits no code -/

theorem BlockCtx.ret_out {σ : Type} (ctx c2 : BlockCtx σ) (arity : Nat) (v : IValue)
    (h : ctx.ret arity v = some c2) :
    c2.out = ctx.out ∧ c2.infer.length + arity = ctx.infer.length + 1 ∧
      c2.scope = ctx.scope ∧ c2.fn = ctx.fn := by
  unfold BlockCtx.ret inferRet at h
  split at h
  · rename_i hle
    simp only [Option.map_some', Option.some.injEq] at h
    subst h
    refine ⟨rfl, ?_, rfl, rfl⟩
    simp only [List.length_append, List.length_take, List.length_singleton]
    omega
  · simp at h

theorem compileIdent_inferOnly_out {σ : Type} (E : Env σ) (name : String)
    (ctx c2 : BlockCtx σ) (h : compileIdent E name inferOnly ctx = some c2) :
    c2.out = ctx.out := by
  unfold compileIdent at h
  rw [if_neg (by decide)] at h
  cases hf : E.find ctx.scope name with
  | some sym =>
    rw [hf] at h
    simp only at h
    unfold compileIdentSym at h
    cases sym with
    | execVar v =>
      simp only at h
      cases hv : ctx.out.vars[v]? with
      | none => simp [hv] at h
      | some x =>
        simp only [hv, if_true, Option.some.injEq] at h
        subst h; rfl
    | stackVar typ index =>
      simp only [if_true, Option.some.injEq] at h
      subst h; rfl
    | pkgPath path =>
      simp only at h
      cases hp : FindGoPackage E.gopkgs path with
      | none => simp [hp] at h
      | some pkg =>
        simp only [hp, Option.some.injEq] at h
        subst h; rfl
    | funcDecl decl =>
      simp only [if_true, Option.some.injEq] at h
      subst h; rfl
    | unknown => simp at h
  | none =>
    rw [hf] at h
    simp only at h
    unfold compileIdentBuiltin at h
    cases hb : GoPackage.Find E.L ctx.builtin name with
    | none => simp [hb] at h
    | some r =>
      obtain ⟨addr, kind⟩ := r
      simp only [hb] at h
      split at h
      · simp at h
      · split at h
        · simp only [if_true, Option.some.injEq] at h
          subst h; rfl
        · simp at h

theorem compileBasicLit_inferOnly {σ : Type} (E : Env σ) (kind : Nat) (value : String)
    (ctx c2 : BlockCtx σ) (h : compileBasicLit E kind value inferOnly ctx = some c2) :
    ∃ n k, ToConst E.strconv kind value = some (k, n) ∧
      c2 = ctx.push (.constVal n k (-1)) := by
  unfold compileBasicLit at h
  rw [if_neg (by decide)] at h
  cases hc : ToConst E.strconv kind value with
  | none => simp [hc] at h
  | some r =>
    obtain ⟨k, n⟩ := r
    simp only [hc, if_true, Option.some.injEq] at h
    exact ⟨n, k, rfl, h.symm⟩

theorem compileFuncLit_inferOnly_code {σ : Type} (E : Env σ) (lit : Nat)
    (ctx c2 : BlockCtx σ) (h : compileFuncLit E lit inferOnly ctx = some c2) :
    c2.out.code = ctx.out.code ∧ c2.out.funcs = ctx.out.funcs := by
  unfold compileFuncLit at h
  cases hn : E.newFuncDecl ctx.scope lit with
  | none => simp [hn] at h
  | some r =>
    obtain ⟨id, finfo, sc⟩ := r
    simp only [hn, if_true, Option.some.injEq] at h
    subst h
    exact ⟨rfl, rfl⟩

theorem selectorFinish_inferOnly_out {σ : Type} (E : Env σ) (sel : String)
    (ctx c2 : BlockCtx σ) (h : selectorFinish E sel inferOnly ctx = some c2) :
    c2.out = ctx.out := by
  unfold selectorFinish at h
  split at h
  · split at h
    · simp at h
    · split at h
      · simp only [if_true] at h
        exact (BlockCtx.ret_out _ _ _ _ h).1
      · simp at h
  · split at h
    · simp at h
    · simp at h
    · split at h
      · simp at h
      · split at h
        · simp at h
        · simp only [if_true] at h
          exact (BlockCtx.ret_out _ _ _ _ h).1
  · simp at h

theorem binaryConst_inferOnly_out {σ : Type} (E : Env σ) (op : Nat) (x y : IValue)
    (ctx c2 : BlockCtx σ) (h : binaryConst E op x y inferOnly ctx = some c2) :
    c2.out = ctx.out := by
  unfold binaryConst at h
  cases hb : E.binaryOp op x y with
  | none => simp [hb] at h
  | some r =>
    obtain ⟨v, k, rr⟩ := r
    simp only [hb, ne_eq, not_true_eq_false, if_false] at h
    exact (BlockCtx.ret_out _ _ _ _ h).1


theorem compileSelectorExpr_inferOnly_out {σ : Type} (E : Env σ) (sel : String)
    (ctx c2 : BlockCtx σ) (xInfer : BlockCtx σ → Option (BlockCtx σ))
    (h : compileSelectorExpr E sel inferOnly ctx xInfer = some c2) :
    ∃ c1, xInfer ctx = some c1 ∧ c2.out = c1.out := by
  unfold compileSelectorExpr at h
  cases hx : xInfer ctx with
  | none => simp [hx] at h
  | some c1 =>
    simp only [hx] at h
    exact ⟨c1, rfl, selectorFinish_inferOnly_out E sel c1 c2 h⟩

theorem compileBinaryExpr_inferOnly_out {σ : Type} (E : Env σ) (op : Nat)
    (ctx c2 : BlockCtx σ) (xInfer yInfer xEval yEval : BlockCtx σ → Option (BlockCtx σ))
    (h : compileBinaryExpr E op inferOnly ctx xInfer yInfer xEval yEval = some c2) :
    ∃ c1 c3, xInfer ctx = some c1 ∧ yInfer c1 = some c3 ∧ c2.out = c3.out := by
  unfold compileBinaryExpr at h
  rw [if_neg (by decide)] at h
  cases hx : xInfer ctx with
  | none => simp [hx] at h
  | some c1 =>
    simp only [hx] at h
    cases hy : yInfer c1 with
    | none => simp [hy] at h
    | some c3 =>
      simp only [hy] at h
      refine ⟨c1, c3, rfl, hy, ?_⟩
      split at h
      · split at h
        · exact binaryConst_inferOnly_out E _ _ _ c3 c2 h
        · split at h
          · simp at h
          · simp only [if_true] at h
            exact (BlockCtx.ret_out _ _ _ _ h).1
      · simp at h

theorem compileCallExpr_inferOnly_out {σ : Type} (E : Env σ) (nargs : Nat)
    (ctx c2 : BlockCtx σ) (fnInfer fnEval recvEval argsEval : BlockCtx σ → Option (BlockCtx σ))
    (h : compileCallExpr E nargs inferOnly ctx fnInfer fnEval recvEval argsEval = some c2) :
    ∃ c1, fnInfer ctx = some c1 ∧ c2.out = c1.out := by
  unfold compileCallExpr at h
  rw [if_neg (by decide)] at h
  cases hx : fnInfer ctx with
  | none => simp [hx] at h
  | some c1 =>
    simp only [hx] at h
    refine ⟨c1, rfl, ?_⟩
    split at h
    · simp only [if_true] at h
      exact (BlockCtx.ret_out _ _ _ _ h).1
    · simp only [if_true] at h
      exact (BlockCtx.ret_out _ _ _ _ h).1
    · split at h
      · simp at h
      · simp only [if_true] at h
        exact (BlockCtx.ret_out _ _ _ _ h).1
    · simp at h

theorem compileExpr_inferOnly_aux {σ : Type} (E : Env σ) :
    ∀ (e : Expr) (ctx c2 : BlockCtx σ), compileExpr E e inferOnly ctx = some c2 →
      c2.out.code = ctx.out.code ∧ c2.out.funcs = ctx.out.funcs
  | .ident name, ctx, c2, h => by
    rw [compileExpr] at h
    have := compileIdent_inferOnly_out E name ctx c2 h
    exact ⟨by rw [this], by rw [this]⟩
  | .basicLit kind value, ctx, c2, h => by
    rw [compileExpr] at h
    obtain ⟨n, k, _, rfl⟩ := compileBasicLit_inferOnly E kind value ctx c2 h
    exact ⟨rfl, rfl⟩
  | .funcLit lit, ctx, c2, h => by
    rw [compileExpr] at h
    exact compileFuncLit_inferOnly_code E lit ctx c2 h
  | .other _, ctx, c2, h => by
    rw [compileExpr] at h
    exact Option.noConfusion h
  | .selector x sel, ctx, c2, h => by
    rw [compileExpr] at h
    obtain ⟨c1, hx, hout⟩ := compileSelectorExpr_inferOnly_out E sel ctx c2 _ h
    have ih := compileExpr_inferOnly_aux E x ctx c1 hx
    rw [hout]
    exact ih
  | .binary x op y, ctx, c2, h => by
    rw [compileExpr] at h
    obtain ⟨c1, c3, hx, hy, hout⟩ := compileBinaryExpr_inferOnly_out E op ctx c2 _ _ _ _ h
    have ih1 := compileExpr_inferOnly_aux E x ctx c1 hx
    have ih2 := compileExpr_inferOnly_aux E y c1 c3 hy
    rw [hout, ih2.1, ih2.2]
    exact ih1
  | .call fn args, ctx, c2, h => by
    rw [compileExpr] at h
    obtain ⟨c1, hx, hout⟩ := compileCallExpr_inferOnly_out E args.length ctx c2 _ _ _ _ h
    have ih := compileExpr_inferOnly_aux E fn ctx c1 hx
    rw [hout]
    exact ih

/-- C10: a successful `compileExpr(ctx, e, inferOnly)` leaves the program under
construction as it was: the instruction sequence, the function tables and the
function map of the builder are identical before and after, for every expression
`e` of any nesting; and a literal compiled infer-only pushes a constant with the
value and kind that `ToConst` yields and with reserved slot -1. -/
theorem inferOnly_emits_no_code {σ : Type} (E : Env σ) (e : Expr) (ctx c2 : BlockCtx σ)
    (h : compileExpr E e inferOnly ctx = some c2) :
    c2.out.code.data = ctx.out.code.data ∧ c2.out.code = ctx.out.code ∧
    c2.out.funcs = ctx.out.funcs ∧
    (∀ kind value, e = .basicLit kind value →
      ∃ n k, ToConst E.strconv kind value = some (k, n) ∧
        c2.infer = ctx.infer ++ [.constVal n k (-1)] ∧ c2.out = ctx.out) := by
  have haux := compileExpr_inferOnly_aux E e ctx c2 h
  refine ⟨by rw [haux.1], haux.1, haux.2, ?_⟩
  intro kind value he
  subst he
  rw [compileExpr] at h
  obtain ⟨n, k, hk, rfl⟩ := compileBasicLit_inferOnly E kind value ctx c2 h
  exact ⟨n, k, hk, rfl, rfl⟩

/-- Witness for C10: the call `func(){}(1)` compiled infer-only in the sample
environment. -/
theorem inferOnly_emits_no_code_witness :
    (compileExpr sampleEnv (.call (.funcLit 0) [.basicLit tokINT "1"]) inferOnly sampleCtx).map
        (fun c => c.infer) = some [.funcResults []] ∧
    ∀ c2, compileExpr sampleEnv (.call (.funcLit 0) [.basicLit tokINT "1"]) inferOnly
        sampleCtx = some c2 → c2.out.code.data = [] :=
  ⟨rfl, fun c2 h =>
    (inferOnly_emits_no_code sampleEnv (.call (.funcLit 0) [.basicLit tokINT "1"])
      sampleCtx c2 h).1⟩


/-! ## Expression statements consisting of a literal -/

theorem ToConst_rune_int64 (S : Strconv) (kind : Nat) (value : String) (n : Value)
    (h : ToConst S kind value = some (ConstBoundRune, n)) : ∃ c, n = .int64 c := by
  unfold ToConst at h
  split at h
  · split at h
    · simp [ConstUnboundInt, ConstBoundRune] at h
    · split at h
      · simp [ConstUnboundInt, ConstBoundRune] at h
      · simp at h
  · split at h
    · split at h
      · simp at h
      · split at h
        · split at h
          · simp only [Option.some.injEq, Prod.mk.injEq] at h
            exact ⟨_, h.2.symm⟩
          · simp at h
        · simp [ConstBoundString, ConstBoundRune] at h
    · split at h
      · split at h
        · simp [ConstUnboundFloat, ConstBoundRune] at h
        · simp at h
      · split at h
        · split at h
          · simp at h
          · split at h
            · simp [ConstUnboundComplex, ConstBoundRune] at h
            · simp at h
        · simp at h

theorem inferPopN_push (s : List IValue) (v : IValue) : inferPopN (s ++ [v]) 1 = some s := by
  unfold inferPopN
  simp

/-- C9 (amended): for every literal node, a successful `compileExprStmt` on the
statement consisting of that literal restores the inference stack and appends
exactly one instruction and no drop instruction: `Push(value)` for a literal of
bound kind (a character or a string), whose execution leaves the value stack one
value deeper with the value on top, and one reserved placeholder slot for a literal
of unbound kind (an integer, float or imaginary literal). -/
theorem exprStmt_literal_pushes_no_drop {σ : Type} (E : Env σ) (kind : Nat) (value : String)
    (ctx c2 : BlockCtx σ) (h : compileExprStmt E (.basicLit kind value) ctx = some c2) :
    c2.infer = ctx.infer ∧
    ∃ k n, ToConst E.strconv kind value = some (k, n) ∧
      ((IsConstBound k = true ∧
          ∃ v, c2.out.code.data = ctx.out.code.data ++ [.push v] ∧
            (k = ConstBoundRune → ∃ c, n = .int64 c ∧ v = .rune c) ∧
            (k ≠ ConstBoundRune → v = n) ∧
            ∀ m : Machine, (execPush v m).data = m.data ++ [v]) ∨
       (IsConstBound k = false ∧ c2.out.code.data = ctx.out.code.data ++ [.reserved])) := by
  unfold compileExprStmt at h
  rw [compileExpr] at h
  unfold compileBasicLit at h
  rw [if_neg (by decide)] at h
  cases hc : ToConst E.strconv kind value with
  | none => simp [hc] at h
  | some r =>
    obtain ⟨k, n⟩ := r
    simp only [hc] at h
    rw [if_neg (by decide)] at h
    by_cases hb : IsConstBound k = true
    · rw [if_pos hb] at h
      by_cases hr : k = ConstBoundRune
      · rw [if_pos hr] at h
        subst hr
        obtain ⟨c, rfl⟩ := ToConst_rune_int64 _ _ _ _ hc
        simp only [BlockCtx.push, inferPopN_push, Option.map_some', Option.some.injEq] at h
        subst h
        exact ⟨rfl, _, _, rfl, Or.inl ⟨hb, .rune c, rfl, fun _ => ⟨c, rfl, rfl⟩,
          fun hne => absurd rfl hne, fun _ => rfl⟩⟩
      · rw [if_neg hr] at h
        simp only [BlockCtx.push, inferPopN_push, Option.map_some', Option.some.injEq] at h
        subst h
        exact ⟨rfl, _, _, rfl, Or.inl ⟨hb, n, rfl, fun he => absurd he hr, fun _ => rfl,
          fun _ => rfl⟩⟩
    · rw [if_neg hb] at h
      simp only [BlockCtx.push, inferPopN_push, Option.map_some', Option.some.injEq] at h
      subst h
      exact ⟨rfl, _, _, rfl, Or.inr ⟨by simpa using hb, rfl⟩⟩

/-- Witness for C9: the statement consisting of the string literal `"a"`. -/
theorem exprStmt_literal_pushes_no_drop_witness :
    ∃ c2, compileExprStmt sampleEnv (.basicLit tokSTRING "\"a\"") sampleCtx = some c2 ∧
      c2.infer = sampleCtx.infer :=
  ⟨_, rfl, (exprStmt_literal_pushes_no_drop sampleEnv tokSTRING "\"a\"" sampleCtx _ rfl).1⟩

/-- Counterexample for C9 as stated: the statement consisting of the string literal
`"a"` compiles to the single instruction `Push("a")`; executed on an empty value
stack it leaves the stack holding `"a"`, not as it was. -/
theorem exprStmt_literal_not_dropped :
    (compileExprStmt sampleEnv (.basicLit tokSTRING "\"a\"") sampleCtx).map
        (fun c => c.out.code.data) = some [.push (.str "a")] ∧
    (execPush (.str "a") ⟨[], []⟩).data = [.str "a"] ∧
    (execPush (.str "a") ⟨[], []⟩).data ≠ (⟨[], []⟩ : Machine).data :=
  ⟨rfl, rfl, fun h => List.noConfusion h⟩

/-! ## Inference-stack depth in assign and define mode -/

theorem selectorFinish_eq_none {σ : Type} (E : Env σ) (sel : String) (mode : Nat)
    (hm : mode ≠ inferOnly) (ctx : BlockCtx σ) : selectorFinish E sel mode ctx = none := by
  unfold selectorFinish
  repeat' split
  all_goals first | rfl | exact absurd (by assumption) hm

theorem lhsTarget_infer {σ : Type} (E : Env σ) (name : String) (mode : Nat) (inv : IValue)
    (ctx c1 : BlockCtx σ) (addr : VarRef) (h : lhsTarget E name mode inv ctx = some (addr, c1)) :
    c1.infer = ctx.infer := by
  unfold lhsTarget at h
  split at h
  · simp only [Option.some.injEq, Prod.mk.injEq] at h
    rw [← h.2]
  · simp at h
  · split at h
    · simp at h
    · split at h
      · simp at h
      · split at h
        · simp at h
        · simp only [Option.some.injEq, Prod.mk.injEq] at h
          rw [← h.2]

/-- In assign or define mode (`mode > lhsBase`) `compileExpr` succeeds only on an
identifier, where it pops one entry of the inference stack, and on a function
literal, where it pushes one. -/
theorem compileExpr_lhs_depth {σ : Type} (E : Env σ) (e : Expr) (mode : Nat)
    (hm : mode > lhsBase) (ctx c2 : BlockCtx σ) (h : compileExpr E e mode ctx = some c2) :
    (∃ name, e = .ident name ∧ c2.infer.length + 1 = ctx.infer.length) ∨
    (∃ lit, e = .funcLit lit ∧ c2.infer.length = ctx.infer.length + 1) := by
  have hne : mode ≠ inferOnly := by
    intro e1; rw [e1] at hm; exact absurd hm (by decide)
  cases e with
  | ident name =>
    left
    refine ⟨name, rfl, ?_⟩
    rw [compileExpr] at h
    unfold compileIdent at h
    rw [if_pos hm] at h
    unfold compileIdentLhs at h
    cases hg : inferGet ctx.infer 1 with
    | none => simp [hg] at h
    | some inv =>
      simp only [hg] at h
      cases ht : lhsTarget E name mode inv ctx with
      | none => simp [ht] at h
      | some r =>
        obtain ⟨addr, c1⟩ := r
        simp only [ht] at h
        have hinf := lhsTarget_infer E name mode inv ctx c1 addr ht
        cases hty : addr.getType c1.out with
        | none => simp [hty] at h
        | some t =>
          simp only [hty] at h
          cases hck : E.checkType t inv c1.out with
          | none => simp [hck] at h
          | some out2 =>
            simp only [hck] at h
            cases hpop : inferPopN c1.infer 1 with
            | none => simp [hpop] at h
            | some inf2 =>
              simp only [hpop] at h
              have hlen : inf2.length + 1 = ctx.infer.length := by
                unfold inferPopN at hpop
                split at hpop
                · rename_i hle
                  simp only [Option.some.injEq] at hpop
                  rw [← hpop, List.length_take, ← hinf]
                  omega
                · simp at hpop
              cases addr with
              | execVar v =>
                simp only at h
                cases hs : out2.StoreVar E.L v with
                | none => simp [hs] at h
                | some o =>
                  simp only [hs, Option.map_some', Option.some.injEq] at h
                  subst h
                  exact hlen
              | stackVar typ index =>
                simp only [Option.some.injEq] at h
                subst h
                exact hlen
  | funcLit lit =>
    right
    refine ⟨lit, rfl, ?_⟩
    rw [compileExpr] at h
    unfold compileFuncLit at h
    cases hn : E.newFuncDecl ctx.scope lit with
    | none => simp [hn] at h
    | some r =>
      obtain ⟨id, finfo, sc⟩ := r
      simp only [hn, if_neg hne] at h
      cases hg : Builder.GoClosure E.L
          { ctx.out with finfos := ctx.out.finfos ++ [finfo] } ctx.out.finfos.length with
      | none => simp [hg] at h
      | some o =>
        simp only [hg, Option.map_some', Option.some.injEq] at h
        subst h
        simp [BlockCtx.push]
  | basicLit kind value =>
    rw [compileExpr] at h
    unfold compileBasicLit at h
    rw [if_pos hm] at h
    exact Option.noConfusion h
  | other tag =>
    rw [compileExpr] at h
    exact Option.noConfusion h
  | binary x op y =>
    rw [compileExpr] at h
    unfold compileBinaryExpr at h
    rw [if_pos hm] at h
    exact Option.noConfusion h
  | call fn args =>
    rw [compileExpr] at h
    unfold compileCallExpr at h
    rw [if_pos hm] at h
    exact Option.noConfusion h
  | selector x sel =>
    rw [compileExpr] at h
    unfold compileSelectorExpr at h
    cases hx : compileExpr E x inferOnly ctx with
    | none => simp [hx] at h
    | some c1 =>
      simp only [hx, selectorFinish_eq_none E sel mode hne c1] at h
      exact Option.noConfusion h



/-! ## Inference-stack depth in evaluate and infer-only mode -/

theorem compileIdent_depth {σ : Type} (E : Env σ) (name : String) (mode : Nat)
    (hm : mode ≤ lhsBase) (ctx c2 : BlockCtx σ) (h : compileIdent E name mode ctx = some c2) :
    c2.infer.length = ctx.infer.length + 1 := by
  unfold compileIdent at h
  rw [if_neg (by omega)] at h
  cases hf : E.find ctx.scope name with
  | some sym =>
    simp only [hf] at h
    unfold compileIdentSym at h
    cases sym with
    | execVar v =>
      simp only at h
      cases hv : ctx.out.vars[v]? with
      | none => simp [hv] at h
      | some x =>
        simp only [hv] at h
        split at h
        · cases h; simp [BlockCtx.push]
        · cases hl : ctx.out.LoadVar E.L v with
          | none => simp [hl] at h
          | some o =>
            simp only [hl, Option.map_some', Option.some.injEq] at h
            subst h; simp [BlockCtx.push]
    | stackVar typ index =>
      simp only at h
      split at h <;> (cases h; simp [BlockCtx.push])
    | pkgPath path =>
      simp only at h
      cases hp : FindGoPackage E.gopkgs path with
      | none => simp [hp] at h
      | some pkg =>
        simp only [hp, Option.some.injEq] at h
        subst h; simp [BlockCtx.push]
    | funcDecl decl =>
      simp only at h
      split at h
      · cases h; simp [BlockCtx.push]
      · exact Option.noConfusion h
    | unknown => exact Option.noConfusion h
  | none =>
    simp only [hf] at h
    unfold compileIdentBuiltin at h
    cases hb : GoPackage.Find E.L ctx.builtin name with
    | none => simp [hb] at h
    | some r =>
      obtain ⟨addr, kind⟩ := r
      simp only [hb] at h
      split at h
      · exact Option.noConfusion h
      · split at h
        · split at h
          · cases h; simp [BlockCtx.push]
          · exact Option.noConfusion h
        · exact Option.noConfusion h

theorem compileBasicLit_depth {σ : Type} (E : Env σ) (kind : Nat) (value : String) (mode : Nat)
    (ctx c2 : BlockCtx σ) (h : compileBasicLit E kind value mode ctx = some c2) :
    c2.infer.length = ctx.infer.length + 1 := by
  unfold compileBasicLit at h
  split at h
  · exact Option.noConfusion h
  · cases hc : ToConst E.strconv kind value with
    | none => simp [hc] at h
    | some r =>
      obtain ⟨k, n⟩ := r
      simp only [hc] at h
      split at h
      · cases h; simp [BlockCtx.push]
      · split at h
        · split at h
          · split at h
            · cases h; simp [BlockCtx.push]
            all_goals exact Option.noConfusion h
          · cases h; simp [BlockCtx.push]
        · cases h; simp [BlockCtx.push]

theorem compileFuncLit_depth {σ : Type} (E : Env σ) (lit : Nat) (mode : Nat)
    (ctx c2 : BlockCtx σ) (h : compileFuncLit E lit mode ctx = some c2) :
    c2.infer.length = ctx.infer.length + 1 := by
  unfold compileFuncLit at h
  cases hn : E.newFuncDecl ctx.scope lit with
  | none => simp [hn] at h
  | some r =>
    obtain ⟨id, finfo, sc⟩ := r
    simp only [hn] at h
    split at h
    · cases h; simp [BlockCtx.push]
    · cases hg : Builder.GoClosure E.L
          { ctx.out with finfos := ctx.out.finfos ++ [finfo] } ctx.out.finfos.length with
      | none => simp [hg] at h
      | some o =>
        simp only [hg, Option.map_some', Option.some.injEq] at h
        subst h
        simp [BlockCtx.push]

theorem u32_of_lt (n : Nat) (h : n < 2 ^ 32) : u32 n = n := Nat.mod_eq_of_lt h

theorem selectorFinish_depth {σ : Type} (E : Env σ) (sel : String) (mode : Nat)
    (ctx c2 : BlockCtx σ) (h : selectorFinish E sel mode ctx = some c2) :
    c2.infer.length = ctx.infer.length := by
  by_cases hm : mode = inferOnly
  · unfold selectorFinish at h
    have key : ∀ v, ctx.ret 1 v = some c2 → c2.infer.length = ctx.infer.length := by
      intro v hv
      have := (BlockCtx.ret_out _ _ _ _ hv).2.1
      omega
    repeat' split at h
    all_goals first | exact Option.noConfusion h | exact key _ h
  · rw [selectorFinish_eq_none E sel mode hm ctx] at h
    exact Option.noConfusion h

theorem compileSelectorExpr_depth {σ : Type} (E : Env σ) (sel : String) (mode : Nat)
    (ctx c2 : BlockCtx σ) (xInfer : BlockCtx σ → Option (BlockCtx σ))
    (hx : ∀ c d, xInfer c = some d → d.infer.length = c.infer.length + 1)
    (h : compileSelectorExpr E sel mode ctx xInfer = some c2) :
    c2.infer.length = ctx.infer.length + 1 := by
  unfold compileSelectorExpr at h
  cases h1 : xInfer ctx with
  | none => simp [h1] at h
  | some c1 =>
    simp only [h1] at h
    rw [selectorFinish_depth E sel mode c1 c2 h, hx ctx c1 h1]

theorem binaryConst_depth {σ : Type} (E : Env σ) (op : Nat) (x y : IValue) (mode : Nat)
    (ctx c2 : BlockCtx σ) (h : binaryConst E op x y mode ctx = some c2) :
    c2.infer.length + 2 = ctx.infer.length + 1 := by
  unfold binaryConst at h
  cases hb : E.binaryOp op x y with
  | none => simp [hb] at h
  | some r =>
    obtain ⟨v, k, rr⟩ := r
    simp only [hb] at h
    split at h
    · unfold inferRet at h
      split at h
      · simp only [Option.map_some', Option.some.injEq] at h
        subst h
        simp only [List.length_append, List.length_take, List.length_singleton]
        omega
      · exact Option.noConfusion h
    · exact (BlockCtx.ret_out _ _ _ _ h).2.1

theorem binaryEmit_depth {σ : Type} (E : Env σ) (kind op : Nat) (ret : IValue)
    (ctx c2 : BlockCtx σ) (h : binaryEmit E kind op ret ctx = some c2) :
    c2.infer.length + 4 = ctx.infer.length + 1 := by
  unfold binaryEmit at h
  repeat' split at h
  all_goals first
    | exact Option.noConfusion h
    | exact (BlockCtx.ret_out _ _ _ _ h).2.1

theorem compileBinaryExpr_depth {σ : Type} (E : Env σ) (op : Nat) (mode : Nat)
    (ctx c2 : BlockCtx σ) (xInfer yInfer xEval yEval : BlockCtx σ → Option (BlockCtx σ))
    (h1 : ∀ c d, xInfer c = some d → d.infer.length = c.infer.length + 1)
    (h2 : ∀ c d, yInfer c = some d → d.infer.length = c.infer.length + 1)
    (h3 : ∀ c d, xEval c = some d → d.infer.length = c.infer.length + 1)
    (h4 : ∀ c d, yEval c = some d → d.infer.length = c.infer.length + 1)
    (h : compileBinaryExpr E op mode ctx xInfer yInfer xEval yEval = some c2) :
    c2.infer.length = ctx.infer.length + 1 := by
  unfold compileBinaryExpr at h
  split at h
  · exact Option.noConfusion h
  · cases hx : xInfer ctx with
    | none => simp [hx] at h
    | some c1 =>
      simp only [hx] at h
      cases hy : yInfer c1 with
      | none => simp [hy] at h
      | some c3 =>
        simp only [hy] at h
        have l1 := h1 ctx c1 hx
        have l2 := h2 c1 c3 hy
        split at h
        · split at h
          · have := binaryConst_depth E _ _ _ mode c3 c2 h
            omega
          · split at h
            · exact Option.noConfusion h
            · split at h
              · have := (BlockCtx.ret_out _ _ _ _ h).2.1
                omega
              · cases hx2 : xEval c3 with
                | none => simp [hx2] at h
                | some c4 =>
                  simp only [hx2] at h
                  cases hy2 : yEval c4 with
                  | none => simp [hy2] at h
                  | some c5 =>
                    simp only [hy2] at h
                    have l3 := h3 c3 c4 hx2
                    have l4 := h4 c4 c5 hy2
                    have := binaryEmit_depth E _ _ _ c5 c2 h
                    omega
        · exact Option.noConfusion h

theorem callQlFunc_depth {σ : Type} (E : Env σ) (decl : FuncDecl) (vfn : IValue) (nargs : Nat)
    (ret : IValue) (ctx c2 : BlockCtx σ) (hn : nargs + 2 < 2 ^ 32)
    (h : callQlFunc E decl vfn nargs ret ctx = some c2) :
    c2.infer.length + (nargs + 1) = ctx.infer.length + 1 := by
  unfold callQlFunc at h
  rw [u32_of_lt (nargs + 1) (by omega)] at h
  repeat' split at h
  all_goals first
    | exact Option.noConfusion h
    | exact (BlockCtx.ret_out _ _ _ _ h).2.1

theorem callGoFunc_depth {σ : Type} (E : Env σ) (addr kind : Nat) (isMethod : Bool)
    (vfn : IValue) (nargs : Nat) (ret : IValue) (ctx c2 : BlockCtx σ) (hn : nargs + 2 < 2 ^ 32)
    (h : callGoFunc E addr kind isMethod vfn nargs ret ctx = some c2) :
    c2.infer.length + (nargs + 1 + isMethod.toNat) = ctx.infer.length + 1 := by
  unfold callGoFunc at h
  have hb : isMethod.toNat ≤ 1 := by cases isMethod <;> simp
  rw [u32_of_lt (nargs + 1 + isMethod.toNat) (by omega)] at h
  repeat' split at h
  all_goals first
    | exact Option.noConfusion h
    | exact (BlockCtx.ret_out _ _ _ _ h).2.1

theorem callGoValue_depth {σ : Type} (E : Env σ) (t : Ty) (nargs : Nat) (ret : IValue)
    (ctx c2 : BlockCtx σ) (hn : nargs + 2 < 2 ^ 32)
    (h : callGoValue E t nargs ret ctx = some c2) :
    c2.infer.length + (nargs + 2) = ctx.infer.length + 1 := by
  unfold callGoValue at h
  rw [u32_of_lt (nargs + 2) hn] at h
  repeat' split at h
  all_goals first
    | exact Option.noConfusion h
    | exact (BlockCtx.ret_out _ _ _ _ h).2.1

theorem compileCallExpr_depth {σ : Type} (E : Env σ) (nargs : Nat) (mode : Nat)
    (ctx c2 : BlockCtx σ) (fnInfer fnEval recvEval argsEval : BlockCtx σ → Option (BlockCtx σ))
    (hn : nargs + 2 < 2 ^ 32)
    (h1 : ∀ c d, fnInfer c = some d → d.infer.length = c.infer.length + 1)
    (h2 : ∀ c d, fnEval c = some d → d.infer.length = c.infer.length + 1)
    (h3 : ∀ c d, recvEval c = some d → d.infer.length = c.infer.length + 1)
    (h4 : ∀ c d, argsEval c = some d → d.infer.length = c.infer.length + nargs)
    (h : compileCallExpr E nargs mode ctx fnInfer fnEval recvEval argsEval = some c2) :
    c2.infer.length = ctx.infer.length + 1 := by
  unfold compileCallExpr at h
  split at h
  · exact Option.noConfusion h
  · cases hx : fnInfer ctx with
    | none => simp [hx] at h
    | some c1 =>
      simp only [hx] at h
      have l1 := h1 ctx c1 hx
      split at h
      · -- script function
        split at h
        · have := (BlockCtx.ret_out _ _ _ _ h).2.1
          omega
        · cases ha : argsEval c1 with
          | none => simp [ha] at h
          | some c3 =>
            simp only [ha] at h
            have l4 := h4 c1 c3 ha
            have := callQlFunc_depth E _ _ nargs _ c3 c2 hn h
            omega
      · -- native function
        rename_i addr kind isMethod _
        split at h
        · have := (BlockCtx.ret_out _ _ _ _ h).2.1
          omega
        · cases isMethod with
          | false =>
            simp only [Bool.false_eq_true, if_false] at h
            cases ha : argsEval c1 with
            | none => simp [ha] at h
            | some c3 =>
              simp only [ha] at h
              have l4 := h4 c1 c3 ha
              have := callGoFunc_depth E _ _ false _ nargs _ c3 c2 hn h
              simp only [Bool.toNat_false] at this
              omega
          | true =>
            simp only [if_true] at h
            cases hr : recvEval c1 with
            | none => simp [hr] at h
            | some c4 =>
              simp only [hr] at h
              have l3 := h3 c1 c4 hr
              cases ha : argsEval c4 with
              | none => simp [ha] at h
              | some c3 =>
                simp only [ha] at h
                have l4 := h4 c4 c3 ha
                have := callGoFunc_depth E _ _ true _ nargs _ c3 c2 hn h
                simp only [Bool.toNat_true] at this
                omega
      · -- callable value
        split at h
        · exact Option.noConfusion h
        · split at h
          · have := (BlockCtx.ret_out _ _ _ _ h).2.1
            omega
          · cases ha : argsEval c1 with
            | none => simp [ha] at h
            | some c3 =>
              simp only [ha] at h
              have l4 := h4 c1 c3 ha
              cases hf : fnEval c3 with
              | none => simp [hf] at h
              | some c4 =>
                simp only [hf] at h
                have l2 := h2 c3 c4 hf
                have := callGoValue_depth E _ nargs _ c4 c2 hn h
                omega
      · exact Option.noConfusion h

mutual
/-- In evaluate mode and in infer-only mode (`mode <= lhsBase`) every successful
`compileExpr` makes the inference stack exactly one entry deeper. -/
theorem compileExpr_depth {σ : Type} (E : Env σ) :
    ∀ (e : Expr) (mode : Nat), mode ≤ lhsBase → e.argsFit → ∀ (ctx c2 : BlockCtx σ),
      compileExpr E e mode ctx = some c2 → c2.infer.length = ctx.infer.length + 1
  | .ident name, mode, hm, _, ctx, c2, h => by
    rw [compileExpr] at h
    exact compileIdent_depth E name mode hm ctx c2 h
  | .basicLit kind value, mode, _, _, ctx, c2, h => by
    rw [compileExpr] at h
    exact compileBasicLit_depth E kind value mode ctx c2 h
  | .funcLit lit, mode, _, _, ctx, c2, h => by
    rw [compileExpr] at h
    exact compileFuncLit_depth E lit mode ctx c2 h
  | .other _, _, _, _, ctx, c2, h => by
    rw [compileExpr] at h
    exact Option.noConfusion h
  | .selector x sel, mode, _, hfit, ctx, c2, h => by
    rw [compileExpr] at h
    rw [Expr.argsFit] at hfit
    exact compileSelectorExpr_depth E sel mode ctx c2 _
      (compileExpr_depth E x inferOnly (by decide) hfit) h
  | .binary x op y, mode, _, hfit, ctx, c2, h => by
    rw [compileExpr] at h
    rw [Expr.argsFit] at hfit
    exact compileBinaryExpr_depth E op mode ctx c2 _ _ _ _
      (compileExpr_depth E x inferOnly (by decide) hfit.1)
      (compileExpr_depth E y inferOnly (by decide) hfit.2)
      (compileExpr_depth E x 0 (by decide) hfit.1)
      (compileExpr_depth E y 0 (by decide) hfit.2) h
  | .call fn args, mode, _, hfit, ctx, c2, h => by
    rw [compileExpr] at h
    rw [Expr.argsFit] at hfit
    exact compileCallExpr_depth E args.length mode ctx c2 _ _ _ _ hfit.2.1
      (compileExpr_depth E fn inferOnly (by decide) hfit.1)
      (compileExpr_depth E fn 0 (by decide) hfit.1)
      (compileRecv_depth E fn hfit.1)
      (compileExprs_depth E args hfit.2.2) h
/-- The receiver of a method call is compiled in evaluate mode: one entry deeper. -/
theorem compileRecv_depth {σ : Type} (E : Env σ) :
    ∀ (e : Expr), e.argsFit → ∀ (ctx c2 : BlockCtx σ),
      compileRecv E e ctx = some c2 → c2.infer.length = ctx.infer.length + 1
  | .selector x _, hfit, ctx, c2, h => by
    rw [compileRecv] at h
    rw [Expr.argsFit] at hfit
    exact compileExpr_depth E x 0 (by decide) hfit ctx c2 h
  | .ident _, _, _, c2, h =>
    Option.noConfusion (show (none : Option (BlockCtx σ)) = some c2 from h)
  | .basicLit _ _, _, _, c2, h =>
    Option.noConfusion (show (none : Option (BlockCtx σ)) = some c2 from h)
  | .funcLit _, _, _, c2, h =>
    Option.noConfusion (show (none : Option (BlockCtx σ)) = some c2 from h)
  | .other _, _, _, c2, h =>
    Option.noConfusion (show (none : Option (BlockCtx σ)) = some c2 from h)
  | .binary _ _ _, _, _, c2, h =>
    Option.noConfusion (show (none : Option (BlockCtx σ)) = some c2 from h)
  | .call _ _, _, _, c2, h =>
    Option.noConfusion (show (none : Option (BlockCtx σ)) = some c2 from h)
/-- Compiling a list of arguments makes the inference stack deeper by its length. -/
theorem compileExprs_depth {σ : Type} (E : Env σ) :
    ∀ (es : List Expr), Expr.argsFitList es → ∀ (ctx c2 : BlockCtx σ),
      compileExprs E es ctx = some c2 → c2.infer.length = ctx.infer.length + es.length
  | [], _, ctx, c2, h => by
    rw [compileExprs] at h
    cases h; rfl
  | a :: rest, hfit, ctx, c2, h => by
    rw [compileExprs] at h
    rw [Expr.argsFitList] at hfit
    cases ha : compileExpr E a 0 ctx with
    | none => simp [ha] at h
    | some c1 =>
      simp only [ha] at h
      have l1 := compileExpr_depth E a 0 (by decide) hfit.1 ctx c1 ha
      have l2 := compileExprs_depth E rest hfit.2 c1 c2 h
      rw [l2, l1, List.length_cons]
      omega
end


/-! ## Inference-stack depth of a function literal on the left-hand side -/


/-- C8, evaluated at the failing input: `compileExpr` on a function literal in
assign mode and in define mode succeeds and makes the inference stack one entry
deeper (it pushes the function and emits a closure instruction), whereas a literal,
a binary expression and a call are rejected in these modes; consequently the
block consisting of the assignment `func(){} = "a"` compiles successfully and
leaves two entries on the inference stack. -/
theorem funcLit_lhs_deepens_infer_stack :
    (compileExpr sampleEnv (.funcLit 0) lhsAssign (sampleCtx.push (.goValue (.named 24 "" "" [])))).map
        (fun c => c.infer.length) = some 2 ∧
    (compileExpr sampleEnv (.funcLit 0) lhsDefine (sampleCtx.push (.goValue (.named 24 "" "" [])))).map
        (fun c => (c.infer.length, c.out.code.data)) = some (2, [.word 1543503872]) ∧
    compileExpr sampleEnv (.basicLit tokSTRING "\"a\"") lhsAssign
        (sampleCtx.push (.goValue (.named 24 "" "" []))) = none ∧
    compileExpr sampleEnv (.binary (.basicLit tokINT "1") 12 (.basicLit tokINT "2")) lhsAssign
        (sampleCtx.push (.goValue (.named 24 "" "" []))) = none ∧
    compileExpr sampleEnv (.call (.funcLit 0) []) lhsAssign
        (sampleCtx.push (.goValue (.named 24 "" "" []))) = none ∧
    (compileBlockStmt sampleEnv [.assign [.funcLit 0] lhsAssign [.basicLit tokSTRING "\"a\""]]
        sampleCtx).map (fun c => c.infer.length) = some 2 :=
  ⟨rfl, rfl, rfl, rfl, rfl, rfl⟩

/-! ## The result of a non-constant binary operation -/

/-- C11 (`binaryOpResult`): for operands that each carry exactly one value the
function fails exactly when neither kind is bound; otherwise the determined kind is
the kind of `x` when that is bound and the kind of `y` when only that is bound, the
returned kind is the determined kind when the output kind of the operator is
`SameAsFirst` and the output kind of the operator otherwise, and the returned value
is the `goValue` of `TypeFromKind` of the returned kind.  It fails whenever an
operand does not carry exactly one value. -/
theorem binaryOpResult_spec {σ : Type} (E : Env σ) (op : Nat) (x y : IValue) :
    (E.numValues x = some 1 → E.numValues y = some 1 →
      (binaryOpResult E op x y = none ↔
        (IsConstBound (E.kindOf x) = false ∧ IsConstBound (E.kindOf y) = false)) ∧
      ((IsConstBound (E.kindOf x) = true ∨ IsConstBound (E.kindOf y) = true) →
        binaryOpResult E op x y =
          some (if E.opOut op = E.sameAsFirst then
                  (if IsConstBound (E.kindOf x) = true then E.kindOf x else E.kindOf y)
                else E.opOut op,
                .goValue (E.typeFromKind
                  (if E.opOut op = E.sameAsFirst then
                    (if IsConstBound (E.kindOf x) = true then E.kindOf x else E.kindOf y)
                  else E.opOut op))))) ∧
    ((E.numValues x ≠ some 1 ∨ E.numValues y ≠ some 1) → binaryOpResult E op x y = none) := by
  refine ⟨fun hx hy => ?_, fun h => ?_⟩
  · simp only [binaryOpResult, hx, hy]
    cases hbx : IsConstBound (E.kindOf x) <;> cases hby : IsConstBound (E.kindOf y) <;>
      by_cases ho : E.opOut op = E.sameAsFirst <;> simp [ho]
  · unfold binaryOpResult
    cases hx : E.numValues x with
    | none => rfl
    | some nx =>
      cases hy : E.numValues y with
      | none => rfl
      | some ny =>
        have hne : nx ≠ 1 ∨ ny ≠ 1 := by
          rcases h with h | h
          · left; intro e; exact h (by rw [hx, e])
          · right; intro e; exact h (by rw [hy, e])
        simp only [if_pos hne]

/-- Witness for C11 on the scoped environment: a value of type `int` and an unbound
integer constant under an operator whose output kind is `SameAsFirst`. -/
theorem binaryOpResult_spec_witness :
    scopedEnv.numValues (.goValue intTy) = some 1 ∧
      scopedEnv.numValues (.constVal (.int 1) ConstUnboundInt (-1)) = some 1 ∧
      IsConstBound (scopedEnv.kindOf (.goValue intTy)) = true ∧
      binaryOpResult scopedEnv 12 (.goValue intTy) (.constVal (.int 1) ConstUnboundInt (-1)) =
        some (2, .goValue (.named 2 "" "" [])) :=
  ⟨rfl, rfl, rfl,
   ((binaryOpResult_spec scopedEnv 12 (.goValue intTy)
      (.constVal (.int 1) ConstUnboundInt (-1))).1 rfl rfl).2 (Or.inl rfl)⟩

/-! ## Assigning the address of a variable -/

/-- C18 (`Var.SetAddr`), amended to slot indices of the slot field: on a variable
created by `NewVar`, `SetAddr(nestDepth, idx)` with `idx <= bitsOpVarOperand`
succeeds and stores that address, and every later `SetAddr` call on the variable
fails (the panic precedes the assignment, so the address stays). -/
theorem SetAddr_once (L : Layout) (hL : L.WF) (typ : Ty) (name : String) (nestDepth idx : Nat)
    (hidx : idx ≤ L.bitsOpVarOperand) :
    ∃ v1, (NewVar typ name).SetAddr L nestDepth idx = some v1 ∧
      v1.nestDepth = nestDepth ∧ v1.idx = idx ∧
      ∀ nestDepth2 idx2, v1.SetAddr L nestDepth2 idx2 = none := by
  have hlt : L.bitsOpVarOperand < 4294967295 := by
    have h1 : L.bitsOpVarShift ≤ 31 := by
      have := hL.word; have := hL.opBits; have := hL.varSplit; omega
    have h2 : 2 ^ L.bitsOpVarShift ≤ 2 ^ 31 := Nat.pow_le_pow_right (by decide) h1
    have h3 := hL.varOperand
    omega
  refine ⟨{ NewVar typ name with nestDepth := nestDepth, idx := idx }, ?_, rfl, rfl, ?_⟩
  · simp only [Var.SetAddr, NewVar]
    rw [if_neg (by omega)]
  · intro nestDepth2 idx2
    simp only [Var.SetAddr]
    rw [if_pos hidx]

/-- Witness for C18 on the sample layout: depth 1, slot 5. -/
theorem SetAddr_once_witness :
    (5 : Nat) ≤ sampleLayout.bitsOpVarOperand ∧
      ∃ v1, (NewVar intTy "x").SetAddr sampleLayout 1 5 = some v1 ∧
        v1.nestDepth = 1 ∧ v1.idx = 5 ∧
        ∀ nestDepth2 idx2, v1.SetAddr sampleLayout nestDepth2 idx2 = none :=
  ⟨by decide, SetAddr_once sampleLayout sampleLayout_wf intTy "x" 1 5 (by decide)⟩

/-- Counterexample for C18 as stated: after `SetAddr(0, 1048576)`, whose slot index
exceeds `bitsOpVarOperand`, a second `SetAddr(1, 5)` succeeds and changes the
address. -/
theorem SetAddr_twice_succeeds :
    ((NewVar intTy "x").SetAddr sampleLayout 0 1048576).bind
        (fun v => v.SetAddr sampleLayout 1 5) =
      some { typ := intTy, name := "Qx", nestDepth := 1, idx := 5 } := by
  rfl

/-! ## Names of variables -/

/-- C19 (`Var.IsUnnamedOut`, `Var.Name`, `FuncInfo.IsUnnamedOut`): for every
variable made by `NewVar`, `IsUnnamedOut()` returns false, whatever the name (it
tests the first byte of the stored name, which is the `Q` that `NewVar` puts in
front), so it is false for the positional name `0` too; `Name()` returns the name
passed to `NewVar`; and `FuncInfo.IsUnnamedOut()` is false for the function whose
only result is the variable of positional name `0`. -/
theorem NewVar_IsUnnamedOut_false (typ : Ty) (name : String) :
    (NewVar typ name).IsUnnamedOut = some false ∧
      (NewVar typ "0").IsUnnamedOut = some false ∧
      (NewVar typ name).Name = name ∧
      ((NewFunc "f" 1).Return sampleLayout [0] [NewVar intTy "0"]).bind
        (fun r => r.1.IsUnnamedOut r.2) = some false := by
  refine ⟨?_, ?_, ?_, rfl⟩
  · simp only [Var.IsUnnamedOut, NewVar, String.toList, String.data_append]
    rfl
  · simp only [Var.IsUnnamedOut, NewVar, String.toList, String.data_append]
    rfl
  · simp only [Var.Name, NewVar, String.drop_eq, String.data_append]
    rfl

/-! ## Return statements without values -/

/-- C13 (`compileReturnStmt`), amended: a return statement without result
expressions succeeds exactly when it stands inside a function for which
`FuncInfo.IsUnnamedOut()` is false (named results or no result), and then it emits
`Return(-1)` and changes nothing else; it fails when `IsUnnamedOut()` holds and
outside any function. -/
theorem bareReturn_iff_not_unnamed {σ : Type} (E : Env σ) (ctx c2 : BlockCtx σ) :
    compileReturnStmt E none ctx = some c2 ↔
      ∃ fi f, ctx.fn = some fi ∧ ctx.out.finfos[fi]? = some f ∧
        f.IsUnnamedOut ctx.out.vars = some false ∧
        c2 = { ctx with out := ctx.out.Return E.L (-1) } := by
  unfold compileReturnStmt
  constructor
  · intro h
    cases hfn : ctx.fn with
    | none => simp [hfn] at h
    | some fi =>
      simp only [hfn] at h
      cases hf : ctx.out.finfos[fi]? with
      | none => simp [hf] at h
      | some f =>
        simp only [hf] at h
        cases hu : f.IsUnnamedOut ctx.out.vars with
        | none => simp [hu] at h
        | some b =>
          cases b with
          | true => simp [hu] at h
          | false =>
            simp only [hu, Option.some.injEq] at h
            exact ⟨fi, f, rfl, hf, hu, h.symm⟩
  · rintro ⟨fi, f, hfn, hf, hu, rfl⟩
    simp only [hfn, hf, hu]

/-- Counterexample for C13 as stated: inside a function whose result `x` is named,
for which `IsUnnamedOut()` is false, the return statement without values succeeds
and emits `Return(-1)`. -/
theorem bareReturn_named_succeeds :
    namedResultFunc.IsUnnamedOut namedResultCtx.out.vars = some false ∧
      compileReturnStmt scopedEnv none namedResultCtx =
        some { namedResultCtx with out := namedResultCtx.out.Return sampleLayout (-1) } := by
  constructor
  · rfl
  · rfl

/-! ## Identifiers on the left-hand side -/

theorem inferGet_push (s : List IValue) (v : IValue) : inferGet (s ++ [v]) 1 = some v := by
  unfold inferGet
  simp

theorem compileIdent_found_aux {σ : Type} (E : Env σ) (name : String) (mode : Nat)
    (hm : mode > lhsBase) (ctx : BlockCtx σ) (s : List IValue) (inv : IValue)
    (hs : ctx.infer = s ++ [inv]) (addr : VarRef)
    (hf : E.findVar ctx.scope name = .found addr) :
    compileIdent E name mode ctx =
      match addr.getType ctx.out with
      | none => none
      | some t =>
        match E.checkType t inv ctx.out with
        | none => none
        | some out2 =>
          (storeTarget E.L out2 addr).map (fun o => { ctx with out := o, infer := s }) := by
  unfold compileIdent
  rw [if_pos hm]
  unfold compileIdentLhs
  rw [hs, inferGet_push]
  simp only [lhsTarget, hf]
  cases hg : addr.getType ctx.out with
  | none => rfl
  | some t =>
    simp only []
    cases hc : E.checkType t inv ctx.out with
    | none => rfl
    | some out2 =>
      simp only [hs, inferPopN_push]
      cases addr with
      | execVar v => rfl
      | stackVar typ index => rfl

theorem compileIdent_enoent_aux {σ : Type} (E : Env σ) (name : String) (mode : Nat)
    (hm : mode > lhsBase) (hne : mode ≠ lhsAssign) (ctx : BlockCtx σ) (s : List IValue)
    (inv : IValue) (hs : ctx.infer = s ++ [inv])
    (hf : E.findVar ctx.scope name = .enoent) :
    compileIdent E name mode ctx =
      match E.boundType inv with
      | none => none
      | some typ =>
        match E.insertVar ctx.scope ctx.out name typ with
        | none => none
        | some (addr, sc, out1) =>
          match addr.getType out1 with
          | none => none
          | some t =>
            match E.checkType t inv out1 with
            | none => none
            | some out2 =>
              (storeTarget E.L out2 addr).map
                (fun o => { ctx with scope := sc, out := o, infer := s }) := by
  unfold compileIdent
  rw [if_pos hm]
  unfold compileIdentLhs
  rw [hs, inferGet_push]
  simp only [lhsTarget, hf, if_neg hne]
  cases hb : E.boundType inv with
  | none => rfl
  | some typ =>
    simp only []
    cases hi : E.insertVar ctx.scope ctx.out name typ with
    | none => rfl
    | some r =>
      obtain ⟨addr, sc, out1⟩ := r
      simp only []
      cases hg : addr.getType out1 with
      | none => rfl
      | some t =>
        simp only []
        cases hc : E.checkType t inv out1 with
        | none => rfl
        | some out2 =>
          simp only [hs, inferPopN_push]
          cases addr with
          | execVar v => rfl
          | stackVar typ2 index => rfl

theorem compileIdent_assign_unresolved_aux {σ : Type} (E : Env σ) (name : String)
    (ctx : BlockCtx σ) (hf : ∀ addr, E.findVar ctx.scope name ≠ .found addr) :
    compileIdent E name lhsAssign ctx = none := by
  unfold compileIdent
  rw [if_pos (by decide)]
  unfold compileIdentLhs
  cases hg : inferGet ctx.infer 1 with
  | none => rfl
  | some inv =>
    simp only []
    have : lhsTarget E name lhsAssign inv ctx = none := by
      unfold lhsTarget
      cases hv : E.findVar ctx.scope name with
      | found addr => exact absurd hv (hf addr)
      | enoent => simp
      | error => rfl
    rw [this]

/-- C15 (`compileIdent` on the left-hand side): in assign mode a name that `findVar`
does not resolve fails.  In define mode on a name that `findVar` reports as not
found (`ENOENT`), a successful compile is exactly one `insertVar` of the name with
the bound type of the value on top of the inference stack, the type check of that
value against the new variable, the removal of the value from the stack and the
store into the new variable.  In define mode on a name that resolves to a variable
outside the current scope, no variable is inserted: the compile succeeds whenever
the type check against the found variable and the store into it do, leaves the
scope as it was, removes the value from the stack and stores into the found
variable. -/
theorem compileIdent_lhs_resolution {σ : Type} (E : Env σ) (name : String) (ctx : BlockCtx σ) :
    ((∀ addr, E.findVar ctx.scope name ≠ .found addr) →
      compileIdent E name lhsAssign ctx = none) ∧
    (∀ s inv, ctx.infer = s ++ [inv] → E.findVar ctx.scope name = .enoent →
      ∀ c2, (compileIdent E name lhsDefine ctx = some c2 ↔
        ∃ typ addr sc out1 t out2 out3, E.boundType inv = some typ ∧
          E.insertVar ctx.scope ctx.out name typ = some (addr, sc, out1) ∧
          addr.getType out1 = some t ∧ E.checkType t inv out1 = some out2 ∧
          storeTarget E.L out2 addr = some out3 ∧
          c2 = { ctx with scope := sc, out := out3, infer := s })) ∧
    (∀ s inv addr, ctx.infer = s ++ [inv] → E.findVar ctx.scope name = .found addr →
      E.inCurrentCtx ctx.scope ctx.out addr = false →
      ∀ c2, (compileIdent E name lhsDefine ctx = some c2 ↔
        ∃ t out2 out3, addr.getType ctx.out = some t ∧
          E.checkType t inv ctx.out = some out2 ∧ storeTarget E.L out2 addr = some out3 ∧
          c2 = { ctx with out := out3, infer := s })) := by
  refine ⟨compileIdent_assign_unresolved_aux E name ctx, ?_, ?_⟩
  · intro s inv hs hf c2
    rw [compileIdent_enoent_aux E name lhsDefine (by decide) (by decide) ctx s inv hs hf]
    constructor
    · intro h
      cases hb : E.boundType inv with
      | none => simp [hb] at h
      | some typ =>
        simp only [hb] at h
        cases hi : E.insertVar ctx.scope ctx.out name typ with
        | none => simp [hi] at h
        | some r =>
          obtain ⟨addr, sc, out1⟩ := r
          simp only [hi] at h
          cases hg : addr.getType out1 with
          | none => simp [hg] at h
          | some t =>
            simp only [hg] at h
            cases hc : E.checkType t inv out1 with
            | none => simp [hc] at h
            | some out2 =>
              simp only [hc] at h
              cases hst : storeTarget E.L out2 addr with
              | none => simp [hst] at h
              | some out3 =>
                simp only [hst, Option.map_some', Option.some.injEq] at h
                exact ⟨typ, addr, sc, out1, t, out2, out3, rfl, hi, hg, hc, hst, h.symm⟩
    · rintro ⟨typ, addr, sc, out1, t, out2, out3, hb, hi, hg, hc, hst, rfl⟩
      simp only [hb, hi, hg, hc, hst, Option.map_some']
  · intro s inv addr hs hf _ c2
    rw [compileIdent_found_aux E name lhsDefine (by decide) ctx s inv hs addr hf]
    constructor
    · intro h
      cases hg : addr.getType ctx.out with
      | none => simp [hg] at h
      | some t =>
        simp only [hg] at h
        cases hc : E.checkType t inv ctx.out with
        | none => simp [hc] at h
        | some out2 =>
          simp only [hc] at h
          cases hst : storeTarget E.L out2 addr with
          | none => simp [hst] at h
          | some out3 =>
            simp only [hst, Option.map_some', Option.some.injEq] at h
            exact ⟨t, out2, out3, rfl, hc, hst, h.symm⟩
    · rintro ⟨t, out2, out3, hg, hc, hst, rfl⟩
      simp only [hg, hc, hst, Option.map_some']

/-- Witness for C15 on the scoped environment.  At module level the unknown name
`x` is defined: the new variable is object 1 of the heap, of type `int`, with slot 1
of depth 0, and `StoreVar` of address 1 is emitted.  Inside a function of depth 1
the name `g` of the module scope is stored into with address `1 << 20`, and no
variable is created. -/
theorem compileIdent_lhs_resolution_witness :
    (scopedEnv.findVar moduleVarCtx.scope "x" = .enoent ∧
      compileIdent scopedEnv "x" lhsDefine moduleVarCtx =
        some { moduleVarCtx with
          scope := { names := [("x", .execVar 1), ("g", .execVar 0)],
                     vars := [("x", .execVar 1), ("g", .execVar 0)] },
          out := { code := { data := [.word 2080374785], funs := [], funvs := [],
                             vm := { vlist := [0, 1], nestDepth := 0 } },
                   scope := .code, funcs := [], finfos := [],
                   vars := [{ typ := intTy, name := "Qg", nestDepth := 0, idx := 0 },
                            { typ := intTy, name := "Qx", nestDepth := 0, idx := 1 }] },
          infer := [] }) ∧
    (scopedEnv.findVar nestedVarCtx.scope "g" = .found (.execVar 0) ∧
      scopedEnv.inCurrentCtx nestedVarCtx.scope nestedVarCtx.out (.execVar 0) = false ∧
      compileIdent scopedEnv "g" lhsDefine nestedVarCtx =
        some { nestedVarCtx with
          out := nestedVarCtx.out.storeVar sampleLayout 1048576, infer := [] }) :=
  ⟨⟨rfl,
    ((compileIdent_lhs_resolution scopedEnv "x" moduleVarCtx).2.1 [] (.goValue intTy) rfl rfl
      _).2 ⟨intTy, .execVar 1, _, _, intTy, _, _, rfl, rfl, rfl, rfl, rfl, rfl⟩⟩,
   ⟨rfl, rfl,
    ((compileIdent_lhs_resolution scopedEnv "g" nestedVarCtx).2.2 [] (.goValue intTy)
      (.execVar 0) rfl rfl rfl _).2 ⟨intTy, nestedVarCtx.out, _, rfl, rfl, rfl, rfl⟩⟩⟩

/-! ## Defining a name that the current scope has already -/

/-- C16 (`compileIdent` in define mode on a variable of the current scope), amended:
the redefinition is not rejected.  When `findVar` resolves the name, to a variable
of the current scope or of any other, define mode does what assign mode does: with
the value `inv` on top of the inference stack, whenever the type check of `inv`
against the found variable and the store into it succeed, the compile succeeds,
removes the value from the stack, leaves the scope as it was and has stored into
the found variable. -/
theorem define_existing_stores {σ : Type} (E : Env σ) (name : String) (ctx : BlockCtx σ)
    (s : List IValue) (inv : IValue) (addr : VarRef) (hs : ctx.infer = s ++ [inv])
    (hf : E.findVar ctx.scope name = .found addr)
    (hcur : E.inCurrentCtx ctx.scope ctx.out addr = true) :
    compileIdent E name lhsDefine ctx = compileIdent E name lhsAssign ctx ∧
      ∀ t out2 out3, addr.getType ctx.out = some t → E.checkType t inv ctx.out = some out2 →
        storeTarget E.L out2 addr = some out3 →
        compileIdent E name lhsDefine ctx = some { ctx with out := out3, infer := s } := by
  have _ := hcur
  rw [compileIdent_found_aux E name lhsDefine (by decide) ctx s inv hs addr hf,
    compileIdent_found_aux E name lhsAssign (by decide) ctx s inv hs addr hf]
  refine ⟨rfl, ?_⟩
  intro t out2 out3 hg hc hst
  simp only [hg, hc, hst, Option.map_some']

/-- Witness for C16 on the scoped environment: at module level, defining the module
variable `g` again stores into it. -/
theorem define_existing_stores_witness :
    scopedEnv.findVar moduleVarCtx.scope "g" = .found (.execVar 0) ∧
      scopedEnv.inCurrentCtx moduleVarCtx.scope moduleVarCtx.out (.execVar 0) = true ∧
      compileIdent scopedEnv "g" lhsDefine moduleVarCtx =
        some { moduleVarCtx with
          out := moduleVarCtx.out.storeVar sampleLayout 0, infer := [] } :=
  ⟨rfl, rfl,
   (define_existing_stores scopedEnv "g" moduleVarCtx [] (.goValue intTy) (.execVar 0)
      rfl rfl rfl).2 intTy moduleVarCtx.out _ rfl rfl rfl⟩

/-- Counterexample for C16 as stated: in define mode the name `g`, which `findVar`
resolves to a variable of the current (module) scope, compiles successfully to a
`StoreVar` word of address 0. -/
theorem define_existing_not_fatal :
    scopedEnv.inCurrentCtx moduleVarCtx.scope moduleVarCtx.out (.execVar 0) = true ∧
      (compileIdent scopedEnv "g" lhsDefine moduleVarCtx).map (fun c => c.out.code.data) =
        some [.word 2080374784] := by
  constructor
  · rfl
  · rfl

/-! ## Calling a value of function type -/

/-- C17 (`compileCallExpr`, callee a `goValue`): let the callee, compiled infer-only
(which emits no code), leave a `goValue` of type `t` on the inference stack.  If
the kind of `t` is not `Func` the call fails.  Otherwise a successful compile in
evaluate mode has run, in this order, the loop compiling the arguments in source
order, the compile of the callee in evaluate mode, `checkFuncCall`, and
`CallGoClosure(arity)` with the arity `checkFuncCall` returned: the last becomes
exactly one word appended to the code, with opcode `opCallGoClosure` and, for an
arity of the operand range, the arity as its operand. -/
theorem callGoValue_emits {σ : Type} (E : Env σ) (fn : Expr) (args : List Expr)
    (ctx c1 : BlockCtx σ) (t : Ty) (h1 : compileExpr E fn inferOnly ctx = some c1)
    (ht : inferGet c1.infer 1 = some (.goValue t)) :
    (t.Kind ≠ kindFunc → compileExpr E (.call fn args) 0 ctx = none) ∧
    (∀ c2, compileExpr E (.call fn args) 0 ctx = some c2 →
      c1.out.code = ctx.out.code ∧
      ∃ c3 c4 cargs arity out1, compileExprs E args c1 = some c3 ∧
        compileExpr E fn 0 c3 = some c4 ∧
        inferGetArgs c4.infer (u32 args.length) = some cargs ∧
        E.checkFuncCall t 0 cargs c4.out = some (arity, out1) ∧
        c2.out = out1.CallGoClosure E.L arity ∧
        c2.out.code.data = out1.code.data ++
          [.word ((E.L.opCallGoClosure <<< E.L.bitsOpShift) |||
            (u32OfInt arity &&& E.L.bitsOperand))] ∧
        (E.L.WF → 0 ≤ arity → arity ≤ E.L.bitsOperand →
          opOf E.L ((E.L.opCallGoClosure <<< E.L.bitsOpShift) |||
            (u32OfInt arity &&& E.L.bitsOperand)) = E.L.opCallGoClosure ∧
          (((E.L.opCallGoClosure <<< E.L.bitsOpShift) |||
            (u32OfInt arity &&& E.L.bitsOperand)) &&& E.L.bitsOperand : Nat) =
              arity.toNat)) := by
  constructor
  · intro hk
    rw [compileExpr]
    unfold compileCallExpr
    rw [if_neg (by decide)]
    simp only [h1, ht, if_pos hk]
  · intro c2 h
    refine ⟨(compileExpr_inferOnly_aux E fn ctx c1 h1).1, ?_⟩
    rw [compileExpr] at h
    unfold compileCallExpr at h
    rw [if_neg (by decide)] at h
    simp only [h1, ht] at h
    by_cases hk : t.Kind ≠ kindFunc
    · rw [if_pos hk] at h
      exact Option.noConfusion h
    · rw [if_neg hk, if_neg (by decide)] at h
      cases ha : compileExprs E args c1 with
      | none => simp [ha] at h
      | some c3 =>
        simp only [ha] at h
        cases hf : compileExpr E fn 0 c3 with
        | none => simp [hf] at h
        | some c4 =>
          simp only [hf] at h
          unfold callGoValue at h
          cases hg : inferGetArgs c4.infer (u32 args.length) with
          | none => simp [hg] at h
          | some cargs =>
            simp only [hg] at h
            cases hc : E.checkFuncCall t 0 cargs c4.out with
            | none => simp [hc] at h
            | some r =>
              obtain ⟨arity, out1⟩ := r
              simp only [hc] at h
              have ho := (BlockCtx.ret_out _ _ _ _ h).1
              refine ⟨c3, c4, cargs, arity, out1, rfl, hf, hg, hc, ho, ?_, ?_⟩
              · rw [ho]
                rfl
              · intro hL h0 hle
                have hlo := and_operand_lt hL (u32OfInt arity)
                refine ⟨?_, ?_⟩
                · unfold opOf
                  exact shl_or_shr _ _ _ hlo
                · have hop := hL.operand
                  have hp : 0 < 2 ^ E.L.bitsOpShift := Nat.two_pow_pos _
                  have hsh : E.L.bitsOpShift ≤ 32 := by have := hL.word; omega
                  have hpw : 2 ^ E.L.bitsOpShift ≤ 2 ^ 32 :=
                    Nat.pow_le_pow_right (by decide) hsh
                  have hlt : arity.toNat < 2 ^ E.L.bitsOpShift := by omega
                  have hu : u32OfInt arity = arity.toNat :=
                    u32OfInt_of_lt arity h0 (by
                      have : (arity.toNat : Int) = arity := Int.toNat_of_nonneg h0
                      have h2 : ((2 ^ 32 : Nat) : Int) = 2 ^ 32 := by norm_num
                      omega)
                  have hm : u32OfInt arity &&& E.L.bitsOperand = arity.toNat := by
                    rw [hu, hop, Nat.and_pow_two_sub_one_eq_mod, Nat.mod_eq_of_lt hlt]
                  rw [hm, hop]
                  exact shl_or_mask _ _ _ hlt

/-- Witness for C17 on the scoped environment: the call `h("a")` of the parameter
`h` of function type compiles to the push of the argument, the load of the callee
and one `CallGoClosure` word of arity 1. -/
theorem callGoValue_emits_witness :
    compileExpr scopedEnv (.ident "h") inferOnly closureCallCtx =
        some (closureCallCtx.push (.goValue (.func [intTy] [intTy] false))) ∧
      (compileExpr scopedEnv (.call (.ident "h") [.basicLit tokSTRING "\"a\""]) 0
          closureCallCtx).map (fun c => c.out.code.data) =
        some [.push (.str "a"), .word 1409286143, .word 1677721601] ∧
      ∀ c2, compileExpr scopedEnv (.call (.ident "h") [.basicLit tokSTRING "\"a\""]) 0
          closureCallCtx = some c2 →
        ∃ c3 c4 cargs arity out1,
          compileExprs scopedEnv [.basicLit tokSTRING "\"a\""]
            (closureCallCtx.push (.goValue (.func [intTy] [intTy] false))) = some c3 ∧
          compileExpr scopedEnv (.ident "h") 0 c3 = some c4 ∧
          inferGetArgs c4.infer (u32 1) = some cargs ∧
          scopedEnv.checkFuncCall (.func [intTy] [intTy] false) 0 cargs c4.out =
            some (arity, out1) ∧
          c2.out = out1.CallGoClosure sampleLayout arity :=
  ⟨rfl, rfl, fun c2 h => by
    obtain ⟨_, c3, c4, cargs, arity, out1, h3, h4, h5, h6, h7, _⟩ :=
      (callGoValue_emits scopedEnv (.ident "h") [.basicLit tokSTRING "\"a\""] closureCallCtx
        (closureCallCtx.push (.goValue (.func [intTy] [intTy] false)))
        (.func [intTy] [intTy] false) rfl rfl).2 c2 h
    exact ⟨c3, c4, cargs, arity, out1, h3, h4, h5, h6, h7⟩⟩

/-! ## Counting the values of an assignment -/

theorem compileRhsItems_depth {σ : Type} (E : Env σ) :
    ∀ (items : List Expr), Expr.argsFitList items → ∀ (ctx c : BlockCtx σ),
      compileRhsItems E items ctx = some c → c.infer.length = ctx.infer.length + items.length
  | [], _, ctx, c, h => by
    rw [compileRhsItems] at h
    cases h; rfl
  | item :: rest, hfit, ctx, c, h => by
    rw [compileRhsItems] at h
    rw [Expr.argsFitList] at hfit
    cases h1 : compileExpr E item 0 ctx with
    | none => simp [h1] at h
    | some c1 =>
      simp only [h1] at h
      cases hg : inferGet c1.infer 1 with
      | none => simp [hg] at h
      | some v =>
        simp only [hg] at h
        cases hn : E.numValues v with
        | none => simp [hn] at h
        | some n =>
          simp only [hn] at h
          by_cases hn1 : n ≠ 1
          · rw [if_pos hn1] at h
            exact Option.noConfusion h
          · rw [if_neg hn1] at h
            have hd := compileExpr_depth E item 0 (by decide) hfit.1 ctx c1 h1
            have hr := compileRhsItems_depth E rest hfit.2 c1 c h
            rw [hr, hd, List.length_cons]
            omega

theorem compileRhsItems_single {σ : Type} (E : Env σ) :
    ∀ (pre : List Expr) (item : Expr) (post : List Expr) (ctx c : BlockCtx σ),
      compileRhsItems E (pre ++ item :: post) ctx = some c →
      ∃ c0 c1 v, compileRhsItems E pre ctx = some c0 ∧ compileExpr E item 0 c0 = some c1 ∧
        inferGet c1.infer 1 = some v ∧ E.numValues v = some 1
  | [], item, post, ctx, c, h => by
    rw [List.nil_append, compileRhsItems] at h
    cases h1 : compileExpr E item 0 ctx with
    | none => simp [h1] at h
    | some c1 =>
      simp only [h1] at h
      cases hg : inferGet c1.infer 1 with
      | none => simp [hg] at h
      | some v =>
        simp only [hg] at h
        cases hn : E.numValues v with
        | none => simp [hn] at h
        | some n =>
          simp only [hn] at h
          by_cases hn1 : n ≠ 1
          · rw [if_pos hn1] at h
            exact Option.noConfusion h
          · have : n = 1 := by
              by_contra hc
              exact hn1 hc
            subst this
            exact ⟨ctx, c1, v, by rw [compileRhsItems], h1, hg, hn⟩
  | p :: pre, item, post, ctx, c, h => by
    rw [List.cons_append, compileRhsItems] at h
    cases h1 : compileExpr E p 0 ctx with
    | none => simp [h1] at h
    | some c1 =>
      simp only [h1] at h
      cases hg : inferGet c1.infer 1 with
      | none => simp [hg] at h
      | some v =>
        simp only [hg] at h
        cases hn : E.numValues v with
        | none => simp [hn] at h
        | some n =>
          simp only [hn] at h
          by_cases hn1 : n ≠ 1
          · rw [if_pos hn1] at h
            exact Option.noConfusion h
          · rw [if_neg hn1] at h
            obtain ⟨c0, c2, v2, h2, h3, h4, h5⟩ :=
              compileRhsItems_single E pre item post c1 c h
            refine ⟨c0, c2, v2, ?_, h3, h4, h5⟩
            rw [compileRhsItems]
            simp only [h1, hg, hn, if_neg hn1]
            exact h2

theorem compileRhsSingle_values {σ : Type} (E : Env σ) (x : Expr) (hfit : x.argsFit)
    (ctx c : BlockCtx σ) (h0 : ctx.infer = []) (h : compileRhsSingle E x ctx = some c) :
    ∃ (c1 : BlockCtx σ) (v : IValue) (n : Nat), compileExpr E x 0 ctx = some c1 ∧
      c1.infer = [v] ∧ E.numValues v = some (n : Int) ∧ 1 ≤ n ∧ c.infer.length = n := by
  unfold compileRhsSingle at h
  cases h1 : compileExpr E x 0 ctx with
  | none => simp [h1] at h
  | some c1 =>
    simp only [h1] at h
    have hd := compileExpr_depth E x 0 (by decide) hfit ctx c1 h1
    rw [h0, List.length_nil, Nat.zero_add] at hd
    obtain ⟨v, hv⟩ := List.length_eq_one.1 hd
    have hget : inferGet c1.infer 1 = some v := by
      rw [hv]
      exact inferGet_push [] v
    simp only [hget] at h
    cases hn : E.numValues v with
    | none => simp [hn] at h
    | some n =>
      simp only [hn] at h
      by_cases hn1 : n ≠ 1
      · rw [if_pos hn1] at h
        by_cases hn0 : n ≤ 0
        · rw [if_pos hn0] at h
          exact Option.noConfusion h
        · rw [if_neg hn0] at h
          unfold inferRet at h
          rw [if_pos (by rw [hd])] at h
          simp only [Option.map_some', Option.some.injEq] at h
          refine ⟨c1, v, n.toNat, rfl, hv, ?_, by omega, ?_⟩
          · rw [Int.toNat_of_nonneg (by omega)]
            exact hn
          · rw [← h]
            simp [valuesOf, hd]
      · rw [if_neg hn1] at h
        have : n = 1 := by
          by_contra hc
          exact hn1 hc
        subst this
        simp only [Option.some.injEq] at h
        subst h
        exact ⟨c1, v, 1, rfl, hv, by simpa using hn, by omega, hd⟩

/-- C12 (`compileAssignStmt`): a successful assignment starts from an empty inference
stack and has one of two shapes.  Either the right-hand side is a single expression
whose inferred value carries `n` values, with `n = len(Lhs)` and `n >= 1`; or the
right-hand side has `len(Lhs)` expressions (and not exactly one), each of which,
compiled after the ones before it, left a value carrying exactly one value.  So a
single expression without value is rejected, a sole call with two values needs
exactly two targets, and among several right-hand sides a multi-valued one is
rejected.  The calls of the right-hand side have fewer than `2^32 - 2` arguments. -/
theorem compileAssignStmt_counts {σ : Type} (E : Env σ) (lhs : List Expr) (tok : Nat)
    (rhs : List Expr) (ctx c2 : BlockCtx σ) (hfit : Expr.argsFitList rhs)
    (h : compileAssignStmt E lhs tok rhs ctx = some c2) :
    ctx.infer = [] ∧
    ((∃ (x : Expr) (c1 : BlockCtx σ) (v : IValue) (n : Nat), rhs = [x] ∧
        compileExpr E x 0 ctx = some c1 ∧ c1.infer = [v] ∧
        E.numValues v = some (n : Int) ∧ 1 ≤ n ∧ n = lhs.length) ∨
     (rhs.length ≠ 1 ∧ rhs.length = lhs.length ∧
        ∀ (pre : List Expr) (item : Expr) (post : List Expr), rhs = pre ++ item :: post →
          ∃ c0 c1 v, compileRhsItems E pre ctx = some c0 ∧
            compileExpr E item 0 c0 = some c1 ∧ inferGet c1.infer 1 = some v ∧
            E.numValues v = some 1)) := by
  unfold compileAssignStmt at h
  by_cases h0 : ctx.infer.length ≠ 0
  · rw [if_pos h0] at h
    exact Option.noConfusion h
  · rw [if_neg h0] at h
    have hnil : ctx.infer = [] := List.length_eq_zero.1 (by omega)
    refine ⟨hnil, ?_⟩
    have items : ∀ (r : List Expr), r = rhs → r.length ≠ 1 →
        (match compileRhsItems E r ctx with
          | none => none
          | some c1 =>
            if c1.infer.length ≠ lhs.length then none
            else compileLhsItems E tok lhs.reverse c1) = some c2 →
        rhs.length ≠ 1 ∧ rhs.length = lhs.length ∧
        ∀ (pre : List Expr) (item : Expr) (post : List Expr), rhs = pre ++ item :: post →
          ∃ c0 c1 v, compileRhsItems E pre ctx = some c0 ∧
            compileExpr E item 0 c0 = some c1 ∧ inferGet c1.infer 1 = some v ∧
            E.numValues v = some 1 := by
      intro r hr hlen hc
      subst hr
      cases hi : compileRhsItems E r ctx with
      | none => simp [hi] at hc
      | some c1 =>
        simp only [hi] at hc
        by_cases hl : c1.infer.length ≠ lhs.length
        · rw [if_pos hl] at hc
          exact Option.noConfusion hc
        · have hd := compileRhsItems_depth E r hfit ctx c1 hi
          rw [hnil, List.length_nil, Nat.zero_add] at hd
          refine ⟨hlen, by omega, ?_⟩
          intro pre item post hsplit
          rw [hsplit] at hi
          exact compileRhsItems_single E pre item post ctx c1 hi
    cases rhs with
    | nil => exact Or.inr (items [] rfl (by decide) h)
    | cons x rest =>
      cases rest with
      | nil =>
        left
        simp only [] at h
        cases hs : compileRhsSingle E x ctx with
        | none => simp [hs] at h
        | some c1 =>
          simp only [hs] at h
          by_cases hl : c1.infer.length ≠ lhs.length
          · rw [if_pos hl] at h
            exact Option.noConfusion h
          · rw [Expr.argsFitList] at hfit
            obtain ⟨c0, v, n, hc0, hv, hn, hpos, hlen⟩ :=
              compileRhsSingle_values E x hfit.1 ctx c1 hnil hs
            exact ⟨x, c0, v, n, rfl, hc0, hv, hn, hpos, by omega⟩
      | cons y rest2 =>
        exact Or.inr (items (x :: y :: rest2) rfl (by simp) h)

/-- Witness for C12 on the scoped environment: `a, b = f()` with `f` returning two
values compiles to the call and the two stores, last target first; with a third
target it is rejected. -/
theorem compileAssignStmt_counts_witness :
    Expr.argsFitList [.call (.ident "f") []] ∧
      (compileAssignStmt scopedEnv [.ident "a", .ident "b"] lhsAssign
          [.call (.ident "f") []] twoResultsCtx).map (fun c => c.out.code.data) =
        some [.word 1744830464, .word 2080374785, .word 2080374784] ∧
      compileAssignStmt scopedEnv [.ident "a", .ident "b", .ident "a"] lhsAssign
          [.call (.ident "f") []] twoResultsCtx = none ∧
      ∃ c2, compileAssignStmt scopedEnv [.ident "a", .ident "b"] lhsAssign
          [.call (.ident "f") []] twoResultsCtx = some c2 ∧
        twoResultsCtx.infer = [] :=
  ⟨by simp [Expr.argsFitList, Expr.argsFit], rfl, rfl, _, rfl,
   (compileAssignStmt_counts scopedEnv [.ident "a", .ident "b"] lhsAssign
      [.call (.ident "f") []] twoResultsCtx _ (by simp [Expr.argsFitList, Expr.argsFit])
      rfl).1⟩

/-! ## Return statements with values -/

theorem checkResults_each_aux {σ : Type} (E : Env σ) (vars : List Var) (f : FuncInfo) :
    ∀ (res : List IValue) (k : Nat) (out out1 : Builder),
      checkResults E vars f k res out = some out1 →
      ∀ (i : Nat) (result : IValue), res[i]? = some result →
        ∃ (v : Nat) (x : Var) (o o2 : Builder), f.Out (k + i) = some v ∧
          vars[v]? = some x ∧ E.checkType x.typ result o = some o2
  | [], _, _, _, _, i, result, hi => by simp at hi
  | r :: rest, k, out, out1, h, i, result, hi => by
    rw [checkResults] at h
    cases hv : f.Out k with
    | none => simp [hv] at h
    | some v =>
      simp only [hv] at h
      cases hx : vars[v]? with
      | none => simp [hx] at h
      | some x =>
        simp only [hx] at h
        cases hc : E.checkType x.typ r out with
        | none => simp [hc] at h
        | some o1 =>
          simp only [hc] at h
          cases i with
          | zero =>
            simp only [List.getElem?_cons_zero, Option.some.injEq] at hi
            subst hi
            exact ⟨v, x, out, o1, hv, hx, hc⟩
          | succ i =>
            simp only [List.getElem?_cons_succ] at hi
            obtain ⟨v2, x2, o, o2, e1, e2, e3⟩ :=
              checkResults_each_aux E vars f rest (k + 1) o1 out1 h i result hi
            refine ⟨v2, x2, o, o2, ?_, e2, e3⟩
            have : k + (i + 1) = k + 1 + i := by omega
            rw [this]
            exact e1

/-- C14 (`compileReturnStmt` with `n` result expressions): outside any function a
return statement fails.  A successful one stands inside a function `f` with
`f.NumOut() = n`; the loop compiling the `n` expressions in evaluate mode has left
exactly `n` entries on the inference stack (which was empty before, when the calls
of the expressions have fewer than `2^32 - 2` arguments); entry `i` has passed
`checkType` against the type of the `i`-th result variable; after these type checks
exactly one word `Return(int32(n))` is appended to the code, which is `Return(n)`
for `n < 2^31`; and the inference stack is left empty.  But no entry is tested for
being single-valued.  The only test between the expressions and the type checks is
`ctx.infer.Len() != n`, and from an empty inference stack the `n` expressions
always leave `n` entries, so this test rejects nothing; a call leaves one entry
whatever the number of its values.  Inside a function with one result, `return g()`
with `g` returning two values compiles to the call followed by `Return(1)`, although
the one entry it left carries two values. -/
theorem compileReturnStmt_values {σ : Type} (E : Env σ) (rets : List Expr)
    (ctx : BlockCtx σ) :
    (ctx.fn = none → ∀ results, compileReturnStmt E results ctx = none) ∧
    (∀ c2, compileReturnStmt E (some rets) ctx = some c2 →
      ∃ fi f c1 res out1, ctx.fn = some fi ∧ compileExprs E rets ctx = some c1 ∧
        c1.out.finfos[fi]? = some f ∧ f.NumOut = rets.length ∧
        c1.infer.length = rets.length ∧ (Expr.argsFitList rets → ctx.infer = []) ∧
        inferGetArgs c1.infer (u32 rets.length) = some res ∧
        checkResults E c1.out.vars f 0 res c1.out = some out1 ∧
        c2.infer = [] ∧
        c2.out = out1.Return E.L (i32OfU32 (u32 rets.length)) ∧
        c2.out.code.data = out1.code.data ++
          [.word ((E.L.opReturn <<< E.L.bitsOpShift) |||
            (u32OfInt (i32OfU32 (u32 rets.length)) &&& E.L.bitsOperand))] ∧
        (rets.length < 2 ^ 31 → i32OfU32 (u32 rets.length) = (rets.length : Int)) ∧
        (∀ (i : Nat) (result : IValue), res[i]? = some result →
          ∃ (v : Nat) (x : Var) (o o2 : Builder), f.Out i = some v ∧
            c1.out.vars[v]? = some x ∧ E.checkType x.typ result o = some o2)) ∧
    (Expr.argsFitList rets → ctx.infer = [] →
      ∀ c1, compileExprs E rets ctx = some c1 → c1.infer.length = rets.length) ∧
    ((compileReturnStmt scopedEnv (some [.call (.ident "g") []]) twoValuedCallCtx).map
        (fun c => (c.out.code.data, c.infer)) =
      some ([.word 1744830464, .word 1879048193], []) ∧
      (compileExprs scopedEnv [.call (.ident "g") []] twoValuedCallCtx).map
        (fun c => c.infer) = some [.funcResults [intTy, intTy]] ∧
      scopedEnv.numValues (.funcResults [intTy, intTy]) = some 2 ∧
      (twoValuedCallCtx.out.finfos[0]?).map FuncInfo.NumOut = some 1) := by
  refine ⟨?_, ?_, ?_, ⟨rfl, rfl, rfl, rfl⟩⟩
  · intro hfn results
    unfold compileReturnStmt
    simp only [hfn]
  · intro c2 h
    unfold compileReturnStmt at h
    cases hfn : ctx.fn with
    | none => simp [hfn] at h
    | some fi =>
      simp only [hfn] at h
      cases hc : compileExprs E rets ctx with
      | none => simp [hc] at h
      | some c1 =>
        simp only [hc] at h
        cases hf : c1.out.finfos[fi]? with
        | none => simp [hf] at h
        | some f =>
          simp only [hf] at h
          by_cases hno : f.NumOut ≠ rets.length
          · rw [if_pos hno] at h
            exact Option.noConfusion h
          · rw [if_neg hno] at h
            by_cases hlen : c1.infer.length ≠ rets.length
            · rw [if_pos hlen] at h
              exact Option.noConfusion h
            · rw [if_neg hlen] at h
              cases hg : inferGetArgs c1.infer (u32 rets.length) with
              | none => simp [hg] at h
              | some res =>
                simp only [hg] at h
                cases hk : checkResults E c1.out.vars f 0 res c1.out with
                | none => simp [hk] at h
                | some out1 =>
                  simp only [hk, Option.some.injEq] at h
                  subst h
                  refine ⟨fi, f, c1, res, out1, rfl, rfl, hf, by omega, by omega, ?_, hg, hk,
                    rfl, rfl, rfl, ?_, ?_⟩
                  · intro hfit
                    have hd := compileExprs_depth E rets hfit ctx c1 hc
                    exact List.length_eq_zero.1 (by omega)
                  · intro hlt
                    have h32 : rets.length < 2 ^ 32 := by omega
                    unfold i32OfU32 u32
                    rw [Nat.mod_eq_of_lt h32, Nat.mod_eq_of_lt h32, if_pos hlt]
                  · intro i result hi
                    obtain ⟨v, x, o, o2, e1, e2, e3⟩ :=
                      checkResults_each_aux E c1.out.vars f res 0 c1.out out1 hk i result hi
                    rw [Nat.zero_add] at e1
                    exact ⟨v, x, o, o2, e1, e2, e3⟩
  · intro hfit hnil c1 hc
    have hd := compileExprs_depth E rets hfit ctx c1 hc
    rw [hnil, List.length_nil, Nat.zero_add] at hd
    exact hd

/-- Witness for C14 on the scoped environment: inside the function with one result,
`return "a"` compiles to the push of the literal followed by `Return(1)`, and
`return g()` with the two-valued `g` compiles to the call followed by `Return(1)`. -/
theorem compileReturnStmt_values_witness :
    (compileReturnStmt scopedEnv (some [.basicLit tokSTRING "\"a\""]) namedResultCtx).map
        (fun c => (c.out.code.data, c.infer)) =
      some ([.push (.str "a"), .word 1879048193], []) ∧
    (∃ c2, compileReturnStmt scopedEnv (some [.basicLit tokSTRING "\"a\""]) namedResultCtx =
        some c2 ∧ c2.infer = []) ∧
    (compileReturnStmt scopedEnv (some [.call (.ident "g") []]) twoValuedCallCtx).map
        (fun c => (c.out.code.data, c.infer)) =
      some ([.word 1744830464, .word 1879048193], []) :=
  ⟨rfl, ⟨_, rfl, by
    obtain ⟨_, _, _, _, _, _, _, _, _, _, _, _, _, h, _⟩ :=
      (compileReturnStmt_values scopedEnv [.basicLit tokSTRING "\"a\""] namedResultCtx).2.1
        _ rfl
    exact h⟩,
   (compileReturnStmt_values scopedEnv [] namedResultCtx).2.2.2.1⟩

/-! ## Slot indices of the variables of a scope -/

theorem Layout.WF.varOperand_lt_word {L : Layout} (hL : L.WF) :
    L.bitsOpVarOperand + 1 < 2 ^ 32 := by
  have h1 : L.bitsOpVarShift ≤ 31 := by
    have := hL.word; have := hL.opBits; have := hL.varSplit; omega
  have h2 : 2 ^ L.bitsOpVarShift ≤ 2 ^ 31 := Nat.pow_le_pow_right (by decide) h1
  have h3 := hL.varOperand
  have hp : 0 < 2 ^ L.bitsOpVarShift := Nat.two_pow_pos _
  omega

theorem Var.SetAddr_some (L : Layout) (y y1 : Var) (d idx : Nat)
    (h : y.SetAddr L d idx = some y1) :
    ¬ y.idx ≤ L.bitsOpVarOperand ∧ y1.idx = idx ∧ y1.nestDepth = d := by
  unfold Var.SetAddr at h
  by_cases hc : y.idx ≤ L.bitsOpVarOperand
  · rw [if_pos hc] at h
    exact Option.noConfusion h
  · rw [if_neg hc] at h
    cases h
    exact ⟨hc, rfl, rfl⟩

theorem addVarsLoop_stable (L : Layout) (d n : Nat) :
    ∀ (vs : List Nat) (i : Nat) (heap heap2 : List Var),
      addVarsLoop L d n i vs heap = some heap2 →
      ∀ (w : Nat) (x : Var), heap[w]? = some x → x.idx ≤ L.bitsOpVarOperand →
        heap2[w]? = some x
  | [], i, heap, heap2, h, w, x, hw, _ => by
    rw [addVarsLoop] at h
    cases h
    exact hw
  | v :: rest, i, heap, heap2, h, w, x, hw, hx => by
    rw [addVarsLoop] at h
    cases hv : heap[v]? with
    | none => simp [hv] at h
    | some y =>
      simp only [hv] at h
      cases hsa : y.SetAddr L d (u32 (i + n)) with
      | none => simp [hsa] at h
      | some y1 =>
        simp only [hsa] at h
        have hyi := (Var.SetAddr_some L y y1 d _ hsa).1
        have hne : v ≠ w := by
          rintro rfl
          rw [hv] at hw
          cases hw
          exact hyi hx
        exact addVarsLoop_stable L d n rest (i + 1) _ heap2 h w x
          (by rw [List.getElem?_set_ne hne]; exact hw) hx

theorem addVarsLoop_spec (L : Layout) (hL : L.WF) (d n : Nat) :
    ∀ (vs : List Nat) (i : Nat) (heap heap2 : List Var),
      addVarsLoop L d n i vs heap = some heap2 →
      i + n + vs.length ≤ L.bitsOpVarOperand + 1 →
      ∀ (j v : Nat), vs[j]? = some v →
        ∃ x : Var, heap2[v]? = some x ∧ x.idx = i + j + n ∧ x.nestDepth = d
  | [], i, heap, heap2, _, _, j, v, hj => by
    simp at hj
  | v :: rest, i, heap, heap2, h, hb, j, v2, hj => by
    rw [addVarsLoop] at h
    cases hv : heap[v]? with
    | none => simp [hv] at h
    | some y =>
      simp only [hv] at h
      cases hsa : y.SetAddr L d (u32 (i + n)) with
      | none => simp [hsa] at h
      | some y1 =>
        simp only [hsa] at h
        obtain ⟨_, hidx, hdep⟩ := Var.SetAddr_some L y y1 d _ hsa
        have hw := hL.varOperand_lt_word
        simp only [List.length_cons] at hb
        have hu : u32 (i + n) = i + n := u32_of_lt _ (by omega)
        rw [hu] at hidx
        cases j with
        | zero =>
          simp only [List.getElem?_cons_zero, Option.some.injEq] at hj
          subst hj
          have hlt : v < heap.length := by
            rcases Nat.lt_or_ge v heap.length with hl | hl
            · exact hl
            · rw [List.getElem?_eq_none hl] at hv
              exact Option.noConfusion hv
          have h1 : (heap.set v y1)[v]? = some y1 := List.getElem?_set_self hlt
          refine ⟨y1, addVarsLoop_stable L d n rest (i + 1) _ heap2 h v y1 h1 (by omega),
            by omega, hdep⟩
        | succ j =>
          simp only [List.getElem?_cons_succ] at hj
          obtain ⟨x, hx1, hx2, hx3⟩ :=
            addVarsLoop_spec L hL d n rest (i + 1) _ heap2 h (by omega) j v2 hj
          exact ⟨x, hx1, by omega, hx3⟩

theorem VarManager.addVars_some (L : Layout) (vm vm2 : VarManager) (vs : List Nat)
    (heap heap2 : List Var) (h : vm.addVars L vs heap = some (vm2, heap2)) :
    addVarsLoop L vm.nestDepth vm.vlist.length 0 vs heap = some heap2 ∧
      vm2.vlist = vm.vlist ++ vs ∧ vm2.nestDepth = vm.nestDepth := by
  unfold VarManager.addVars at h
  cases hl : addVarsLoop L vm.nestDepth vm.vlist.length 0 vs heap with
  | none => simp [hl] at h
  | some heap1 =>
    simp only [hl, Option.some.injEq, Prod.mk.injEq] at h
    obtain ⟨h1, h2⟩ := h
    subst h1 h2
    exact ⟨rfl, rfl, rfl⟩

theorem VarManager.addVars_slots_aux (L : Layout) (hL : L.WF) (vm vm2 : VarManager)
    (vs : List Nat) (heap heap2 : List Var) (hinv : vm.SlotsAssigned heap)
    (h : vm.addVars L vs heap = some (vm2, heap2))
    (hb : vm2.vlist.length ≤ L.bitsOpVarOperand + 1) :
    vm2.SlotsAssigned heap2 := by
  obtain ⟨hl, hv, hd⟩ := VarManager.addVars_some L vm vm2 vs heap heap2 h
  have hlen : vm.vlist.length + vs.length ≤ L.bitsOpVarOperand + 1 := by
    rw [hv, List.length_append] at hb
    exact hb
  unfold VarManager.SlotsAssigned at hinv ⊢
  intro i v hi
  rw [hv] at hi
  rw [hd]
  rcases Nat.lt_or_ge i vm.vlist.length with hlt | hge
  · rw [List.getElem?_append_left hlt] at hi
    obtain ⟨x, hx1, hx2, hx3⟩ := hinv i v hi
    exact ⟨x, addVarsLoop_stable L _ _ vs 0 heap heap2 hl v x hx1 (by omega), hx2, hx3⟩
  · rw [List.getElem?_append_right hge] at hi
    obtain ⟨x, hx1, hx2, hx3⟩ :=
      addVarsLoop_spec L hL _ _ vs 0 heap heap2 hl (by omega) _ v hi
    exact ⟨x, hx1, by omega, hx3⟩

theorem VarManager.SlotsAssigned.nodup {vm : VarManager} {heap : List Var}
    (h : vm.SlotsAssigned heap) : vm.vlist.Nodup := by
  unfold VarManager.SlotsAssigned at h
  rw [List.nodup_iff_getElem?_ne_getElem?]
  intro i j hij hj heq
  have hi : i < vm.vlist.length := by omega
  obtain ⟨x, hx1, hx2, _⟩ := h i (vm.vlist[i]) (List.getElem?_eq_getElem hi)
  obtain ⟨y, hy1, hy2, _⟩ := h j (vm.vlist[j]) (List.getElem?_eq_getElem hj)
  rw [List.getElem?_eq_getElem hi, List.getElem?_eq_getElem hj, Option.some.injEq] at heq
  rw [heq, hy1, Option.some.injEq] at hx1
  rw [← hx1] at hx2
  omega

theorem addVarsSeq_vlist (L : Layout) :
    ∀ (seq : List (List Nat)) (vm vm2 : VarManager) (heap heap2 : List Var),
      addVarsSeq L seq vm heap = some (vm2, heap2) →
      vm2.vlist = vm.vlist ++ seq.flatten ∧ vm2.nestDepth = vm.nestDepth
  | [], vm, vm2, heap, heap2, h => by
    rw [addVarsSeq] at h
    simp only [Option.some.injEq, Prod.mk.injEq] at h
    rw [← h.1]
    simp
  | vs :: rest, vm, vm2, heap, heap2, h => by
    rw [addVarsSeq] at h
    cases ha : vm.addVars L vs heap with
    | none => simp [ha] at h
    | some r =>
      obtain ⟨vm1, heap1⟩ := r
      simp only [ha] at h
      obtain ⟨_, hv, hd⟩ := VarManager.addVars_some L vm vm1 vs heap heap1 ha
      obtain ⟨h1, h2⟩ := addVarsSeq_vlist L rest vm1 vm2 heap1 heap2 h
      rw [h1, hv, h2, hd]
      simp

theorem addVarsSeq_slots_aux (L : Layout) (hL : L.WF) :
    ∀ (seq : List (List Nat)) (vm vm2 : VarManager) (heap heap2 : List Var),
      vm.SlotsAssigned heap → addVarsSeq L seq vm heap = some (vm2, heap2) →
      vm2.vlist.length ≤ L.bitsOpVarOperand + 1 → vm2.SlotsAssigned heap2
  | [], vm, vm2, heap, heap2, hinv, h, _ => by
    rw [addVarsSeq] at h
    simp only [Option.some.injEq, Prod.mk.injEq] at h
    rw [← h.1, ← h.2]
    exact hinv
  | vs :: rest, vm, vm2, heap, heap2, hinv, h, hb => by
    rw [addVarsSeq] at h
    cases ha : vm.addVars L vs heap with
    | none => simp [ha] at h
    | some r =>
      obtain ⟨vm1, heap1⟩ := r
      simp only [ha] at h
      have h1 := (addVarsSeq_vlist L rest vm1 vm2 heap1 heap2 h).1
      have hb1 : vm1.vlist.length ≤ L.bitsOpVarOperand + 1 := by
        rw [h1, List.length_append] at hb
        omega
      exact addVarsSeq_slots_aux L hL rest vm1 vm2 heap1 heap2
        (VarManager.addVars_slots_aux L hL vm vm1 vs heap heap1 hinv ha hb1) h hb

/-- C20 (`addVars`, `Builder.DefineVar`, `FuncInfo.Return`): in a scope built from
empty by a sequence of successful `addVars` calls that holds at most
`bitsOpVarOperand + 1` variables, the list of the scope is the concatenation of the
added lists, the i-th variable of the list has slot index `i` and the nest depth of
the scope, and the variables are pairwise distinct.  A successful `addVars` on any
scope leaves the variables of such a scope as they were.  `DefineVar` is `addVars`
on the scope the builder points to.  `Return(out...)` succeeds only on a function
without variables, is `addVars` on its scope, sets `NumOut()` to `len(out)`, and
then `Out(i)` is `out[i]`, with slot index `i`, for every `i < len(out)`. -/
theorem addVars_slot_indices (L : Layout) (hL : L.WF) :
    (∀ (d : Nat) (seq : List (List Nat)) (heap heap2 : List Var) (vm2 : VarManager),
      addVarsSeq L seq { vlist := [], nestDepth := d } heap = some (vm2, heap2) →
      vm2.vlist.length ≤ L.bitsOpVarOperand + 1 →
      vm2.vlist = seq.flatten ∧ vm2.nestDepth = d ∧ vm2.SlotsAssigned heap2 ∧
        vm2.vlist.Nodup) ∧
    (∀ (vm0 vm vm2 : VarManager) (vs : List Nat) (heap heap2 : List Var),
      vm0.SlotsAssigned heap → vm0.vlist.length ≤ L.bitsOpVarOperand + 1 →
      vm.addVars L vs heap = some (vm2, heap2) →
      ∀ v ∈ vm0.vlist, heap2[v]? = heap[v]?) ∧
    (∀ (b b2 : Builder) (vs : List Nat), b.DefineVar L vs = some b2 →
      ∃ vm vm2, b.varManager = some vm ∧ vm.addVars L vs b.vars = some (vm2, b2.vars) ∧
        b2.varManager = some vm2) ∧
    (∀ (f f2 : FuncInfo) (out : List Nat) (heap heap2 : List Var),
      f.Return L out heap = some (f2, heap2) →
      f.vm.vlist = [] ∧ f.vm.addVars L out heap = some (f2.vm, heap2) ∧
      f2.NumOut = out.length ∧
      (out.length ≤ L.bitsOpVarOperand + 1 →
        ∀ i, i < out.length → f2.Out i = out[i]? ∧
          ∃ x : Var, (out[i]?).bind (fun v => heap2[v]?) = some x ∧ x.idx = i ∧
            x.nestDepth = f.vm.nestDepth)) := by
  have hempty : ∀ (d : Nat) (heap : List Var),
      VarManager.SlotsAssigned { vlist := [], nestDepth := d } heap := by
    intro d heap i v hi
    simp at hi
  refine ⟨?_, ?_, ?_, ?_⟩
  · intro d seq heap heap2 vm2 h hb
    obtain ⟨h1, h2⟩ := addVarsSeq_vlist L seq _ vm2 heap heap2 h
    have h3 := addVarsSeq_slots_aux L hL seq _ vm2 heap heap2 (hempty d heap) h hb
    exact ⟨by rw [h1]; rfl, h2, h3, h3.nodup⟩
  · intro vm0 vm vm2 vs heap heap2 hinv hb h v hv
    obtain ⟨hl, _, _⟩ := VarManager.addVars_some L vm vm2 vs heap heap2 h
    obtain ⟨i, hi, hiv⟩ := List.getElem_of_mem hv
    obtain ⟨x, hx1, hx2, _⟩ := hinv i v (by rw [List.getElem?_eq_getElem hi, hiv])
    rw [hx1]
    exact addVarsLoop_stable L _ _ vs 0 heap heap2 hl v x hx1 (by omega)
  · intro b b2 vs h
    unfold Builder.DefineVar at h
    cases hs : b.scope with
    | code =>
      simp only [hs] at h
      cases ha : b.code.vm.addVars L vs b.vars with
      | none => simp [ha] at h
      | some r =>
        obtain ⟨vm2, heap2⟩ := r
        simp only [ha, Option.some.injEq] at h
        subst h
        exact ⟨b.code.vm, vm2, by simp [Builder.varManager, hs], ha,
          by simp [Builder.varManager, hs]⟩
    | func f =>
      simp only [hs] at h
      cases hf : b.finfos[f]? with
      | none => simp [hf] at h
      | some fi =>
        simp only [hf] at h
        cases ha : fi.vm.addVars L vs b.vars with
        | none => simp [ha] at h
        | some r =>
          obtain ⟨vm2, heap2⟩ := r
          simp only [ha, Option.some.injEq] at h
          subst h
          have hlt : f < b.finfos.length := by
            rcases Nat.lt_or_ge f b.finfos.length with hl | hl
            · exact hl
            · rw [List.getElem?_eq_none hl] at hf
              exact Option.noConfusion hf
          refine ⟨fi.vm, vm2, by simp [Builder.varManager, hs, hf], ha, ?_⟩
          simp only [Builder.varManager, hs]
          rw [List.getElem?_set_self hlt]
          rfl
  · intro f f2 out heap heap2 h
    unfold FuncInfo.Return at h
    by_cases hv : f.vm.vlist ≠ []
    · rw [if_pos hv] at h
      exact Option.noConfusion h
    · rw [if_neg hv] at h
      have hv0 : f.vm.vlist = [] := by
        by_contra hc
        exact hv hc
      cases ha : f.vm.addVars L out heap with
      | none => simp [ha] at h
      | some r =>
        obtain ⟨vm2, heap3⟩ := r
        simp only [ha, Option.some.injEq, Prod.mk.injEq] at h
        obtain ⟨h1, h2⟩ := h
        subst h1 h2
        refine ⟨hv0, rfl, rfl, ?_⟩
        intro hb i hi
        obtain ⟨hl, hvl, hd⟩ := VarManager.addVars_some L f.vm vm2 out heap heap3 ha
        rw [hv0, List.nil_append] at hvl
        have hinv0 : f.vm.SlotsAssigned heap := by
          intro j v hj
          rw [hv0] at hj
          simp at hj
        have hinv := VarManager.addVars_slots_aux L hL f.vm vm2 out heap heap3 hinv0 ha
          (by rw [hvl]; exact hb)
        refine ⟨?_, ?_⟩
        · simp only [FuncInfo.Out, hvl]
          rw [if_neg (by omega)]
        · obtain ⟨x, hx1, hx2, hx3⟩ := hinv i (out[i]) (by
            rw [hvl]; exact List.getElem?_eq_getElem hi)
          refine ⟨x, ?_, hx2, by rw [hx3, hd]⟩
          rw [List.getElem?_eq_getElem hi]
          exact hx1

/-- Witness for C20 on the sample layout: a scope of depth 1 built by `addVars` of
one variable and then of two more holds the three variables with slots 0, 1, 2; and
`Return` of one variable on a new function gives `NumOut() = 1` and `Out(0)` the
variable, with slot 0. -/
theorem addVars_slot_indices_witness :
    addVarsSeq sampleLayout [[0], [1, 2]] { vlist := [], nestDepth := 1 }
        [NewVar intTy "a", NewVar intTy "b", NewVar intTy "c"] =
      some ({ vlist := [0, 1, 2], nestDepth := 1 },
        [{ typ := intTy, name := "Qa", nestDepth := 1, idx := 0 },
         { typ := intTy, name := "Qb", nestDepth := 1, idx := 1 },
         { typ := intTy, name := "Qc", nestDepth := 1, idx := 2 }]) ∧
    VarManager.SlotsAssigned { vlist := [0, 1, 2], nestDepth := 1 }
        [{ typ := intTy, name := "Qa", nestDepth := 1, idx := 0 },
         { typ := intTy, name := "Qb", nestDepth := 1, idx := 1 },
         { typ := intTy, name := "Qc", nestDepth := 1, idx := 2 }] ∧
    ((NewFunc "f" 1).Return sampleLayout [0] [NewVar intTy "x"]).map
        (fun r => (r.1.NumOut, r.1.Out 0, r.2)) =
      some (1, some 0, [{ typ := intTy, name := "Qx", nestDepth := 1, idx := 0 }]) :=
  ⟨rfl,
   ((addVars_slot_indices sampleLayout sampleLayout_wf).1 1 [[0], [1, 2]]
      [NewVar intTy "a", NewVar intTy "b", NewVar intTy "c"]
      [{ typ := intTy, name := "Qa", nestDepth := 1, idx := 0 },
       { typ := intTy, name := "Qb", nestDepth := 1, idx := 1 },
       { typ := intTy, name := "Qc", nestDepth := 1, idx := 2 }]
      { vlist := [0, 1, 2], nestDepth := 1 } rfl (by decide)).2.2.1,
   rfl⟩

/-! ## The variadic flag of a function -/

theorem FuncInfo.setVariadic_same (f : FuncInfo) (s : Nat) (hs : s ≠ 0)
    (hf : f.nVariadic = s) : f.setVariadic s = some f := by
  unfold FuncInfo.setVariadic
  rw [if_neg (by omega), if_neg (by omega)]

theorem FuncInfo.setVariadic_other (f : FuncInfo) (s : Nat) (h0 : f.nVariadic ≠ 0)
    (hf : f.nVariadic ≠ s) : f.setVariadic s = none := by
  unfold FuncInfo.setVariadic
  rw [if_neg h0, if_pos hf]

theorem FuncInfo.setVariadic_fresh (f : FuncInfo) (s : Nat) (h0 : f.nVariadic = 0) :
    f.setVariadic s = some { f with nVariadic := s } := by
  unfold FuncInfo.setVariadic
  rw [if_pos h0]

theorem FuncInfo.setVariadic_flag (f f2 : FuncInfo) (s : Nat) (h : f.setVariadic s = some f2) :
    f2.nVariadic = s ∧ (f.nVariadic ≠ 0 → f2 = f) := by
  unfold FuncInfo.setVariadic at h
  by_cases h0 : f.nVariadic = 0
  · rw [if_pos h0] at h
    cases h
    exact ⟨rfl, fun hne => absurd h0 hne⟩
  · rw [if_neg h0] at h
    by_cases h1 : f.nVariadic ≠ s
    · rw [if_pos h1] at h
      exact Option.noConfusion h
    · rw [if_neg h1] at h
      cases h
      exact ⟨by omega, fun _ => rfl⟩

/-! ## Pairing of `DefineFunc` and `EndFunc` -/

theorem mapSet_lookup_self (m : List (Nat × Int)) (k : Nat) (v : Int) :
    (mapSet m k v).lookup k = some v := by
  induction m with
  | nil => simp [mapSet, List.lookup]
  | cons e rest ih =>
    obtain ⟨k1, v1⟩ := e
    unfold mapSet
    by_cases h : k1 = k
    · rw [if_pos h]
      simp [List.lookup]
    · rw [if_neg h]
      have hne : (k == k1) = false := by
        simp only [beq_eq_false_iff_ne, ne_eq]
        exact fun e => h e.symm
      simp only [List.lookup, hne]
      exact ih

theorem mapSet_lookup_ne (m : List (Nat × Int)) (k k2 : Nat) (v : Int) (hne : k2 ≠ k) :
    (mapSet m k v).lookup k2 = m.lookup k2 := by
  induction m with
  | nil =>
    have h1 : (k2 == k) = false := by simpa using hne
    simp [mapSet, List.lookup, h1]
  | cons e rest ih =>
    obtain ⟨k1, v1⟩ := e
    unfold mapSet
    by_cases h : k1 = k
    · rw [if_pos h]
      have h1 : (k2 == k) = false := by simpa using hne
      have h2 : (k2 == k1) = false := by rw [h]; exact h1
      simp [List.lookup, h1, h2]
    · rw [if_neg h]
      by_cases h3 : k2 = k1
      · subst h3
        simp [List.lookup]
      · have h4 : (k2 == k1) = false := by simpa using h3
        simp only [List.lookup, h4]
        exact ih

theorem Builder.Extends.refl (b : Builder) : b.Extends b :=
  ⟨rfl, ⟨[], by simp⟩, rfl, rfl, fun _ f hf => ⟨f, hf, rfl, rfl, fun _ => rfl⟩,
   fun _ _ h _ => h⟩

theorem Builder.Extends.trans {b b1 b2 : Builder} (h1 : b.Extends b1) (h2 : b1.Extends b2) :
    b.Extends b2 := by
  refine ⟨by rw [h2.scope, h1.scope], ?_, by rw [h2.funs, h1.funs],
    by rw [h2.funvs, h1.funvs], ?_, ?_⟩
  · obtain ⟨e1, he1⟩ := h1.data
    obtain ⟨e2, he2⟩ := h2.data
    exact ⟨e1 ++ e2, by rw [he2, he1, List.append_assoc]⟩
  · intro fn f hf
    obtain ⟨f1, hf1, a1, a2, a3⟩ := h1.finfos fn f hf
    obtain ⟨f2, hf2, c1, c2, c3⟩ := h2.finfos fn f1 hf1
    refine ⟨f2, hf2, by rw [c1, a1], by rw [c2, a2], ?_⟩
    intro hne
    have := a3 hne
    rw [c3 (by rw [this]; exact hne), this]
  · intro fn idx h hi
    exact h2.funcs fn idx (h1.funcs fn idx h hi) hi

theorem Builder.emit_extends (b : Builder) (i : Instr) : b.Extends (b.emit i) :=
  ⟨rfl, ⟨[i], rfl⟩, rfl, rfl, fun _ f hf => ⟨f, hf, rfl, rfl, fun _ => rfl⟩,
   fun _ _ h _ => h⟩

theorem finfos_set_preserved (fs : List FuncInfo) (fn : Nat) (f f2 : FuncInfo)
    (hf : fs[fn]? = some f) (h1 : f2.funEntry = f.funEntry) (h2 : f2.funEnd = f.funEnd)
    (h3 : f.nVariadic ≠ 0 → f2.nVariadic = f.nVariadic) :
    ∀ (k : Nat) (g : FuncInfo), fs[k]? = some g →
      ∃ g2, (fs.set fn f2)[k]? = some g2 ∧ g2.funEntry = g.funEntry ∧
        g2.funEnd = g.funEnd ∧ (g.nVariadic ≠ 0 → g2.nVariadic = g.nVariadic) := by
  intro k g hg
  by_cases hk : k = fn
  · subst hk
    rw [hf] at hg
    cases hg
    have hlt : k < fs.length := by
      rcases Nat.lt_or_ge k fs.length with hl | hl
      · exact hl
      · rw [List.getElem?_eq_none hl] at hf
        exact Option.noConfusion hf
    exact ⟨f2, List.getElem?_set_self hlt, h1, h2, h3⟩
  · refine ⟨g, ?_, rfl, rfl, fun _ => rfl⟩
    rw [List.getElem?_set_ne (fun e => hk e.symm)]
    exact hg

theorem Builder.setFinfo_extends (b : Builder) (fn : Nat) (f f2 : FuncInfo)
    (hf : b.finfos[fn]? = some f) (h1 : f2.funEntry = f.funEntry)
    (h2 : f2.funEnd = f.funEnd) (h3 : f.nVariadic ≠ 0 → f2.nVariadic = f.nVariadic) :
    b.Extends { b with finfos := b.finfos.set fn f2 } :=
  ⟨rfl, ⟨[], by simp⟩, rfl, rfl, finfos_set_preserved b.finfos fn f f2 hf h1 h2 h3,
   fun _ _ h _ => h⟩

theorem Builder.recordOff_extends (b b2 : Builder) (fn : Nat)
    (h : b.recordOff fn = some b2) : b.Extends b2 := by
  unfold Builder.recordOff at h
  cases hf : b.finfos[fn]? with
  | none => simp [hf] at h
  | some f =>
    simp only [hf, Option.some.injEq] at h
    subst h
    exact Builder.setFinfo_extends b fn f _ hf rfl rfl (fun _ => rfl)

theorem Builder.setVariadic_extends (b b2 : Builder) (fn n : Nat)
    (h : b.setVariadic fn n = some b2) : b.Extends b2 := by
  unfold Builder.setVariadic at h
  cases hf : b.finfos[fn]? with
  | none => simp [hf] at h
  | some f =>
    simp only [hf] at h
    cases hs : f.setVariadic n with
    | none => simp [hs] at h
    | some f1 =>
      simp only [hs, Option.some.injEq] at h
      subst h
      have hfl := (FuncInfo.setVariadic_flag f f1 n hs).2
      refine Builder.setFinfo_extends b fn f f1 hf ?_ ?_ ?_
      · unfold FuncInfo.setVariadic at hs
        split at hs
        · cases hs; rfl
        · split at hs
          · exact Option.noConfusion hs
          · cases hs; rfl
      · unfold FuncInfo.setVariadic at hs
        split at hs
        · cases hs; rfl
        · split at hs
          · exact Option.noConfusion hs
          · cases hs; rfl
      · intro hne
        rw [hfl hne]

theorem Builder.noteFunc_extends (b : Builder) (fn : Nat) : b.Extends (b.noteFunc fn) := by
  unfold Builder.noteFunc
  cases hp : b.funcPos fn with
  | some idx => exact Builder.Extends.refl b
  | none =>
    refine ⟨rfl, ⟨[], by simp⟩, rfl, rfl, fun _ f hf => ⟨f, hf, rfl, rfl, fun _ => rfl⟩, ?_⟩
    intro fn2 idx h _
    have hne : fn2 ≠ fn := by
      rintro rfl
      rw [hp] at h
      exact Option.noConfusion h
    unfold Builder.funcPos at h ⊢
    simp only []
    rw [mapSet_lookup_ne _ _ _ _ hne]
    exact h

theorem Builder.funcvArity_extends (L : Layout) (b : Builder) (arity : Int) :
    b.Extends (b.funcvArity L arity).1 := by
  unfold Builder.funcvArity
  split
  · exact Builder.Extends.refl b
  · split
    · exact Builder.emit_extends b _
    · exact Builder.Extends.refl b

theorem Builder.map_emit_extends (b b2 : Builder) (r : Option Builder) (i : Instr)
    (hr : ∀ b1, r = some b1 → b.Extends b1) (h : r.map (·.emit i) = some b2) :
    b.Extends b2 := by
  cases r with
  | none => exact Option.noConfusion h
  | some b1 =>
    simp only [Option.map_some', Option.some.injEq] at h
    subst h
    exact (hr b1 rfl).trans (Builder.emit_extends b1 i)

theorem FuncInfo.setVariadic_fields (f f2 : FuncInfo) (s : Nat)
    (h : f.setVariadic s = some f2) :
    f2.funEntry = f.funEntry ∧ f2.funEnd = f.funEnd ∧ f2.ins = f.ins ∧
      (f.nVariadic ≠ 0 → f2.nVariadic = f.nVariadic) := by
  have hfl := (FuncInfo.setVariadic_flag f f2 s h).2
  unfold FuncInfo.setVariadic at h
  split at h
  · cases h
    exact ⟨rfl, rfl, rfl, fun hne => by rw [hfl hne]⟩
  · split at h
    · exact Option.noConfusion h
    · cases h
      exact ⟨rfl, rfl, rfl, fun _ => rfl⟩

theorem Builder.EmitStep.step_extends {L : Layout} {b b2 : Builder}
    (h : Builder.EmitStep L b b2) : b.Extends b2 := by
  cases h with
  | push v => exact Builder.emit_extends b _
  | reserve => exact Builder.emit_extends b _
  | builtinOp kind op => exact Builder.emit_extends b _
  | closure _ fn h =>
    exact Builder.map_emit_extends b b2 _ _ (fun b1 h1 => Builder.recordOff_extends b b1 fn h1) h
  | goClosure _ fn h =>
    exact Builder.map_emit_extends b b2 _ _ (fun b1 h1 => Builder.recordOff_extends b b1 fn h1) h
  | callClosure arity => exact Builder.emit_extends b _
  | callGoClosure arity => exact Builder.emit_extends b _
  | callFunc _ fn h =>
    unfold Builder.CallFunc at h
    cases hs : b.setVariadic fn nVariadicFixedArgs with
    | none => simp [hs] at h
    | some b1 =>
      simp only [hs] at h
      have e1 := Builder.setVariadic_extends b b1 fn _ hs
      have e2 := Builder.noteFunc_extends b1 fn
      exact (e1.trans e2).trans (Builder.map_emit_extends _ b2 _ _
        (fun b3 h3 => Builder.recordOff_extends _ b3 fn h3) h)
  | callFuncv _ fn arity h =>
    unfold Builder.CallFuncv at h
    cases hs : b.setVariadic fn nVariadicVariadicArgs with
    | none => simp [hs] at h
    | some b1 =>
      simp only [hs] at h
      have e1 := Builder.setVariadic_extends b b1 fn _ hs
      have e2 := Builder.noteFunc_extends b1 fn
      have e3 := Builder.funcvArity_extends L (b1.noteFunc fn) arity
      exact ((e1.trans e2).trans e3).trans (Builder.map_emit_extends _ b2 _ _
        (fun b3 h3 => Builder.recordOff_extends _ b3 fn h3) h)
  | ret n => exact Builder.emit_extends b _
  | load idx => exact Builder.emit_extends b _
  | store idx => exact Builder.emit_extends b _
  | callGoFunc addr => exact Builder.emit_extends b _
  | callGoFuncv addr arity =>
    exact (Builder.funcvArity_extends L b arity).trans (Builder.emit_extends _ _)
  | addrVar _ v h =>
    unfold Builder.AddrVar at h
    cases ha : b.varAddr L v with
    | none => simp [ha] at h
    | some a =>
      simp only [ha, Option.map_some', Option.some.injEq] at h
      subst h
      exact Builder.emit_extends b _
  | loadVar _ v h =>
    unfold Builder.LoadVar at h
    cases ha : b.varAddr L v with
    | none => simp [ha] at h
    | some a =>
      simp only [ha, Option.map_some', Option.some.injEq] at h
      subst h
      exact Builder.emit_extends b _
  | storeVar _ v h =>
    unfold Builder.StoreVar at h
    cases ha : b.varAddr L v with
    | none => simp [ha] at h
    | some a =>
      simp only [ha, Option.map_some', Option.some.injEq] at h
      subst h
      exact Builder.emit_extends b _
  | defineVar _ vs h =>
    unfold Builder.DefineVar at h
    cases hs : b.scope with
    | code =>
      simp only [hs] at h
      cases ha : b.code.vm.addVars L vs b.vars with
      | none => simp [ha] at h
      | some r =>
        simp only [ha, Option.some.injEq] at h
        subst h
        exact ⟨hs.symm, ⟨[], by simp⟩, rfl, rfl,
          fun _ f hf => ⟨f, hf, rfl, rfl, fun _ => rfl⟩, fun _ _ h _ => h⟩
    | func f =>
      simp only [hs] at h
      cases hf : b.finfos[f]? with
      | none => simp [hf] at h
      | some fi =>
        simp only [hf] at h
        cases ha : fi.vm.addVars L vs b.vars with
        | none => simp [ha] at h
        | some r =>
          simp only [ha, Option.some.injEq] at h
          subst h
          exact ⟨hs.symm, ⟨[], by simp⟩, rfl, rfl,
            finfos_set_preserved b.finfos f fi _ hf rfl rfl (fun _ => rfl), fun _ _ h _ => h⟩
  | args fn f f2 ins hf ha =>
    unfold FuncInfo.Args at ha
    obtain ⟨h1, h2, _, h4⟩ := FuncInfo.setVariadic_fields _ f2 _ ha
    exact Builder.setFinfo_extends b fn f f2 hf h1 h2 h4
  | vargs fn f f2 ins hf ha =>
    unfold FuncInfo.Vargs at ha
    cases hl : ins.getLast? with
    | none => simp [hl] at ha
    | some t =>
      simp only [hl] at ha
      by_cases hk : t.Kind ≠ kindSlice
      · rw [if_pos hk] at ha
        exact Option.noConfusion ha
      · rw [if_neg hk] at ha
        obtain ⟨h1, h2, _, h4⟩ := FuncInfo.setVariadic_fields _ f2 _ ha
        exact Builder.setFinfo_extends b fn f f2 hf h1 h2 h4
  | funcReturn fn f f2 out heap hf hr =>
    unfold FuncInfo.Return at hr
    by_cases hv : f.vm.vlist ≠ []
    · rw [if_pos hv] at hr
      exact Option.noConfusion hr
    · rw [if_neg hv] at hr
      cases ha : f.vm.addVars L out b.vars with
      | none => simp [ha] at hr
      | some r =>
        simp only [ha, Option.some.injEq, Prod.mk.injEq] at hr
        obtain ⟨hr1, _⟩ := hr
        subst hr1
        exact ⟨rfl, ⟨[], by simp⟩, rfl, rfl,
          finfos_set_preserved b.finfos fn f _ hf rfl rfl (fun _ => rfl), fun _ _ h _ => h⟩

theorem Builder.Emits.seq_extends {L : Layout} {b b2 : Builder} (h : Builder.Emits L b b2) :
    b.Extends b2 := by
  induction h with
  | refl => exact Builder.Extends.refl b
  | step b1 b2 _ hs ih => exact ih.trans hs.step_extends

theorem Builder.defineFuncBody_spec (b b2 : Builder) (fn : Nat)
    (h : b.defineFuncBody fn = some b2) :
    ∃ f v, b.finfos[fn]? = some f ∧ f.IsVariadic = some v ∧ b2.scope = .func fn ∧
      b2.finfos = b.finfos.set fn { f with funEntry := b.code.data.length } ∧
      b2.code.data = b.code.data ∧ b2.vars = b.vars ∧
      b2.funcs = mapSet b.funcs fn
        (if v = true then (b.code.funvs.length : Int) else (b.code.funs.length : Int)) ∧
      b2.code.funs = (if v = true then b.code.funs else b.code.funs ++ [fn]) ∧
      b2.code.funvs = (if v = true then b.code.funvs ++ [fn] else b.code.funvs) := by
  unfold Builder.defineFuncBody at h
  cases hf : b.finfos[fn]? with
  | none => simp [hf] at h
  | some f =>
    simp only [hf] at h
    have hiv : ({ f with funEntry := b.code.data.length } : FuncInfo).IsVariadic =
        f.IsVariadic := rfl
    rw [hiv] at h
    cases hv : f.IsVariadic with
    | none => simp [hv] at h
    | some v =>
      cases v with
      | true =>
        simp only [hv, Option.some.injEq] at h
        subst h
        exact ⟨f, true, rfl, hv, rfl, rfl, rfl, rfl, rfl, rfl, rfl⟩
      | false =>
        simp only [hv, Option.some.injEq] at h
        subst h
        exact ⟨f, false, rfl, hv, rfl, rfl, rfl, rfl, rfl, rfl, rfl⟩

theorem Builder.DefineFunc_spec (b b2 : Builder) (fn : Nat) (h : b.DefineFunc fn = some b2) :
    (∀ idx, b.funcPos fn = some idx → idx < 0) ∧ b.defineFuncBody fn = some b2 := by
  unfold Builder.DefineFunc at h
  cases hp : b.funcPos fn with
  | none =>
    simp only [hp] at h
    exact ⟨fun idx hi => Option.noConfusion hi, h⟩
  | some idx =>
    simp only [hp] at h
    by_cases hi : idx ≥ 0
    · rw [if_pos hi] at h
      exact Option.noConfusion h
    · rw [if_neg hi] at h
      refine ⟨fun idx2 h2 => ?_, h⟩
      cases h2
      omega

theorem Builder.EndFunc_spec (b b2 : Builder) (fn : Nat) (h : b.EndFunc fn = some b2) :
    b.scope = .func fn ∧ ∃ f, b.finfos[fn]? = some f ∧
      b2 = { b with scope := .code,
                    finfos := b.finfos.set fn { f with funEnd := b.code.data.length } } := by
  unfold Builder.EndFunc at h
  by_cases hs : b.scope ≠ .func fn
  · rw [if_pos hs] at h
    exact Option.noConfusion h
  · rw [if_neg hs] at h
    have hs2 : b.scope = .func fn := by
      by_contra hc
      exact hs hc
    cases hf : b.finfos[fn]? with
    | none => simp [hf] at h
    | some f =>
      simp only [hf, Option.some.injEq] at h
      exact ⟨hs2, f, rfl, h.symm⟩

/-- The state that a trace determines: where the `varManager` pointer of the builder
points, and that the defined functions have a table index. -/
theorem Builder.Trace.state {L : Layout} {b : Builder} {last : Option Nat}
    {defined : List Nat} (h : Builder.Trace L b last defined) :
    (last = none → b.scope = Scope.code) ∧
    (∀ f, last = some f → b.scope = Scope.func f ∧ f < b.finfos.length) ∧
    (∀ f ∈ defined, ∃ idx, b.funcPos f = some idx ∧ 0 ≤ idx) := by
  induction h with
  | init finfos vars =>
    exact ⟨fun _ => rfl, fun f hf => Option.noConfusion hf,
      fun f hf => absurd hf (List.not_mem_nil f)⟩
  | emit b b2 last defined _ hs ih =>
    have he := hs.step_extends
    obtain ⟨i1, i2, i3⟩ := ih
    refine ⟨fun hn => by rw [he.scope]; exact i1 hn, ?_, ?_⟩
    · intro f hf
      refine ⟨by rw [he.scope]; exact (i2 f hf).1, ?_⟩
      have hlt := (i2 f hf).2
      obtain ⟨f2, hf2, _⟩ := he.finfos f (b.finfos[f]) (List.getElem?_eq_getElem hlt)
      rcases Nat.lt_or_ge f b2.finfos.length with hl | hl
      · exact hl
      · rw [List.getElem?_eq_none hl] at hf2
        exact Option.noConfusion hf2
    · intro f hf
      obtain ⟨idx, hi, h0⟩ := i3 f hf
      exact ⟨idx, he.funcs f idx hi h0, h0⟩
  | define b b2 last defined fn _ hd ih =>
    obtain ⟨_, hbody⟩ := Builder.DefineFunc_spec b b2 fn hd
    obtain ⟨f, v, hf, _, hsc, hfin, _, _, hfuncs, _, _⟩ :=
      Builder.defineFuncBody_spec b b2 fn hbody
    obtain ⟨_, _, i3⟩ := ih
    have hlt : fn < b.finfos.length := by
      rcases Nat.lt_or_ge fn b.finfos.length with hl | hl
      · exact hl
      · rw [List.getElem?_eq_none hl] at hf
        exact Option.noConfusion hf
    refine ⟨fun hn => Option.noConfusion hn, ?_, ?_⟩
    · intro g hg
      cases hg
      refine ⟨hsc, ?_⟩
      rw [hfin, List.length_set]
      exact hlt
    · intro g hg
      unfold Builder.funcPos
      rw [hfuncs]
      by_cases hgf : g = fn
      · subst hgf
        rw [mapSet_lookup_self]
        refine ⟨_, rfl, ?_⟩
        split
        · exact Int.natCast_nonneg _
        · exact Int.natCast_nonneg _
      · rw [mapSet_lookup_ne _ _ _ _ hgf]
        rcases List.mem_cons.1 hg with hg1 | hg1
        · exact absurd hg1 hgf
        · exact i3 g hg1
  | endFunc b b2 last defined fn _ he ih =>
    obtain ⟨_, f, _, hb2⟩ := Builder.EndFunc_spec b b2 fn he
    obtain ⟨_, _, i3⟩ := ih
    subst hb2
    exact ⟨fun _ => rfl, fun g hg => Option.noConfusion hg, i3⟩

/-- C22 (`Builder.DefineFunc`, `Builder.EndFunc`): on a builder reached from a new
builder by successful calls, `EndFunc(f)` succeeds exactly when the most recent
`DefineFunc`/`EndFunc` call was `DefineFunc(f)`, and `DefineFunc(f)` fails when `f`
has been defined already.  After a successful `DefineFunc(f)`, a sequence of other
calls and a successful `EndFunc(f)`, `f.FunEntry` and `f.FunEnd` are the lengths of
the code at the two calls, `FunEntry <= FunEnd`, the instructions at
`[FunEntry, FunEnd)` are exactly those appended in between, and `f` has been
appended to the fixed table when it is fixed and to the variadic table when it is
variadic. -/
theorem defineFunc_endFunc_paired (L : Layout) :
    (∀ (b : Builder) (last : Option Nat) (defined : List Nat) (fn : Nat),
      Builder.Trace L b last defined →
      ((∃ b2, b.EndFunc fn = some b2) ↔ last = some fn)) ∧
    (∀ (b : Builder) (last : Option Nat) (defined : List Nat) (fn : Nat),
      Builder.Trace L b last defined → fn ∈ defined → b.DefineFunc fn = none) ∧
    (∀ (b0 b1 b2 b3 : Builder) (fn : Nat), b0.DefineFunc fn = some b1 →
      Builder.Emits L b1 b2 → b2.EndFunc fn = some b3 →
      ∃ f0 f3 body, b0.finfos[fn]? = some f0 ∧ b3.finfos[fn]? = some f3 ∧
        f3.funEntry = b0.code.data.length ∧ f3.funEnd = b2.code.data.length ∧
        f3.funEntry ≤ f3.funEnd ∧ b3.code.data = b0.code.data ++ body ∧
        (b3.code.data.drop f3.funEntry).take (f3.funEnd - f3.funEntry) = body ∧
        (f0.IsVariadic = some false →
          b3.code.funs = b0.code.funs ++ [fn] ∧ b3.code.funvs = b0.code.funvs) ∧
        (f0.IsVariadic = some true →
          b3.code.funvs = b0.code.funvs ++ [fn] ∧ b3.code.funs = b0.code.funs)) := by
  refine ⟨?_, ?_, ?_⟩
  · intro b last defined fn ht
    obtain ⟨hnone, hsome, _⟩ := ht.state
    constructor
    · rintro ⟨b2, h2⟩
      have hs := (Builder.EndFunc_spec b b2 fn h2).1
      cases last with
      | none =>
        rw [hnone rfl] at hs
        exact Scope.noConfusion hs
      | some g =>
        rw [(hsome g rfl).1] at hs
        simp only [Scope.func.injEq] at hs
        rw [hs]
    · intro hl
      subst hl
      obtain ⟨hsc, hlt⟩ := hsome fn rfl
      unfold Builder.EndFunc
      rw [if_neg (by rw [hsc]; exact fun hc => hc rfl), List.getElem?_eq_getElem hlt]
      exact ⟨_, rfl⟩
  · intro b last defined fn ht hmem
    obtain ⟨idx, hi, h0⟩ := ht.state.2.2 fn hmem
    unfold Builder.DefineFunc
    rw [hi]
    simp only []
    rw [if_pos h0]
  · intro b0 b1 b2 b3 fn hd hem he
    obtain ⟨_, hbody⟩ := Builder.DefineFunc_spec b0 b1 fn hd
    obtain ⟨f0, v, hf0, hv, _, hfin, hdata, _, _, hfuns, hfunvs⟩ :=
      Builder.defineFuncBody_spec b0 b1 fn hbody
    have hlt : fn < b0.finfos.length := by
      rcases Nat.lt_or_ge fn b0.finfos.length with hl | hl
      · exact hl
      · rw [List.getElem?_eq_none hl] at hf0
        exact Option.noConfusion hf0
    have hx := hem.seq_extends
    obtain ⟨body, hbd⟩ := hx.data
    have hf1 : b1.finfos[fn]? = some { f0 with funEntry := b0.code.data.length } := by
      rw [hfin]
      exact List.getElem?_set_self hlt
    obtain ⟨f2, hf2, he0, _, _⟩ := hx.finfos fn _ hf1
    have he1 : f2.funEntry = b0.code.data.length := he0
    obtain ⟨_, f2b, hf2b, hb3⟩ := Builder.EndFunc_spec b2 b3 fn he
    rw [hf2] at hf2b
    cases hf2b
    have hlt2 : fn < b2.finfos.length := by
      rcases Nat.lt_or_ge fn b2.finfos.length with hl | hl
      · exact hl
      · rw [List.getElem?_eq_none hl] at hf2
        exact Option.noConfusion hf2
    subst hb3
    refine ⟨f0, { f2 with funEnd := b2.code.data.length }, body, hf0,
      List.getElem?_set_self hlt2, he1, rfl, ?_, ?_, ?_, ?_, ?_⟩
    · show f2.funEntry ≤ b2.code.data.length
      rw [he1, hbd, hdata, List.length_append]
      omega
    · show b2.code.data = b0.code.data ++ body
      rw [hbd, hdata]
    · show (b2.code.data.drop f2.funEntry).take (b2.code.data.length - f2.funEntry) = body
      rw [he1, hbd, hdata, List.drop_left, List.length_append, Nat.add_sub_cancel_left,
        List.take_length]
    · intro hv0
      rw [hv] at hv0
      cases hv0
      exact ⟨by show b2.code.funs = _; rw [hx.funs, hfuns]; rfl,
        by show b2.code.funvs = _; rw [hx.funvs, hfunvs]; rfl⟩
    · intro hv1
      rw [hv] at hv1
      cases hv1
      exact ⟨by show b2.code.funvs = _; rw [hx.funvs, hfunvs]; rfl,
        by show b2.code.funs = _; rw [hx.funs, hfuns]; rfl⟩

/-- Witness for C22 on the sample layout: `DefineFunc(f)`, one `Load`, `EndFunc(f)`
on a new builder over the fixed function `f`. -/
theorem defineFunc_endFunc_paired_witness :
    ∃ b1 b3, (Builder.init [namedResultFunc] []).DefineFunc 0 = some b1 ∧
      (b1.Load sampleLayout (-1)).EndFunc 0 = some b3 ∧
      ∃ f0 f3 body, (Builder.init [namedResultFunc] []).finfos[0]? = some f0 ∧
        b3.finfos[0]? = some f3 ∧
        f3.funEntry = (Builder.init [namedResultFunc] []).code.data.length ∧
        f3.funEnd = (b1.Load sampleLayout (-1)).code.data.length ∧
        f3.funEntry ≤ f3.funEnd ∧
        b3.code.data = (Builder.init [namedResultFunc] []).code.data ++ body ∧
        (b3.code.data.drop f3.funEntry).take (f3.funEnd - f3.funEntry) = body ∧
        (f0.IsVariadic = some false →
          b3.code.funs = (Builder.init [namedResultFunc] []).code.funs ++ [0] ∧
          b3.code.funvs = (Builder.init [namedResultFunc] []).code.funvs) ∧
        (f0.IsVariadic = some true →
          b3.code.funvs = (Builder.init [namedResultFunc] []).code.funvs ++ [0] ∧
          b3.code.funs = (Builder.init [namedResultFunc] []).code.funs) :=
  ⟨_, _, rfl, rfl,
   (defineFunc_endFunc_paired sampleLayout).2.2 _ _ _ _ 0 rfl
     (Builder.Emits.step _ _ _ (Builder.Emits.refl _) (Builder.EmitStep.load _ (-1))) rfl⟩

theorem finfos_set_flag (fs : List FuncInfo) (fn : Nat) (f f2 : FuncInfo)
    (hf : fs[fn]? = some f) (h : f2.nVariadic = f.nVariadic) :
    ∀ (k : Nat) (g : FuncInfo), fs[k]? = some g →
      ∃ g2, (fs.set fn f2)[k]? = some g2 ∧ g2.nVariadic = g.nVariadic := by
  intro k g hg
  by_cases hk : k = fn
  · subst hk
    rw [hf] at hg
    cases hg
    have hlt : k < fs.length := by
      rcases Nat.lt_or_ge k fs.length with hl | hl
      · exact hl
      · rw [List.getElem?_eq_none hl] at hf
        exact Option.noConfusion hf
    exact ⟨f2, List.getElem?_set_self hlt, h⟩
  · refine ⟨g, ?_, rfl⟩
    rw [List.getElem?_set_ne (fun e => hk e.symm)]
    exact hg

theorem resolveLoop_flag (L : Layout) :
    ∀ (l : List (Nat × Int)) (b b2 : Builder), resolveLoop L l b = some b2 →
      ∀ (k : Nat) (g : FuncInfo), b.finfos[k]? = some g →
        ∃ g2, b2.finfos[k]? = some g2 ∧ g2.nVariadic = g.nVariadic
  | [], b, b2, h, k, g, hg => by
    rw [resolveLoop] at h
    cases h
    exact ⟨g, hg, rfl⟩
  | (fn, pos) :: rest, b, b2, h, k, g, hg => by
    rw [resolveLoop] at h
    by_cases hp : pos < 0
    · rw [if_pos hp] at h
      exact Option.noConfusion h
    · rw [if_neg hp] at h
      cases hf : b.finfos[fn]? with
      | none => simp [hf] at h
      | some f =>
        simp only [hf] at h
        cases hpo : patchOffs L f pos f.offs b.code.data with
        | none => simp [hpo] at h
        | some data =>
          simp only [hpo] at h
          obtain ⟨g1, hg1, _, _, hfl⟩ :=
            finfos_set_preserved b.finfos fn f { f with offs := [] } hf rfl rfl
              (fun _ => rfl) k g hg
          have hfl2 : g1.nVariadic = g.nVariadic := by
            by_cases hk : k = fn
            · subst hk
              rw [hf] at hg
              cases hg
              have hlt : k < b.finfos.length := by
                rcases Nat.lt_or_ge k b.finfos.length with hl | hl
                · exact hl
                · rw [List.getElem?_eq_none hl] at hf
                  exact Option.noConfusion hf
              rw [List.getElem?_set_self hlt] at hg1
              cases hg1
              rfl
            · rw [List.getElem?_set_ne (fun e => hk e.symm), hg] at hg1
              cases hg1
              rfl
          obtain ⟨g2, hg2, hfl3⟩ := resolveLoop_flag L rest _ b2 h k g1 hg1
          exact ⟨g2, hg2, by rw [hfl3, hfl2]⟩

theorem Builder.CallFunc_same_aux (L : Layout) (b : Builder) (fn : Nat) (f : FuncInfo)
    (hf : b.finfos[fn]? = some f) (hs : f.nVariadic = nVariadicFixedArgs) :
    ∃ b2, b.CallFunc L fn = some b2 := by
  have hlt : fn < b.finfos.length := by
    rcases Nat.lt_or_ge fn b.finfos.length with hl | hl
    · exact hl
    · rw [List.getElem?_eq_none hl] at hf
      exact Option.noConfusion hf
  have h1 : b.setVariadic fn nVariadicFixedArgs =
      some { b with finfos := b.finfos.set fn f } := by
    unfold Builder.setVariadic
    rw [hf]
    simp only []
    rw [FuncInfo.setVariadic_same f _ (by decide) hs]
  unfold Builder.CallFunc
  rw [h1]
  simp only []
  have h2 : (({ b with finfos := b.finfos.set fn f } : Builder).noteFunc fn).finfos[fn]? =
      some f := by
    have : (({ b with finfos := b.finfos.set fn f } : Builder).noteFunc fn).finfos =
        b.finfos.set fn f := by
      unfold Builder.noteFunc
      split <;> rfl
    rw [this]
    exact List.getElem?_set_self hlt
  unfold Builder.recordOff
  rw [h2]
  exact ⟨_, rfl⟩

theorem Builder.CallFuncv_same_aux (L : Layout) (b : Builder) (fn : Nat) (f : FuncInfo)
    (arity : Int) (hf : b.finfos[fn]? = some f) (hs : f.nVariadic = nVariadicVariadicArgs) :
    ∃ b2, b.CallFuncv L fn arity = some b2 := by
  have hlt : fn < b.finfos.length := by
    rcases Nat.lt_or_ge fn b.finfos.length with hl | hl
    · exact hl
    · rw [List.getElem?_eq_none hl] at hf
      exact Option.noConfusion hf
  have h1 : b.setVariadic fn nVariadicVariadicArgs =
      some { b with finfos := b.finfos.set fn f } := by
    unfold Builder.setVariadic
    rw [hf]
    simp only []
    rw [FuncInfo.setVariadic_same f _ (by decide) hs]
  unfold Builder.CallFuncv
  rw [h1]
  simp only []
  have h2 : ((({ b with finfos := b.finfos.set fn f } : Builder).noteFunc fn).funcvArity L
      arity).1.finfos[fn]? = some f := by
    have : ((({ b with finfos := b.finfos.set fn f } : Builder).noteFunc fn).funcvArity L
        arity).1.finfos = b.finfos.set fn f := by
      unfold Builder.funcvArity Builder.noteFunc
      repeat' split
      all_goals rfl
    rw [this]
    exact List.getElem?_set_self hlt
  unfold Builder.recordOff
  rw [h2]
  exact ⟨_, rfl⟩

theorem Builder.setVariadic_other_aux (b : Builder) (fn : Nat) (f : FuncInfo) (s : Nat)
    (hf : b.finfos[fn]? = some f) (h0 : f.nVariadic ≠ 0) (hne : f.nVariadic ≠ s) :
    b.setVariadic fn s = none := by
  unfold Builder.setVariadic
  rw [hf]
  simp only []
  rw [FuncInfo.setVariadic_other f s h0 hne]

theorem Builder.setVariadic_flag_aux (b b1 : Builder) (fn s : Nat)
    (h : b.setVariadic fn s = some b1) :
    ∃ f1, b1.finfos[fn]? = some f1 ∧ f1.nVariadic = s := by
  unfold Builder.setVariadic at h
  cases hf : b.finfos[fn]? with
  | none => simp [hf] at h
  | some f =>
    simp only [hf] at h
    cases hs : f.setVariadic s with
    | none => simp [hs] at h
    | some f1 =>
      simp only [hs, Option.some.injEq] at h
      subst h
      have hlt : fn < b.finfos.length := by
        rcases Nat.lt_or_ge fn b.finfos.length with hl | hl
        · exact hl
        · rw [List.getElem?_eq_none hl] at hf
          exact Option.noConfusion hf
      exact ⟨f1, List.getElem?_set_self hlt, (FuncInfo.setVariadic_flag f f1 s hs).1⟩

theorem Builder.CallFunc_flag_aux (L : Layout) (b b2 : Builder) (fn : Nat)
    (h : b.CallFunc L fn = some b2) :
    ∃ f2, b2.finfos[fn]? = some f2 ∧ f2.nVariadic = nVariadicFixedArgs := by
  unfold Builder.CallFunc at h
  cases hs : b.setVariadic fn nVariadicFixedArgs with
  | none => simp [hs] at h
  | some b1 =>
    simp only [hs] at h
    obtain ⟨f1, hf1, hfl⟩ := Builder.setVariadic_flag_aux b b1 fn _ hs
    have e := (Builder.noteFunc_extends b1 fn).trans (Builder.map_emit_extends _ b2 _ _
      (fun b3 h3 => Builder.recordOff_extends _ b3 fn h3) h)
    obtain ⟨f2, hf2, _, _, h4⟩ := e.finfos fn f1 hf1
    exact ⟨f2, hf2, by rw [h4 (by rw [hfl]; decide), hfl]⟩

theorem Builder.CallFuncv_flag_aux (L : Layout) (b b2 : Builder) (fn : Nat) (arity : Int)
    (h : b.CallFuncv L fn arity = some b2) :
    ∃ f2, b2.finfos[fn]? = some f2 ∧ f2.nVariadic = nVariadicVariadicArgs := by
  unfold Builder.CallFuncv at h
  cases hs : b.setVariadic fn nVariadicVariadicArgs with
  | none => simp [hs] at h
  | some b1 =>
    simp only [hs] at h
    obtain ⟨f1, hf1, hfl⟩ := Builder.setVariadic_flag_aux b b1 fn _ hs
    have e := ((Builder.noteFunc_extends b1 fn).trans
      (Builder.funcvArity_extends L (b1.noteFunc fn) arity)).trans
      (Builder.map_emit_extends _ b2 _ _
        (fun b3 h3 => Builder.recordOff_extends _ b3 fn h3) h)
    obtain ⟨f2, hf2, _, _, h4⟩ := e.finfos fn f1 hf1
    exact ⟨f2, hf2, by rw [h4 (by rw [hfl]; decide), hfl]⟩

/-- C21 (the variadic flag of a `FuncInfo`): a new function is unresolved
(`IsTypeValid()` false, `IsVariadic()` panics); on an unresolved function `Args`
and `CallFunc` set the flag to fixed, `Vargs` (with a list ending in a slice type)
and `CallFuncv` to variadic; on a function resolved to the state `s`, `IsTypeValid()`
is true, `IsVariadic()` reports `s`, each of the four operations succeeds and
leaves the flag at `s` when it requests `s` and fails when it requests the other
state, and no sequence of other builder calls, `DefineFunc`, `EndFunc` or
`resolveFuncs` changes the flag. -/
theorem variadic_flag_resolves_once (L : Layout) :
    (∀ (name : String) (d : Nat),
      (NewFunc name d).IsTypeValid = false ∧ (NewFunc name d).IsVariadic = none) ∧
    (∀ (f : FuncInfo), f.nVariadic = 0 →
      (∀ ins, ∃ f2, f.Args ins = some f2 ∧ f2.nVariadic = nVariadicFixedArgs) ∧
      (∀ ins t, ins.getLast? = some t → t.Kind = kindSlice →
        ∃ f2, f.Vargs ins = some f2 ∧ f2.nVariadic = nVariadicVariadicArgs) ∧
      (∀ (b b2 : Builder) (fn : Nat), b.finfos[fn]? = some f →
        (b.CallFunc L fn = some b2 →
          ∃ f2, b2.finfos[fn]? = some f2 ∧ f2.nVariadic = nVariadicFixedArgs) ∧
        (∀ arity, b.CallFuncv L fn arity = some b2 →
          ∃ f2, b2.finfos[fn]? = some f2 ∧ f2.nVariadic = nVariadicVariadicArgs))) ∧
    (∀ (f : FuncInfo) (s : Nat), (s = nVariadicFixedArgs ∨ s = nVariadicVariadicArgs) →
      f.nVariadic = s →
      f.IsTypeValid = true ∧ f.IsVariadic = some (decide (s = nVariadicVariadicArgs)) ∧
      (∀ ins, (s = nVariadicFixedArgs → ∃ f2, f.Args ins = some f2 ∧ f2.nVariadic = s) ∧
        (s = nVariadicVariadicArgs → f.Args ins = none)) ∧
      (∀ ins, (s = nVariadicVariadicArgs → ∀ t, ins.getLast? = some t → t.Kind = kindSlice →
          ∃ f2, f.Vargs ins = some f2 ∧ f2.nVariadic = s) ∧
        (s = nVariadicFixedArgs → f.Vargs ins = none)) ∧
      (∀ (b : Builder) (fn : Nat), b.finfos[fn]? = some f →
        (s = nVariadicFixedArgs →
          ∃ b2 f2, b.CallFunc L fn = some b2 ∧ b2.finfos[fn]? = some f2 ∧ f2.nVariadic = s) ∧
        (s = nVariadicVariadicArgs → b.CallFunc L fn = none) ∧
        (∀ arity, (s = nVariadicVariadicArgs →
            ∃ b2 f2, b.CallFuncv L fn arity = some b2 ∧ b2.finfos[fn]? = some f2 ∧
              f2.nVariadic = s) ∧
          (s = nVariadicFixedArgs → b.CallFuncv L fn arity = none)) ∧
        (∀ b2, (Builder.Emits L b b2 ∨ (∃ g, b.DefineFunc g = some b2) ∨
            (∃ g, b.EndFunc g = some b2) ∨ b.resolveFuncs L = some b2) →
          ∃ f2, b2.finfos[fn]? = some f2 ∧ f2.nVariadic = s))) := by
  refine ⟨fun name d => ⟨rfl, rfl⟩, ?_, ?_⟩
  · intro f h0
    refine ⟨?_, ?_, ?_⟩
    · intro ins
      exact ⟨_, FuncInfo.setVariadic_fresh _ _ h0, rfl⟩
    · intro ins t hl hk
      refine ⟨{ f with ins := ins, nVariadic := nVariadicVariadicArgs }, ?_, rfl⟩
      unfold FuncInfo.Vargs
      rw [hl]
      simp only []
      rw [if_neg (by rw [hk]; exact fun hc => hc rfl)]
      exact FuncInfo.setVariadic_fresh _ _ h0
    · intro b b2 fn _
      exact ⟨Builder.CallFunc_flag_aux L b b2 fn,
        fun arity => Builder.CallFuncv_flag_aux L b b2 fn arity⟩
  · intro f s hs hf
    have hne0 : f.nVariadic ≠ 0 := by
      rcases hs with h | h <;> rw [hf, h] <;> decide
    refine ⟨?_, ?_, ?_, ?_, ?_⟩
    · unfold FuncInfo.IsTypeValid
      rcases hs with h | h <;> rw [hf, h] <;> rfl
    · unfold FuncInfo.IsVariadic
      rw [if_neg hne0]
      rcases hs with h | h <;> rw [hf, h] <;> rfl
    · intro ins
      constructor
      · intro h1
        refine ⟨{ f with ins := ins }, ?_, hf⟩
        exact FuncInfo.setVariadic_same _ _ (by decide) (by rw [← h1]; exact hf)
      · intro h2
        exact FuncInfo.setVariadic_other _ _ hne0 (by
          show f.nVariadic ≠ nVariadicFixedArgs
          rw [hf, h2]; decide)
    · intro ins
      constructor
      · intro h2 t hl hk
        refine ⟨{ f with ins := ins }, ?_, hf⟩
        unfold FuncInfo.Vargs
        rw [hl]
        simp only []
        rw [if_neg (by rw [hk]; exact fun hc => hc rfl)]
        exact FuncInfo.setVariadic_same _ _ (by decide) (by rw [← h2]; exact hf)
      · intro h1
        unfold FuncInfo.Vargs
        cases hl : ins.getLast? with
        | none => rfl
        | some t =>
          simp only []
          by_cases hk : t.Kind ≠ kindSlice
          · rw [if_pos hk]
          · rw [if_neg hk]
            exact FuncInfo.setVariadic_other _ _ hne0 (by
              show f.nVariadic ≠ nVariadicVariadicArgs
              rw [hf, h1]; decide)
    · intro b fn hfn
      refine ⟨?_, ?_, ?_, ?_⟩
      · intro h1
        obtain ⟨b2, hb2⟩ := Builder.CallFunc_same_aux L b fn f hfn (by rw [hf, h1])
        obtain ⟨f2, hf2, hfl⟩ := Builder.CallFunc_flag_aux L b b2 fn hb2
        exact ⟨b2, f2, hb2, hf2, by rw [hfl, h1]⟩
      · intro h2
        unfold Builder.CallFunc
        rw [Builder.setVariadic_other_aux b fn f _ hfn hne0 (by rw [hf, h2]; decide)]
      · intro arity
        constructor
        · intro h2
          obtain ⟨b2, hb2⟩ := Builder.CallFuncv_same_aux L b fn f arity hfn (by rw [hf, h2])
          obtain ⟨f2, hf2, hfl⟩ := Builder.CallFuncv_flag_aux L b b2 fn arity hb2
          exact ⟨b2, f2, hb2, hf2, by rw [hfl, h2]⟩
        · intro h1
          unfold Builder.CallFuncv
          rw [Builder.setVariadic_other_aux b fn f _ hfn hne0 (by rw [hf, h1]; decide)]
      · intro b2 hop
        rcases hop with hem | ⟨g, hd⟩ | ⟨g, he⟩ | hr
        · obtain ⟨f2, hf2, _, _, h4⟩ := hem.seq_extends.finfos fn f hfn
          exact ⟨f2, hf2, by rw [h4 hne0, hf]⟩
        · obtain ⟨_, hbody⟩ := Builder.DefineFunc_spec b b2 g hd
          obtain ⟨f0, v, hf0, _, _, hfin, _⟩ := Builder.defineFuncBody_spec b b2 g hbody
          obtain ⟨f2, hf2, h4⟩ :=
            finfos_set_flag b.finfos g f0 { f0 with funEntry := b.code.data.length } hf0
              rfl fn f hfn
          rw [← hfin] at hf2
          exact ⟨f2, hf2, by rw [h4, hf]⟩
        · obtain ⟨_, f0, hf0, hb2⟩ := Builder.EndFunc_spec b b2 g he
          obtain ⟨f2, hf2, h4⟩ :=
            finfos_set_flag b.finfos g f0 { f0 with funEnd := b.code.data.length } hf0
              rfl fn f hfn
          subst hb2
          exact ⟨f2, hf2, by rw [h4, hf]⟩
        · obtain ⟨f2, hf2, hfl⟩ := resolveLoop_flag L b.funcs b b2 hr fn f hfn
          exact ⟨f2, hf2, by rw [hfl, hf]⟩

/-- Witness for C21 on the sample layout: the function `f` resolved to fixed accepts
`Args`, rejects `Vargs`, and keeps its flag under `CallFunc`. -/
theorem variadic_flag_resolves_once_witness :
    namedResultFunc.nVariadic = nVariadicFixedArgs ∧
      (∃ f2, namedResultFunc.Args [intTy] = some f2 ∧ f2.nVariadic = nVariadicFixedArgs) ∧
      namedResultFunc.Vargs [.slice intTy] = none ∧
      ∃ b2 f2, (Builder.init [namedResultFunc] []).CallFunc sampleLayout 0 = some b2 ∧
        b2.finfos[0]? = some f2 ∧ f2.nVariadic = nVariadicFixedArgs :=
  ⟨rfl,
   (((variadic_flag_resolves_once sampleLayout).2.2 namedResultFunc nVariadicFixedArgs
      (Or.inl rfl) rfl).2.2.1 [intTy]).1 rfl,
   (((variadic_flag_resolves_once sampleLayout).2.2 namedResultFunc nVariadicFixedArgs
      (Or.inl rfl) rfl).2.2.2.1 [.slice intTy]).2 rfl,
   (((variadic_flag_resolves_once sampleLayout).2.2 namedResultFunc nVariadicFixedArgs
      (Or.inl rfl) rfl).2.2.2.2 (Builder.init [namedResultFunc] []) 0 rfl).1 rfl⟩

/-! ## Packing the variadic arguments -/

theorem storeItems_id (setValue : Ty → Value → Option Value) (t : Ty) :
    ∀ (items : List Value), (∀ v ∈ items, setValue t v = some v) →
      storeItems setValue t items = some items
  | [], _ => rfl
  | v :: rest, h => by
    rw [storeItems, h v (List.mem_cons_self v rest),
      storeItems_id setValue t rest (fun w hw => h w (List.mem_cons_of_mem v hw))]
    rfl

/-- C23 (`FuncInfo.execVariadic`): for a function with `n = len(in) - 1` fixed
parameters, a run-time arity `a > n` replaces the top `a - n` values of the stack
by one collection holding those values in their order and leaves the values below
untouched; but for `a <= n`, and so for `a = n`, the stack is left as it is: no
empty collection is pushed, and the callee runs with `n` values where its `n + 1`
parameters are expected.  The function `f(a int, rest ...int)` called with arity 1
on the stack `[7]` runs on the stack `[7]`. -/
theorem execVariadic_packs_only_above_min (setValue : Ty → Value → Option Value)
    (f : FuncInfo) (arity : Nat) (m : Machine) (hin : 1 ≤ f.ins.length)
    (hlen : f.ins.length < 2 ^ 32) (ha : arity < 2 ^ 32) :
    (f.ins.length - 1 < arity → arity - (f.ins.length - 1) ≤ m.data.length →
      (∀ t, f.ins[f.ins.length - 1]? = some t →
        ∀ v ∈ m.data.drop (m.data.length - (arity - (f.ins.length - 1))),
          setValue t v = some v) →
      f.execVariadicPack setValue arity m =
        some { m with
          data := m.data.take (m.data.length - (arity - (f.ins.length - 1))) ++
            [.slice (m.data.drop (m.data.length - (arity - (f.ins.length - 1))))] }) ∧
    (arity ≤ f.ins.length - 1 → f.execVariadicPack setValue arity m = some m) ∧
    variadicFunc.execVariadicPack setValue 1 { ctxs := [], data := [.int 7] } =
      some { ctxs := [], data := [.int 7] } := by
  have hn : u32OfInt ((f.ins.length : Int) - 1) = f.ins.length - 1 := by
    have h1 : ((f.ins.length : Int) - 1) = ((f.ins.length - 1 : Nat) : Int) := by omega
    rw [h1]
    exact u32OfInt_natCast _ (by omega)
  refine ⟨?_, ?_, ?_⟩
  · intro hgt hstk hset
    have hlt : f.ins.length - 1 < f.ins.length := by omega
    have hsub : sub32 arity (f.ins.length - 1) = arity - (f.ins.length - 1) :=
      sub32_of_le arity (f.ins.length - 1) (by omega) ha
    unfold FuncInfo.execVariadicPack
    simp only [hn]
    rw [if_pos hgt, List.getElem?_eq_getElem hlt]
    simp only [hsub, Machine.getArgs, if_pos hstk]
    have hs := hset _ (List.getElem?_eq_getElem hlt)
    by_cases ht : (f.ins[f.ins.length - 1]).isEmptyInterfaceSlice = true
    · rw [if_pos ht]
      simp only [Machine.ret, if_pos hstk]
    · rw [if_neg ht, storeItems_id setValue _ _ hs]
      simp only [Machine.ret, if_pos hstk]
  · intro hle
    unfold FuncInfo.execVariadicPack
    simp only [hn]
    rw [if_neg (by omega)]
  · rfl

/-- Witness for C23: the function `f(a int, rest ...int)` with arity 3 on the stack
`[7, 8, 9]` runs on `[7, [8, 9]]`, and with arity 1 on `[7]` runs on `[7]`. -/
theorem execVariadic_packs_only_above_min_witness :
    variadicFunc.execVariadicPack (fun _ v => some v) 3
        { ctxs := [], data := [.int 7, .int 8, .int 9] } =
      some { ctxs := [], data := [.int 7, .slice [.int 8, .int 9]] } ∧
    variadicFunc.execVariadicPack (fun _ v => some v) 1 { ctxs := [], data := [.int 7] } =
      some { ctxs := [], data := [.int 7] } :=
  ⟨(execVariadic_packs_only_above_min (fun _ v => some v) variadicFunc 3
      { ctxs := [], data := [.int 7, .int 8, .int 9] } (by decide) (by decide) (by decide)).1
      (by decide) (by decide) (fun _ _ _ _ => rfl),
   (execVariadic_packs_only_above_min (fun _ v => some v) variadicFunc 1
      { ctxs := [], data := [.int 7] } (by decide) (by decide) (by decide)).2.1 (by decide)⟩

/-! ## The stack after a call -/

theorem pushVarsLoop_spec (ctx : Nat) (cx : Context) :
    ∀ (k i : Nat) (m : Machine), m.ctxs[ctx]? = some cx → i + k ≤ cx.vars.length →
      pushVarsLoop ctx k i m =
        some { m with data := m.data ++ (cx.vars.drop i).take k }
  | 0, i, m, _, _ => by
    rw [pushVarsLoop]
    simp
  | k + 1, i, m, hcx, hle => by
    have hi : i < cx.vars.length := by omega
    have hg : m.getVar ctx i = some (cx.vars[i]) := by
      unfold Machine.getVar
      rw [hcx]
      exact List.getElem?_eq_getElem hi
    rw [pushVarsLoop, hg]
    simp only []
    rw [pushVarsLoop_spec ctx cx k (i + 1) (m.push cx.vars[i]) hcx (by omega)]
    have hd : cx.vars.drop i = cx.vars[i] :: cx.vars.drop (i + 1) :=
      List.drop_eq_getElem_cons hi
    rw [hd, List.take_succ_cons]
    simp [Machine.push]

/-- C24 (`FuncInfo.exec`): let the body of a function with `len(in)` parameters
and `numOut` results have ended in the frame `ctx` with base `b`, where
`len(in) <= b <= len(stack)`.  After an explicit value return the stack consists of
the values below `b - len(in)` followed by the `numOut` values that were on top;
after fall-through it consists of the values below `b - len(in)` followed by the
values of the first `numOut` variable slots of the frame, in order.  Either way,
and whenever the function returns at all, the stack has length
`b - len(in) + numOut`. -/
theorem exec_leaves_results (f : FuncInfo) (ctx : Nat) (m : Machine) (cx : Context)
    (hcx : m.ctxs[ctx]? = some cx) (hin : f.ins.length ≤ cx.base)
    (hbase : cx.base ≤ m.data.length) (hstk : m.data.length < 2 ^ 32)
    (hout : f.numOut < 2 ^ 32) :
    (f.numOut ≤ m.data.length →
      f.execFinish true ctx m =
        some { m with
          data := m.data.take (cx.base - f.ins.length) ++
            m.data.drop (m.data.length - f.numOut) }) ∧
    (f.numOut ≤ cx.vars.length →
      f.execFinish false ctx m =
        some { m with
          data := m.data.take (cx.base - f.ins.length) ++ cx.vars.take f.numOut }) ∧
    (∀ returned m2, f.execFinish returned ctx m = some m2 →
      m2.data.length = cx.base - f.ins.length + f.numOut) := by
  have harity : u32OfInt ((f.ins.length : Int) + (m.data.length : Int) - (cx.base : Int)) =
      f.ins.length + m.data.length - cx.base := by
    have h1 : (f.ins.length : Int) + (m.data.length : Int) - (cx.base : Int) =
        ((f.ins.length + m.data.length - cx.base : Nat) : Int) := by omega
    rw [h1]
    exact u32OfInt_natCast _ (by omega)
  have hsub : m.data.length - (f.ins.length + m.data.length - cx.base) =
      cx.base - f.ins.length := by omega
  have hret : f.numOut ≤ m.data.length →
      f.execFinish true ctx m =
        some { m with
          data := m.data.take (cx.base - f.ins.length) ++
            m.data.drop (m.data.length - f.numOut) } := by
    intro hn
    unfold FuncInfo.execFinish
    rw [hcx]
    simp only [if_true]
    rw [if_neg (by omega), harity]
    unfold Machine.ret
    rw [if_pos (by omega), hsub]
  have hset : m.setLen ((cx.base : Int) - (f.ins.length : Int)) =
      some { m with data := m.data.take (cx.base - f.ins.length) } := by
    unfold Machine.setLen
    rw [if_pos (by omega)]
    have : ((cx.base : Int) - (f.ins.length : Int)).toNat = cx.base - f.ins.length := by
      omega
    rw [this]
  have hfall : f.numOut ≤ cx.vars.length →
      f.execFinish false ctx m =
        some { m with
          data := m.data.take (cx.base - f.ins.length) ++ cx.vars.take f.numOut } := by
    intro hn
    unfold FuncInfo.execFinish
    rw [hcx]
    simp only [Bool.false_eq_true, if_false, hset]
    have hcx1 : ({ m with data := m.data.take (cx.base - f.ins.length) } : Machine).ctxs[ctx]? =
        some cx := hcx
    rw [u32_of_lt _ hout, pushVarsLoop_spec ctx cx f.numOut 0 _ hcx1 (by omega)]
    simp
  refine ⟨hret, hfall, ?_⟩
  intro returned m2 h
  cases returned with
  | true =>
    by_cases hn : f.numOut ≤ m.data.length
    · rw [hret hn] at h
      cases h
      simp only [List.length_append, List.length_take, List.length_drop]
      omega
    · unfold FuncInfo.execFinish at h
      rw [hcx] at h
      simp only [if_true] at h
      rw [if_pos (by omega)] at h
      exact Option.noConfusion h
  | false =>
    by_cases hn : f.numOut ≤ cx.vars.length
    · rw [hfall hn] at h
      cases h
      simp only [List.length_append, List.length_take]
      omega
    · exfalso
      unfold FuncInfo.execFinish at h
      rw [hcx] at h
      simp only [Bool.false_eq_true, if_false, hset] at h
      rw [u32_of_lt _ hout] at h
      have key : ∀ (k i : Nat) (m1 : Machine), m1.ctxs[ctx]? = some cx →
          i ≤ cx.vars.length → cx.vars.length < i + k → pushVarsLoop ctx k i m1 = none := by
        intro k
        induction k with
        | zero =>
          intro i m1 _ hle hlt
          omega
        | succ k ih =>
          intro i m1 hc hle hlt
          rw [pushVarsLoop]
          by_cases hi : i < cx.vars.length
          · have hg : m1.getVar ctx i = some (cx.vars[i]) := by
              unfold Machine.getVar
              rw [hc]
              exact List.getElem?_eq_getElem hi
            rw [hg]
            exact ih (i + 1) _ hc (by omega) (by omega)
          · have hg : m1.getVar ctx i = none := by
              unfold Machine.getVar
              rw [hc]
              exact List.getElem?_eq_none (by omega)
            rw [hg]
      have hcx1 : ({ m with data := m.data.take (cx.base - f.ins.length) } :
          Machine).ctxs[ctx]? = some cx := hcx
      rw [key f.numOut 0 _ hcx1 (by omega) (by omega)] at h
      exact Option.noConfusion h

/-- Witness for C24: a function with one parameter and one result in a frame of
base 2 on the stack `[9, 1, 3]`, whose first variable slot holds 5: an explicit
return leaves `[9, 3]`, fall-through leaves `[9, 5]`. -/
theorem exec_leaves_results_witness :
    FuncInfo.execFinish { namedResultFunc with ins := [intTy] } true 0
        { ctxs := [{ parent := none, base := 2, vars := [.int 5] }],
          data := [.int 9, .int 1, .int 3] } =
      some { ctxs := [{ parent := none, base := 2, vars := [.int 5] }],
             data := [.int 9, .int 3] } ∧
    FuncInfo.execFinish { namedResultFunc with ins := [intTy] } false 0
        { ctxs := [{ parent := none, base := 2, vars := [.int 5] }],
          data := [.int 9, .int 1, .int 3] } =
      some { ctxs := [{ parent := none, base := 2, vars := [.int 5] }],
             data := [.int 9, .int 5] } :=
  ⟨(exec_leaves_results { namedResultFunc with ins := [intTy] } 0
      { ctxs := [{ parent := none, base := 2, vars := [.int 5] }],
        data := [.int 9, .int 1, .int 3] }
      { parent := none, base := 2, vars := [.int 5] } rfl (by decide) (by decide)
      (by decide) (by decide)).1 (by decide),
   (exec_leaves_results { namedResultFunc with ins := [intTy] } 0
      { ctxs := [{ parent := none, base := 2, vars := [.int 5] }],
        data := [.int 9, .int 1, .int 3] }
      { parent := none, base := 2, vars := [.int 5] } rfl (by decide) (by decide)
      (by decide) (by decide)).2.1 (by decide)⟩

/-! ## The parent context of closures and callees -/

/-- C25 (`makeClosure`, `execFunc`, `execFuncv`): the function of the closure is
the entry `i & bitsOpClosureOperand` of the variadic table when the closure variadic
flag of the word is set and of the fixed table otherwise; its parent is the context
`p` itself when the nest depth of the function is not 1 and `p.globalCtx()` when it
is 1; `execFunc` and `execFuncv` take their callee from the fixed and the variadic
table and choose its parent by the same rule. -/
theorem closure_parent_rule (L : Layout) (code : Code) (finfos : List FuncInfo)
    (globalCtx : Nat → Option Nat) (i p fn : Nat) (f : FuncInfo)
    (hf : finfos[fn]? = some f) :
    (makeClosureFun L code i = some fn →
      makeClosure L code finfos globalCtx i p =
        (parentRule globalCtx f p).map (fun q => (fn, q))) ∧
    ((i &&& closureVariadicFlag L) ≠ 0 →
      makeClosureFun L code i = code.funvs[i &&& L.bitsOpClosureOperand]?) ∧
    ((i &&& closureVariadicFlag L) = 0 →
      makeClosureFun L code i = code.funs[i &&& L.bitsOpClosureOperand]?) ∧
    (execFuncCallee L code i = some fn →
      execFuncTarget L code finfos globalCtx i p =
        (parentRule globalCtx f p).map (fun q => (fn, q))) ∧
    (execFuncvCallee L code i = some fn →
      execFuncvTarget L code finfos globalCtx i p =
        (parentRule globalCtx f p).map (fun q => (fn, q))) ∧
    (f.vm.nestDepth ≠ 1 → parentRule globalCtx f p = some p) ∧
    (f.vm.nestDepth = 1 → parentRule globalCtx f p = globalCtx p) := by
  refine ⟨?_, ?_, ?_, ?_, ?_, ?_, ?_⟩
  · intro h
    unfold makeClosureFun at h
    unfold makeClosure parentRule
    rw [h]
    simp only [hf]
    split <;> rfl
  · intro h
    unfold makeClosureFun
    rw [if_pos h]
  · intro h
    unfold makeClosureFun
    rw [if_neg (by rw [h]; exact fun hc => hc rfl)]
  · intro h
    unfold execFuncCallee at h
    unfold execFuncTarget parentRule
    rw [h]
    simp only [hf]
    split <;> rfl
  · intro h
    unfold execFuncvCallee at h
    unfold execFuncvTarget parentRule
    rw [h]
    simp only [hf]
    split <;> rfl
  · intro h
    unfold parentRule
    rw [if_neg h]
  · intro h
    unfold parentRule
    rw [if_pos h]

/-- Witness for C25 on the sample layout: in the state with one defined function of
nest depth 1, the closure word with index 0 executed in context 3 yields the
closure of that function whose parent is the global context 0. -/
theorem closure_parent_rule_witness :
    calledThenDefined.finfos[0]? = some
        { name := "f", funEntry := 1, funEnd := 1, ins := [], offs := [0], numOut := 0,
          vm := { vlist := [], nestDepth := 1 }, nVariadic := 1 } ∧
      makeClosureFun sampleLayout calledThenDefined.code 1476395008 = some 0 ∧
      makeClosure sampleLayout calledThenDefined.code calledThenDefined.finfos
        (fun _ => some 0) 1476395008 3 = some (0, 0) :=
  ⟨rfl, rfl,
   (closure_parent_rule sampleLayout calledThenDefined.code calledThenDefined.finfos
      (fun _ => some 0) 1476395008 3 0 _ rfl).1 rfl⟩

/-! ## Registration and lookup of native symbols -/

theorem symSet_lookup_self {α : Type} (m : List (String × α)) (k : String) (v : α) :
    (symSet m k v).lookup k = some v := by
  induction m with
  | nil => simp [symSet, List.lookup]
  | cons e rest ih =>
    obtain ⟨k1, v1⟩ := e
    unfold symSet
    by_cases h : k1 = k
    · rw [if_pos h]
      simp [List.lookup]
    · rw [if_neg h]
      have hne : (k == k1) = false := by
        simp only [beq_eq_false_iff_ne, ne_eq]
        exact fun e => h e.symm
      simp only [List.lookup, hne]
      exact ih

theorem symSet_lookup_ne {α : Type} (m : List (String × α)) (k k2 : String) (v : α)
    (hne : k2 ≠ k) : (symSet m k v).lookup k2 = m.lookup k2 := by
  induction m with
  | nil =>
    have h1 : (k2 == k) = false := by simpa using hne
    simp [symSet, List.lookup, h1]
  | cons e rest ih =>
    obtain ⟨k1, v1⟩ := e
    unfold symSet
    by_cases h : k1 = k
    · rw [if_pos h]
      have h1 : (k2 == k) = false := by simpa using hne
      have h2 : (k2 == k1) = false := by rw [h]; exact h1
      simp [List.lookup, h1, h2]
    · rw [if_neg h]
      by_cases h3 : k2 = k1
      · subst h3
        simp [List.lookup]
      · have h4 : (k2 == k1) = false := by simpa using h3
        simp only [List.lookup, h4]
        exact ih

theorem registerSyms_lookup_other (enc : Nat → Nat) (base : Nat) :
    ∀ (names : List String) (i : Nat) (syms : List (String × Nat)) (name : String),
      name ∉ names → (registerSyms enc base i names syms).lookup name = syms.lookup name
  | [], _, _, _, _ => rfl
  | n :: rest, i, syms, name, h => by
    rw [registerSyms, registerSyms_lookup_other enc base rest (i + 1) _ name
      (fun hc => h (List.mem_cons_of_mem n hc)),
      symSet_lookup_ne _ _ _ _ (fun e => h (by rw [e]; exact List.mem_cons_self n rest))]

theorem registerSyms_lookup (enc : Nat → Nat) (base : Nat) :
    ∀ (names : List String) (i : Nat) (syms : List (String × Nat)), names.Nodup →
      ∀ (j : Nat) (name : String), names[j]? = some name →
        (registerSyms enc base i names syms).lookup name =
          some (enc (u32 (base + u32 (i + j))))
  | [], _, _, _, j, name, h => by simp at h
  | n :: rest, i, syms, hnd, j, name, h => by
    rw [registerSyms]
    obtain ⟨hn, hrest⟩ := List.nodup_cons.1 hnd
    cases j with
    | zero =>
      simp only [List.getElem?_cons_zero, Option.some.injEq] at h
      subst h
      rw [registerSyms_lookup_other enc base rest (i + 1) _ n hn, symSet_lookup_self]
      rfl
    | succ j =>
      simp only [List.getElem?_cons_succ] at h
      rw [registerSyms_lookup enc base rest (i + 1) _ hrest j name h]
      have : i + 1 + j = i + (j + 1) := by omega
      rw [this]

theorem find_registered_aux (L : Layout) (hL : L.WF) (op : Nat) (p : GoPackage)
    (names : List String) (base i : Nat) (name : String) (hnd : names.Nodup)
    (hi : names[i]? = some name) (hb : base + i ≤ L.bitsOperand) :
    GoPackage.Find L
        (some { p with
          syms := registerSyms (fun a => a ||| (op <<< L.bitsOpShift)) base 0 names p.syms })
        name = some (base + i, op) := by
  have hpw := hL.pow_le.2.2
  have hop := hL.operand
  have hp : 0 < 2 ^ L.bitsOpShift := Nat.two_pow_pos _
  have hlt : base + i < 2 ^ L.bitsOpShift := by omega
  have hu : u32 (base + u32 (0 + i)) = base + i := by
    rw [Nat.zero_add, u32_of_lt i (by omega), u32_of_lt _ (by omega)]
  unfold GoPackage.Find
  simp only []
  rw [registerSyms_lookup _ base names 0 p.syms hnd i name hi, hu]
  simp only []
  rw [Nat.lor_comm, operand_of_word hL op _ hlt, shl_or_shr op _ _ hlt]

theorem find_var_registered_aux (L : Layout) (hL : L.WF) (p : GoPackage)
    (names : List String) (base i : Nat) (name : String) (hnd : names.Nodup)
    (hi : names[i]? = some name) (hb : base + i ≤ L.bitsOperand) :
    GoPackage.Find L
        (some { p with syms := registerSyms (fun a => a) base 0 names p.syms })
        name = some (base + i, SymbolVar) := by
  have hpw := hL.pow_le.2.2
  have hop := hL.operand
  have hp : 0 < 2 ^ L.bitsOpShift := Nat.two_pow_pos _
  have hlt : base + i < 2 ^ L.bitsOpShift := by omega
  have hu : u32 (base + u32 (0 + i)) = base + i := by
    rw [Nat.zero_add, u32_of_lt i (by omega), u32_of_lt _ (by omega)]
  unfold GoPackage.Find
  simp only []
  rw [registerSyms_lookup _ base names 0 p.syms hnd i name hi, hu]
  simp only []
  rw [hop, Nat.and_pow_two_sub_one_eq_mod, Nat.mod_eq_of_lt hlt,
    Nat.shiftRight_eq_div_pow, Nat.div_eq_of_lt hlt]
  rfl

theorem shr_zero_and_operand (L : Layout) (hL : L.WF) (v : Nat)
    (h : v >>> L.bitsOpShift = 0) : v &&& L.bitsOperand = v := by
  have hp : 0 < 2 ^ L.bitsOpShift := Nat.two_pow_pos _
  rw [Nat.shiftRight_eq_div_pow] at h
  have hlt : v < 2 ^ L.bitsOpShift := by
    by_contra hc
    have : 0 < v / 2 ^ L.bitsOpShift := Nat.div_pos (by omega) hp
    omega
  rw [hL.operand, Nat.and_pow_two_sub_one_eq_mod, Nat.mod_eq_of_lt hlt]

/-- C26 (registration and lookup): after `p.RegisterFuncs` (`RegisterFuncvs`,
`RegisterVars`) of entries with pairwise distinct names has returned the base `b`,
`Find` of the name of the i-th entry returns `(b + i, SymbolFunc)` (`SymbolFuncv`,
`SymbolVar`) whenever `b + i` lies within the operand field; `Find` of a name that
the package does not hold, also after a registration of other names, and `Find` on
a nil package return `ok = false`; and `FindFunc`, `FindFuncv`, `FindVar` return an
address exactly when `Find` returns that address with the corresponding kind. -/
theorem register_find_roundtrip (L : Layout) (hL : L.WF) (p : GoPackage) :
    (∀ (bad : GoFuncInfo → Bool) (gofuns funs : List GoFuncInfo) (base : Nat)
        (p2 : GoPackage) (tbl : List GoFuncInfo),
      p.RegisterFuncs L bad gofuns funs = some (base, p2, tbl) →
      (funs.map (·.name)).Nodup → ∀ (i : Nat) (fi : GoFuncInfo), funs[i]? = some fi →
      base + i ≤ L.bitsOperand →
      GoPackage.Find L (some p2) fi.name = some (base + i, SymbolFunc L)) ∧
    (∀ (bad : GoFuncvInfo → Bool) (gofunvs funs : List GoFuncvInfo) (base : Nat)
        (p2 : GoPackage) (tbl : List GoFuncvInfo),
      p.RegisterFuncvs L bad gofunvs funs = some (base, p2, tbl) →
      (funs.map (·.name)).Nodup → ∀ (i : Nat) (fi : GoFuncvInfo), funs[i]? = some fi →
      base + i ≤ L.bitsOperand →
      GoPackage.Find L (some p2) fi.name = some (base + i, SymbolFuncv L)) ∧
    (∀ (govars vars : List GoVarInfo), (vars.map (·.name)).Nodup →
      ∀ (i : Nat) (vi : GoVarInfo), vars[i]? = some vi →
      (p.RegisterVars govars vars).1 + i ≤ L.bitsOperand →
      GoPackage.Find L (some (p.RegisterVars govars vars).2.1) vi.name =
        some ((p.RegisterVars govars vars).1 + i, SymbolVar)) ∧
    (∀ (name : String), p.syms.lookup name = none →
      GoPackage.Find L (some p) name = none ∧
      (∀ (govars vars : List GoVarInfo), name ∉ vars.map (·.name) →
        GoPackage.Find L (some (p.RegisterVars govars vars).2.1) name = none) ∧
      (∀ (bad : GoFuncInfo → Bool) (gofuns funs : List GoFuncInfo) (base : Nat)
          (p2 : GoPackage) (tbl : List GoFuncInfo),
        p.RegisterFuncs L bad gofuns funs = some (base, p2, tbl) →
        name ∉ funs.map (·.name) → GoPackage.Find L (some p2) name = none) ∧
      (∀ (bad : GoFuncvInfo → Bool) (gofunvs funs : List GoFuncvInfo) (base : Nat)
          (p2 : GoPackage) (tbl : List GoFuncvInfo),
        p.RegisterFuncvs L bad gofunvs funs = some (base, p2, tbl) →
        name ∉ funs.map (·.name) → GoPackage.Find L (some p2) name = none)) ∧
    (∀ (name : String), GoPackage.Find L none name = none) ∧
    (∀ (name : String) (a : Nat),
      (GoPackage.FindFunc L (some p) name = some a ↔
        GoPackage.Find L (some p) name = some (a, SymbolFunc L)) ∧
      (GoPackage.FindFuncv L (some p) name = some a ↔
        GoPackage.Find L (some p) name = some (a, SymbolFuncv L)) ∧
      (GoPackage.FindVar L (some p) name = some a ↔
        GoPackage.Find L (some p) name = some (a, SymbolVar))) := by
  refine ⟨?_, ?_, ?_, ?_, fun _ => rfl, ?_⟩
  · intro bad gofuns funs base p2 tbl h hnd i fi hi hb
    unfold GoPackage.RegisterFuncs at h
    split at h
    · exact Option.noConfusion h
    · simp only [Option.some.injEq, Prod.mk.injEq] at h
      obtain ⟨h1, h2, _⟩ := h
      subst h1 h2
      exact find_registered_aux L hL L.opCallGoFunc p _ _ i fi.name hnd
        (by rw [List.getElem?_map, hi]; rfl) hb
  · intro bad gofunvs funs base p2 tbl h hnd i fi hi hb
    unfold GoPackage.RegisterFuncvs at h
    split at h
    · exact Option.noConfusion h
    · simp only [Option.some.injEq, Prod.mk.injEq] at h
      obtain ⟨h1, h2, _⟩ := h
      subst h1 h2
      exact find_registered_aux L hL L.opCallGoFuncv p _ _ i fi.name hnd
        (by rw [List.getElem?_map, hi]; rfl) hb
  · intro govars vars hnd i vi hi hb
    exact find_var_registered_aux L hL p _ _ i vi.name hnd
      (by rw [List.getElem?_map, hi]; rfl) hb
  · intro name hnone
    refine ⟨?_, ?_, ?_, ?_⟩
    · unfold GoPackage.Find
      simp only [hnone]
    · intro govars vars hn
      unfold GoPackage.Find GoPackage.RegisterVars
      simp only []
      rw [registerSyms_lookup_other _ _ _ 0 p.syms name hn, hnone]
    · intro bad gofuns funs base p2 tbl h hn
      unfold GoPackage.RegisterFuncs at h
      split at h
      · exact Option.noConfusion h
      · simp only [Option.some.injEq, Prod.mk.injEq] at h
        obtain ⟨_, h2, _⟩ := h
        subst h2
        unfold GoPackage.Find
        simp only []
        rw [registerSyms_lookup_other _ _ _ 0 p.syms name hn, hnone]
    · intro bad gofunvs funs base p2 tbl h hn
      unfold GoPackage.RegisterFuncvs at h
      split at h
      · exact Option.noConfusion h
      · simp only [Option.some.injEq, Prod.mk.injEq] at h
        obtain ⟨_, h2, _⟩ := h
        subst h2
        unfold GoPackage.Find
        simp only []
        rw [registerSyms_lookup_other _ _ _ 0 p.syms name hn, hnone]
  · intro name a
    unfold GoPackage.FindFunc GoPackage.FindFuncv GoPackage.FindVar GoPackage.Find SymbolFunc
      SymbolFuncv SymbolVar
    simp only []
    cases hl : p.syms.lookup name with
    | none => simp [hl]
    | some v =>
      simp only [hl, Option.some.injEq, Prod.mk.injEq]
      refine ⟨?_, ?_, ?_⟩
      · constructor
        · intro h
          split at h
          · rename_i hk
            exact ⟨Option.some.inj h, hk⟩
          · exact Option.noConfusion h
        · rintro ⟨h1, h2⟩
          rw [if_pos h2, h1]
      · constructor
        · intro h
          split at h
          · rename_i hk
            exact ⟨Option.some.inj h, hk⟩
          · exact Option.noConfusion h
        · rintro ⟨h1, h2⟩
          rw [if_pos h2, h1]
      · constructor
        · intro h
          split at h
          · rename_i hk
            have hv := Option.some.inj h
            exact ⟨by rw [← hv]; exact shr_zero_and_operand L hL v hk, hk⟩
          · exact Option.noConfusion h
        · rintro ⟨h1, h2⟩
          rw [if_pos h2, ← h1, shr_zero_and_operand L hL v h2]

/-- Witness for C26 on the sample layout: two functions registered into an empty
package when the table holds one entry get the addresses 1 and 2. -/
theorem register_find_roundtrip_witness :
    ∃ p2 tbl, emptyPkg.RegisterFuncs sampleLayout (fun _ => false) [{ name := "x" }]
        [{ name := "f" }, { name := "g" }] = some (1, p2, tbl) ∧
      GoPackage.Find sampleLayout (some p2) "g" = some (2, 11) :=
  ⟨_, _, rfl,
   (register_find_roundtrip sampleLayout sampleLayout_wf emptyPkg).1 (fun _ => false)
     [{ name := "x" }] [{ name := "f" }, { name := "g" }] 1 _ _ rfl (by decide) 1
     { name := "g" } rfl (by decide)⟩

/-! ## Registering a name again -/

theorem GoPackage.RegisterTypes_spec :
    ∀ (tis : List GoTypeInfo) (p p2 : GoPackage), p.RegisterTypes tis = some p2 →
      (∀ ti ∈ tis, p.types.lookup ti.name = none) ∧
      (∀ (name : String) (t : Ty), p.types.lookup name = some t →
        p2.types.lookup name = some t) ∧
      p2.syms = p.syms ∧ p2.pkgPath = p.pkgPath
  | [], p, p2, h => by
    rw [GoPackage.RegisterTypes] at h
    cases h
    exact ⟨fun ti hti => absurd hti (List.not_mem_nil ti), fun _ _ h => h, rfl, rfl⟩
  | ti :: rest, p, p2, h => by
    rw [GoPackage.RegisterTypes] at h
    split at h
    · exact Option.noConfusion h
    · split at h
      · exact Option.noConfusion h
      · cases hl : p.types.lookup ti.name with
        | some t =>
          simp only [hl] at h
          exact Option.noConfusion h
        | none =>
          simp only [hl] at h
          obtain ⟨h1, h2, h3, h4⟩ := GoPackage.RegisterTypes_spec rest _ p2 h
          refine ⟨?_, ?_, h3, h4⟩
          · intro tj htj
            rcases List.mem_cons.1 htj with he | he
            · rw [he]
              exact hl
            · have hj := h1 tj he
              by_cases hn : tj.name = ti.name
              · rw [hn] at hj
                simp only [symSet_lookup_self] at hj
                exact Option.noConfusion hj
              · simp only [symSet_lookup_ne _ _ _ _ hn] at hj
                exact hj
          · intro name t hnt
            apply h2
            have hn : name ≠ ti.name := by
              rintro rfl
              rw [hl] at hnt
              exact Option.noConfusion hnt
            simp only [symSet_lookup_ne _ _ _ _ hn]
            exact hnt

/-- C27 (registering a name again): `RegisterFuncs`, `RegisterFuncvs` and
`RegisterVars` do not look at the names the package holds.  Whatever the package
holds for `name`, registering an entry of that name succeeds and `Find(name)`
returns the new address, the length of the table before the call, so an earlier
binding of the name is replaced.  `RegisterTypes` does reject a name the package
holds, and keeps the types it held; `NewGoPackage` rejects a path that is
registered. -/
theorem reregistration_replaces_binding (L : Layout) (hL : L.WF) (p : GoPackage)
    (name : String) :
    (∀ (gofuns : List GoFuncInfo), gofuns.length ≤ L.bitsOperand →
      ∃ p2 tbl, p.RegisterFuncs L (fun _ => false) gofuns [{ name := name }] =
          some (gofuns.length, p2, tbl) ∧
        GoPackage.Find L (some p2) name = some (gofuns.length, SymbolFunc L)) ∧
    (∀ (gofunvs : List GoFuncvInfo) (numIn : Nat), gofunvs.length ≤ L.bitsOperand →
      ∃ p2 tbl, p.RegisterFuncvs L (fun _ => false) gofunvs [{ name := name, numIn := numIn }] =
          some (gofunvs.length, p2, tbl) ∧
        GoPackage.Find L (some p2) name = some (gofunvs.length, SymbolFuncv L)) ∧
    (∀ (govars : List GoVarInfo), govars.length ≤ L.bitsOperand →
      (p.RegisterVars govars [{ name := name }]).1 = govars.length ∧
      GoPackage.Find L (some (p.RegisterVars govars [{ name := name }]).2.1) name =
        some (govars.length, SymbolVar)) ∧
    (∀ (tis : List GoTypeInfo) (p2 : GoPackage), p.RegisterTypes tis = some p2 →
      (∀ ti ∈ tis, p.FindType ti.name = none) ∧
      (∀ (n : String) (t : Ty), p.FindType n = some t → p2.FindType n = some t)) ∧
    (∀ (gopkgs : List GoPackage) (pkg : GoPackage),
      FindGoPackage gopkgs name = some pkg → NewGoPackage gopkgs name = none) := by
  have hpw := hL.pow_le.2.2
  have hop := hL.operand
  have hp : 0 < 2 ^ L.bitsOpShift := Nat.two_pow_pos _
  refine ⟨?_, ?_, ?_, ?_, ?_⟩
  · intro gofuns hlen
    have hu : u32 gofuns.length = gofuns.length := u32_of_lt _ (by omega)
    refine ⟨{ p with
        syms := registerSyms (fun a => a ||| (L.opCallGoFunc <<< L.bitsOpShift))
          gofuns.length 0 [name] p.syms }, gofuns ++ [{ name := name }], ?_, ?_⟩
    · unfold GoPackage.RegisterFuncs
      rw [if_neg (by simp), hu]
      rfl
    · exact find_registered_aux L hL L.opCallGoFunc p [name] gofuns.length 0 name
        (by simp) rfl (by omega)
  · intro gofunvs numIn hlen
    have hu : u32 gofunvs.length = gofunvs.length := u32_of_lt _ (by omega)
    refine ⟨{ p with
        syms := registerSyms (fun a => a ||| (L.opCallGoFuncv <<< L.bitsOpShift))
          gofunvs.length 0 [name] p.syms },
      gofunvs ++ [{ name := name, numIn := numIn }], ?_, ?_⟩
    · unfold GoPackage.RegisterFuncvs
      rw [if_neg (by simp), hu]
      rfl
    · exact find_registered_aux L hL L.opCallGoFuncv p [name] gofunvs.length 0 name
        (by simp) rfl (by omega)
  · intro govars hlen
    have hu : u32 govars.length = govars.length := u32_of_lt _ (by omega)
    refine ⟨hu, ?_⟩
    have := find_var_registered_aux L hL p [name] govars.length 0 name (by simp) rfl
      (by omega)
    unfold GoPackage.RegisterVars
    simp only [hu, List.map_cons, List.map_nil]
    exact this
  · intro tis p2 h
    obtain ⟨h1, h2, _⟩ := GoPackage.RegisterTypes_spec tis p p2 h
    exact ⟨h1, h2⟩
  · intro gopkgs pkg h
    unfold NewGoPackage
    rw [h]

/-- Witness for C27 on the sample layout: the function `f` registered twice into
the package `fmt` is found at address 0 after the first call and at address 1 after
the second. -/
theorem reregistration_replaces_binding_witness :
    ∃ p1 t1 p2 t2,
      emptyPkg.RegisterFuncs sampleLayout (fun _ => false) [] [{ name := "f" }] =
        some (0, p1, t1) ∧
      GoPackage.Find sampleLayout (some p1) "f" = some (0, 11) ∧
      p1.RegisterFuncs sampleLayout (fun _ => false) t1 [{ name := "f" }] = some (1, p2, t2) ∧
      GoPackage.Find sampleLayout (some p2) "f" = some (1, 11) :=
  ⟨_, _, _, _, rfl, rfl, rfl,
   match (reregistration_replaces_binding sampleLayout sampleLayout_wf
      { pkgPath := "fmt", syms := [("f", 738197504)], types := [] } "f").1 [{ name := "f" }]
      (by decide) with
   | ⟨_, _, h1, h2⟩ => by
     cases h1
     exact h2⟩

/-! ## The native registries are append-only -/

theorem table_append_aux {α : Type} (tbl ext : List α) (h : (tbl ++ ext).length < 2 ^ 32) :
    u32 tbl.length = tbl.length ∧
    (∀ (i : Nat) (x : α), ext[i]? = some x →
      (if tbl.length + i < u32 (tbl ++ ext).length then (tbl ++ ext)[tbl.length + i]?
        else none) = some x) ∧
    (∀ (a : Nat) (x : α), (if a < u32 tbl.length then tbl[a]? else none) = some x →
      (if a < u32 (tbl ++ ext).length then (tbl ++ ext)[a]? else none) = some x) ∧
    (∀ (a : Nat), (if a < u32 (tbl ++ ext).length then (tbl ++ ext)[a]? else none) = none ↔
      (tbl ++ ext).length ≤ a) := by
  have hlen : tbl.length ≤ (tbl ++ ext).length := by
    rw [List.length_append]; omega
  have hu1 : u32 tbl.length = tbl.length := u32_of_lt _ (by omega)
  have hu2 : u32 (tbl ++ ext).length = (tbl ++ ext).length := u32_of_lt _ h
  refine ⟨hu1, ?_, ?_, ?_⟩
  · intro i x hi
    have hil : i < ext.length := by
      rcases Nat.lt_or_ge i ext.length with hl | hl
      · exact hl
      · rw [List.getElem?_eq_none hl] at hi
        exact Option.noConfusion hi
    rw [hu2, if_pos (by rw [List.length_append]; omega),
      List.getElem?_append_right (by omega), Nat.add_sub_cancel_left]
    exact hi
  · intro a x ha
    rw [hu1] at ha
    by_cases hlt : a < tbl.length
    · rw [if_pos hlt] at ha
      rw [hu2, if_pos (by omega), List.getElem?_append_left hlt]
      exact ha
    · rw [if_neg hlt] at ha
      exact Option.noConfusion ha
  · intro a
    rw [hu2]
    constructor
    · intro hn
      by_contra hc
      rw [if_pos (by omega), List.getElem?_eq_getElem (by omega)] at hn
      exact Option.noConfusion hn
    · intro hle
      rw [if_neg (by omega)]

/-- C28 (the native registries): when the table holds fewer than `2^32` entries
after the call, `RegisterFuncs`, `RegisterFuncvs` and `RegisterVars` each return as
base the number of entries the table held before, append the new entries, so that
`GetInfo(base + i)` is the i-th new entry, leave `GetInfo(a)` as it was for every
address that had an entry, and `GetInfo(a)` is nil exactly when `a` is not less
than the length of the table. -/
theorem registry_append_only (L : Layout) (p : GoPackage) :
    (∀ (bad : GoFuncInfo → Bool) (gofuns funs : List GoFuncInfo) (base : Nat)
        (p2 : GoPackage) (tbl : List GoFuncInfo),
      p.RegisterFuncs L bad gofuns funs = some (base, p2, tbl) → tbl.length < 2 ^ 32 →
      base = gofuns.length ∧ tbl = gofuns ++ funs ∧
      (∀ (i : Nat) (x : GoFuncInfo), funs[i]? = some x →
        GoFuncAddr.GetInfo tbl (base + i) = some x) ∧
      (∀ (a : Nat) (x : GoFuncInfo), GoFuncAddr.GetInfo gofuns a = some x →
        GoFuncAddr.GetInfo tbl a = some x) ∧
      (∀ (a : Nat), GoFuncAddr.GetInfo tbl a = none ↔ tbl.length ≤ a)) ∧
    (∀ (bad : GoFuncvInfo → Bool) (gofunvs funs : List GoFuncvInfo) (base : Nat)
        (p2 : GoPackage) (tbl : List GoFuncvInfo),
      p.RegisterFuncvs L bad gofunvs funs = some (base, p2, tbl) → tbl.length < 2 ^ 32 →
      base = gofunvs.length ∧ tbl = gofunvs ++ funs ∧
      (∀ (i : Nat) (x : GoFuncvInfo), funs[i]? = some x →
        GoFuncvAddr.GetInfo tbl (base + i) = some x) ∧
      (∀ (a : Nat) (x : GoFuncvInfo), GoFuncvAddr.GetInfo gofunvs a = some x →
        GoFuncvAddr.GetInfo tbl a = some x) ∧
      (∀ (a : Nat), GoFuncvAddr.GetInfo tbl a = none ↔ tbl.length ≤ a)) ∧
    (∀ (govars vars : List GoVarInfo), (govars ++ vars).length < 2 ^ 32 →
      (p.RegisterVars govars vars).1 = govars.length ∧
      (p.RegisterVars govars vars).2.2 = govars ++ vars ∧
      (∀ (i : Nat) (x : GoVarInfo), vars[i]? = some x →
        GoVarAddr.GetInfo (govars ++ vars) (govars.length + i) = some x) ∧
      (∀ (a : Nat) (x : GoVarInfo), GoVarAddr.GetInfo govars a = some x →
        GoVarAddr.GetInfo (govars ++ vars) a = some x) ∧
      (∀ (a : Nat), GoVarAddr.GetInfo (govars ++ vars) a = none ↔
        (govars ++ vars).length ≤ a)) := by
  refine ⟨?_, ?_, ?_⟩
  · intro bad gofuns funs base p2 tbl h hlt
    unfold GoPackage.RegisterFuncs at h
    split at h
    · exact Option.noConfusion h
    · simp only [Option.some.injEq, Prod.mk.injEq] at h
      obtain ⟨h1, _, h3⟩ := h
      subst h1 h3
      obtain ⟨a1, a2, a3, a4⟩ := table_append_aux gofuns funs hlt
      refine ⟨a1, rfl, ?_, a3, a4⟩
      intro i x hi
      rw [a1]
      exact a2 i x hi
  · intro bad gofunvs funs base p2 tbl h hlt
    unfold GoPackage.RegisterFuncvs at h
    split at h
    · exact Option.noConfusion h
    · simp only [Option.some.injEq, Prod.mk.injEq] at h
      obtain ⟨h1, _, h3⟩ := h
      subst h1 h3
      obtain ⟨a1, a2, a3, a4⟩ := table_append_aux gofunvs funs hlt
      refine ⟨a1, rfl, ?_, a3, a4⟩
      intro i x hi
      rw [a1]
      exact a2 i x hi
  · intro govars vars hlt
    obtain ⟨a1, a2, a3, a4⟩ := table_append_aux govars vars hlt
    exact ⟨a1, rfl, a2, a3, a4⟩

/-- Witness for C28 on the sample layout: registering `f` and `g` when the table
holds `x` returns the base 1; `g` is at address 2 and `x` stays at address 0. -/
theorem registry_append_only_witness :
    ∃ p2 tbl, emptyPkg.RegisterFuncs sampleLayout (fun _ => false) [{ name := "x" }]
        [{ name := "f" }, { name := "g" }] = some (1, p2, tbl) ∧
      GoFuncAddr.GetInfo tbl 2 = some { name := "g" } ∧
      GoFuncAddr.GetInfo tbl 0 = some { name := "x" } :=
  ⟨_, _, rfl,
   ((registry_append_only sampleLayout emptyPkg).1 (fun _ => false) [{ name := "x" }]
      [{ name := "f" }, { name := "g" }] 1 _ _ rfl (by decide)).2.2.1 1 { name := "g" } rfl,
   ((registry_append_only sampleLayout emptyPkg).1 (fun _ => false) [{ name := "x" }]
      [{ name := "f" }, { name := "g" }] 1 _ _ rfl (by decide)).2.2.2.1 0 { name := "x" } rfl⟩

/-! ## Receiver information -/

theorem toRecvType_starred (t : String) :
    ∀ (k : Nat) (acc : Int), toRecvType (starred k t) acc = some (t, acc + k)
  | 0, acc => by
    rw [starred, toRecvType]
    simp
  | k + 1, acc => by
    rw [starred, toRecvType, toRecvType_starred t k (acc + 1)]
    congr 2
    push_cast
    ring

theorem toRecvType_other :
    ∀ (e : TypeExpr) (acc : Int) (tag : Nat), e.innermost = .other tag →
      toRecvType e acc = none
  | .ident name, acc, tag, h =>
    TypeExpr.noConfusion (show TypeExpr.ident name = .other tag from h)
  | .star x, acc, tag, h => by
    have h2 : x.innermost = .other tag := h
    rw [toRecvType]
    exact toRecvType_other x (acc + 1) tag h2
  | .other t2, acc, tag, _ => by
    rw [toRecvType]

/-- C29 (`ToRecv`): for a receiver list of exactly one field whose type is the
identifier `T` under `k` pointer stars, `ToRecv` returns `Type = T`, `Pointer = k`
and as `Name` the first name of the field, or the empty name for an unnamed field;
it fails when the list does not have exactly one field and when the innermost type
is not an identifier. -/
theorem ToRecv_spec (t : String) (k : Nat) (n : String) (more : List String)
    (fields : List Field) (field : Field) (tag : Nat) :
    ToRecv [{ names := some (n :: more), typ := starred k t }] =
        some { name := n, typ := t, pointer := k } ∧
    ToRecv [{ names := none, typ := starred k t }] =
        some { name := "", typ := t, pointer := k } ∧
    (fields.length ≠ 1 → ToRecv fields = none) ∧
    (field.typ.innermost = .other tag → ToRecv [field] = none) := by
  refine ⟨?_, ?_, ?_, ?_⟩
  · unfold ToRecv
    simp only [toRecvType_starred t k 0, Int.zero_add]
  · unfold ToRecv
    simp only [toRecvType_starred t k 0, Int.zero_add]
  · intro h
    unfold ToRecv
    match fields, h with
    | [], _ => rfl
    | [f], h => exact absurd rfl h
    | _ :: _ :: _, _ => rfl
  · intro h
    unfold ToRecv
    simp only [toRecvType_other field.typ 0 tag h]
    split
    · rename_i h1 h2
      exact Option.noConfusion h2
    · rfl

/-- Witness for C29: the receiver `(p **T)` and an empty receiver list. -/
theorem ToRecv_spec_witness :
    ToRecv [{ names := some ["p"], typ := .star (.star (.ident "T")) }] =
        some { name := "p", typ := "T", pointer := 2 } ∧
      ToRecv [] = none ∧
      ToRecv [{ names := none, typ := .star (.other 0) }] = none :=
  ⟨(ToRecv_spec "T" 2 "p" [] [] { names := none, typ := .star (.other 0) } 0).1,
   (ToRecv_spec "T" 2 "p" [] [] { names := none, typ := .star (.other 0) } 0).2.2.1
     (by decide),
   (ToRecv_spec "T" 2 "p" [] [] { names := none, typ := .star (.other 0) } 0).2.2.2 rfl⟩

/-! ## Signed offsets of local slots -/

theorem Layout.WF.shift_split {L : Layout} (hL : L.WF) :
    1 ≤ L.bitsOpShift ∧ 2 ^ L.bitsOpShift = 2 * 2 ^ (L.bitsOpShift - 1) ∧
      2 ^ 32 = 2 ^ L.bitsOpShift * 2 ^ L.bitsOp ∧
      2 ^ 31 = 2 ^ (L.bitsOpShift - 1) * 2 ^ L.bitsOp := by
  have h1 : 1 ≤ L.bitsOpShift := by have := hL.closureSplit; omega
  have hw := hL.word
  refine ⟨h1, ?_, ?_, ?_⟩
  · have : L.bitsOpShift = (L.bitsOpShift - 1) + 1 := by omega
    conv_lhs => rw [this]
    rw [Nat.pow_succ]
    ring
  · rw [← Nat.pow_add]
    congr 1
    omega
  · rw [← Nat.pow_add]
    congr 1
    omega

theorem low_field_of_offset (L : Layout) (hL : L.WF) (idx : Int)
    (hlo : -(2 ^ (L.bitsOpShift - 1) : Int) ≤ idx) (hhi : idx < 2 ^ (L.bitsOpShift - 1)) :
    ((u32OfInt idx &&& L.bitsOperand : Nat) : Int) =
      if 0 ≤ idx then idx else idx + 2 ^ L.bitsOpShift := by
  obtain ⟨_, h2, h32, h31⟩ := hL.shift_split
  have hp : 0 < 2 ^ (L.bitsOpShift - 1) := Nat.two_pow_pos _
  have hq : 0 < 2 ^ L.bitsOp := Nat.two_pow_pos _
  have hsle : 2 ^ L.bitsOpShift ≤ 2 ^ 32 := hL.pow_le.2.2
  have h2i : ((2 ^ L.bitsOpShift : Nat) : Int) = 2 ^ L.bitsOpShift := by push_cast; rfl
  have hpi : ((2 ^ (L.bitsOpShift - 1) : Nat) : Int) = 2 ^ (L.bitsOpShift - 1) := by
    push_cast; rfl
  have h32i : ((2 ^ 32 : Nat) : Int) = 2 ^ 32 := by norm_num
  rw [hL.operand, Nat.and_pow_two_sub_one_eq_mod]
  by_cases h0 : 0 ≤ idx
  · rw [if_pos h0]
    have hlt : idx < 2 ^ 32 := by omega
    rw [u32OfInt_of_lt idx h0 hlt]
    have hn : idx.toNat < 2 ^ L.bitsOpShift := by omega
    rw [Nat.mod_eq_of_lt hn]
    exact Int.toNat_of_nonneg h0
  · rw [if_neg h0]
    have hm : idx % 2 ^ 32 = idx + 2 ^ 32 := by
      rw [← Int.add_mul_emod_self (a := idx) (b := 1) (c := 2 ^ 32), Int.one_mul]
      exact Int.emod_eq_of_lt (by omega) (by omega)
    have hu : u32OfInt idx = (idx + 2 ^ 32).toNat := by
      unfold u32OfInt
      rw [hm]
    rw [hu]
    have hsplit : (idx + 2 ^ 32).toNat =
        (idx + 2 ^ L.bitsOpShift).toNat + (2 ^ L.bitsOp - 1) * 2 ^ L.bitsOpShift := by
      have e1 : (2 ^ L.bitsOp - 1) * 2 ^ L.bitsOpShift + 2 ^ L.bitsOpShift = 2 ^ 32 := by
        rw [h32, Nat.sub_mul, Nat.one_mul, Nat.mul_comm]
        have : 2 ^ L.bitsOpShift ≤ 2 ^ L.bitsOpShift * 2 ^ L.bitsOp :=
          Nat.le_mul_of_pos_right _ hq
        omega
      omega
    rw [hsplit, Nat.add_mul_mod_self_right, Nat.mod_eq_of_lt (by omega)]
    rw [Int.toNat_of_nonneg (by omega)]

theorem slotIdx_roundtrip_aux (L : Layout) (hL : L.WF) (op : Nat) (idx : Int)
    (hlo : -(2 ^ (L.bitsOpShift - 1) : Int) ≤ idx) (hhi : idx < 2 ^ (L.bitsOpShift - 1)) :
    slotIdx L ((op <<< L.bitsOpShift) ||| (u32OfInt idx &&& L.bitsOperand)) = idx := by
  obtain ⟨_, h2, h32, h31⟩ := hL.shift_split
  have hp : 0 < 2 ^ (L.bitsOpShift - 1) := Nat.two_pow_pos _
  have hq : 0 < 2 ^ L.bitsOp := Nat.two_pow_pos _
  have h2i : ((2 ^ L.bitsOpShift : Nat) : Int) = 2 ^ L.bitsOpShift := by push_cast; rfl
  have hpi : ((2 ^ (L.bitsOpShift - 1) : Nat) : Int) = 2 ^ (L.bitsOpShift - 1) := by
    push_cast; rfl
  have hqi : ((2 ^ L.bitsOp : Nat) : Int) = 2 ^ L.bitsOp := by push_cast; rfl
  have hlowlt := and_operand_lt hL (u32OfInt idx)
  have hlow := low_field_of_offset L hL idx hlo hhi
  generalize hlw : u32OfInt idx &&& L.bitsOperand = low at hlowlt hlow
  have hshl : shl32 ((op <<< L.bitsOpShift) ||| low) L.bitsOp = low * 2 ^ L.bitsOp := by
    unfold shl32 u32
    rw [shl_or_eq_add op low _ hlowlt, Nat.shiftLeft_eq, Nat.add_mul, Nat.mul_assoc, ← h32,
      Nat.add_comm, Nat.add_mul_mod_self_right]
    apply Nat.mod_eq_of_lt
    rw [h32]
    exact Nat.mul_lt_mul_of_pos_right hlowlt hq
  have hn32 : low * 2 ^ L.bitsOp < 2 ^ 32 := by
    rw [h32]
    exact Nat.mul_lt_mul_of_pos_right hlowlt hq
  unfold slotIdx
  rw [hshl]
  have hdiv : ∀ (x : Int), Int.shiftRight (x * 2 ^ L.bitsOp) L.bitsOp = x := by
    intro x
    have : Int.shiftRight (x * 2 ^ L.bitsOp) L.bitsOp =
        (x * 2 ^ L.bitsOp) / ((2 ^ L.bitsOp : Nat) : Int) :=
      Int.shiftRight_eq_div_pow _ _
    rw [this, hqi]
    exact Int.mul_ediv_cancel _ (by positivity)
  unfold i32OfU32
  rw [Nat.mod_eq_of_lt hn32]
  by_cases h0 : 0 ≤ idx
  · rw [if_pos h0] at hlow
    have hlt : low < 2 ^ (L.bitsOpShift - 1) := by omega
    have h31lt : low * 2 ^ L.bitsOp < 2 ^ 31 := by
      rw [h31]
      exact Nat.mul_lt_mul_of_pos_right hlt hq
    rw [if_pos h31lt]
    push_cast
    rw [hlow]
    exact hdiv idx
  · rw [if_neg h0] at hlow
    have hge : 2 ^ (L.bitsOpShift - 1) ≤ low := by omega
    have h31ge : ¬ low * 2 ^ L.bitsOp < 2 ^ 31 := by
      rw [h31]
      exact Nat.not_lt.2 (Nat.mul_le_mul_right _ hge)
    rw [if_neg h31ge]
    have he : ((low * 2 ^ L.bitsOp : Nat) : Int) - 2 ^ 32 = idx * 2 ^ L.bitsOp := by
      have h32i : ((2 ^ 32 : Nat) : Int) = 2 ^ L.bitsOpShift * 2 ^ L.bitsOp := by
        rw [h32]
        push_cast
        rfl
      have h32j : (2 ^ 32 : Int) = ((2 ^ 32 : Nat) : Int) := by norm_num
      rw [h32j, h32i]
      push_cast
      rw [hlow]
      ring
    rw [he]
    exact hdiv idx

/-- C30 (`Builder.Load`, `Builder.Store`, `execLoad`, `execStore`): for an offset
`idx` with `-2^(bitsOpShift-1) <= idx < 2^(bitsOpShift-1)`, the word appended by
`Load(idx)` (`Store(idx)`) has the opcode `opLoad` (`opStore`) and the decode
`int32(word) << bitsOp >> bitsOp` yields `idx`; so `execLoad` pushes the value of
slot `base + idx`, and `execStore` pops the top value into slot `base + idx`. -/
theorem load_store_offset_roundtrip (L : Layout) (hL : L.WF) (b : Builder) (idx : Int)
    (hlo : -(2 ^ (L.bitsOpShift - 1) : Int) ≤ idx) (hhi : idx < 2 ^ (L.bitsOpShift - 1)) :
    (∃ w, (b.Load L idx).code.data = b.code.data ++ [.word w] ∧ opOf L w = L.opLoad ∧
      slotIdx L w = idx ∧
      ∀ (p : Nat) (m : Machine) (cx : Context) (v : Value), m.ctxs[p]? = some cx →
        0 ≤ (cx.base : Int) + idx → m.data[((cx.base : Int) + idx).toNat]? = some v →
        execLoad L w p m = some (m.push v)) ∧
    (∃ w, (b.Store L idx).code.data = b.code.data ++ [.word w] ∧ opOf L w = L.opStore ∧
      slotIdx L w = idx ∧
      ∀ (p : Nat) (m : Machine) (cx : Context) (v : Value) (rest : List Value),
        m.ctxs[p]? = some cx → m.data = rest ++ [v] → 0 ≤ (cx.base : Int) + idx →
        ((cx.base : Int) + idx).toNat < rest.length →
        execStore L w p m =
          some { m with data := rest.set ((cx.base : Int) + idx).toNat v }) := by
  have hlt := and_operand_lt hL (u32OfInt idx)
  refine ⟨⟨(L.opLoad <<< L.bitsOpShift) ||| (u32OfInt idx &&& L.bitsOperand), rfl,
      shl_or_shr _ _ _ hlt, slotIdx_roundtrip_aux L hL L.opLoad idx hlo hhi, ?_⟩,
    ⟨(L.opStore <<< L.bitsOpShift) ||| (u32OfInt idx &&& L.bitsOperand), rfl,
      shl_or_shr _ _ _ hlt, slotIdx_roundtrip_aux L hL L.opStore idx hlo hhi, ?_⟩⟩
  · intro p m cx v hcx h0 hv
    unfold execLoad
    rw [hcx]
    simp only [slotIdx_roundtrip_aux L hL L.opLoad idx hlo hhi]
    rw [if_neg (by omega), hv]
  · intro p m cx v rest hcx hd h0 hk
    unfold execStore
    rw [hcx]
    simp only [slotIdx_roundtrip_aux L hL L.opStore idx hlo hhi]
    have hpop : m.pop = some (v, { m with data := rest }) := by
      unfold Machine.pop
      rw [hd]
      simp
    rw [hpop]
    simp only []
    rw [if_neg (by omega), if_pos hk]

/-- Witness for C30 on the sample layout: `Load(-1)` in a frame of base 2 pushes the
value of slot 1. -/
theorem load_store_offset_roundtrip_witness :
    ∃ w, ((Builder.init [] []).Load sampleLayout (-1)).code.data = [.word w] ∧
      opOf sampleLayout w = 20 ∧ slotIdx sampleLayout w = -1 ∧
      execLoad sampleLayout w 0
        { ctxs := [{ parent := none, base := 2, vars := [] }], data := [.int 9, .int 1] } =
        some { ctxs := [{ parent := none, base := 2, vars := [] }],
               data := [.int 9, .int 1, .int 1] } :=
  match (load_store_offset_roundtrip sampleLayout sampleLayout_wf (Builder.init [] []) (-1)
      (by decide) (by decide)).1 with
  | ⟨w, h1, h2, h3, h4⟩ =>
    ⟨w, h1, h2, h3,
      h4 0 { ctxs := [{ parent := none, base := 2, vars := [] }], data := [.int 9, .int 1] }
        { parent := none, base := 2, vars := [] } (.int 1) rfl (by decide) rfl⟩

/-! ## Multi-target assignment -/

theorem frame_getElem (m m2 : Machine)
    (hf : m2.ctxs.map Context.frame = m.ctxs.map Context.frame) (c : Nat) :
    (m2.ctxs[c]?).map Context.frame = (m.ctxs[c]?).map Context.frame := by
  rw [← List.getElem?_map, ← List.getElem?_map, hf]

theorem frame_parentOf (m m2 : Machine)
    (hf : m2.ctxs.map Context.frame = m.ctxs.map Context.frame) (pp : Option Nat) :
    m2.parentOf pp = m.parentOf pp := by
  cases pp with
  | none => rfl
  | some a =>
    have h := frame_getElem m m2 hf a
    unfold Machine.parentOf
    cases h1 : m.ctxs[a]? with
    | none =>
      rw [h1] at h
      cases h2 : m2.ctxs[a]? with
      | none => simp only [h1, h2]
      | some cx2 => rw [h2] at h; simp at h
    | some cx =>
      rw [h1] at h
      cases h2 : m2.ctxs[a]? with
      | none => rw [h2] at h; simp at h
      | some cx2 =>
        rw [h2] at h
        simp only [Option.map_some', Option.some.injEq, Context.frame, Prod.mk.injEq] at h
        simp only [h1, h2, h.1]

theorem frame_getParentCtxLoop (m m2 : Machine)
    (hf : m2.ctxs.map Context.frame = m.ctxs.map Context.frame) :
    ∀ (k : Nat) (pp : Option Nat), getParentCtxLoop m2 k pp = getParentCtxLoop m k pp
  | 0, pp => by simp [getParentCtxLoop]
  | 1, pp => by simp [getParentCtxLoop]
  | k + 2, pp => by
    simp only [getParentCtxLoop, frame_parentOf m m2 hf]
    cases m.parentOf pp with
    | none => rfl
    | some q => exact frame_getParentCtxLoop m m2 hf (k + 1) q

theorem frame_getParentCtx (L : Layout) (m m2 : Machine)
    (hf : m2.ctxs.map Context.frame = m.ctxs.map Context.frame) (p idx : Nat) :
    getParentCtx L m2 p idx = getParentCtx L m p idx := by
  simp only [getParentCtx, frame_parentOf m m2 hf]
  cases m.parentOf (some p) with
  | none => rfl
  | some q => exact frame_getParentCtxLoop m m2 hf _ q

theorem frame_storeLoc (L : Layout) (m m2 : Machine)
    (hf : m2.ctxs.map Context.frame = m.ctxs.map Context.frame) (w p : Nat) :
    storeLoc L w p m2 = storeLoc L w p m := by
  have h := frame_getElem m m2 hf p
  unfold storeLoc
  rw [frame_getParentCtx L m m2 hf]
  by_cases hop : opOf L w = L.opStore
  · rw [if_pos hop, if_pos hop]
    cases h1 : m.ctxs[p]? with
    | none =>
      rw [h1] at h
      cases h2 : m2.ctxs[p]? with
      | none => simp only [h1, h2]
      | some cx2 => rw [h2] at h; simp at h
    | some cx =>
      rw [h1] at h
      cases h2 : m2.ctxs[p]? with
      | none => rw [h2] at h; simp at h
      | some cx2 =>
        rw [h2] at h
        simp only [Option.map_some', Option.some.injEq, Context.frame, Prod.mk.injEq] at h
        simp only [h1, h2, h.2.1]
  · rw [if_neg hop, if_neg hop]

theorem frame_validIn (m m2 : Machine)
    (hf : m2.ctxs.map Context.frame = m.ctxs.map Context.frame) (d : Nat) (loc : Loc) :
    loc.validIn m2 d = loc.validIn m d := by
  cases loc with
  | stack pos => rfl
  | slot c idx =>
    have h := frame_getElem m m2 hf c
    unfold Loc.validIn
    cases h1 : m.ctxs[c]? with
    | none =>
      rw [h1] at h
      cases h2 : m2.ctxs[c]? with
      | none => simp only [h1, h2]
      | some cx2 => rw [h2] at h; simp at h
    | some cx =>
      rw [h1] at h
      cases h2 : m2.ctxs[c]? with
      | none => rw [h2] at h; simp at h
      | some cx2 =>
        rw [h2] at h
        simp only [Option.map_some', Option.some.injEq, Context.frame, Prod.mk.injEq] at h
        simp only [h1, h2, h.2.2]

theorem Machine.setVar_frame (m m2 : Machine) (c idx : Nat) (v : Value)
    (h : m.setVar c idx v = some m2) :
    m2.ctxs.map Context.frame = m.ctxs.map Context.frame ∧ m2.data = m.data ∧
      m2.getVar c idx = some v := by
  unfold Machine.setVar at h
  cases hc : m.ctxs[c]? with
  | none => simp [hc] at h
  | some cx =>
    simp only [hc] at h
    by_cases hi : idx < cx.vars.length
    · rw [if_pos hi] at h
      cases h
      have hlt : c < m.ctxs.length := (List.getElem?_eq_some.1 hc).1
      refine ⟨?_, rfl, ?_⟩
      · apply List.ext_getElem?
        intro k
        simp only [List.getElem?_map]
        by_cases hk : k = c
        · subst hk
          simp [List.getElem?_set_self hlt, hc, Context.frame]
        · rw [List.getElem?_set_ne (Ne.symm hk)]
      · unfold Machine.getVar
        simp [List.getElem?_set_self hlt, hi]
    · rw [if_neg hi] at h
      cases h

theorem Machine.writeLoc_spec (m : Machine) (loc : Loc) (v : Value)
    (hv : loc.validIn m m.data.length = true) :
    ∃ m2, m.writeLoc loc v = some m2 ∧
      m2.ctxs.map Context.frame = m.ctxs.map Context.frame ∧
      m2.data.length = m.data.length ∧ m2.readLoc loc = some v ∧
      (∀ (l2 : Loc), l2 ≠ loc → m2.readLoc l2 = m.readLoc l2) ∧
      (∀ (pos : Nat), loc = .stack pos → m2.ctxs = m.ctxs ∧ m2.data = m.data.set pos v) ∧
      (∀ (c idx : Nat), loc = .slot c idx → m2.data = m.data) := by
  cases loc with
  | stack pos =>
    have hp : pos < m.data.length := by simpa [Loc.validIn] using hv
    refine ⟨{ m with data := m.data.set pos v }, by simp [Machine.writeLoc, hp], rfl,
      by simp, by simp [Machine.readLoc, hp], ?_, ?_, ?_⟩
    · intro l2 hne
      cases l2 with
      | stack q =>
        have : pos ≠ q := fun e => hne (by rw [e])
        simp [Machine.readLoc, List.getElem?_set_ne this]
      | slot c idx => rfl
    · intro q hq
      cases hq
      exact ⟨rfl, rfl⟩
    · intro c idx hq
      cases hq
  | slot c idx =>
    have hs : ∃ m2, m.setVar c idx v = some m2 := by
      unfold Loc.validIn at hv
      unfold Machine.setVar
      cases hc : m.ctxs[c]? with
      | none => simp [hc] at hv
      | some cx =>
        simp only [hc, decide_eq_true_eq] at hv
        simp [hv]
    obtain ⟨m2, h2⟩ := hs
    obtain ⟨hf, hd, hg⟩ := Machine.setVar_frame m m2 c idx v h2
    refine ⟨m2, h2, hf, by rw [hd], hg, ?_, ?_, ?_⟩
    · intro l2 hne
      cases l2 with
      | stack q => simp [Machine.readLoc, hd]
      | slot c2 i2 =>
        refine Machine.getVar_setVar_of_ne m m2 c idx c2 i2 v h2 ?_
        by_cases hc : c2 = c
        · right
          intro hi
          exact hne (by rw [hc, hi])
        · exact Or.inl hc
    · intro q hq
      cases hq
    · intro c2 i2 _
      exact hd

theorem Machine.setVar_data (ctxs : List Context) (d1 d2 : List Value) (c idx : Nat) (v : Value)
    (mp : Machine) (h : Machine.setVar { ctxs := ctxs, data := d1 } c idx v = some mp) :
    Machine.setVar { ctxs := ctxs, data := d2 } c idx v = some { mp with data := d2 } := by
  unfold Machine.setVar at h ⊢
  simp only [] at h ⊢
  cases hc : ctxs[c]? with
  | none => simp [hc] at h
  | some cx =>
    simp only [hc] at h ⊢
    by_cases hi : idx < cx.vars.length
    · rw [if_pos hi] at h
      rw [if_pos hi]
      cases h
      rfl
    · rw [if_neg hi] at h
      cases h

theorem Machine.pop_snoc (m : Machine) (rest : List Value) (v : Value)
    (hd : m.data = rest ++ [v]) : m.pop = some (v, { m with data := rest }) := by
  unfold Machine.pop
  rw [hd]
  simp

theorem execStoreInstr_step (L : Layout) (w p : Nat)
    (m : Machine) (s up : List Value) (v : Value) (loc : Loc)
    (hd : m.data = s ++ up ++ [v])
    (hop : opOf L w = L.opStore ∨ opOf L w = L.opStoreVar)
    (hloc : storeLoc L w p m = some loc) (hv : loc.validIn m s.length = true) :
    ∃ mp, Machine.writeLoc { ctxs := m.ctxs, data := s } loc v = some mp ∧
      execStoreInstr L (.word w) p m = some { mp with data := mp.data ++ up } := by
  have hpop := Machine.pop_snoc m (s ++ up) v hd
  unfold storeLoc at hloc
  by_cases h1 : opOf L w = L.opStore
  · rw [if_pos h1] at hloc
    cases hc : m.ctxs[p]? with
    | none => simp [hc] at hloc
    | some cx =>
      simp only [hc] at hloc
      by_cases hk : (cx.base : Int) + slotIdx L w < 0
      · rw [if_pos hk] at hloc
        cases hloc
      · rw [if_neg hk] at hloc
        cases hloc
        have hp : ((cx.base : Int) + slotIdx L w).toNat < s.length := by
          simpa [Loc.validIn] using hv
        refine ⟨{ ctxs := m.ctxs, data := s.set ((cx.base : Int) + slotIdx L w).toNat v },
          by simp [Machine.writeLoc, hp], ?_⟩
        simp only [execStoreInstr, if_pos h1, execStore, hc, hpop, if_neg hk]
        rw [if_pos (by simp only [List.length_append]; omega)]
        simp only [List.set_append, if_pos hp]
  · have h2 : opOf L w = L.opStoreVar := by
      cases hop with
      | inl h => exact absurd h h1
      | inr h => exact h
    rw [if_neg h1] at hloc
    simp only [execStoreInstr, if_neg h1, if_pos h2, execStoreVar]
    by_cases hi : w &&& L.bitsOperand ≤ L.bitsOpVarOperand
    · rw [if_pos hi] at hloc
      cases hloc
      rw [if_pos hi, hpop]
      obtain ⟨mp, hw, _⟩ := Machine.writeLoc_spec { ctxs := m.ctxs, data := s }
        (.slot p (w &&& L.bitsOperand)) v hv
      refine ⟨mp, hw, ?_⟩
      have hdat : mp.data = s := by
        have := (Machine.setVar_frame _ _ _ _ _ hw).2.1
        exact this
      have := Machine.setVar_data m.ctxs s (s ++ up) p (w &&& L.bitsOperand) v mp hw
      simp only [this, hdat]
    · rw [if_neg hi] at hloc
      rw [if_neg hi]
      cases hg : getParentCtx L m p (w &&& L.bitsOperand) with
      | none => simp [hg] at hloc
      | some oq =>
        cases oq with
        | none => simp [hg] at hloc
        | some q =>
          simp only [hg, Option.some.injEq] at hloc
          subst hloc
          simp only [hpop]
          obtain ⟨mp, hw, _⟩ := Machine.writeLoc_spec { ctxs := m.ctxs, data := s }
            (.slot q ((w &&& L.bitsOperand) &&& L.bitsOpVarOperand)) v hv
          refine ⟨mp, hw, ?_⟩
          have hdat : mp.data = s := (Machine.setVar_frame _ _ _ _ _ hw).2.1
          have := Machine.setVar_data m.ctxs s (s ++ up) q _ v mp hw
          simp only [this, hdat]

theorem execStores_seq_aux (L : Layout) (p : Nat) :
    ∀ (instrs : List Instr) (tvals : List Value) (tlocs : List Loc) (m : Machine)
      (s : List Value),
      m.data = s ++ tvals.reverse → instrs.length = tvals.length →
      tlocs.length = tvals.length →
      (∀ (k : Nat) (loc : Loc), tlocs[k]? = some loc →
        ∃ w, instrs[k]? = some (.word w) ∧
          (opOf L w = L.opStore ∨ opOf L w = L.opStoreVar) ∧
          storeLoc L w p m = some loc ∧ loc.validIn m s.length = true) →
      ∃ m2, execStores L p instrs m = some m2 ∧ m2.data.length = s.length ∧
        m2.ctxs.map Context.frame = m.ctxs.map Context.frame ∧
        (∀ (k : Nat) (loc : Loc) (v : Value), tlocs[k]? = some loc → tvals[k]? = some v →
          (∀ (j : Nat), k < j → tlocs[j]? ≠ some loc) → m2.readLoc loc = some v) ∧
        (∀ (loc : Loc), (∀ (j : Nat), tlocs[j]? ≠ some loc) →
          m2.readLoc loc = Machine.readLoc { ctxs := m.ctxs, data := s } loc)
  | [], tvals, tlocs, m, s, hd, hl1, hl2, _ => by
    have htv : tvals = [] := List.length_eq_zero.1 (by simpa using hl1.symm)
    subst htv
    have htl : tlocs = [] := List.length_eq_zero.1 (by simpa using hl2)
    subst htl
    refine ⟨m, rfl, by rw [hd]; simp, rfl, ?_, ?_⟩
    · intro k loc v h
      simp at h
    · intro loc _
      simp only [List.reverse_nil, List.append_nil] at hd
      rw [← hd]
  | i0 :: rest, [], tlocs, m, s, hd, hl1, hl2, _ => by simp at hl1
  | i0 :: rest, v0 :: tv, [], m, s, hd, hl1, hl2, _ => by simp at hl2
  | i0 :: rest, v0 :: tv, l0 :: tl, m, s, hd, hl1, hl2, hyp => by
    obtain ⟨w0, hi0, hop0, hloc0, hv0⟩ := hyp 0 l0 (by simp)
    simp only [List.getElem?_cons_zero, Option.some.injEq] at hi0
    subst hi0
    have hd2 : m.data = s ++ tv.reverse ++ [v0] := by
      rw [hd, List.reverse_cons, List.append_assoc]
    obtain ⟨mp, hw, hex⟩ := execStoreInstr_step L w0 p m s tv.reverse v0 l0 hd2 hop0 hloc0 hv0
    obtain ⟨mp2, hw2, hfr, hlen, hrd, hoth, _, _⟩ :=
      Machine.writeLoc_spec { ctxs := m.ctxs, data := s } l0 v0 hv0
    rw [hw] at hw2
    cases hw2
    have hfr1 : (List.map Context.frame
        ({ mp with data := mp.data ++ tv.reverse } : Machine).ctxs) =
        List.map Context.frame m.ctxs := hfr
    have hlen1 : mp.data.length = s.length := hlen
    obtain ⟨m2, hex2, hlen2, hfr2, hrb, hframe⟩ :=
      execStores_seq_aux L p rest tv tl { mp with data := mp.data ++ tv.reverse } mp.data
        rfl (by simpa using hl1) (by simpa using hl2)
        (by
          intro k loc hk
          obtain ⟨w, hi, hop, hloc, hv⟩ := hyp (k + 1) loc (by simpa using hk)
          refine ⟨w, by simpa using hi, hop, ?_, ?_⟩
          · rw [frame_storeLoc L m _ hfr1]
            exact hloc
          · rw [frame_validIn m _ hfr1, hlen1]
            exact hv)
    refine ⟨m2, ?_, by rw [hlen2, hlen1], by rw [hfr2, hfr1], ?_, ?_⟩
    · simp only [execStores, hex, hex2]
    · intro k loc v hk hvk hlater
      cases k with
      | zero =>
        simp only [List.getElem?_cons_zero, Option.some.injEq] at hk hvk
        subst hk
        subst hvk
        rw [hframe l0 (fun j => by simpa using hlater (j + 1) (Nat.succ_pos j))]
        exact hrd
      | succ k =>
        refine hrb k loc v (by simpa using hk) (by simpa using hvk) ?_
        intro j hj
        simpa using hlater (j + 1) (by omega)
    · intro loc hnot
      rw [hframe loc (fun j => by simpa using hnot (j + 1))]
      refine hoth loc ?_
      intro e
      exact hnot 0 (by simp [e])

theorem storeTarget_word {L : Layout} (hL : L.WF) (out o : Builder) (addr : VarRef)
    (h : storeTarget L out addr = some o) :
    ∃ w, o = out.emit (.word w) ∧ (opOf L w = L.opStore ∨ opOf L w = L.opStoreVar) := by
  cases addr with
  | stackVar typ index =>
    simp only [storeTarget, Option.some.injEq] at h
    refine ⟨(L.opStore <<< L.bitsOpShift) ||| (u32OfInt index &&& L.bitsOperand), h.symm,
      Or.inl (shl_or_shr _ _ _ (and_operand_lt hL _))⟩
  | execVar v =>
    simp only [storeTarget, Builder.StoreVar] at h
    cases ha : out.varAddr L v with
    | none => simp [ha] at h
    | some a =>
      simp only [ha, Option.map_some', Option.some.injEq] at h
      have hlt : a < 2 ^ L.bitsOpShift := by
        unfold Builder.varAddr at ha
        split at ha
        · obtain ⟨hs, hi, rfl⟩ := makeAddr_some_inv hL ha
          exact addr_lt_operand hL hs hi
        · cases ha
      have hu : u32 a = a := by
        unfold u32
        exact Nat.mod_eq_of_lt (Nat.lt_of_lt_of_le hlt hL.pow_le.2.2)
      refine ⟨(L.opStoreVar <<< L.bitsOpShift) ||| u32 a, h.symm, Or.inr ?_⟩
      rw [hu]
      exact shl_or_shr _ _ _ hlt

theorem StoreOf.op {σ : Type} (E : Env σ) (hL : E.L.WF) (tok : Nat) (name : String)
    (inv : IValue) (cx : BlockCtx σ) (w : Nat) (h : StoreOf E tok name inv cx w) :
    opOf E.L w = E.L.opStore ∨ opOf E.L w = E.L.opStoreVar := by
  obtain ⟨cx1, addr, t, out2, _, _, _, _, hst⟩ := h
  obtain ⟨w2, he, hop⟩ := storeTarget_word hL out2 _ addr hst
  have hd := congrArg (fun b => b.code.data) he
  simp only [Builder.emit, List.append_cancel_left_eq, List.cons.injEq, Instr.word.injEq,
    and_true] at hd
  rw [hd]
  exact hop

theorem Builder.keepsWords_refl (b : Builder) : b.KeepsWords b := ⟨rfl, fun _ _ h => h⟩

theorem Builder.keepsWords_trans {b1 b2 b3 : Builder} (h1 : b1.KeepsWords b2)
    (h2 : b2.KeepsWords b3) : b1.KeepsWords b3 :=
  ⟨by rw [h2.1, h1.1], fun i w h => h2.2 i w (h1.2 i w h)⟩

theorem compileIdentLhs_inv {σ : Type} (E : Env σ) (name : String) (mode : Nat)
    (ctx c : BlockCtx σ) (h : compileIdentLhs E name mode ctx = some c) :
    ∃ (inv : IValue) (addr : VarRef) (cx1 : BlockCtx σ) (t : Ty) (out2 : Builder),
      inferGet ctx.infer 1 = some inv ∧ lhsTarget E name mode inv ctx = some (addr, cx1) ∧
      addr.getType cx1.out = some t ∧ E.checkType t inv cx1.out = some out2 ∧
      storeTarget E.L out2 addr = some c.out ∧ inferPopN cx1.infer 1 = some c.infer := by
  unfold compileIdentLhs at h
  cases hg : inferGet ctx.infer 1 with
  | none => simp [hg] at h
  | some inv =>
    simp only [hg] at h
    cases ht : lhsTarget E name mode inv ctx with
    | none => simp [ht] at h
    | some r =>
      obtain ⟨addr, cx1⟩ := r
      simp only [ht] at h
      cases hty : addr.getType cx1.out with
      | none => simp [hty] at h
      | some t =>
        simp only [hty] at h
        cases hc : E.checkType t inv cx1.out with
        | none => simp [hc] at h
        | some out2 =>
          simp only [hc] at h
          cases hp : inferPopN cx1.infer 1 with
          | none => simp [hp] at h
          | some inf2 =>
            simp only [hp] at h
            refine ⟨inv, addr, cx1, t, out2, rfl, ht, hty, hc, ?_, ?_⟩
            · cases addr with
              | execVar v =>
                simp only [storeTarget]
                cases hs : out2.StoreVar E.L v with
                | none => simp [hs] at h
                | some o =>
                  simp only [hs, Option.map_some', Option.some.injEq] at h
                  rw [← h]
              | stackVar typ index =>
                simp only [Option.some.injEq] at h
                rw [← h]
                rfl
            · cases addr with
              | execVar v =>
                cases hs : out2.StoreVar E.L v with
                | none => simp [hs] at h
                | some o =>
                  simp only [hs, Option.map_some', Option.some.injEq] at h
                  rw [← h]
                  exact hp
              | stackVar typ index =>
                simp only [Option.some.injEq] at h
                rw [← h]
                exact hp

theorem lhsTarget_keeps {σ : Type} (E : Env σ) (hE : E.KeepsCode) (name : String) (mode : Nat)
    (inv : IValue) (ctx c1 : BlockCtx σ) (addr : VarRef)
    (h : lhsTarget E name mode inv ctx = some (addr, c1)) : ctx.out.KeepsWords c1.out := by
  unfold lhsTarget at h
  split at h
  · simp only [Option.some.injEq, Prod.mk.injEq] at h
    rw [← h.2]
    exact Builder.keepsWords_refl _
  · simp at h
  · split at h
    · simp at h
    · split at h
      · simp at h
      · split at h
        · simp at h
        · rename_i hins
          simp only [Option.some.injEq, Prod.mk.injEq] at h
          rw [← h.2]
          exact hE.insertVar _ _ _ _ _ _ _ hins

theorem inferGet_one_eq (s : List IValue) (inv : IValue) (h : inferGet s 1 = some inv) :
    1 ≤ s.length ∧ s[s.length - 1]? = some inv := by
  unfold inferGet at h
  by_cases hc : 1 ≤ 1 ∧ 1 ≤ s.length
  · rw [if_pos hc] at h
    exact ⟨hc.2, h⟩
  · rw [if_neg hc] at h
    cases h

theorem inferPopN_one_eq (s r : List IValue) (h : inferPopN s 1 = some r) :
    r = s.take (s.length - 1) := by
  unfold inferPopN at h
  by_cases hc : 1 ≤ s.length
  · rw [if_pos hc] at h
    exact (Option.some.inj h).symm
  · rw [if_neg hc] at h
    cases h

theorem compileLhsItems_idents_aux {σ : Type} (E : Env σ) (hE : E.KeepsCode) (tok : Nat)
    (htok : tok > lhsBase) :
    ∀ (ns : List String) (ctx c2 : BlockCtx σ),
      compileLhsItems E tok (ns.map Expr.ident) ctx = some c2 →
      ns.length ≤ ctx.infer.length ∧
      c2.infer = ctx.infer.take (ctx.infer.length - ns.length) ∧
      c2.out.code.data.length = ctx.out.code.data.length + ns.length ∧
      (∀ (i w : Nat), ctx.out.code.data[i]? = some (.word w) →
        c2.out.code.data[i]? = some (.word w)) ∧
      (∀ (k : Nat) (name : String) (inv : IValue), ns[k]? = some name →
        ctx.infer[ctx.infer.length - 1 - k]? = some inv →
        ∃ (cx : BlockCtx σ) (w : Nat),
          compileLhsItems E tok ((ns.take k).map Expr.ident) ctx = some cx ∧
          c2.out.code.data[ctx.out.code.data.length + k]? = some (.word w) ∧
          StoreOf E tok name inv cx w)
  | [], ctx, c2, h => by
    simp only [List.map_nil, compileLhsItems, Option.some.injEq] at h
    subst h
    refine ⟨by simp, by simp, by simp, fun _ _ h => h, ?_⟩
    intro k name inv hk
    simp at hk
  | n :: rest, ctx, c2, h => by
    simp only [List.map_cons, compileLhsItems] at h
    cases h1 : compileExpr E (.ident n) tok ctx with
    | none => simp [h1] at h
    | some cA =>
      simp only [h1] at h
      have h1c := h1
      rw [compileExpr] at h1
      unfold compileIdent at h1
      rw [if_pos htok] at h1
      obtain ⟨inv0, addr, cx1, t, out2, hget, htar, hty, hchk, hst, hpop⟩ :=
        compileIdentLhs_inv E n tok ctx cA h1
      obtain ⟨hlen1, htop⟩ := inferGet_one_eq _ _ hget
      have hinf1 : cx1.infer = ctx.infer := lhsTarget_infer E n tok inv0 ctx cx1 addr htar
      have hcA : cA.infer = ctx.infer.take (ctx.infer.length - 1) := by
        rw [← hinf1]
        exact inferPopN_one_eq _ _ hpop
      have hcAlen : cA.infer.length = ctx.infer.length - 1 := by
        rw [hcA, List.length_take]
        omega
      have hk1 := lhsTarget_keeps E hE n tok inv0 ctx cx1 addr htar
      have hk2 := hE.checkType t inv0 cx1.out out2 hchk
      have hk12 := Builder.keepsWords_trans hk1 hk2
      obtain ⟨w0, hw0, _⟩ : ∃ w, cA.out = out2.emit (.word w) ∧ True := by
        cases addr with
        | stackVar typ index =>
          simp only [storeTarget, Option.some.injEq] at hst
          exact ⟨_, hst.symm, trivial⟩
        | execVar v =>
          simp only [storeTarget, Builder.StoreVar] at hst
          cases ha : out2.varAddr E.L v with
          | none => simp [ha] at hst
          | some a =>
            simp only [ha, Option.map_some', Option.some.injEq] at hst
            exact ⟨_, hst.symm, trivial⟩
      have hdataA : cA.out.code.data = out2.code.data ++ [.word w0] := by
        rw [hw0]
        rfl
      obtain ⟨ih1, ih2, ih3, ih4, ih5⟩ := compileLhsItems_idents_aux E hE tok htok rest cA c2 h
      have hlenA : cA.out.code.data.length = ctx.out.code.data.length + 1 := by
        rw [hdataA, List.length_append, hk12.1]
        rfl
      have hnew : cA.out.code.data[ctx.out.code.data.length]? = some (.word w0) := by
        rw [hdataA, ← hk12.1]
        simp
      refine ⟨by simp only [List.length_cons]; omega, ?_, ?_, ?_, ?_⟩
      · rw [ih2, hcAlen, hcA, List.take_take]
        simp only [List.length_cons]
        congr 1
        omega
      · rw [ih3, hlenA]
        simp only [List.length_cons]
        omega
      · intro i w hi
        apply ih4
        rw [hdataA]
        have h2 := hk12.2 i w hi
        have hlt : i < out2.code.data.length := (List.getElem?_eq_some.1 h2).1
        rw [List.getElem?_append_left hlt]
        exact h2
      · intro k name inv hk hinv
        cases k with
        | zero =>
          simp only [List.getElem?_cons_zero, Option.some.injEq] at hk
          subst hk
          simp only [Nat.sub_zero] at hinv
          rw [htop] at hinv
          cases hinv
          refine ⟨ctx, w0, by simp [compileLhsItems], ih4 _ _ hnew, cx1, addr, t, out2, hget,
            htar, hty, hchk, ?_⟩
          rw [hst, hw0]
        | succ k =>
          simp only [List.getElem?_cons_succ] at hk
          have hklt : k < rest.length := (List.getElem?_eq_some.1 hk).1
          have hinv2 : cA.infer[cA.infer.length - 1 - k]? = some inv := by
            rw [hcAlen, hcA, List.getElem?_take]
            rw [if_pos (by omega)]
            have : ctx.infer.length - 1 - 1 - k = ctx.infer.length - 1 - (k + 1) := by omega
            rw [this]
            exact hinv
          obtain ⟨cx, w, hcx, hw, hso⟩ := ih5 k name inv hk hinv2
          refine ⟨cx, w, ?_, ?_, hso⟩
          · rw [List.take_succ_cons, List.map_cons, compileLhsItems]
            simp only [h1c]
            exact hcx
          rw [hlenA] at hw
          have : ctx.out.code.data.length + (k + 1) = ctx.out.code.data.length + 1 + k := by
            omega
          rw [this]
          exact hw

theorem compileLhsItems_idents {σ : Type} (E : Env σ) (tok : Nat) (htok : tok > lhsBase) :
    ∀ (l : List Expr) (ctx c2 : BlockCtx σ), compileLhsItems E tok l ctx = some c2 →
      (∀ (lit : Nat), Expr.funcLit lit ∉ l) → ∃ (ns : List String), l = ns.map Expr.ident
  | [], _, _, _, _ => ⟨[], rfl⟩
  | x :: rest, ctx, c2, h, hnf => by
    simp only [compileLhsItems] at h
    cases h1 : compileExpr E x tok ctx with
    | none => simp [h1] at h
    | some cA =>
      simp only [h1] at h
      obtain ⟨ns, hns⟩ := compileLhsItems_idents E tok htok rest cA c2 h
        (fun lit hm => hnf lit (List.mem_cons_of_mem _ hm))
      rcases compileExpr_lhs_depth E x tok htok ctx cA h1 with ⟨name, hx, _⟩ | ⟨lit, hx, _⟩
      · exact ⟨name :: ns, by rw [hx, hns]; rfl⟩
      · exact absurd (by rw [hx]; exact List.mem_cons_self _ _) (hnf lit)

theorem assign_core_aux {σ : Type} (E : Env σ) (hL : E.L.WF) (hE : E.KeepsCode)
    (names : List String) (tok : Nat) (htok : tok > lhsBase) (c1 c2 : BlockCtx σ) (hlen : c1.infer.length = names.length)
    (h : compileLhsItems E tok (names.map Expr.ident).reverse c1 = some c2) :
    c2.infer = [] ∧
    c2.out.code.data.length = c1.out.code.data.length + names.length ∧
    (∀ (i w : Nat), c1.out.code.data[i]? = some (.word w) →
      c2.out.code.data[i]? = some (.word w)) ∧
    (∀ (i : Nat) (name : String) (inv : IValue), names[i]? = some name →
      c1.infer[i]? = some inv →
      ∃ (cx : BlockCtx σ) (w : Nat),
        compileLhsItems E tok
          ((names.map Expr.ident).reverse.take (names.length - 1 - i)) c1 = some cx ∧
        c2.out.code.data[c1.out.code.data.length + (names.length - 1 - i)]? =
          some (.word w) ∧ StoreOf E tok name inv cx w) ∧
    (∀ (p : Nat) (m : Machine) (s vs : List Value) (locs : List Loc),
      m.data = s ++ vs → vs.length = names.length → locs.length = names.length →
      (∀ (i w : Nat) (loc : Loc),
        c2.out.code.data[c1.out.code.data.length + (names.length - 1 - i)]? = some (.word w) →
        locs[i]? = some loc →
        storeLoc E.L w p m = some loc ∧ loc.validIn m s.length = true) →
      ∃ m2, execStores E.L p (c2.out.code.data.drop c1.out.code.data.length) m = some m2 ∧
        m2.data.length = s.length ∧
        (∀ (i : Nat) (loc : Loc) (v : Value), locs[i]? = some loc → vs[i]? = some v →
          (∀ (j : Nat), j < i → locs[j]? ≠ some loc) → m2.readLoc loc = some v) ∧
        (∀ (loc : Loc), (∀ (j : Nat), locs[j]? ≠ some loc) →
          m2.readLoc loc = Machine.readLoc { ctxs := m.ctxs, data := s } loc)) := by
  rw [← List.map_reverse] at h
  obtain ⟨b1, b2, b3, b4, b5⟩ := compileLhsItems_idents_aux E hE tok htok names.reverse c1 c2 h
  simp only [List.length_reverse] at b1 b2 b3
  have hstore : ∀ (i : Nat) (name : String) (inv : IValue), names[i]? = some name →
      c1.infer[i]? = some inv →
      ∃ (cx : BlockCtx σ) (w : Nat),
        compileLhsItems E tok
          ((names.map Expr.ident).reverse.take (names.length - 1 - i)) c1 = some cx ∧
        c2.out.code.data[c1.out.code.data.length + (names.length - 1 - i)]? =
          some (.word w) ∧ StoreOf E tok name inv cx w := by
    intro i name inv hn hi
    have hilt : i < names.length := (List.getElem?_eq_some.1 hn).1
    rw [← List.map_reverse, ← List.map_take]
    refine b5 (names.length - 1 - i) name inv ?_ ?_
    · rw [List.getElem?_reverse (by omega)]
      have : names.length - 1 - (names.length - 1 - i) = i := by omega
      rw [this]
      exact hn
    · rw [hlen]
      have : names.length - 1 - (names.length - 1 - i) = i := by omega
      rw [this]
      exact hi
  refine ⟨?_, b3, b4, hstore, ?_⟩
  · rw [b2, hlen]
    simp
  · intro p m s vs locs hd hvl hll hyp
    have hkey : ∀ (k : Nat) (loc : Loc), locs.reverse[k]? = some loc →
        ∃ w, (c2.out.code.data.drop c1.out.code.data.length)[k]? = some (.word w) ∧
          (opOf E.L w = E.L.opStore ∨ opOf E.L w = E.L.opStoreVar) ∧
          storeLoc E.L w p m = some loc ∧ loc.validIn m s.length = true := by
      intro k loc hk
      have hklt : k < locs.length := by
        have := (List.getElem?_eq_some.1 hk).1
        simpa using this
      rw [List.getElem?_reverse hklt] at hk
      have hi : names.length - 1 - k < names.length := by omega
      obtain ⟨cx, w, _, hw, hso⟩ := hstore (names.length - 1 - k) names[names.length - 1 - k]
        c1.infer[names.length - 1 - k] (List.getElem?_eq_getElem hi)
        (List.getElem?_eq_getElem (by omega))
      have hkk : names.length - 1 - (names.length - 1 - k) = k := by omega
      obtain ⟨hs1, hs2⟩ := hyp (names.length - 1 - k) w loc hw (by rw [← hll]; exact hk)
      rw [hkk] at hw
      exact ⟨w, by rw [List.getElem?_drop]; exact hw, StoreOf.op E hL tok _ _ cx w hso, hs1, hs2⟩
    obtain ⟨m2, e1, e2, _, e4, e5⟩ := execStores_seq_aux E.L p
      (c2.out.code.data.drop c1.out.code.data.length) vs.reverse locs.reverse m s
      (by rw [List.reverse_reverse]; exact hd)
      (by rw [List.length_drop, List.length_reverse, b3, hvl]; omega)
      (by rw [List.length_reverse, List.length_reverse, hll, hvl]) hkey
    refine ⟨m2, e1, e2, ?_, ?_⟩
    · intro i loc v hli hvi hearlier
      have hilt : i < locs.length := (List.getElem?_eq_some.1 hli).1
      have hkk : locs.length - 1 - (locs.length - 1 - i) = i := by omega
      refine e4 (locs.length - 1 - i) loc v ?_ ?_ ?_
      · rw [List.getElem?_reverse (by omega), hkk]
        exact hli
      · rw [List.getElem?_reverse (by omega), hvl, ← hll, hkk]
        exact hvi
      · intro j hj
        by_cases hjl : j < locs.length
        · rw [List.getElem?_reverse hjl]
          exact hearlier _ (by omega)
        · rw [List.getElem?_eq_none (by simpa using hjl)]
          simp
    · intro loc hnot
      refine e5 loc ?_
      intro j
      by_cases hjl : j < locs.length
      · rw [List.getElem?_reverse hjl]
        exact hnot _
      · rw [List.getElem?_eq_none (by simpa using hjl)]
        simp

theorem take_push_aux (s : List IValue) (v : IValue) (d : Nat) (hd : d ≤ s.length) :
    (s ++ [v]).take d = s.take d := List.take_append_of_le_length hd

theorem BlockCtx.ret_below {σ : Type} (ctx c2 : BlockCtx σ) (arity : Nat) (v : IValue)
    (h : ctx.ret arity v = some c2) (d : Nat) (hd : d + arity ≤ ctx.infer.length) :
    c2.infer.take d = ctx.infer.take d := by
  unfold BlockCtx.ret inferRet at h
  split at h
  · simp only [Option.map_some', Option.some.injEq] at h
    subst h
    simp only []
    rw [List.take_append_of_le_length (by rw [List.length_take]; omega), List.take_take]
    congr 1
    omega
  · simp at h

theorem compileIdent_below {σ : Type} (E : Env σ) (name : String) (mode : Nat)
    (hm : mode ≤ lhsBase) (ctx c2 : BlockCtx σ) (h : compileIdent E name mode ctx = some c2)
    (d : Nat) (hd : d ≤ ctx.infer.length) : c2.infer.take d = ctx.infer.take d := by
  unfold compileIdent at h
  rw [if_neg (by omega)] at h
  cases hf : E.find ctx.scope name with
  | some sym =>
    simp only [hf] at h
    unfold compileIdentSym at h
    cases sym with
    | execVar v =>
      simp only at h
      cases hv : ctx.out.vars[v]? with
      | none => simp [hv] at h
      | some x =>
        simp only [hv] at h
        split at h
        · cases h; exact take_push_aux _ _ d hd
        · cases hl : ctx.out.LoadVar E.L v with
          | none => simp [hl] at h
          | some o =>
            simp only [hl, Option.map_some', Option.some.injEq] at h
            subst h; exact take_push_aux _ _ d hd
    | stackVar typ index =>
      simp only at h
      split at h <;> (cases h; exact take_push_aux _ _ d hd)
    | pkgPath path =>
      simp only at h
      cases hp : FindGoPackage E.gopkgs path with
      | none => simp [hp] at h
      | some pkg =>
        simp only [hp, Option.some.injEq] at h
        subst h; exact take_push_aux _ _ d hd
    | funcDecl decl =>
      simp only at h
      split at h
      · cases h; exact take_push_aux _ _ d hd
      · exact Option.noConfusion h
    | unknown => exact Option.noConfusion h
  | none =>
    simp only [hf] at h
    unfold compileIdentBuiltin at h
    cases hb : GoPackage.Find E.L ctx.builtin name with
    | none => simp [hb] at h
    | some r =>
      obtain ⟨addr, kind⟩ := r
      simp only [hb] at h
      split at h
      · exact Option.noConfusion h
      · split at h
        · split at h
          · cases h; exact take_push_aux _ _ d hd
          · exact Option.noConfusion h
        · exact Option.noConfusion h

theorem compileBasicLit_below {σ : Type} (E : Env σ) (kind : Nat) (value : String) (mode : Nat)
    (ctx c2 : BlockCtx σ) (h : compileBasicLit E kind value mode ctx = some c2)
    (d : Nat) (hd : d ≤ ctx.infer.length) : c2.infer.take d = ctx.infer.take d := by
  unfold compileBasicLit at h
  split at h
  · exact Option.noConfusion h
  · cases hc : ToConst E.strconv kind value with
    | none => simp [hc] at h
    | some r =>
      obtain ⟨k, n⟩ := r
      simp only [hc] at h
      split at h
      · cases h; exact take_push_aux _ _ d hd
      · split at h
        · split at h
          · split at h
            · cases h; exact take_push_aux _ _ d hd
            all_goals exact Option.noConfusion h
          · cases h; exact take_push_aux _ _ d hd
        · cases h; exact take_push_aux _ _ d hd

theorem compileFuncLit_below {σ : Type} (E : Env σ) (lit : Nat) (mode : Nat)
    (ctx c2 : BlockCtx σ) (h : compileFuncLit E lit mode ctx = some c2)
    (d : Nat) (hd : d ≤ ctx.infer.length) : c2.infer.take d = ctx.infer.take d := by
  unfold compileFuncLit at h
  cases hn : E.newFuncDecl ctx.scope lit with
  | none => simp [hn] at h
  | some r =>
    obtain ⟨id, finfo, sc⟩ := r
    simp only [hn] at h
    split at h
    · cases h; exact take_push_aux _ _ d hd
    · cases hg : Builder.GoClosure E.L
          { ctx.out with finfos := ctx.out.finfos ++ [finfo] } ctx.out.finfos.length with
      | none => simp [hg] at h
      | some o =>
        simp only [hg, Option.map_some', Option.some.injEq] at h
        subst h
        exact take_push_aux _ _ d hd

theorem selectorFinish_below {σ : Type} (E : Env σ) (sel : String) (mode : Nat)
    (ctx c2 : BlockCtx σ) (h : selectorFinish E sel mode ctx = some c2)
    (d : Nat) (hd : d + 1 ≤ ctx.infer.length) : c2.infer.take d = ctx.infer.take d := by
  by_cases hm : mode = inferOnly
  · unfold selectorFinish at h
    have key : ∀ v, ctx.ret 1 v = some c2 → c2.infer.take d = ctx.infer.take d := by
      intro v hv
      exact BlockCtx.ret_below _ _ _ _ hv d hd
    repeat' split at h
    all_goals first | exact Option.noConfusion h | exact key _ h
  · rw [selectorFinish_eq_none E sel mode hm ctx] at h
    exact Option.noConfusion h

theorem compileSelectorExpr_below {σ : Type} (E : Env σ) (sel : String) (mode : Nat)
    (ctx c2 : BlockCtx σ) (xInfer : BlockCtx σ → Option (BlockCtx σ))
    (hx : ∀ c e, xInfer c = some e → e.infer.length = c.infer.length + 1)
    (px : ∀ c e, xInfer c = some e → ∀ d, d ≤ c.infer.length →
      e.infer.take d = c.infer.take d)
    (h : compileSelectorExpr E sel mode ctx xInfer = some c2)
    (d : Nat) (hd : d ≤ ctx.infer.length) : c2.infer.take d = ctx.infer.take d := by
  unfold compileSelectorExpr at h
  cases h1 : xInfer ctx with
  | none => simp [h1] at h
  | some c1 =>
    simp only [h1] at h
    have l1 := hx ctx c1 h1
    rw [selectorFinish_below E sel mode c1 c2 h d (by omega), px ctx c1 h1 d hd]

theorem binaryConst_below {σ : Type} (E : Env σ) (op : Nat) (x y : IValue) (mode : Nat)
    (ctx c2 : BlockCtx σ) (h : binaryConst E op x y mode ctx = some c2)
    (d : Nat) (hd : d + 2 ≤ ctx.infer.length) : c2.infer.take d = ctx.infer.take d := by
  unfold binaryConst at h
  cases hb : E.binaryOp op x y with
  | none => simp [hb] at h
  | some r =>
    obtain ⟨v, k, rr⟩ := r
    simp only [hb] at h
    split at h
    · unfold inferRet at h
      split at h
      · simp only [Option.map_some', Option.some.injEq] at h
        subst h
        simp only []
        rw [List.take_append_of_le_length (by rw [List.length_take]; omega), List.take_take]
        congr 1
        omega
      · exact Option.noConfusion h
    · exact BlockCtx.ret_below _ _ _ _ h d hd

theorem binaryEmit_below {σ : Type} (E : Env σ) (kind op : Nat) (ret : IValue)
    (ctx c2 : BlockCtx σ) (h : binaryEmit E kind op ret ctx = some c2)
    (d : Nat) (hd : d + 4 ≤ ctx.infer.length) : c2.infer.take d = ctx.infer.take d := by
  unfold binaryEmit at h
  repeat' split at h
  all_goals first
    | exact Option.noConfusion h
    | exact BlockCtx.ret_below _ _ _ _ h d hd

theorem compileBinaryExpr_below {σ : Type} (E : Env σ) (op : Nat) (mode : Nat)
    (ctx c2 : BlockCtx σ) (xInfer yInfer xEval yEval : BlockCtx σ → Option (BlockCtx σ))
    (h1 : ∀ c e, xInfer c = some e → e.infer.length = c.infer.length + 1)
    (h2 : ∀ c e, yInfer c = some e → e.infer.length = c.infer.length + 1)
    (h3 : ∀ c e, xEval c = some e → e.infer.length = c.infer.length + 1)
    (h4 : ∀ c e, yEval c = some e → e.infer.length = c.infer.length + 1)
    (p1 : ∀ c e, xInfer c = some e → ∀ d, d ≤ c.infer.length → e.infer.take d = c.infer.take d)
    (p2 : ∀ c e, yInfer c = some e → ∀ d, d ≤ c.infer.length → e.infer.take d = c.infer.take d)
    (p3 : ∀ c e, xEval c = some e → ∀ d, d ≤ c.infer.length → e.infer.take d = c.infer.take d)
    (p4 : ∀ c e, yEval c = some e → ∀ d, d ≤ c.infer.length → e.infer.take d = c.infer.take d)
    (h : compileBinaryExpr E op mode ctx xInfer yInfer xEval yEval = some c2)
    (d : Nat) (hd : d ≤ ctx.infer.length) : c2.infer.take d = ctx.infer.take d := by
  unfold compileBinaryExpr at h
  split at h
  · exact Option.noConfusion h
  · cases hx : xInfer ctx with
    | none => simp [hx] at h
    | some c1 =>
      simp only [hx] at h
      cases hy : yInfer c1 with
      | none => simp [hy] at h
      | some c3 =>
        simp only [hy] at h
        have l1 := h1 ctx c1 hx
        have l2 := h2 c1 c3 hy
        have q1 := p1 ctx c1 hx d hd
        have q2 := p2 c1 c3 hy d (by omega)
        split at h
        · split at h
          · rw [binaryConst_below E _ _ _ mode c3 c2 h d (by omega), q2, q1]
          · split at h
            · exact Option.noConfusion h
            · split at h
              · rw [BlockCtx.ret_below _ _ _ _ h d (by omega), q2, q1]
              · cases hx2 : xEval c3 with
                | none => simp [hx2] at h
                | some c4 =>
                  simp only [hx2] at h
                  cases hy2 : yEval c4 with
                  | none => simp [hy2] at h
                  | some c5 =>
                    simp only [hy2] at h
                    have l3 := h3 c3 c4 hx2
                    have l4 := h4 c4 c5 hy2
                    have q3 := p3 c3 c4 hx2 d (by omega)
                    have q4 := p4 c4 c5 hy2 d (by omega)
                    rw [binaryEmit_below E _ _ _ c5 c2 h d (by omega), q4, q3, q2, q1]
        · exact Option.noConfusion h

theorem callQlFunc_below {σ : Type} (E : Env σ) (decl : FuncDecl) (vfn : IValue) (nargs : Nat)
    (ret : IValue) (ctx c2 : BlockCtx σ) (hn : nargs + 2 < 2 ^ 32)
    (h : callQlFunc E decl vfn nargs ret ctx = some c2)
    (d : Nat) (hd : d + (nargs + 1) ≤ ctx.infer.length) :
    c2.infer.take d = ctx.infer.take d := by
  unfold callQlFunc at h
  rw [u32_of_lt (nargs + 1) (by omega)] at h
  repeat' split at h
  all_goals first
    | exact Option.noConfusion h
    | exact BlockCtx.ret_below _ _ _ _ h d hd

theorem callGoFunc_below {σ : Type} (E : Env σ) (addr kind : Nat) (isMethod : Bool)
    (vfn : IValue) (nargs : Nat) (ret : IValue) (ctx c2 : BlockCtx σ) (hn : nargs + 2 < 2 ^ 32)
    (h : callGoFunc E addr kind isMethod vfn nargs ret ctx = some c2)
    (d : Nat) (hd : d + (nargs + 1 + isMethod.toNat) ≤ ctx.infer.length) :
    c2.infer.take d = ctx.infer.take d := by
  unfold callGoFunc at h
  have hb : isMethod.toNat ≤ 1 := by cases isMethod <;> simp
  rw [u32_of_lt (nargs + 1 + isMethod.toNat) (by omega)] at h
  repeat' split at h
  all_goals first
    | exact Option.noConfusion h
    | exact BlockCtx.ret_below _ _ _ _ h d hd

theorem callGoValue_below {σ : Type} (E : Env σ) (t : Ty) (nargs : Nat) (ret : IValue)
    (ctx c2 : BlockCtx σ) (hn : nargs + 2 < 2 ^ 32)
    (h : callGoValue E t nargs ret ctx = some c2)
    (d : Nat) (hd : d + (nargs + 2) ≤ ctx.infer.length) :
    c2.infer.take d = ctx.infer.take d := by
  unfold callGoValue at h
  rw [u32_of_lt (nargs + 2) hn] at h
  repeat' split at h
  all_goals first
    | exact Option.noConfusion h
    | exact BlockCtx.ret_below _ _ _ _ h d hd

theorem compileCallExpr_below {σ : Type} (E : Env σ) (nargs : Nat) (mode : Nat)
    (ctx c2 : BlockCtx σ) (fnInfer fnEval recvEval argsEval : BlockCtx σ → Option (BlockCtx σ))
    (hn : nargs + 2 < 2 ^ 32)
    (h1 : ∀ c e, fnInfer c = some e → e.infer.length = c.infer.length + 1)
    (h2 : ∀ c e, fnEval c = some e → e.infer.length = c.infer.length + 1)
    (h3 : ∀ c e, recvEval c = some e → e.infer.length = c.infer.length + 1)
    (h4 : ∀ c e, argsEval c = some e → e.infer.length = c.infer.length + nargs)
    (p1 : ∀ c e, fnInfer c = some e → ∀ d, d ≤ c.infer.length → e.infer.take d = c.infer.take d)
    (p2 : ∀ c e, fnEval c = some e → ∀ d, d ≤ c.infer.length → e.infer.take d = c.infer.take d)
    (p3 : ∀ c e, recvEval c = some e → ∀ d, d ≤ c.infer.length →
      e.infer.take d = c.infer.take d)
    (p4 : ∀ c e, argsEval c = some e → ∀ d, d ≤ c.infer.length →
      e.infer.take d = c.infer.take d)
    (h : compileCallExpr E nargs mode ctx fnInfer fnEval recvEval argsEval = some c2)
    (d : Nat) (hd : d ≤ ctx.infer.length) : c2.infer.take d = ctx.infer.take d := by
  unfold compileCallExpr at h
  split at h
  · exact Option.noConfusion h
  · cases hx : fnInfer ctx with
    | none => simp [hx] at h
    | some c1 =>
      simp only [hx] at h
      have l1 := h1 ctx c1 hx
      have q1 := p1 ctx c1 hx d hd
      split at h
      · -- script function
        split at h
        · rw [BlockCtx.ret_below _ _ _ _ h d (by omega), q1]
        · cases ha : argsEval c1 with
          | none => simp [ha] at h
          | some c3 =>
            simp only [ha] at h
            have l4 := h4 c1 c3 ha
            have q4 := p4 c1 c3 ha d (by omega)
            rw [callQlFunc_below E _ _ nargs _ c3 c2 hn h d (by omega), q4, q1]
      · -- native function
        rename_i addr kind isMethod _
        split at h
        · rw [BlockCtx.ret_below _ _ _ _ h d (by omega), q1]
        · cases isMethod with
          | false =>
            simp only [Bool.false_eq_true, if_false] at h
            cases ha : argsEval c1 with
            | none => simp [ha] at h
            | some c3 =>
              simp only [ha] at h
              have l4 := h4 c1 c3 ha
              have q4 := p4 c1 c3 ha d (by omega)
              rw [callGoFunc_below E _ _ false _ nargs _ c3 c2 hn h d
                (by simp only [Bool.toNat_false]; omega), q4, q1]
          | true =>
            simp only [if_true] at h
            cases hr : recvEval c1 with
            | none => simp [hr] at h
            | some c4 =>
              simp only [hr] at h
              have l3 := h3 c1 c4 hr
              have q3 := p3 c1 c4 hr d (by omega)
              cases ha : argsEval c4 with
              | none => simp [ha] at h
              | some c3 =>
                simp only [ha] at h
                have l4 := h4 c4 c3 ha
                have q4 := p4 c4 c3 ha d (by omega)
                rw [callGoFunc_below E _ _ true _ nargs _ c3 c2 hn h d
                  (by simp only [Bool.toNat_true]; omega), q4, q3, q1]
      · -- callable value
        split at h
        · exact Option.noConfusion h
        · split at h
          · rw [BlockCtx.ret_below _ _ _ _ h d (by omega), q1]
          · cases ha : argsEval c1 with
            | none => simp [ha] at h
            | some c3 =>
              simp only [ha] at h
              have l4 := h4 c1 c3 ha
              have q4 := p4 c1 c3 ha d (by omega)
              cases hf : fnEval c3 with
              | none => simp [hf] at h
              | some c4 =>
                simp only [hf] at h
                have l2 := h2 c3 c4 hf
                have q2 := p2 c3 c4 hf d (by omega)
                rw [callGoValue_below E _ nargs _ c4 c2 hn h d (by omega), q2, q4, q1]
      · exact Option.noConfusion h

mutual
/-- In evaluate mode and in infer-only mode a successful `compileExpr` leaves the
entries that were on the inference stack as they are. -/
theorem compileExpr_below {σ : Type} (E : Env σ) :
    ∀ (e : Expr) (mode : Nat), mode ≤ lhsBase → e.argsFit → ∀ (ctx c2 : BlockCtx σ),
      compileExpr E e mode ctx = some c2 → ∀ (d : Nat), d ≤ ctx.infer.length →
      c2.infer.take d = ctx.infer.take d
  | .ident name, mode, hm, _, ctx, c2, h => by
    rw [compileExpr] at h
    exact compileIdent_below E name mode hm ctx c2 h
  | .basicLit kind value, mode, _, _, ctx, c2, h => by
    rw [compileExpr] at h
    exact compileBasicLit_below E kind value mode ctx c2 h
  | .funcLit lit, mode, _, _, ctx, c2, h => by
    rw [compileExpr] at h
    exact compileFuncLit_below E lit mode ctx c2 h
  | .other _, _, _, _, ctx, c2, h => by
    rw [compileExpr] at h
    exact Option.noConfusion h
  | .selector x sel, mode, _, hfit, ctx, c2, h => by
    rw [compileExpr] at h
    rw [Expr.argsFit] at hfit
    exact compileSelectorExpr_below E sel mode ctx c2 _
      (compileExpr_depth E x inferOnly (by decide) hfit)
      (compileExpr_below E x inferOnly (by decide) hfit) h
  | .binary x op y, mode, _, hfit, ctx, c2, h => by
    rw [compileExpr] at h
    rw [Expr.argsFit] at hfit
    exact compileBinaryExpr_below E op mode ctx c2 _ _ _ _
      (compileExpr_depth E x inferOnly (by decide) hfit.1)
      (compileExpr_depth E y inferOnly (by decide) hfit.2)
      (compileExpr_depth E x 0 (by decide) hfit.1)
      (compileExpr_depth E y 0 (by decide) hfit.2)
      (compileExpr_below E x inferOnly (by decide) hfit.1)
      (compileExpr_below E y inferOnly (by decide) hfit.2)
      (compileExpr_below E x 0 (by decide) hfit.1)
      (compileExpr_below E y 0 (by decide) hfit.2) h
  | .call fn args, mode, _, hfit, ctx, c2, h => by
    rw [compileExpr] at h
    rw [Expr.argsFit] at hfit
    exact compileCallExpr_below E args.length mode ctx c2 _ _ _ _ hfit.2.1
      (compileExpr_depth E fn inferOnly (by decide) hfit.1)
      (compileExpr_depth E fn 0 (by decide) hfit.1)
      (compileRecv_depth E fn hfit.1)
      (compileExprs_depth E args hfit.2.2)
      (compileExpr_below E fn inferOnly (by decide) hfit.1)
      (compileExpr_below E fn 0 (by decide) hfit.1)
      (compileRecv_below E fn hfit.1)
      (compileExprs_below E args hfit.2.2) h
/-- The receiver of a method call leaves the entries below as they are. -/
theorem compileRecv_below {σ : Type} (E : Env σ) :
    ∀ (e : Expr), e.argsFit → ∀ (ctx c2 : BlockCtx σ),
      compileRecv E e ctx = some c2 → ∀ (d : Nat), d ≤ ctx.infer.length →
      c2.infer.take d = ctx.infer.take d
  | .selector x _, hfit, ctx, c2, h => by
    rw [compileRecv] at h
    rw [Expr.argsFit] at hfit
    exact compileExpr_below E x 0 (by decide) hfit ctx c2 h
  | .ident _, _, _, c2, h =>
    Option.noConfusion (show (none : Option (BlockCtx σ)) = some c2 from h)
  | .basicLit _ _, _, _, c2, h =>
    Option.noConfusion (show (none : Option (BlockCtx σ)) = some c2 from h)
  | .funcLit _, _, _, c2, h =>
    Option.noConfusion (show (none : Option (BlockCtx σ)) = some c2 from h)
  | .other _, _, _, c2, h =>
    Option.noConfusion (show (none : Option (BlockCtx σ)) = some c2 from h)
  | .binary _ _ _, _, _, c2, h =>
    Option.noConfusion (show (none : Option (BlockCtx σ)) = some c2 from h)
  | .call _ _, _, _, c2, h =>
    Option.noConfusion (show (none : Option (BlockCtx σ)) = some c2 from h)
/-- Compiling a list of arguments leaves the entries below as they are. -/
theorem compileExprs_below {σ : Type} (E : Env σ) :
    ∀ (es : List Expr), Expr.argsFitList es → ∀ (ctx c2 : BlockCtx σ),
      compileExprs E es ctx = some c2 → ∀ (d : Nat), d ≤ ctx.infer.length →
      c2.infer.take d = ctx.infer.take d
  | [], _, ctx, c2, h => by
    rw [compileExprs] at h
    cases h
    intro d _
    rfl
  | a :: rest, hfit, ctx, c2, h => by
    rw [compileExprs] at h
    rw [Expr.argsFitList] at hfit
    cases ha : compileExpr E a 0 ctx with
    | none => simp [ha] at h
    | some c1 =>
      simp only [ha] at h
      intro d hd
      have l1 := compileExpr_depth E a 0 (by decide) hfit.1 ctx c1 ha
      rw [compileExprs_below E rest hfit.2 c1 c2 h d (by omega),
        compileExpr_below E a 0 (by decide) hfit.1 ctx c1 ha d hd]
end

theorem compileExpr_pushes_one {σ : Type} (E : Env σ) (e : Expr) (hfit : e.argsFit)
    (ctx c2 : BlockCtx σ) (h : compileExpr E e 0 ctx = some c2) :
    ∃ v, c2.infer = ctx.infer ++ [v] ∧ inferGet c2.infer 1 = some v := by
  have hl := compileExpr_depth E e 0 (by decide) hfit ctx c2 h
  have hp := compileExpr_below E e 0 (by decide) hfit ctx c2 h ctx.infer.length (Nat.le_refl _)
  rw [List.take_length] at hp
  have hlt : ctx.infer.length < c2.infer.length := by omega
  refine ⟨c2.infer[ctx.infer.length], ?_, ?_⟩
  · have h1 : c2.infer = c2.infer.take (ctx.infer.length + 1) := by
      rw [← hl, List.take_length]
    have h2 : c2.infer.take (ctx.infer.length + 1) =
        c2.infer.take ctx.infer.length ++ [c2.infer[ctx.infer.length]] :=
      (List.take_concat_get' c2.infer ctx.infer.length hlt).symm
    rw [hp] at h2
    rw [← h2]
    exact h1
  · unfold inferGet
    rw [if_pos ⟨Nat.le_refl _, by omega⟩]
    have : c2.infer.length - 1 = ctx.infer.length := by omega
    rw [this]
    exact List.getElem?_eq_getElem hlt

theorem compileRhsItems_below {σ : Type} (E : Env σ) :
    ∀ (items : List Expr), Expr.argsFitList items → ∀ (ctx c : BlockCtx σ),
      compileRhsItems E items ctx = some c → ∀ (d : Nat), d ≤ ctx.infer.length →
      c.infer.take d = ctx.infer.take d
  | [], _, ctx, c, h => by
    rw [compileRhsItems] at h
    cases h
    intro d _
    rfl
  | item :: rest, hfit, ctx, c, h => by
    rw [compileRhsItems] at h
    rw [Expr.argsFitList] at hfit
    cases h1 : compileExpr E item 0 ctx with
    | none => simp [h1] at h
    | some c1 =>
      simp only [h1] at h
      cases hg : inferGet c1.infer 1 with
      | none => simp [hg] at h
      | some v =>
        simp only [hg] at h
        cases hn : E.numValues v with
        | none => simp [hn] at h
        | some n =>
          simp only [hn] at h
          by_cases hn1 : n ≠ 1
          · rw [if_pos hn1] at h
            exact Option.noConfusion h
          · rw [if_neg hn1] at h
            intro d hd
            have l1 := compileExpr_depth E item 0 (by decide) hfit.1 ctx c1 h1
            rw [compileRhsItems_below E rest hfit.2 c1 c h d (by omega),
              compileExpr_below E item 0 (by decide) hfit.1 ctx c1 h1 d hd]

theorem compileRhsItems_entries {σ : Type} (E : Env σ) :
    ∀ (items : List Expr), Expr.argsFitList items → ∀ (ctx c1 : BlockCtx σ),
      compileRhsItems E items ctx = some c1 →
      ∀ (i : Nat) (x : Expr), items[i]? = some x →
        ∃ (c0 cA : BlockCtx σ) (v : IValue),
          compileRhsItems E (items.take i) ctx = some c0 ∧
          compileExpr E x 0 c0 = some cA ∧ cA.infer = c0.infer ++ [v] ∧
          E.numValues v = some 1 ∧ c1.infer[ctx.infer.length + i]? = some v
  | [], _, ctx, c1, h, i, x, hi => by simp at hi
  | item :: rest, hfit, ctx, c1, h, i, x, hi => by
    rw [compileRhsItems] at h
    rw [Expr.argsFitList] at hfit
    cases h1 : compileExpr E item 0 ctx with
    | none => simp [h1] at h
    | some cA0 =>
      simp only [h1] at h
      cases hg : inferGet cA0.infer 1 with
      | none => simp [hg] at h
      | some v0 =>
        simp only [hg] at h
        cases hn : E.numValues v0 with
        | none => simp [hn] at h
        | some n =>
          simp only [hn] at h
          by_cases hn1 : n ≠ 1
          · rw [if_pos hn1] at h
            exact Option.noConfusion h
          · rw [if_neg hn1] at h
            have hn1e : n = 1 := by
              by_contra hc
              exact hn1 hc
            subst hn1e
            obtain ⟨v, hv, hgv⟩ := compileExpr_pushes_one E item hfit.1 ctx cA0 h1
            rw [hg] at hgv
            cases hgv
            have l1 : cA0.infer.length = ctx.infer.length + 1 := by
              rw [hv]
              simp
            cases i with
            | zero =>
              simp only [List.getElem?_cons_zero, Option.some.injEq] at hi
              subst hi
              refine ⟨ctx, cA0, v0, by simp [compileRhsItems], h1, hv, hn, ?_⟩
              have hp := compileRhsItems_below E rest hfit.2 cA0 c1 h cA0.infer.length
                (Nat.le_refl _)
              rw [List.take_length] at hp
              have h2 : (c1.infer.take cA0.infer.length)[ctx.infer.length]? =
                  c1.infer[ctx.infer.length]? := by
                rw [List.getElem?_take]
                rw [if_pos (by omega)]
              rw [Nat.add_zero, ← h2, hp, hv]
              simp
            | succ i =>
              simp only [List.getElem?_cons_succ] at hi
              obtain ⟨c0, cA, v, e1, e2, e3, e4, e5⟩ :=
                compileRhsItems_entries E rest hfit.2 cA0 c1 h i x hi
              refine ⟨c0, cA, v, ?_, e2, e3, e4, ?_⟩
              · rw [List.take_succ_cons, compileRhsItems]
                simp only [h1, hg, hn]
                exact e1
              · rw [l1] at e5
                have : ctx.infer.length + (i + 1) = ctx.infer.length + 1 + i := by omega
                rw [this]
                exact e5

theorem compileRhsSingle_entries {σ : Type} (E : Env σ) (x : Expr) (hfit : x.argsFit)
    (ctx c1 : BlockCtx σ) (h0 : ctx.infer = []) (h : compileRhsSingle E x ctx = some c1) :
    ∃ (cA : BlockCtx σ) (v : IValue) (n : Nat), compileExpr E x 0 ctx = some cA ∧
      cA.infer = [v] ∧ E.numValues v = some (n : Int) ∧ c1.infer.length = n ∧
      ∀ (i : Nat), i < n → c1.infer[i]? = some (if n = 1 then v else E.valueAt v i) := by
  unfold compileRhsSingle at h
  cases h1 : compileExpr E x 0 ctx with
  | none => simp [h1] at h
  | some cA =>
    simp only [h1] at h
    obtain ⟨v, hv, hgv⟩ := compileExpr_pushes_one E x hfit ctx cA h1
    rw [h0, List.nil_append] at hv
    simp only [hgv] at h
    cases hn : E.numValues v with
    | none => simp [hn] at h
    | some n =>
      simp only [hn] at h
      by_cases hn1 : n ≠ 1
      · rw [if_pos hn1] at h
        by_cases hn0 : n ≤ 0
        · rw [if_pos hn0] at h
          exact Option.noConfusion h
        · rw [if_neg hn0] at h
          unfold inferRet at h
          rw [if_pos (by rw [hv]; simp)] at h
          simp only [Option.map_some', Option.some.injEq] at h
          have hc1 : c1.infer = valuesOf E v n.toNat := by
            rw [← h, hv]
            simp
          refine ⟨cA, v, n.toNat, rfl, hv, ?_, ?_, ?_⟩
          · rw [Int.toNat_of_nonneg (by omega)]
            exact hn
          · rw [hc1]
            simp [valuesOf]
          · intro i hi
            have hne : n.toNat ≠ 1 := by omega
            rw [if_neg hne, hc1]
            simp [valuesOf, hi]
      · rw [if_neg hn1] at h
        have hn1e : n = 1 := by
          by_contra hc
          exact hn1 hc
        subst hn1e
        simp only [Option.some.injEq] at h
        subst h
        refine ⟨cA, v, 1, rfl, hv, by simpa using hn, by rw [hv]; rfl, ?_⟩
        intro i hi
        have : i = 0 := by omega
        subst this
        rw [hv]
        simp

theorem emit_word_inj (b : Builder) (w1 w2 : Nat)
    (h : b.emit (.word w1) = b.emit (.word w2)) : w1 = w2 := by
  have hd := congrArg (fun x => x.code.data) h
  simpa [Builder.emit] using hd

theorem storeLoc_of_target_aux (L : Layout) (hL : L.WF) (hops : L.opStore ≠ L.opStoreVar)
    (out2 : Builder) (addr : VarRef) (w p : Nat) (m : Machine)
    (h : storeTarget L out2 addr = some (out2.emit (.word w))) :
    (∀ (typ : Ty) (idx : Int) (cx : Context), addr = .stackVar typ idx →
      -(2 ^ (L.bitsOpShift - 1) : Int) ≤ idx → idx < 2 ^ (L.bitsOpShift - 1) →
      m.ctxs[p]? = some cx → 0 ≤ (cx.base : Int) + idx →
      storeLoc L w p m = some (.stack ((cx.base : Int) + idx).toNat)) ∧
    (∀ (v d q : Nat) (x : Var), addr = .execVar v → out2.nestDepth = some d →
      out2.vars[v]? = some x → ancestor m (sub32 d x.nestDepth) p = some q →
      storeLoc L w p m = some (.slot q x.idx)) := by
  constructor
  · intro typ idx cx ha hlo hhi hcx h0
    subst ha
    simp only [storeTarget, Option.some.injEq] at h
    have hw : w = (L.opStore <<< L.bitsOpShift) ||| (u32OfInt idx &&& L.bitsOperand) :=
      (emit_word_inj out2 _ _ h).symm
    subst hw
    have hop : opOf L ((L.opStore <<< L.bitsOpShift) ||| (u32OfInt idx &&& L.bitsOperand)) =
        L.opStore := shl_or_shr _ _ _ (and_operand_lt hL _)
    unfold storeLoc
    rw [if_pos hop, hcx]
    simp only [slotIdx_roundtrip_aux L hL L.opStore idx hlo hhi]
    rw [if_neg (by omega)]
  · intro v d q x ha hd hx hanc
    subst ha
    simp only [storeTarget, Builder.StoreVar] at h
    cases hva : out2.varAddr L v with
    | none => simp [hva] at h
    | some a =>
      simp only [hva, Option.map_some', Option.some.injEq] at h
      have hw : w = (L.opStoreVar <<< L.bitsOpShift) ||| u32 a :=
        (emit_word_inj out2 _ _ h).symm
      rw [Builder.varAddr_eq L out2 v d x hd hx] at hva
      obtain ⟨hs, hi, rfl⟩ := makeAddr_some_inv hL hva
      have hlt := addr_lt_operand hL hs hi
      have hu : u32 ((sub32 d x.nestDepth <<< L.bitsOpVarShift) ||| x.idx) =
          (sub32 d x.nestDepth <<< L.bitsOpVarShift) ||| x.idx := by
        unfold u32
        exact Nat.mod_eq_of_lt (Nat.lt_of_lt_of_le hlt hL.pow_le.2.2)
      rw [hu] at hw
      subst hw
      have hop : opOf L ((L.opStoreVar <<< L.bitsOpShift) |||
          ((sub32 d x.nestDepth <<< L.bitsOpVarShift) ||| x.idx)) = L.opStoreVar :=
        shl_or_shr _ _ _ hlt
      have hopd := operand_of_word hL L.opStoreVar _ hlt
      have hshr := shl_or_shr (sub32 d x.nestDepth) x.idx _ hi
      have hmask : ((sub32 d x.nestDepth <<< L.bitsOpVarShift) ||| x.idx) &&&
          L.bitsOpVarOperand = x.idx := by
        rw [hL.varOperand]; exact shl_or_mask _ _ _ hi
      unfold storeLoc
      rw [if_neg (by rw [hop]; exact fun e => hops e.symm), hopd]
      generalize hk : sub32 d x.nestDepth = k at hanc hshr hmask
      cases k with
      | zero =>
        simp only [ancestor, Option.some.injEq] at hanc
        subst hanc
        have h0 : (0 <<< L.bitsOpVarShift) ||| x.idx = x.idx := by simp
        have hle : x.idx ≤ L.bitsOpVarOperand := (hL.varOperand_lt x.idx).2 hi
        rw [h0, if_pos hle]
      | succ k =>
        have hgt : ¬ ((k + 1) <<< L.bitsOpVarShift ||| x.idx) ≤ L.bitsOpVarOperand := by
          rw [hL.varOperand_lt, shl_or_eq_add _ _ _ hi]
          have : 2 ^ L.bitsOpVarShift ≤ (k + 1) * 2 ^ L.bitsOpVarShift :=
            Nat.le_mul_of_pos_left _ (Nat.succ_pos k)
          omega
        rw [if_neg hgt, getParentCtx_ancestor L m p q k _ hshr hanc, hmask]

theorem Builder.DefineVar_data (L : Layout) (b b2 : Builder) (vars : List Nat)
    (h : b.DefineVar L vars = some b2) : b2.code.data = b.code.data := by
  unfold Builder.DefineVar at h
  split at h
  · split at h
    · cases h
    · cases h
      rfl
  · split at h
    · cases h
    · split at h
      · cases h
      · cases h
        rfl

theorem scopedEnv_keepsCode : scopedEnv.KeepsCode := by
  constructor
  · intro t v b b2 h
    have : b2 = b := (Option.some.inj h).symm
    rw [this]
    exact Builder.keepsWords_refl b
  · intro s s2 b b2 name typ addr h
    have h2 : (match ({ b with vars := b.vars ++ [NewVar typ name] } : Builder).DefineVar
        sampleLayout [b.vars.length] with
      | none => none
      | some b1 =>
        some (VarRef.execVar b.vars.length,
          ({ names := (name, .execVar b.vars.length) :: s.names,
             vars := (name, .execVar b.vars.length) :: s.vars } : SimpleScope), b1)) =
        some (addr, s2, b2) := h
    cases hd : ({ b with vars := b.vars ++ [NewVar typ name] } : Builder).DefineVar
        sampleLayout [b.vars.length] with
    | none => simp [hd] at h2
    | some b1 =>
      simp only [hd, Option.some.injEq, Prod.mk.injEq] at h2
      have e := Builder.DefineVar_data sampleLayout _ b1 _ hd
      rw [← h2.2.2]
      exact ⟨by rw [e], fun i w hw => by rw [e]; exact hw⟩

theorem compileAssignStmt_phases_aux {σ : Type} (E : Env σ) (lhs : List Expr) (tok : Nat)
    (rhs : List Expr) (ctx c1 c2 : BlockCtx σ)
    (hr : (match rhs with
      | [x] => compileRhsSingle E x ctx
      | items => compileRhsItems E items ctx) = some c1)
    (h : compileAssignStmt E lhs tok rhs ctx = some c2) :
    ctx.infer = [] ∧ c1.infer.length = lhs.length ∧
      compileLhsItems E tok lhs.reverse c1 = some c2 := by
  unfold compileAssignStmt at h
  by_cases h0 : ctx.infer.length ≠ 0
  · rw [if_pos h0] at h
    exact Option.noConfusion h
  · rw [if_neg h0] at h
    have hnil : ctx.infer = [] := List.length_eq_zero.1 (by omega)
    have key : ∀ (r : Option (BlockCtx σ)), r = some c1 →
        (match r with
          | none => none
          | some c1 =>
            if c1.infer.length ≠ lhs.length then none
            else compileLhsItems E tok lhs.reverse c1) = some c2 →
        c1.infer.length = lhs.length ∧ compileLhsItems E tok lhs.reverse c1 = some c2 := by
      intro r hr1 hm
      subst hr1
      simp only [] at hm
      by_cases hl : c1.infer.length ≠ lhs.length
      · rw [if_pos hl] at hm
        exact Option.noConfusion hm
      · rw [if_neg hl] at hm
        exact ⟨by omega, hm⟩
    refine ⟨hnil, ?_⟩
    cases rhs with
    | nil => exact key _ hr h
    | cons x rest =>
      cases rest with
      | nil => exact key _ hr h
      | cons y rest2 => exact key _ hr h

/-- C31 (`compileAssignStmt`, `compileIdent`).  `Tok` is an assignment token (each of
them is greater than `lhsBase`), and the collaborators `checkType` and `insertVar`
append no instruction and leave the encoded words in place.  A successfully compiled
assignment none of whose targets is a function literal has identifiers as its
targets `Lhs[0..n-1]`.  The right-hand side leaves `n` entries on the inference
stack, entry `i` standing for the produced value `i`; the targets are then compiled
last to first, so that the code grows by exactly `n` words and the word at offset
`n - 1 - i` behind the right-hand code is the store that `compileIdent` emits for
`Lhs[i]`, in the state reached after the targets of higher index, type-checked
against entry `i`; the encoded words of the right-hand code stay in place and the
inference stack is empty afterwards.  With distinct opcodes for the two stores, the
store of a stack variable at an offset `idx` of the signed operand range addresses
the stack position `p.base + idx`, and the store of a heap variable `(dv, s)`
emitted at depth `d` addresses slot `s` of the context `d - dv` parent links above
`p`.  Executed in a context `p` on a stack that holds the values `vs[0..n-1]` above
`s` (value `n - 1` on top), where the store of `Lhs[i]` addresses the existing place
`locs[i]`, the `n` stores succeed and leave the stack at the depth of `s`; place
`locs[i]` holds `vs[i]` unless a target of lower index denotes the same place (that
target is stored later), and every place that is no target keeps its content.  When the calls of the right-hand side have
fewer than `2^32 - 2` arguments, entry `i` is the `i`-th value of the single
right-hand expression, or the entry pushed by `Rhs[i]` when there are several.
For a function literal as target the code differs: `func(){} = "a"` compiles
successfully to the push of `"a"` and a closure instruction, which is no store,
and leaves two entries on the inference stack. -/
theorem assign_binds_positionally {σ : Type} (E : Env σ) (hL : E.L.WF) (hE : E.KeepsCode)
    (lhs : List Expr) (hnf : ∀ (lit : Nat), Expr.funcLit lit ∉ lhs) (tok : Nat)
    (htok : tok > lhsBase) (rhs : List Expr) (ctx c1 c2 : BlockCtx σ)
    (hr : (match rhs with
      | [x] => compileRhsSingle E x ctx
      | items => compileRhsItems E items ctx) = some c1)
    (h : compileAssignStmt E lhs tok rhs ctx = some c2) :
    (∀ (x : Expr), x ∈ lhs → ∃ (name : String), x = .ident name) ∧
    c1.infer.length = lhs.length ∧ c2.infer = [] ∧
    c2.out.code.data.length = c1.out.code.data.length + lhs.length ∧
    (∀ (i w : Nat), c1.out.code.data[i]? = some (.word w) →
      c2.out.code.data[i]? = some (.word w)) ∧
    (∀ (i : Nat) (name : String) (inv : IValue), lhs[i]? = some (.ident name) →
      c1.infer[i]? = some inv →
      ∃ (cx : BlockCtx σ) (w : Nat),
        compileLhsItems E tok (lhs.reverse.take (lhs.length - 1 - i)) c1 = some cx ∧
        c2.out.code.data[c1.out.code.data.length + (lhs.length - 1 - i)]? =
          some (.word w) ∧ StoreOf E tok name inv cx w) ∧
    (E.L.opStore ≠ E.L.opStoreVar →
      ∀ (out2 : Builder) (addr : VarRef) (w p : Nat) (m : Machine),
        storeTarget E.L out2 addr = some (out2.emit (.word w)) →
        (∀ (typ : Ty) (idx : Int) (cx : Context), addr = .stackVar typ idx →
          -(2 ^ (E.L.bitsOpShift - 1) : Int) ≤ idx → idx < 2 ^ (E.L.bitsOpShift - 1) →
          m.ctxs[p]? = some cx → 0 ≤ (cx.base : Int) + idx →
          storeLoc E.L w p m = some (.stack ((cx.base : Int) + idx).toNat)) ∧
        (∀ (v d q : Nat) (x : Var), addr = .execVar v → out2.nestDepth = some d →
          out2.vars[v]? = some x → ancestor m (sub32 d x.nestDepth) p = some q →
          storeLoc E.L w p m = some (.slot q x.idx))) ∧
    (∀ (p : Nat) (m : Machine) (s vs : List Value) (locs : List Loc),
      m.data = s ++ vs → vs.length = lhs.length → locs.length = lhs.length →
      (∀ (i w : Nat) (loc : Loc),
        c2.out.code.data[c1.out.code.data.length + (lhs.length - 1 - i)]? = some (.word w) →
        locs[i]? = some loc →
        storeLoc E.L w p m = some loc ∧ loc.validIn m s.length = true) →
      ∃ m2, execStores E.L p (c2.out.code.data.drop c1.out.code.data.length) m = some m2 ∧
        m2.data.length = s.length ∧
        (∀ (i : Nat) (loc : Loc) (v : Value), locs[i]? = some loc → vs[i]? = some v →
          (∀ (j : Nat), j < i → locs[j]? ≠ some loc) → m2.readLoc loc = some v) ∧
        (∀ (loc : Loc), (∀ (j : Nat), locs[j]? ≠ some loc) →
          m2.readLoc loc = Machine.readLoc { ctxs := m.ctxs, data := s } loc)) ∧
    (Expr.argsFitList rhs →
      (∀ (x : Expr), rhs = [x] →
        ∃ (cA : BlockCtx σ) (v : IValue), compileExpr E x 0 ctx = some cA ∧ cA.infer = [v] ∧
          E.numValues v = some (lhs.length : Int) ∧
          ∀ (i : Nat), i < lhs.length →
            c1.infer[i]? = some (if lhs.length = 1 then v else E.valueAt v i)) ∧
      (rhs.length ≠ 1 → rhs.length = lhs.length ∧
        ∀ (i : Nat) (x : Expr), rhs[i]? = some x →
          ∃ (c0 cA : BlockCtx σ) (v : IValue),
            compileRhsItems E (rhs.take i) ctx = some c0 ∧
            compileExpr E x 0 c0 = some cA ∧ cA.infer = c0.infer ++ [v] ∧
            E.numValues v = some 1 ∧ c1.infer[i]? = some v)) ∧
    ((compileAssignStmt sampleEnv [.funcLit 0] lhsAssign [.basicLit tokSTRING "\"a\""]
        sampleCtx).map (fun c => (c.out.code.data, c.infer.length)) =
      some ([.push (.str "a"), .word 1543503872], 2) ∧
      opOf sampleLayout 1543503872 = sampleLayout.opGoClosure ∧
      ∀ (p : Nat) (m : Machine), execStoreInstr sampleLayout (.word 1543503872) p m = none) := by
  obtain ⟨hnil, hlen, hl⟩ := compileAssignStmt_phases_aux E lhs tok rhs ctx c1 c2 hr h
  obtain ⟨rnames, hrn⟩ := compileLhsItems_idents E tok htok lhs.reverse c1 c2 hl
    (fun lit hm => hnf lit (List.mem_reverse.1 hm))
  have hnames : lhs = rnames.reverse.map Expr.ident := by
    have := congrArg List.reverse hrn
    rw [List.reverse_reverse] at this
    rw [this, List.map_reverse]
  have hnl : lhs.length = rnames.reverse.length := by
    rw [hnames, List.length_map]
  rw [hnames] at hl
  rw [hnl] at hlen
  obtain ⟨a1, a2, a3, a4, a5⟩ :=
    assign_core_aux E hL hE rnames.reverse tok htok c1 c2 hlen hl
  refine ⟨?_, by rw [hnl]; exact hlen, a1, by rw [hnl]; exact a2, a3, ?_,
    fun hops out2 addr w p m hst => storeLoc_of_target_aux E.L hL hops out2 addr w p m hst,
    ?_, ?_, ?_⟩
  · intro x hx
    rw [hnames] at hx
    obtain ⟨name, _, hname⟩ := List.mem_map.1 hx
    exact ⟨name, hname.symm⟩
  · intro i name inv hi hinv
    rw [hnl]
    have hrev : lhs.reverse = (rnames.reverse.map Expr.ident).reverse := by rw [← hnames]
    rw [hrev]
    refine a4 i name inv ?_ hinv
    rw [hnames, List.getElem?_map] at hi
    cases hq : rnames.reverse[i]? with
    | none => rw [hq] at hi; simp at hi
    | some nm =>
      rw [hq] at hi
      simp only [Option.map_some', Option.some.injEq, Expr.ident.injEq] at hi
      rw [hi]
  · intro p m s vs locs hd hvl hll hyp
    rw [hnl] at hvl hll hyp
    exact a5 p m s vs locs hd hvl hll hyp
  · intro hfit
    constructor
    · intro x hx
      subst hx
      rw [Expr.argsFitList] at hfit
      obtain ⟨cA, v, n, e1, e2, e3, e4, e5⟩ :=
        compileRhsSingle_entries E x hfit.1 ctx c1 hnil hr
      have hn : n = lhs.length := by rw [hnl, ← hlen, e4]
      subst hn
      exact ⟨cA, v, e1, e2, e3, e5⟩
    · intro hne
      have hitems : compileRhsItems E rhs ctx = some c1 := by
        cases rhs with
        | nil => exact hr
        | cons x rest =>
          cases rest with
          | nil => exact absurd rfl hne
          | cons y rest2 => exact hr
      have hd := compileRhsItems_depth E rhs hfit ctx c1 hitems
      rw [hnil, List.length_nil, Nat.zero_add] at hd
      refine ⟨by rw [hnl, ← hlen, hd], ?_⟩
      intro i x hi
      obtain ⟨c0, cA, v, e1, e2, e3, e4, e5⟩ :=
        compileRhsItems_entries E rhs hfit ctx c1 hitems i x hi
      rw [hnil, List.length_nil, Nat.zero_add] at e5
      exact ⟨c0, cA, v, e1, e2, e3, e4, e5⟩
  · exact ⟨rfl, by decide, fun _ _ => rfl⟩

/-- Witness for C31 on the scoped environment: `a, b = f()` with `f` returning two
values compiles to the call and the stores of `b` and of `a`; executed on the stack
`[1, 2]` the two stores leave `a = 1`, `b = 2` and an empty stack. -/
theorem assign_binds_positionally_witness :
    (compileAssignStmt scopedEnv [.ident "a", .ident "b"] lhsAssign [.call (.ident "f") []]
        twoResultsCtx).map (fun c => c.out.code.data) =
      some [.word 1744830464, .word 2080374785, .word 2080374784] ∧
    ∃ m2, execStores sampleLayout 0 [.word 2080374785, .word 2080374784] twoValuesMachine =
        some m2 ∧ m2.data.length = 0 ∧
      m2.readLoc (.slot 0 0) = some (.int 1) ∧ m2.readLoc (.slot 0 1) = some (.int 2) := by
  obtain ⟨c1, hc1⟩ : ∃ c1, compileRhsSingle scopedEnv (.call (.ident "f") []) twoResultsCtx =
      some c1 := ⟨_, rfl⟩
  obtain ⟨c2, hc2⟩ : ∃ c2, compileAssignStmt scopedEnv [.ident "a", .ident "b"] lhsAssign
      [.call (.ident "f") []] twoResultsCtx = some c2 := ⟨_, rfl⟩
  have hlen1 : c1.out.code.data.length = 1 := by
    have h : (compileRhsSingle scopedEnv (.call (.ident "f") []) twoResultsCtx).map
        (fun c => c.out.code.data.length) = some 1 := rfl
    rw [hc1] at h
    exact Option.some.inj h
  have hcode2 : c2.out.code.data =
      [.word 1744830464, .word 2080374785, .word 2080374784] := by
    have h : (compileAssignStmt scopedEnv [.ident "a", .ident "b"] lhsAssign
        [.call (.ident "f") []] twoResultsCtx).map (fun c => c.out.code.data) =
        some [.word 1744830464, .word 2080374785, .word 2080374784] := rfl
    rw [hc2] at h
    exact Option.some.inj h
  obtain ⟨_, _, _, _, _, _, _, hrun, _, _⟩ :=
    assign_binds_positionally scopedEnv sampleLayout_wf scopedEnv_keepsCode
      [.ident "a", .ident "b"] (by simp) lhsAssign (by decide) [.call (.ident "f") []]
      twoResultsCtx c1 c2 hc1 hc2
  rw [hcode2, hlen1] at hrun
  obtain ⟨m2, h1, h2, h3, _⟩ := hrun 0 twoValuesMachine [] [.int 1, .int 2]
    [.slot 0 0, .slot 0 1] rfl rfl rfl
    (by
      intro i w loc hw hl
      match i, hw, hl with
      | 0, hw, hl =>
        simp only [List.length_cons, List.length_nil, List.getElem?_cons_succ,
          List.getElem?_cons_zero, Option.some.injEq, Instr.word.injEq] at hw hl
        subst hw
        subst hl
        exact ⟨by decide, by decide⟩
      | 1, hw, hl =>
        simp only [List.length_cons, List.length_nil, List.getElem?_cons_succ,
          List.getElem?_cons_zero, Option.some.injEq, Instr.word.injEq] at hw hl
        subst hw
        subst hl
        exact ⟨by decide, by decide⟩
      | i + 2, _, hl => simp at hl)
  rw [hc2]
  refine ⟨by rw [Option.map_some', hcode2], m2, h1, h2,
    h3 0 _ _ rfl rfl (fun j hj => absurd hj (Nat.not_lt_zero j)), h3 1 _ _ rfl rfl ?_⟩
  intro j hj
  have : j = 0 := by omega
  subst this
  decide

end Qlang
